import Mathlib

set_option maxRecDepth 100000

/-!
Shallow embedding of the directed-graph container in `src/Classes/Graph.h`
(template class `Graph<T>` with `Vertex<T>` and `Edge<T>`).

Modelling conventions:
* The key type `T` is fixed to `Nat` (the repository instantiates with
  hashable scalar keys; the header's `vertexMap` is declared
  `unordered_map<int, Vertex<T>*>`, so integer keys are the instantiable case).
* `double` weights are modelled as exact rationals; the sentinel
  `std::numeric_limits<double>::max()` is the exact rational value
  (2^53 - 1) * 2^971 of `DBL_MAX`.
* Heap pointers are modelled by allocation identifiers: every vertex carries a
  `vid` and every edge an `eid`, drawn from counters in the graph.  A
  `Vertex<T>*` is a `vid`, dereferenced against the list of live vertices; an
  `Edge<T>*` stored in an `incoming` list is an `eid`.
* `std::vector` members are Lean lists (push_back = append, erase = remove).
* `std::unordered_map` is an association list with unique keys; `find` is the
  first-match lookup, `operator[]` inserts a default value when absent.
* The unused scratch fields `dist`, `path`, `queueIndex`, and the unused edge
  fields `flow`, `selected` are not consulted by any modelled operation and
  are omitted; `indegree` (uninitialized `unsigned` in C++, written before
  read by `topsort`) is modelled as an `Int` starting at 0.
* C++ recursion/loops without a structural measure are given an explicit fuel
  argument at least as large as any possible number of iterations; lemmas
  prove the chosen fuel is never exhausted on well-formed graphs.
* Dereferencing a dangling pointer is undefined behaviour in C++; the model
  makes such reads total (returning a default or skipping), and all claims are
  proved for states where no dangling reference exists.
-/

namespace RoutingGraph

abbrev Key := Nat

/-- Exact value of `std::numeric_limits<double>::max()`, the "+infinity"
sentinel returned by `getEdgeWeight`: (2^53 - 1) * 2^971. -/
def dblMax : ℚ := ((2 ^ 53 - 1) * 2 ^ 971 : ℕ)

/-- Model of `Edge<T>`: destination and origin vertex pointers (as vids), the
weight, and the optional `reverse` pairing pointer (as an eid).  The `eid`
models the identity of the heap allocation. -/
structure Edge where
  eid : Nat
  orig : Nat
  dest : Nat
  weight : ℚ
  reverse : Option Nat
deriving DecidableEq

/-- Model of `Vertex<T>`: the key `info`, the owned outgoing edges `adj`
(insertion order), the non-owning `incoming` edge references (as eids), and
the scratch fields used by the modelled algorithms. -/
structure Vertex where
  vid : Nat
  info : Key
  adj : List Edge
  incoming : List Nat
  visited : Bool
  processing : Bool
  indegree : Int
deriving DecidableEq

/-- Model of `Graph<T>`: the ordered vertex sequence `vertexSet`, the
key-to-vertex index `vertexMap`, and the allocation counters for pointer
identities. -/
structure Graph where
  vertexSet : List Vertex
  vertexMap : List (Key × Nat)
  nextVid : Nat
  nextEid : Nat
deriving DecidableEq

def emptyGraph : Graph := ⟨[], [], 0, 0⟩

/-- First-match association lookup (`unordered_map::find`). -/
def lookupK {α : Type} : List (Key × α) → Key → Option α
  | [], _ => none
  | p :: rest, k => if p.1 = k then some p.2 else lookupK rest k

/-- Insert-or-assign (`unordered_map::operator[] = v`). -/
def setK {α : Type} : List (Key × α) → Key → α → List (Key × α)
  | [], k, a => [(k, a)]
  | p :: rest, k, a => if p.1 = k then (k, a) :: rest else p :: setK rest k a

/-- Erase the entry of a key (`unordered_map::erase`). -/
def eraseK {α : Type} : List (Key × α) → Key → List (Key × α)
  | [], _ => []
  | p :: rest, k => if p.1 = k then rest else p :: eraseK rest k

/-! Named per-field vertex mutators (the bodies of the C++ setters and of the
container mutations performed through vertex pointers). -/

def adjPush (e : Edge) (v : Vertex) : Vertex := { v with adj := v.adj ++ [e] }

def incomingPush (eid : Nat) (v : Vertex) : Vertex := { v with incoming := v.incoming ++ [eid] }

def adjEraseEid (eid : Nat) (v : Vertex) : Vertex :=
  { v with adj := v.adj.filter (fun e => ¬ e.eid = eid) }

def markVisitedV (v : Vertex) : Vertex := { v with visited := true }

def clearVisitedV (v : Vertex) : Vertex := { v with visited := false }

def clearVisitedProcessingV (v : Vertex) : Vertex :=
  { v with visited := false, processing := false }

def markVisitedProcessingV (v : Vertex) : Vertex :=
  { v with visited := true, processing := true }

def clearProcessingV (v : Vertex) : Vertex := { v with processing := false }

def zeroIndegreeV (v : Vertex) : Vertex := { v with indegree := 0 }

def incIndegreeV (v : Vertex) : Vertex := { v with indegree := v.indegree + 1 }

def decIndegreeV (v : Vertex) : Vertex := { v with indegree := v.indegree - 1 }

/-- `Edge::setReverse` on the edge with the given eid, identity elsewhere. -/
def setRevEdge (eid : Nat) (r : Option Nat) (e : Edge) : Edge :=
  if e.eid = eid then { e with reverse := r } else e

def setRevV (eid : Nat) (r : Option Nat) (v : Vertex) : Vertex :=
  { v with adj := v.adj.map (setRevEdge eid r) }

@[simp] theorem adjPush_def (e : Edge) (v : Vertex) :
    adjPush e v = { v with adj := v.adj ++ [e] } := rfl

@[simp] theorem incomingPush_def (eid : Nat) (v : Vertex) :
    incomingPush eid v = { v with incoming := v.incoming ++ [eid] } := rfl

@[simp] theorem adjEraseEid_def (eid : Nat) (v : Vertex) :
    adjEraseEid eid v = { v with adj := v.adj.filter (fun e => ¬ e.eid = eid) } := rfl

@[simp] theorem markVisitedV_def (v : Vertex) : markVisitedV v = { v with visited := true } := rfl

@[simp] theorem clearVisitedV_def (v : Vertex) :
    clearVisitedV v = { v with visited := false } := rfl

@[simp] theorem clearVisitedProcessingV_def (v : Vertex) :
    clearVisitedProcessingV v = { v with visited := false, processing := false } := rfl

@[simp] theorem markVisitedProcessingV_def (v : Vertex) :
    markVisitedProcessingV v = { v with visited := true, processing := true } := rfl

@[simp] theorem clearProcessingV_def (v : Vertex) :
    clearProcessingV v = { v with processing := false } := rfl

@[simp] theorem zeroIndegreeV_def (v : Vertex) : zeroIndegreeV v = { v with indegree := 0 } := rfl

@[simp] theorem incIndegreeV_def (v : Vertex) :
    incIndegreeV v = { v with indegree := v.indegree + 1 } := rfl

@[simp] theorem decIndegreeV_def (v : Vertex) :
    decIndegreeV v = { v with indegree := v.indegree - 1 } := rfl

@[simp] theorem setRevV_def (eid : Nat) (r : Option Nat) (v : Vertex) :
    setRevV eid r v = { v with adj := v.adj.map (setRevEdge eid r) } := rfl

/-- Dereference a vertex pointer: the live vertex with the given vid. -/
def getVert (g : Graph) (vid : Nat) : Option Vertex :=
  g.vertexSet.find? (fun v => v.vid == vid)

/-- Mutation through a vertex pointer. -/
def updateVert (g : Graph) (vid : Nat) (f : Vertex → Vertex) : Graph :=
  { g with vertexSet := g.vertexSet.map (fun v => if v.vid = vid then f v else v) }

/-- `v->getInfo()` through a pointer; total (dangling pointers are UB in C++
and never dereferenced on well-formed graphs). -/
def infoOf (g : Graph) (vid : Nat) : Key :=
  ((getVert g vid).map Vertex.info).getD 0

/-- All edges owned by the graph's vertices, in `vertexSet`/`adj` order. -/
def allEdges (g : Graph) : List Edge :=
  (g.vertexSet.map Vertex.adj).flatten

/-- Dereference an edge pointer (edges live in their origin's `adj`). -/
def findEdge (g : Graph) (eid : Nat) : Option Edge :=
  (allEdges g).find? (fun e => e.eid == eid)

/-- `Graph::findVertex` — `vertexMap.find(in)`, yielding the stored pointer. -/
def findVertex (g : Graph) (k : Key) : Option Nat :=
  lookupK g.vertexMap k

/-- `Graph::addVertex`: refuse when the key is present, otherwise push a new
vertex onto `vertexSet` and index it in `vertexMap`. -/
def Graph.addVertex (g : Graph) (k : Key) : Bool × Graph :=
  if (findVertex g k).isSome then (false, g)
  else
    (true,
      { vertexSet := g.vertexSet ++ [⟨g.nextVid, k, [], [], false, false, 0⟩]
        vertexMap := g.vertexMap ++ [(k, g.nextVid)]
        nextVid := g.nextVid + 1
        nextEid := g.nextEid })

/-- `Vertex::addEdge(d, w)`: allocate the edge, append it to the origin's
`adj` and its id to the destination's `incoming`; returns the new eid. -/
def addEdgeRaw (g : Graph) (ov dv : Nat) (w : ℚ) : Graph × Nat :=
  let eid := g.nextEid
  let e : Edge := ⟨eid, ov, dv, w, none⟩
  let g1 := updateVert g ov (adjPush e)
  let g2 := updateVert g1 dv (incomingPush eid)
  ({ g2 with nextEid := eid + 1 }, eid)

/-- `Graph::addEdge(sourc, dest, w)`. -/
def Graph.addEdge (g : Graph) (s d : Key) (w : ℚ) : Bool × Graph :=
  match findVertex g s, findVertex g d with
  | some v1, some v2 => (true, (addEdgeRaw g v1 v2 w).1)
  | _, _ => (false, g)

/-- `Edge::setReverse` through an edge pointer. -/
def setReverseE (g : Graph) (eid : Nat) (r : Option Nat) : Graph :=
  { g with vertexSet := g.vertexSet.map (setRevV eid r) }

/-- `Graph::addBidirectionalEdge(sourc, dest, w)`: add both arcs, then pair
them through `setReverse`. -/
def Graph.addBidirectionalEdge (g : Graph) (s d : Key) (w : ℚ) : Bool × Graph :=
  match findVertex g s, findVertex g d with
  | some v1, some v2 =>
    let p1 := addEdgeRaw g v1 v2 w
    let p2 := addEdgeRaw p1.1 v2 v1 w
    let g3 := setReverseE p2.1 p1.2 (some p2.2)
    let g4 := setReverseE g3 p2.2 (some p1.2)
    (true, g4)
  | _, _ => (false, g)

/-- The predicate `(*it)->getOrig()->getInfo()` evaluated on an `incoming`
entry during `Vertex::deleteEdge`; the edge being deleted is already out of
its origin's `adj`, so its fields are taken from the function argument. -/
def origInfoFor (g : Graph) (removed : Edge) (eidq : Nat) : Option Key :=
  if eidq = removed.eid then some (infoOf g removed.orig)
  else (findEdge g eidq).map (fun e => infoOf g e.orig)

/-- `Vertex::deleteEdge(edge)`: purge from the destination's `incoming` every
entry whose origin's info equals the deleting vertex's info, then free the
edge (freeing is implicit: the edge is already out of every `adj`). -/
def incomingPurge (g : Graph) (selfInfo : Key) (removed : Edge) (v : Vertex) : Vertex :=
  { v with incoming := v.incoming.filter (fun eidq => ¬ origInfoFor g removed eidq = some selfInfo) }

def deleteEdgeAux (g : Graph) (selfInfo : Key) (removed : Edge) : Graph :=
  updateVert g removed.dest (incomingPurge g selfInfo removed)

/-- Erase one owned edge (identified by its eid) from a vertex's `adj`
(`it = adj.erase(it)`); eids are unique on well-formed graphs. -/
def eraseAdjEdge (g : Graph) (vid eid : Nat) : Graph :=
  updateVert g vid (adjEraseEid eid)

/-- The loop of `Vertex::removeEdge(in)` over the (snapshot of the) `adj`
list: erase every edge whose destination's info equals the target key,
calling `deleteEdge` on each; returns whether any edge was removed. -/
def removeEdgeLoop (selfVid : Nat) (selfInfo target : Key) :
    Graph → List Edge → Graph × Bool
  | g, [] => (g, false)
  | g, e :: rest =>
    if ((getVert g e.dest).map Vertex.info) = some target then
      let g1 := eraseAdjEdge g selfVid e.eid
      let g2 := deleteEdgeAux g1 selfInfo e
      let p := removeEdgeLoop selfVid selfInfo target g2 rest
      (p.1, true)
    else removeEdgeLoop selfVid selfInfo target g rest

/-- `Vertex::removeEdge(in)` on the vertex with the given vid. -/
def removeEdgeV (g : Graph) (vid : Nat) (target : Key) : Graph × Bool :=
  match getVert g vid with
  | none => (g, false)
  | some v => removeEdgeLoop vid v.info target g v.adj

/-- The loop of `Vertex::removeOutgoingEdges()`: erase every owned edge. -/
def removeOutLoop (selfVid : Nat) (selfInfo : Key) : Graph → List Edge → Graph
  | g, [] => g
  | g, e :: rest =>
    let g1 := eraseAdjEdge g selfVid e.eid
    let g2 := deleteEdgeAux g1 selfInfo e
    removeOutLoop selfVid selfInfo g2 rest

/-- `Vertex::removeOutgoingEdges()` on the vertex with the given vid. -/
def removeOutgoingEdges (g : Graph) (vid : Nat) : Graph :=
  match getVert g vid with
  | none => g
  | some v => removeOutLoop vid v.info g v.adj

/-- The loop of `Graph::removeVertex` over (a snapshot of) `vertexSet`:
every other vertex drops its edges to the doomed key, the doomed vertex
drops its outgoing edges. -/
def removeVertexLoop (vid : Nat) (vinfo : Key) : Graph → List Nat → Graph
  | g, [] => g
  | g, u :: rest =>
    let g1 := if u = vid then removeOutgoingEdges g u else (removeEdgeV g u vinfo).1
    removeVertexLoop vid vinfo g1 rest

/-- `Graph::removeVertex(in)`. -/
def Graph.removeVertex (g : Graph) (k : Key) : Bool × Graph :=
  match lookupK g.vertexMap k with
  | none => (false, g)
  | some vid =>
    let vinfo := infoOf g vid
    let g1 := removeVertexLoop vid vinfo g (g.vertexSet.map Vertex.vid)
    (true,
      { g1 with
        vertexSet := g1.vertexSet.filter (fun v => ¬ v.vid = vid)
        vertexMap := eraseK g1.vertexMap k })

/-- `Graph::removeEdge(sourc, dest)`. -/
def Graph.removeEdge (g : Graph) (s d : Key) : Bool × Graph :=
  match findVertex g s with
  | none => (false, g)
  | some vid =>
    let p := removeEdgeV g vid d
    (p.2, p.1)

/-- `Graph::getEdgeWeight`'s scan of `adj` for the first matching edge. -/
def edgeWeightScan (g : Graph) (d : Key) : List Edge → ℚ
  | [] => dblMax
  | e :: es =>
    if ((getVert g e.dest).map Vertex.info) = some d then e.weight
    else edgeWeightScan g d es

/-- `Graph::getEdgeWeight(source, destination)`: weight of the first edge to
the destination in `adj` order, or the `DBL_MAX` sentinel. -/
def Graph.getEdgeWeight (g : Graph) (s d : Key) : ℚ :=
  match findVertex g s with
  | none => dblMax
  | some vid =>
    match getVert g vid with
    | none => dblMax
    | some v => edgeWeightScan g d v.adj

/-- The reset loops at the head of `dfs()` / `bfs(source)` (`setVisited(false)`
on every vertex). -/
def resetVisited (g : Graph) : Graph :=
  { g with vertexSet := g.vertexSet.map clearVisitedV }

/-- The reset loop at the head of `isDAG()` (`setVisited(false)` and
`setProcesssing(false)` on every vertex). -/
def resetVisitedProcessing (g : Graph) : Graph :=
  { g with vertexSet := g.vertexSet.map clearVisitedProcessingV }

mutual

/-- `Graph::dfsVisit(v, res)`: mark visited, emit the key, recurse into
unvisited adjacent destinations.  The fuel bounds the recursion depth; every
recursive call is on a freshly unvisited vertex, so any fuel of at least the
number of unvisited vertices is never exhausted. -/
def dfsVisit : Nat → Graph → Nat → List Key → Graph × List Key
  | 0, g, _, res => (g, res)
  | Nat.succ fuel, g, vid, res =>
    match getVert g vid with
    | none => (g, res)
    | some v =>
      dfsAdj fuel (updateVert g vid markVisitedV) v.adj (res ++ [v.info])
termination_by fuel g vid res => (fuel, 0)

/-- The `for (auto &e : v->getAdj())` loop body of `dfsVisit`. -/
def dfsAdj : Nat → Graph → List Edge → List Key → Graph × List Key
  | _, g, [], res => (g, res)
  | fuel, g, e :: es, res =>
    let p :=
      match getVert g e.dest with
      | some w => if w.visited then (g, res) else dfsVisit fuel g e.dest res
      | none => (g, res)
    dfsAdj fuel p.1 es p.2
termination_by fuel g es res => (fuel, es.length + 1)

end

/-- The outer loop of `dfs()`: start a traversal at every still-unvisited
vertex in insertion order. -/
def dfsForestLoop : Graph → List Key → List Nat → Graph × List Key
  | g, res, [] => (g, res)
  | g, res, vid :: rest =>
    let p :=
      match getVert g vid with
      | some v => if v.visited then (g, res) else dfsVisit g.vertexSet.length g vid res
      | none => (g, res)
    dfsForestLoop p.1 p.2 rest

/-- `Graph::dfs()`. -/
def Graph.dfs (g : Graph) : Graph × List Key :=
  let g0 := resetVisited g
  dfsForestLoop g0 [] (g0.vertexSet.map Vertex.vid)

/-- `Graph::dfs(source)`: pre-order traversal from the source, empty when the
source key is absent (the absence test happens before any reset). -/
def Graph.dfsFrom (g : Graph) (source : Key) : Graph × List Key :=
  match findVertex g source with
  | none => (g, [])
  | some s =>
    let g0 := resetVisited g
    dfsVisit g0.vertexSet.length g0 s []

/-- The `for (auto &e : v->getAdj())` loop of `bfs`: push every unvisited
destination and mark it visited at push time. -/
def bfsEnqueue : Graph → List Nat → List Edge → Graph × List Nat
  | g, q, [] => (g, q)
  | g, q, e :: es =>
    match getVert g e.dest with
    | some w =>
      if w.visited then bfsEnqueue g q es
      else bfsEnqueue (updateVert g e.dest markVisitedV) (q ++ [e.dest]) es
    | none => bfsEnqueue g q es

/-- The `while (!q.empty())` loop of `bfs`.  Each iteration pops one vertex;
pushed vertices are freshly marked visited, so |V| + 1 fuel is enough. -/
def bfsLoop : Nat → Graph → List Nat → List Key → Graph × List Key
  | 0, g, _, res => (g, res)
  | Nat.succ _, g, [], res => (g, res)
  | Nat.succ fuel, g, vid :: q, res =>
    match getVert g vid with
    | none => bfsLoop fuel g q (res ++ [infoOf g vid])
    | some v =>
      let p := bfsEnqueue g q v.adj
      bfsLoop fuel p.1 p.2 (res ++ [v.info])

/-- `Graph::bfs(source)`. -/
def Graph.bfs (g : Graph) (source : Key) : Graph × List Key :=
  match findVertex g source with
  | none => (g, [])
  | some s =>
    let g0 := resetVisited g
    let g1 := updateVert g0 s markVisitedV
    bfsLoop (g0.vertexSet.length + 1) g1 [s] []

mutual

/-- `Graph::dfsIsDAG(v)`: the three-colour depth-first search.  Marks the
vertex `visited` and `processing`; an edge into a `processing` vertex reports
a cycle; `processing` is cleared on successful exit (and deliberately not on
the early-return failure path, as in the source). -/
def dfsIsDAG : Nat → Graph → Nat → Graph × Bool
  | 0, g, _ => (g, true)
  | Nat.succ fuel, g, vid =>
    match getVert g vid with
    | none => (g, true)
    | some v =>
      let g1 := updateVert g vid markVisitedProcessingV
      let p := dfsIsDAGAdj fuel g1 v.adj
      if p.2 then (updateVert p.1 vid clearProcessingV, true)
      else (p.1, false)
termination_by fuel g vid => (fuel, 0)

/-- The `for (auto e : v->getAdj())` loop of `dfsIsDAG`. -/
def dfsIsDAGAdj : Nat → Graph → List Edge → Graph × Bool
  | _, g, [] => (g, true)
  | fuel, g, e :: es =>
    match getVert g e.dest with
    | none => dfsIsDAGAdj fuel g es
    | some w =>
      if w.processing then (g, false)
      else if w.visited then dfsIsDAGAdj fuel g es
      else
        let p := dfsIsDAG fuel g e.dest
        if p.2 then dfsIsDAGAdj fuel p.1 es else (p.1, false)
termination_by fuel g es => (fuel, es.length + 1)

end

/-- The outer loop of `isDAG()`: run `dfsIsDAG` from every unvisited vertex,
returning false as soon as one run fails. -/
def isDAGLoop : Graph → List Nat → Graph × Bool
  | g, [] => (g, true)
  | g, vid :: rest =>
    match getVert g vid with
    | none => isDAGLoop g rest
    | some v =>
      if v.visited then isDAGLoop g rest
      else
        let p := dfsIsDAG g.vertexSet.length g vid
        if p.2 then isDAGLoop p.1 rest else (p.1, false)

/-- `Graph::isDAG()`. -/
def Graph.isDAG (g : Graph) : Graph × Bool :=
  let g0 := resetVisitedProcessing g
  isDAGLoop g0 (g0.vertexSet.map Vertex.vid)

/-- The inner `for (auto e : v->getAdj())` of the indegree initialisation in
`topsort`: increment the destination's indegree for every edge. -/
def incrIndegLoop : Graph → List Edge → Graph
  | g, [] => g
  | g, e :: es =>
    incrIndegLoop (updateVert g e.dest incIndegreeV) es

/-- The outer indegree-initialisation loop of `topsort`. -/
def computeIndegLoop : Graph → List Nat → Graph
  | g, [] => g
  | g, vid :: rest =>
    let g1 :=
      match getVert g vid with
      | some v => incrIndegLoop g v.adj
      | none => g
    computeIndegLoop g1 rest

/-- The decrement-and-enqueue loop run for each popped vertex in `topsort`:
decrement each destination's indegree and enqueue it when it reaches zero. -/
def topsortDecr (g : Graph) (q : List Nat) : List Edge → Graph × List Nat
  | [] => (g, q)
  | e :: es =>
    let g1 := updateVert g e.dest decIndegreeV
    let q1 :=
      match getVert g1 e.dest with
      | some w => if w.indegree = 0 then q ++ [e.dest] else q
      | none => q
    topsortDecr g1 q1 es

/-- The `while (!q.empty())` loop of `topsort` (Kahn's algorithm).  Every
pushed vertex is pushed exactly once, so |V| + 1 fuel is enough. -/
def topsortLoop : Nat → Graph → List Nat → List Key → Graph × List Key
  | 0, g, _, res => (g, res)
  | Nat.succ _, g, [], res => (g, res)
  | Nat.succ fuel, g, vid :: q, res =>
    match getVert g vid with
    | none => topsortLoop fuel g q (res ++ [infoOf g vid])
    | some v =>
      let p := topsortDecr g q v.adj
      topsortLoop fuel p.1 p.2 (res ++ [v.info])

/-- `Graph::topsort()`: Kahn's algorithm; an incomplete emission is cleared
to the empty sequence. -/
def Graph.topsort (g : Graph) : Graph × List Key :=
  let g0 := { g with vertexSet := g.vertexSet.map zeroIndegreeV }
  let g1 := computeIndegLoop g0 (g0.vertexSet.map Vertex.vid)
  let q0 := (g1.vertexSet.filter (fun v => v.indegree = 0)).map Vertex.vid
  let p := topsortLoop (g1.vertexSet.length + 1) g1 q0 []
  if p.2.length = p.1.vertexSet.length then p else (p.1, [])

/-! ### Disjoint sets (`DisjointSets<T>`) and `kruskalMST` -/

/-- Model of `DisjointSets<T>`: the `parent` and `rank` hash maps. -/
structure DS where
  parent : List (Key × Key)
  rnk : List (Key × Int)
deriving DecidableEq

/-- `parent[item]` read through `operator[]`: default-inserts key 0 (the
value-initialised `int`) when the item is absent. -/
def dsGetParent (ds : DS) (k : Key) : Key × DS :=
  match lookupK ds.parent k with
  | some p => (p, ds)
  | none => (0, { ds with parent := ds.parent ++ [(k, 0)] })

/-- `parent[item] = p`. -/
def dsSetParent (ds : DS) (k p : Key) : DS :=
  { ds with parent := setK ds.parent k p }

/-- `rank[item]` read through `operator[]`. -/
def dsGetRank (ds : DS) (k : Key) : Int × DS :=
  match lookupK ds.rnk k with
  | some r => (r, ds)
  | none => (0, { ds with rnk := ds.rnk ++ [(k, 0)] })

/-- `rank[item] = r`. -/
def dsSetRank (ds : DS) (k : Key) (r : Int) : DS :=
  { ds with rnk := setK ds.rnk k r }

/-- `DisjointSets::makeSet`. -/
def dsMakeSet (ds : DS) (k : Key) : DS :=
  { parent := setK ds.parent k k, rnk := setK ds.rnk k 0 }

/-- `DisjointSets::findSet` with path compression.  The fuel bounds the
parent-chain length; on a forest-shaped parent map a fuel of
`parent.length + 1` is never exhausted. -/
def findSet : Nat → DS → Key → Key × DS
  | 0, ds, k => (k, ds)
  | Nat.succ fuel, ds, k =>
    let p0 := dsGetParent ds k
    if p0.1 = k then (k, p0.2)
    else
      let pr := findSet fuel p0.2 p0.1
      (pr.1, dsSetParent pr.2 k pr.1)

/-- `DisjointSets::unionSets` (union by rank, as in the source: on equal
ranks the first root wins and its rank is bumped). -/
def unionSets (ds : DS) (a b : Key) : DS :=
  let f1 := findSet (ds.parent.length + 1) ds a
  let f2 := findSet (f1.2.parent.length + 1) f1.2 b
  let root1 := f1.1
  let root2 := f2.1
  if root1 = root2 then f2.2
  else
    let r1 := dsGetRank f2.2 root1
    let r2 := dsGetRank r1.2 root2
    if r1.1 > r2.1 then dsSetParent r2.2 root2 root1
    else if r1.1 < r2.1 then dsSetParent r2.2 root1 root2
    else dsSetRank (dsSetParent r2.2 root2 root1) root1 (r1.1 + 1)

/-- The edge comparator passed to `std::sort` in `kruskalMST`: edges whose
origin's key equals the source come first, otherwise ascending weight. -/
def kruskalCmp (g : Graph) (source : Key) (a b : Edge) : Bool :=
  if infoOf g a.orig = source ∧ ¬ infoOf g b.orig = source then true
  else if ¬ infoOf g a.orig = source ∧ infoOf g b.orig = source then false
  else decide (a.weight < b.weight)

/-- The greedy sweep of `kruskalMST`: accept an edge when its endpoints'
components differ, then union them. -/
def kruskalSweep (g : Graph) : DS → List Edge → List Edge → DS × List Edge
  | ds, acc, [] => (ds, acc)
  | ds, acc, e :: es =>
    let u := infoOf g e.orig
    let v := infoOf g e.dest
    let f1 := findSet (ds.parent.length + 1) ds u
    let f2 := findSet (f1.2.parent.length + 1) f1.2 v
    if ¬ f1.1 = f2.1 then kruskalSweep g (unionSets f2.2 u v) (acc ++ [e]) es
    else kruskalSweep g f2.2 acc es

/-- The final filter of `kruskalMST`: keep the chosen edges with an endpoint
in the source's component (`||` short-circuits, so the second `findSet` runs
only when the first missed). -/
def kruskalFilter (g : Graph) (c : Key) : DS → List Edge → List Edge → DS × List Edge
  | ds, acc, [] => (ds, acc)
  | ds, acc, e :: es =>
    let f1 := findSet (ds.parent.length + 1) ds (infoOf g e.orig)
    if f1.1 = c then kruskalFilter g c f1.2 (acc ++ [e]) es
    else
      let f2 := findSet (f1.2.parent.length + 1) f1.2 (infoOf g e.dest)
      if f2.1 = c then kruskalFilter g c f2.2 (acc ++ [e]) es
      else kruskalFilter g c f2.2 acc es

/-- `Graph::kruskalMST(source)`: snapshot the edges (copies) and vertex keys,
sort with the source-biased comparator (`std::sort`, modelled by a merge
sort agreeing with the comparator's strict weak order), make a singleton set
per key, sweep greedily, and filter by the source's component. -/
def Graph.kruskalMST (g : Graph) (source : Key) : List Edge :=
  let edges := allEdges g
  let vertices := g.vertexSet.map Vertex.info
  let sorted := edges.mergeSort (fun a b => ¬ (kruskalCmp g source b a = true))
  let ds0 := vertices.foldl dsMakeSet ⟨[], []⟩
  let sw := kruskalSweep g ds0 [] sorted
  if source ∈ vertices then
    let f := findSet (sw.1.parent.length + 1) sw.1 source
    (kruskalFilter g f.1 f.2 [] sw.2).2
  else []

/-! ### Association-list lemmas -/

theorem lookupK_eq_none {α : Type} (m : List (Key × α)) (k : Key) :
    lookupK m k = none ↔ ∀ p ∈ m, ¬ p.1 = k := by
  induction m with
  | nil => simp [lookupK]
  | cons p rest ih =>
    by_cases h : p.1 = k <;> simp [lookupK, h, ih]

theorem lookupK_isSome {α : Type} (m : List (Key × α)) (k : Key) :
    (lookupK m k).isSome = true ↔ ∃ p ∈ m, p.1 = k := by
  induction m with
  | nil => simp [lookupK]
  | cons p rest ih =>
    by_cases h : p.1 = k <;> simp [lookupK, h, ih]

theorem lookupK_mem {α : Type} {m : List (Key × α)} {k : Key} {a : α}
    (h : lookupK m k = some a) : (k, a) ∈ m := by
  induction m with
  | nil => simp [lookupK] at h
  | cons p rest ih =>
    by_cases hp : p.1 = k
    · simp [lookupK, hp] at h
      rcases p with ⟨k', a'⟩
      simp_all
    · simp [lookupK, hp] at h
      exact List.mem_cons_of_mem _ (ih h)

theorem lookupK_append_right {α : Type} {m : List (Key × α)} (m2 : List (Key × α)) {k : Key}
    (h : lookupK m k = none) : lookupK (m ++ m2) k = lookupK m2 k := by
  induction m with
  | nil => simp
  | cons p rest ih =>
    by_cases hp : p.1 = k
    · simp [lookupK, hp] at h
    · simp [lookupK, hp] at h ⊢
      exact ih h

theorem lookupK_append_left {α : Type} {m : List (Key × α)} (m2 : List (Key × α)) {k : Key} {a : α}
    (h : lookupK m k = some a) : lookupK (m ++ m2) k = some a := by
  induction m with
  | nil => simp [lookupK] at h
  | cons p rest ih =>
    by_cases hp : p.1 = k
    · simp [lookupK, hp] at h ⊢; exact h
    · simp [lookupK, hp] at h ⊢; exact ih h

theorem eraseK_lookup_ne {α : Type} (m : List (Key × α)) {k k' : Key} (h : ¬ k' = k) :
    lookupK (eraseK m k) k' = lookupK m k' := by
  induction m with
  | nil => rfl
  | cons p rest ih =>
    by_cases hp : p.1 = k
    · have hpk : ¬ p.1 = k' := fun hh => h (hh ▸ hp)
      rw [show eraseK (p :: rest) k = rest from by simp [eraseK, hp]]
      rw [show lookupK (p :: rest) k' = lookupK rest k' from by simp [lookupK, hpk]]
    · rw [show eraseK (p :: rest) k = p :: eraseK rest k from by simp [eraseK, hp]]
      by_cases hp' : p.1 = k'
      · rw [show lookupK (p :: eraseK rest k) k' = some p.2 from by simp [lookupK, hp']]
        rw [show lookupK (p :: rest) k' = some p.2 from by simp [lookupK, hp']]
      · rw [show lookupK (p :: eraseK rest k) k' = lookupK (eraseK rest k) k' from by
          simp [lookupK, hp']]
        rw [show lookupK (p :: rest) k' = lookupK rest k' from by simp [lookupK, hp']]
        exact ih

theorem eraseK_subset {α : Type} (m : List (Key × α)) (k : Key) :
    ∀ p ∈ eraseK m k, p ∈ m := by
  induction m with
  | nil => simp [eraseK]
  | cons q rest ih =>
    by_cases hq : q.1 = k
    · simp only [eraseK, hq, if_pos]
      intro p hp; exact List.mem_cons_of_mem _ hp
    · simp only [eraseK, hq, if_neg, not_false_iff]
      intro p hp
      rcases List.mem_cons.1 hp with h | h
      · exact h ▸ List.mem_cons_self _ _
      · exact List.mem_cons_of_mem _ (ih p h)

theorem eraseK_lookup_self {α : Type} (m : List (Key × α)) (k : Key)
    (hnd : (m.map Prod.fst).Nodup) : lookupK (eraseK m k) k = none := by
  induction m with
  | nil => simp [eraseK, lookupK]
  | cons q rest ih =>
    simp only [List.map_cons, List.nodup_cons] at hnd
    by_cases hq : q.1 = k
    · simp only [eraseK, hq, if_pos]
      rw [lookupK_eq_none]
      intro p hp hpk
      exact hnd.1 (hq ▸ hpk ▸ List.mem_map_of_mem Prod.fst hp)
    · simp [eraseK, lookupK, hq, ih hnd.2]

/-! ### Vertex access lemmas -/

theorem find_vid_of_mem {l : List Vertex} (hnd : (l.map Vertex.vid).Nodup)
    {v : Vertex} (hv : v ∈ l) : l.find? (fun x => x.vid == v.vid) = some v := by
  induction l with
  | nil => simp at hv
  | cons w rest ih =>
    simp only [List.map_cons, List.nodup_cons] at hnd
    rcases List.mem_cons.1 hv with h | h
    · subst h; simp [List.find?]
    · have hne : ¬ (w.vid == v.vid) = true := by
        simp only [beq_iff_eq]
        intro heq
        exact hnd.1 (heq ▸ List.mem_map_of_mem Vertex.vid h)
      simp only [List.find?, hne]
      exact ih hnd.2 h

theorem getVert_eq_some_iff {g : Graph} (hnd : (g.vertexSet.map Vertex.vid).Nodup)
    {vid : Nat} {v : Vertex} :
    getVert g vid = some v ↔ v ∈ g.vertexSet ∧ v.vid = vid := by
  constructor
  · intro h
    refine ⟨List.mem_of_find?_eq_some h, ?_⟩
    have := List.find?_some h
    simpa using this
  · rintro ⟨hv, rfl⟩
    exact find_vid_of_mem hnd hv

theorem getVert_mem {g : Graph} {vid : Nat} {v : Vertex} (h : getVert g vid = some v) :
    v ∈ g.vertexSet ∧ v.vid = vid := by
  refine ⟨List.mem_of_find?_eq_some h, ?_⟩
  have := List.find?_some h
  simpa using this

theorem getVert_isSome {g : Graph} {vid : Nat} :
    (getVert g vid).isSome = true ↔ ∃ v ∈ g.vertexSet, v.vid = vid := by
  constructor
  · intro h
    rcases Option.isSome_iff_exists.1 h with ⟨v, hv⟩
    exact ⟨v, (getVert_mem hv).1, (getVert_mem hv).2⟩
  · rintro ⟨v, hv, rfl⟩
    rw [Option.isSome_iff_exists]
    have : ∀ l : List Vertex, v ∈ l → ∃ w, l.find? (fun x => x.vid == v.vid) = some w := by
      intro l hl
      induction l with
      | nil => simp at hl
      | cons w rest ih =>
        rcases List.mem_cons.1 hl with h | h
        · subst h; exact ⟨v, by simp [List.find?]⟩
        · by_cases hw : (w.vid == v.vid) = true
          · exact ⟨w, by simp [List.find?, hw]⟩
          · simp only [List.find?, hw]
            exact ih h
    exact this g.vertexSet hv

theorem getVert_none {g : Graph} {vid : Nat} :
    getVert g vid = none ↔ ∀ v ∈ g.vertexSet, ¬ v.vid = vid := by
  simp [getVert, List.find?_eq_none]

theorem updateVert_vertexSet (g : Graph) (vid : Nat) (f : Vertex → Vertex) :
    (updateVert g vid f).vertexSet = g.vertexSet.map (fun v => if v.vid = vid then f v else v) :=
  rfl

theorem updateVert_vertexMap (g : Graph) (vid : Nat) (f : Vertex → Vertex) :
    (updateVert g vid f).vertexMap = g.vertexMap := rfl

theorem updateVert_nextVid (g : Graph) (vid : Nat) (f : Vertex → Vertex) :
    (updateVert g vid f).nextVid = g.nextVid := rfl

theorem updateVert_nextEid (g : Graph) (vid : Nat) (f : Vertex → Vertex) :
    (updateVert g vid f).nextEid = g.nextEid := rfl

theorem getVert_updateVert (g : Graph) (vid : Nat) (f : Vertex → Vertex)
    (hf : ∀ v, (f v).vid = v.vid) (w : Nat) :
    getVert (updateVert g vid f) w =
      (getVert g w).map (fun v => if v.vid = vid then f v else v) := by
  unfold getVert updateVert
  simp only [List.find?_map]
  have hpred : ((fun v : Vertex => v.vid == w) ∘ fun v => if v.vid = vid then f v else v) =
      (fun v : Vertex => v.vid == w) := by
    funext v
    by_cases h : v.vid = vid <;> simp [Function.comp, h, hf]
  rw [hpred]

theorem vids_updateVert (g : Graph) (vid : Nat) (f : Vertex → Vertex)
    (hf : ∀ v, (f v).vid = v.vid) :
    (updateVert g vid f).vertexSet.map Vertex.vid = g.vertexSet.map Vertex.vid := by
  unfold updateVert
  simp only [List.map_map]
  have hpred : (Vertex.vid ∘ fun v => if v.vid = vid then f v else v) = Vertex.vid := by
    funext v
    by_cases h : v.vid = vid <;> simp [Function.comp, h, hf]
  rw [hpred]

theorem infos_updateVert (g : Graph) (vid : Nat) (f : Vertex → Vertex)
    (hf : ∀ v, (f v).info = v.info) :
    (updateVert g vid f).vertexSet.map Vertex.info = g.vertexSet.map Vertex.info := by
  unfold updateVert
  simp only [List.map_map]
  have hpred : (Vertex.info ∘ fun v => if v.vid = vid then f v else v) = Vertex.info := by
    funext v
    by_cases h : v.vid = vid <;> simp [Function.comp, h, hf]
  rw [hpred]

theorem allEdges_updateVert (g : Graph) (vid : Nat) (f : Vertex → Vertex)
    (hf : ∀ v, (f v).adj = v.adj) :
    allEdges (updateVert g vid f) = allEdges g := by
  unfold allEdges updateVert
  simp only [List.map_map]
  have hpred : (Vertex.adj ∘ fun v => if v.vid = vid then f v else v) = Vertex.adj := by
    funext v
    by_cases h : v.vid = vid <;> simp [Function.comp, h, hf]
  rw [hpred]

theorem infoOf_updateVert (g : Graph) (vid : Nat) (f : Vertex → Vertex)
    (hvid : ∀ v, (f v).vid = v.vid) (hinfo : ∀ v, (f v).info = v.info) (w : Nat) :
    infoOf (updateVert g vid f) w = infoOf g w := by
  unfold infoOf
  rw [getVert_updateVert g vid f hvid w]
  cases getVert g w with
  | none => rfl
  | some v => by_cases h : v.vid = vid <;> simp [h, hinfo]

/-! ### Well-formed graphs

`Wf` collects the structural invariants of states produced by the public
mutation API: unique vertex ids and keys, a key index synchronized with the
vertex sequence, edges owned by their origin with live destinations, unique
edge ids, and id counters dominating all allocated ids. -/

def Wf (g : Graph) : Prop :=
  (g.vertexSet.map Vertex.vid).Nodup ∧
  (g.vertexSet.map Vertex.info).Nodup ∧
  (g.vertexMap.map Prod.fst).Nodup ∧
  (∀ p ∈ g.vertexMap, ∃ v ∈ g.vertexSet, v.vid = p.2 ∧ v.info = p.1) ∧
  (∀ v ∈ g.vertexSet, lookupK g.vertexMap v.info = some v.vid) ∧
  (∀ v ∈ g.vertexSet, ∀ e ∈ v.adj, e.orig = v.vid) ∧
  (∀ v ∈ g.vertexSet, ∀ e ∈ v.adj, ∃ w ∈ g.vertexSet, w.vid = e.dest) ∧
  ((allEdges g).map Edge.eid).Nodup ∧
  (∀ v ∈ g.vertexSet, v.vid < g.nextVid) ∧
  (∀ e ∈ allEdges g, e.eid < g.nextEid)

instance (g : Graph) : Decidable (Wf g) := by
  unfold Wf
  infer_instance

theorem Wf.nodupVids {g : Graph} (h : Wf g) : (g.vertexSet.map Vertex.vid).Nodup := h.1

theorem Wf.nodupInfos {g : Graph} (h : Wf g) : (g.vertexSet.map Vertex.info).Nodup := h.2.1

theorem Wf.nodupMapKeys {g : Graph} (h : Wf g) : (g.vertexMap.map Prod.fst).Nodup := h.2.2.1

theorem Wf.mapEntries {g : Graph} (h : Wf g) :
    ∀ p ∈ g.vertexMap, ∃ v ∈ g.vertexSet, v.vid = p.2 ∧ v.info = p.1 := h.2.2.2.1

theorem Wf.mapComplete {g : Graph} (h : Wf g) :
    ∀ v ∈ g.vertexSet, lookupK g.vertexMap v.info = some v.vid := h.2.2.2.2.1

theorem Wf.edgeOrig {g : Graph} (h : Wf g) :
    ∀ v ∈ g.vertexSet, ∀ e ∈ v.adj, e.orig = v.vid := h.2.2.2.2.2.1

theorem Wf.edgeDestLive {g : Graph} (h : Wf g) :
    ∀ v ∈ g.vertexSet, ∀ e ∈ v.adj, ∃ w ∈ g.vertexSet, w.vid = e.dest := h.2.2.2.2.2.2.1

theorem Wf.nodupEids {g : Graph} (h : Wf g) : ((allEdges g).map Edge.eid).Nodup :=
  h.2.2.2.2.2.2.2.1

theorem Wf.vidLt {g : Graph} (h : Wf g) : ∀ v ∈ g.vertexSet, v.vid < g.nextVid :=
  h.2.2.2.2.2.2.2.2.1

theorem Wf.eidLt {g : Graph} (h : Wf g) : ∀ e ∈ allEdges g, e.eid < g.nextEid :=
  h.2.2.2.2.2.2.2.2.2

/-- The graphs constructible through the public mutation API, starting from a
default-constructed graph. -/
inductive Reachable : Graph → Prop
  | empty : Reachable emptyGraph
  | addVertex (g : Graph) (k : Key) : Reachable g → Reachable (g.addVertex k).2
  | removeVertex (g : Graph) (k : Key) : Reachable g → Reachable (g.removeVertex k).2
  | addEdge (g : Graph) (s d : Key) (w : ℚ) : Reachable g → Reachable (g.addEdge s d w).2
  | addBidirectionalEdge (g : Graph) (s d : Key) (w : ℚ) :
      Reachable g → Reachable (g.addBidirectionalEdge s d w).2
  | removeEdge (g : Graph) (s d : Key) : Reachable g → Reachable (g.removeEdge s d).2

theorem findVertex_some_wf {g : Graph} (h : Wf g) {k : Key} {vid : Nat}
    (hf : findVertex g k = some vid) : ∃ v ∈ g.vertexSet, v.vid = vid ∧ v.info = k := by
  exact h.mapEntries (k, vid) (lookupK_mem hf)

theorem findVertex_none_wf {g : Graph} (h : Wf g) {k : Key}
    (hf : findVertex g k = none) : ∀ v ∈ g.vertexSet, ¬ v.info = k := by
  intro v hv hvk
  have hmc := h.mapComplete v hv
  rw [hvk] at hmc
  have hsome : findVertex g k = some v.vid := hmc
  rw [hf] at hsome
  exact Option.noConfusion hsome

theorem findVertex_isSome_wf {g : Graph} (h : Wf g) {k : Key} :
    (findVertex g k).isSome = true ↔ ∃ v ∈ g.vertexSet, v.info = k := by
  constructor
  · intro hs
    rcases Option.isSome_iff_exists.1 hs with ⟨vid, hvid⟩
    rcases findVertex_some_wf h hvid with ⟨v, hv, _, hk⟩
    exact ⟨v, hv, hk⟩
  · rintro ⟨v, hv, rfl⟩
    rw [findVertex, h.mapComplete v hv]
    rfl

/-! ### Views of a vertex's fields through the graph state -/

/-- The current `adj` list of the vertex with a given vid (empty when dead). -/
def adjOf (g : Graph) (vid : Nat) : List Edge :=
  ((getVert g vid).map Vertex.adj).getD []

/-- The info of an edge-destination pointer as the C++ comparisons see it:
`some` of the info when live. -/
def destInfoOf (g : Graph) (vid : Nat) : Option Key :=
  (getVert g vid).map Vertex.info

theorem destInfoOf_updateVert (g : Graph) (vid : Nat) (f : Vertex → Vertex)
    (hvid : ∀ v, (f v).vid = v.vid) (hinfo : ∀ v, (f v).info = v.info) (w : Nat) :
    destInfoOf (updateVert g vid f) w = destInfoOf g w := by
  unfold destInfoOf
  rw [getVert_updateVert g vid f hvid w]
  cases getVert g w with
  | none => rfl
  | some v => by_cases h : v.vid = vid <;> simp [h, hinfo]

theorem adjOf_updateVert (g : Graph) (vid : Nat) (f : Vertex → Vertex)
    (hvid : ∀ v, (f v).vid = v.vid) (w : Nat) :
    adjOf (updateVert g vid f) w =
      (if w = vid then ((getVert g w).map (fun v => (f v).adj)).getD []
       else adjOf g w) := by
  unfold adjOf
  rw [getVert_updateVert g vid f hvid w]
  cases hgw : getVert g w with
  | none => by_cases h : w = vid <;> simp [h]
  | some v =>
    have hv : v.vid = w := (getVert_mem hgw).2
    by_cases h : w = vid
    · subst h; simp [hv]
    · have : ¬ v.vid = vid := by rw [hv]; exact h
      simp [this, h]

theorem adjOf_updateVert_notadj (g : Graph) (vid : Nat) (f : Vertex → Vertex)
    (hvid : ∀ v, (f v).vid = v.vid) (hadj : ∀ v, (f v).adj = v.adj) (w : Nat) :
    adjOf (updateVert g vid f) w = adjOf g w := by
  rw [adjOf_updateVert g vid f hvid w]
  by_cases h : w = vid
  · subst h
    unfold adjOf
    cases getVert g w <;> simp [hadj]
  · simp [h]

/-! ### Edge membership -/

theorem mem_allEdges_of_mem {g : Graph} {v : Vertex} {e : Edge}
    (hv : v ∈ g.vertexSet) (he : e ∈ v.adj) : e ∈ allEdges g := by
  unfold allEdges
  rw [List.mem_flatten]
  exact ⟨v.adj, List.mem_map_of_mem Vertex.adj hv, he⟩

theorem mem_allEdges_iff {g : Graph} {e : Edge} :
    e ∈ allEdges g ↔ ∃ v ∈ g.vertexSet, e ∈ v.adj := by
  unfold allEdges
  rw [List.mem_flatten]
  constructor
  · rintro ⟨l, hl, he⟩
    rcases List.mem_map.1 hl with ⟨v, hv, rfl⟩
    exact ⟨v, hv, he⟩
  · rintro ⟨v, hv, he⟩
    exact ⟨v.adj, List.mem_map_of_mem Vertex.adj hv, he⟩

/-! ### Claim C5 — `getEdgeWeight` -/

/-- At least one edge from the vertex keyed `s` to a vertex keyed `d`. -/
def hasEdgeKey (g : Graph) (s d : Key) : Prop :=
  ∃ v ∈ g.vertexSet, v.info = s ∧ ∃ e ∈ v.adj, destInfoOf g e.dest = some d

instance (g : Graph) (s d : Key) : Decidable (hasEdgeKey g s d) := by
  unfold hasEdgeKey
  infer_instance

theorem destInfoOf_eq (g : Graph) (vid : Nat) :
    (getVert g vid).map Vertex.info = destInfoOf g vid := rfl

theorem edgeWeightScan_cons_pos {g : Graph} {d : Key} {a : Edge} (rest : List Edge)
    (h : destInfoOf g a.dest = some d) : edgeWeightScan g d (a :: rest) = a.weight := by
  simp only [edgeWeightScan, destInfoOf_eq]
  exact if_pos h

theorem edgeWeightScan_cons_neg {g : Graph} {d : Key} {a : Edge} (rest : List Edge)
    (h : ¬ destInfoOf g a.dest = some d) :
    edgeWeightScan g d (a :: rest) = edgeWeightScan g d rest := by
  simp only [edgeWeightScan, destInfoOf_eq]
  exact if_neg h

theorem edgeWeightScan_of_none {g : Graph} {d : Key} {es : List Edge}
    (h : ∀ e ∈ es, ¬ destInfoOf g e.dest = some d) : edgeWeightScan g d es = dblMax := by
  induction es with
  | nil => rfl
  | cons e rest ih =>
    rw [edgeWeightScan_cons_neg rest (h e (List.mem_cons_self _ _))]
    exact ih (fun e' he' => h e' (List.mem_cons_of_mem _ he'))

theorem edgeWeightScan_of_find {g : Graph} {d : Key} {es : List Edge} {e : Edge}
    (h : es.find? (fun x => destInfoOf g x.dest == some d) = some e) :
    edgeWeightScan g d es = e.weight := by
  induction es with
  | nil => simp [List.find?] at h
  | cons a rest ih =>
    by_cases ha : destInfoOf g a.dest = some d
    · have hb : (destInfoOf g a.dest == some d) = true := by simpa using ha
      simp only [List.find?, hb] at h
      rw [edgeWeightScan_cons_pos rest ha, Option.some.inj h]
    · have hb : (destInfoOf g a.dest == some d) = false := by simpa using ha
      simp only [List.find?, hb] at h
      rw [edgeWeightScan_cons_neg rest ha]
      exact ih h

theorem find_dest_mem {g : Graph} {d : Key} {es : List Edge} {e : Edge}
    (h : es.find? (fun x => destInfoOf g x.dest == some d) = some e) :
    e ∈ es ∧ destInfoOf g e.dest = some d := by
  refine ⟨List.mem_of_find?_eq_some h, ?_⟩
  have := List.find?_some h
  simpa using this

/-- C5 (amended): on a well-formed graph all of whose edge weights differ from
the `DBL_MAX` sentinel, `getEdgeWeight s d` differs from the sentinel iff an
edge from key `s` to key `d` exists; when the vertex keyed `s` exists, the
result is the weight of the first edge to key `d` in its `adj` insertion
order; and when no such edge exists the result is the sentinel. -/
theorem c5_getEdgeWeight_amended (g : Graph) (s d : Key) (hg : Wf g)
    (hw : ∀ e ∈ allEdges g, ¬ e.weight = dblMax) :
    ((¬ g.getEdgeWeight s d = dblMax) ↔ hasEdgeKey g s d) ∧
    (∀ v ∈ g.vertexSet, v.info = s →
      ∀ e, v.adj.find? (fun x => destInfoOf g x.dest == some d) = some e →
        g.getEdgeWeight s d = e.weight) ∧
    (¬ hasEdgeKey g s d → g.getEdgeWeight s d = dblMax) := by
  have main : (hasEdgeKey g s d → ¬ g.getEdgeWeight s d = dblMax) ∧
      (¬ hasEdgeKey g s d → g.getEdgeWeight s d = dblMax) ∧
      (∀ v ∈ g.vertexSet, v.info = s →
        ∀ e, v.adj.find? (fun x => destInfoOf g x.dest == some d) = some e →
          g.getEdgeWeight s d = e.weight) := by
    cases hfv : findVertex g s with
    | none =>
      have habs : ∀ v ∈ g.vertexSet, ¬ v.info = s := findVertex_none_wf hg hfv
      have hno : ¬ hasEdgeKey g s d := by
        rintro ⟨v, hv, hvs, -⟩
        exact habs v hv hvs
      have hval : g.getEdgeWeight s d = dblMax := by
        unfold Graph.getEdgeWeight
        rw [hfv]
      exact ⟨fun h => absurd h hno, fun _ => hval,
        fun v hv hvs => absurd hvs (habs v hv)⟩
    | some vid =>
      rcases findVertex_some_wf hg hfv with ⟨v, hv, hvid, hvs⟩
      have hgv : getVert g vid = some v := (getVert_eq_some_iff hg.nodupVids).2 ⟨hv, hvid⟩
      have hval : g.getEdgeWeight s d = edgeWeightScan g d v.adj := by
        unfold Graph.getEdgeWeight
        rw [hfv]
        simp only [hgv]
      have huniq : ∀ v' ∈ g.vertexSet, v'.info = s → v' = v := by
        intro v' hv' hs'
        exact List.inj_on_of_nodup_map hg.nodupInfos hv' hv (by rw [hs', hvs])
      cases hfind : v.adj.find? (fun x => destInfoOf g x.dest == some d) with
      | none =>
        have hnomatch : ∀ e ∈ v.adj, ¬ destInfoOf g e.dest = some d := by
          intro e he
          have := List.find?_eq_none.1 hfind e he
          simpa using this
        have hno : ¬ hasEdgeKey g s d := by
          rintro ⟨v', hv', hs', e, he, hd⟩
          have : v' = v := huniq v' hv' hs'
          subst this
          exact hnomatch e he hd
        have hvd : g.getEdgeWeight s d = dblMax := by
          rw [hval]
          exact edgeWeightScan_of_none hnomatch
        refine ⟨fun h => absurd h hno, fun _ => hvd, ?_⟩
        intro v' hv' hs' e hfind'
        rw [huniq v' hv' hs'] at hfind'
        rw [hfind'] at hfind
        exact Option.noConfusion hfind
      | some e =>
        rcases find_dest_mem hfind with ⟨hemem, hedest⟩
        have hvd : g.getEdgeWeight s d = e.weight := by
          rw [hval]
          exact edgeWeightScan_of_find hfind
        refine ⟨?_, ?_, ?_⟩
        · intro _
          rw [hvd]
          exact hw e (mem_allEdges_of_mem hv hemem)
        · intro hno
          exact absurd ⟨v, hv, hvs, e, hemem, hedest⟩ hno
        · intro v' hv' hs' e' hfind'
          rw [huniq v' hv' hs'] at hfind'
          rw [hfind] at hfind'
          rw [hvd, Option.some.inj hfind']
  refine ⟨⟨?_, main.1⟩, main.2.2, main.2.1⟩
  intro hne
  by_contra hno
  exact hne (main.2.1 hno)

/-- Two vertices keyed 0 and 1 and one edge 0→1 whose weight is exactly the
`DBL_MAX` sentinel. -/
def gC5c : Graph := (((emptyGraph.addVertex 0).2.addVertex 1).2.addEdge 0 1 dblMax).2

/-- C5 counterexample: on `gC5c` an edge 0→1 exists, yet `getEdgeWeight`
returns the sentinel, so "returns a finite value iff at least one edge s→d
exists" is false as stated: the returned value is the sentinel (not a
distinguishable finite value) although the edge exists. -/
theorem c5_counterexample :
    ¬ (∀ g : Graph, Wf g → ∀ s d : Key,
        ((¬ g.getEdgeWeight s d = dblMax) ↔ hasEdgeKey g s d)) := by
  intro h
  have hwf : Wf gC5c := by decide
  have hedge : hasEdgeKey gC5c 0 1 := by decide
  have hval : gC5c.getEdgeWeight 0 1 = dblMax := by decide
  exact (h gC5c hwf 0 1).2 hedge hval

/-- A well-formed graph with keys 0, 1 and an edge 0→1 of weight 5. -/
def gC5w : Graph := (((emptyGraph.addVertex 0).2.addVertex 1).2.addEdge 0 1 5).2

/-- Witness instantiating `c5_getEdgeWeight_amended` on `gC5w`. -/
theorem c5_witness :
    (Wf gC5w ∧ (∀ e ∈ allEdges gC5w, ¬ e.weight = dblMax)) ∧
    (((¬ gC5w.getEdgeWeight 0 1 = dblMax) ↔ hasEdgeKey gC5w 0 1) ∧
    (∀ v ∈ gC5w.vertexSet, v.info = 0 →
      ∀ e, v.adj.find? (fun x => destInfoOf gC5w x.dest == some 1) = some e →
        gC5w.getEdgeWeight 0 1 = e.weight) ∧
    (¬ hasEdgeKey gC5w 0 1 → gC5w.getEdgeWeight 0 1 = dblMax)) :=
  ⟨⟨by decide, by decide⟩, c5_getEdgeWeight_amended gC5w 0 1 (by decide) (by decide)⟩

/-! ### Effect lemmas for `addEdgeRaw` and `setReverseE` -/

theorem addEdgeRaw_snd (g : Graph) (ov dv : Nat) (w : ℚ) :
    (addEdgeRaw g ov dv w).2 = g.nextEid := rfl

theorem addEdgeRaw_map (g : Graph) (ov dv : Nat) (w : ℚ) :
    (addEdgeRaw g ov dv w).1.vertexMap = g.vertexMap := rfl

theorem addEdgeRaw_nextVid (g : Graph) (ov dv : Nat) (w : ℚ) :
    (addEdgeRaw g ov dv w).1.nextVid = g.nextVid := rfl

theorem addEdgeRaw_nextEid (g : Graph) (ov dv : Nat) (w : ℚ) :
    (addEdgeRaw g ov dv w).1.nextEid = g.nextEid + 1 := rfl

theorem addEdgeRaw_vids (g : Graph) (ov dv : Nat) (w : ℚ) :
    (addEdgeRaw g ov dv w).1.vertexSet.map Vertex.vid = g.vertexSet.map Vertex.vid := by
  show (updateVert (updateVert g ov (adjPush ⟨g.nextEid, ov, dv, w, none⟩)) dv
      (incomingPush g.nextEid)).vertexSet.map Vertex.vid = g.vertexSet.map Vertex.vid
  rw [vids_updateVert _ _ (incomingPush g.nextEid) (fun v => rfl),
    vids_updateVert _ _ (adjPush _) (fun v => rfl)]

theorem addEdgeRaw_infos (g : Graph) (ov dv : Nat) (w : ℚ) :
    (addEdgeRaw g ov dv w).1.vertexSet.map Vertex.info = g.vertexSet.map Vertex.info := by
  show (updateVert (updateVert g ov (adjPush ⟨g.nextEid, ov, dv, w, none⟩)) dv
      (incomingPush g.nextEid)).vertexSet.map Vertex.info = g.vertexSet.map Vertex.info
  rw [infos_updateVert _ _ (incomingPush g.nextEid) (fun v => rfl),
    infos_updateVert _ _ (adjPush _) (fun v => rfl)]

theorem destInfoOf_nextEid (g : Graph) (n : Nat) (x : Nat) :
    destInfoOf { g with nextEid := n } x = destInfoOf g x := rfl

theorem adjOf_nextEid (g : Graph) (n : Nat) (x : Nat) :
    adjOf { g with nextEid := n } x = adjOf g x := rfl

theorem addEdgeRaw_destInfoOf (g : Graph) (ov dv : Nat) (w : ℚ) (x : Nat) :
    destInfoOf (addEdgeRaw g ov dv w).1 x = destInfoOf g x := by
  show destInfoOf (updateVert (updateVert g ov (adjPush ⟨g.nextEid, ov, dv, w, none⟩)) dv
      (incomingPush g.nextEid)) x = destInfoOf g x
  rw [destInfoOf_updateVert _ _ (incomingPush g.nextEid) (fun v => rfl) (fun v => rfl),
    destInfoOf_updateVert _ _ (adjPush _) (fun v => rfl) (fun v => rfl)]

theorem addEdgeRaw_adjOf_self {g : Graph} {ov : Nat} (dv : Nat) (w : ℚ) {vo : Vertex}
    (hov : getVert g ov = some vo) :
    adjOf (addEdgeRaw g ov dv w).1 ov = vo.adj ++ [⟨g.nextEid, ov, dv, w, none⟩] := by
  show adjOf (updateVert (updateVert g ov (adjPush ⟨g.nextEid, ov, dv, w, none⟩)) dv
      (incomingPush g.nextEid)) ov = _
  rw [adjOf_updateVert_notadj _ _ (incomingPush g.nextEid) (fun v => rfl) (fun v => rfl)]
  rw [adjOf_updateVert _ _ (adjPush _) (fun v => rfl)]
  rw [if_pos rfl, hov]
  rfl

theorem addEdgeRaw_adjOf_other {g : Graph} {ov : Nat} (dv : Nat) (w : ℚ) {x : Nat}
    (hx : ¬ x = ov) : adjOf (addEdgeRaw g ov dv w).1 x = adjOf g x := by
  show adjOf (updateVert (updateVert g ov (adjPush ⟨g.nextEid, ov, dv, w, none⟩)) dv
      (incomingPush g.nextEid)) x = _
  rw [adjOf_updateVert_notadj _ _ (incomingPush g.nextEid) (fun v => rfl) (fun v => rfl)]
  rw [adjOf_updateVert _ _ (adjPush _) (fun v => rfl)]
  rw [if_neg hx]

theorem allEdges_adjAppend_perm {g : Graph} {ov : Nat} (e : Edge)
    (hnd : (g.vertexSet.map Vertex.vid).Nodup) {vo : Vertex} (hov : getVert g ov = some vo) :
    List.Perm (allEdges (updateVert g ov (adjPush e))) (e :: allEdges g) := by
  rcases getVert_mem hov with ⟨hmem, hvid⟩
  rcases List.append_of_mem hmem with ⟨l1, l2, hl⟩
  rw [hl] at hnd
  have hnd' : (l1.map Vertex.vid ++ vo.vid :: l2.map Vertex.vid).Nodup := by simpa using hnd
  have h1 : ∀ v ∈ l1, ¬ v.vid = ov := by
    intro v hv hvv
    refine List.disjoint_of_nodup_append hnd' (List.mem_map_of_mem Vertex.vid hv) ?_
    rw [hvv, ← hvid]
    exact List.mem_cons_self _ _
  have h2 : ∀ v ∈ l2, ¬ v.vid = ov := by
    intro v hv hvv
    have hc := (List.nodup_append.1 hnd').2.1
    rw [List.nodup_cons] at hc
    exact hc.1 (by rw [hvid, ← hvv]; exact List.mem_map_of_mem Vertex.vid hv)
  show List.Perm ((g.vertexSet.map (fun v => if v.vid = ov then adjPush e v else v)).map
      Vertex.adj).flatten (e :: (g.vertexSet.map Vertex.adj).flatten)
  rw [hl]
  rw [List.map_append, List.map_cons]
  have hmap1 : l1.map (fun v => if v.vid = ov then adjPush e v else v) = l1 := by
    rw [List.map_congr_left (fun v hv => if_neg (h1 v hv)), List.map_id']
  have hmap2 : l2.map (fun v => if v.vid = ov then adjPush e v else v) = l2 := by
    rw [List.map_congr_left (fun v hv => if_neg (h2 v hv)), List.map_id']
  have hfvo : (if vo.vid = ov then adjPush e vo else vo) = adjPush e vo := if_pos hvid
  rw [hmap1, hmap2, hfvo]
  simp only [adjPush_def, List.map_append, List.map_cons, List.flatten_append,
    List.flatten_cons]
  have hp := @List.perm_middle Edge e ((l1.map Vertex.adj).flatten ++ vo.adj)
    ((l2.map Vertex.adj).flatten)
  have h3 : (l1.map Vertex.adj).flatten ++ ((vo.adj ++ [e]) ++ (l2.map Vertex.adj).flatten)
      = ((l1.map Vertex.adj).flatten ++ vo.adj) ++ e :: (l2.map Vertex.adj).flatten := by
    simp only [List.append_assoc, List.singleton_append]
  have h4 : ((l1.map Vertex.adj).flatten ++ vo.adj) ++ (l2.map Vertex.adj).flatten
      = (l1.map Vertex.adj).flatten ++ (vo.adj ++ (l2.map Vertex.adj).flatten) :=
    List.append_assoc _ _ _
  rw [h3, ← h4]
  exact hp

theorem addEdgeRaw_adjOf_self' {g : Graph} {ov : Nat} (dv : Nat) (w : ℚ) {vo : Vertex}
    (hov : getVert g ov = some vo) :
    adjOf (addEdgeRaw g ov dv w).1 ov = adjOf g ov ++ [⟨g.nextEid, ov, dv, w, none⟩] := by
  rw [addEdgeRaw_adjOf_self dv w hov]
  unfold adjOf
  rw [hov]
  rfl

theorem allEdges_addEdgeRaw_perm {g : Graph} {ov : Nat} (dv : Nat) (w : ℚ)
    (hnd : (g.vertexSet.map Vertex.vid).Nodup) {vo : Vertex} (hov : getVert g ov = some vo) :
    List.Perm (allEdges (addEdgeRaw g ov dv w).1)
      (⟨g.nextEid, ov, dv, w, none⟩ :: allEdges g) := by
  have h1 : allEdges (addEdgeRaw g ov dv w).1
      = allEdges (updateVert g ov (adjPush ⟨g.nextEid, ov, dv, w, none⟩)) := by
    show allEdges (updateVert (updateVert g ov (adjPush ⟨g.nextEid, ov, dv, w, none⟩)) dv
      (incomingPush g.nextEid)) = _
    exact allEdges_updateVert _ _ (incomingPush g.nextEid) (fun v => rfl)
  rw [h1]
  exact allEdges_adjAppend_perm _ hnd hov

@[simp] theorem setRevEdge_eid (i : Nat) (r : Option Nat) (e : Edge) :
    (setRevEdge i r e).eid = e.eid := by
  unfold setRevEdge
  by_cases h : e.eid = i <;> simp [h]

@[simp] theorem setRevEdge_orig (i : Nat) (r : Option Nat) (e : Edge) :
    (setRevEdge i r e).orig = e.orig := by
  unfold setRevEdge
  by_cases h : e.eid = i <;> simp [h]

@[simp] theorem setRevEdge_dest (i : Nat) (r : Option Nat) (e : Edge) :
    (setRevEdge i r e).dest = e.dest := by
  unfold setRevEdge
  by_cases h : e.eid = i <;> simp [h]

@[simp] theorem setRevEdge_weight (i : Nat) (r : Option Nat) (e : Edge) :
    (setRevEdge i r e).weight = e.weight := by
  unfold setRevEdge
  by_cases h : e.eid = i <;> simp [h]

theorem setRevEdge_noop {i : Nat} (r : Option Nat) {e : Edge} (h : ¬ e.eid = i) :
    setRevEdge i r e = e := if_neg h

theorem setRevEdge_hit {i : Nat} (r : Option Nat) {e : Edge} (h : e.eid = i) :
    setRevEdge i r e = { e with reverse := r } := if_pos h

theorem setReverseE_vertexMap (g : Graph) (i : Nat) (r : Option Nat) :
    (setReverseE g i r).vertexMap = g.vertexMap := rfl

theorem setReverseE_nextVid (g : Graph) (i : Nat) (r : Option Nat) :
    (setReverseE g i r).nextVid = g.nextVid := rfl

theorem setReverseE_nextEid (g : Graph) (i : Nat) (r : Option Nat) :
    (setReverseE g i r).nextEid = g.nextEid := rfl

theorem getVert_setReverseE (g : Graph) (i : Nat) (r : Option Nat) (x : Nat) :
    getVert (setReverseE g i r) x = (getVert g x).map (setRevV i r) := by
  unfold getVert setReverseE
  simp only [List.find?_map]
  have hpred : ((fun v : Vertex => v.vid == x) ∘ setRevV i r) = fun v : Vertex => v.vid == x := by
    funext v
    simp [setRevV]
  rw [hpred]

theorem setReverseE_vids (g : Graph) (i : Nat) (r : Option Nat) :
    (setReverseE g i r).vertexSet.map Vertex.vid = g.vertexSet.map Vertex.vid := by
  show (g.vertexSet.map (setRevV i r)).map Vertex.vid = _
  rw [List.map_map]
  exact List.map_congr_left (fun v _ => by simp [setRevV])

theorem setReverseE_infos (g : Graph) (i : Nat) (r : Option Nat) :
    (setReverseE g i r).vertexSet.map Vertex.info = g.vertexSet.map Vertex.info := by
  show (g.vertexSet.map (setRevV i r)).map Vertex.info = _
  rw [List.map_map]
  exact List.map_congr_left (fun v _ => by simp [setRevV])

theorem setReverseE_destInfoOf (g : Graph) (i : Nat) (r : Option Nat) (x : Nat) :
    destInfoOf (setReverseE g i r) x = destInfoOf g x := by
  unfold destInfoOf
  rw [getVert_setReverseE]
  cases getVert g x <;> simp [setRevV]

theorem setReverseE_adjOf (g : Graph) (i : Nat) (r : Option Nat) (x : Nat) :
    adjOf (setReverseE g i r) x = (adjOf g x).map (setRevEdge i r) := by
  unfold adjOf
  rw [getVert_setReverseE]
  cases getVert g x <;> simp [setRevV]

theorem setReverseE_allEdges (g : Graph) (i : Nat) (r : Option Nat) :
    allEdges (setReverseE g i r) = (allEdges g).map (setRevEdge i r) := by
  show ((g.vertexSet.map (setRevV i r)).map Vertex.adj).flatten = _
  unfold allEdges
  rw [List.map_map, List.map_flatten]
  rw [List.map_map]
  exact congrArg List.flatten (List.map_congr_left (fun v _ => by simp [setRevV]))

theorem find_eid_of_mem {l : List Edge} (hnd : (l.map Edge.eid).Nodup)
    {e : Edge} (he : e ∈ l) : l.find? (fun x => x.eid == e.eid) = some e := by
  induction l with
  | nil => simp at he
  | cons a rest ih =>
    simp only [List.map_cons, List.nodup_cons] at hnd
    rcases List.mem_cons.1 he with h | h
    · subst h; simp [List.find?]
    · have hne : ¬ (a.eid == e.eid) = true := by
        simp only [beq_iff_eq]
        intro heq
        exact hnd.1 (heq ▸ List.mem_map_of_mem Edge.eid h)
      simp only [List.find?, hne]
      exact ih hnd.2 h

theorem findEdge_of_mem {g : Graph} (hnd : ((allEdges g).map Edge.eid).Nodup)
    {e : Edge} (he : e ∈ allEdges g) : findEdge g e.eid = some e :=
  find_eid_of_mem hnd he

/-- `e->getReverse()` dereferenced: the paired edge object, when any. -/
def reverseOf (g : Graph) (e : Edge) : Option Edge :=
  e.reverse.bind (findEdge g)

theorem edgeWeightScan_append_skip {g : Graph} {d : Key} {l1 : List Edge} (l2 : List Edge)
    (h : ∀ x ∈ l1, ¬ destInfoOf g x.dest = some d) :
    edgeWeightScan g d (l1 ++ l2) = edgeWeightScan g d l2 := by
  induction l1 with
  | nil => rfl
  | cons a rest ih =>
    rw [List.cons_append, edgeWeightScan_cons_neg _ (h a (List.mem_cons_self _ _))]
    exact ih (fun x hx => h x (List.mem_cons_of_mem _ hx))

theorem edgeWeightScan_first_new {g : Graph} {d : Key} {l : List Edge} {e : Edge}
    (rest : List Edge) (hskip : ∀ x ∈ l, ¬ destInfoOf g x.dest = some d)
    (hmatch : destInfoOf g e.dest = some d) :
    edgeWeightScan g d (l ++ e :: rest) = e.weight := by
  rw [edgeWeightScan_append_skip _ hskip, edgeWeightScan_cons_pos _ hmatch]

theorem getEdgeWeight_eq_scan {g : Graph} {s : Key} (d : Key) {vid : Nat} {v : Vertex}
    (hfv : findVertex g s = some vid) (hv : getVert g vid = some v) :
    g.getEdgeWeight s d = edgeWeightScan g d v.adj := by
  unfold Graph.getEdgeWeight
  rw [hfv]
  simp only [hv]

theorem getVert_isSome_iff_mem_vids {g : Graph} {x : Nat} :
    (getVert g x).isSome = true ↔ x ∈ g.vertexSet.map Vertex.vid := by
  rw [getVert_isSome]
  constructor
  · rintro ⟨v, hv, rfl⟩
    exact List.mem_map_of_mem Vertex.vid hv
  · intro h
    rcases List.mem_map.1 h with ⟨v, hv, rfl⟩
    exact ⟨v, hv, rfl⟩

theorem map_setRevEdge_eq_self {l : List Edge} {i : Nat} (r : Option Nat)
    (h : ∀ x ∈ l, ¬ x.eid = i) : l.map (setRevEdge i r) = l := by
  rw [List.map_congr_left (fun x hx => setRevEdge_noop r (h x hx)), List.map_id']

theorem map_eid_map_setRevEdge (l : List Edge) (i : Nat) (r : Option Nat) :
    (l.map (setRevEdge i r)).map Edge.eid = l.map Edge.eid := by
  rw [List.map_map]
  exact List.map_congr_left (fun x _ => setRevEdge_eid i r x)

theorem adjOf_eq_of_getVert {g : Graph} {x : Nat} {v : Vertex} (h : getVert g x = some v) :
    adjOf g x = v.adj := by
  unfold adjOf
  rw [h]
  rfl

/-! ### Claim C8 — `addBidirectionalEdge` -/

/-- C8 (amended): with both keys present, `addBidirectionalEdge(s,d,w)` returns
true and appends one edge s→d and one edge d→s, both of weight `w`, each
holding the other as its `reverse`; moreover `getEdgeWeight` reports `w` in
both directions provided no earlier edge between the two keys existed in that
direction (`getEdgeWeight` reads the first matching edge, so a pre-existing
edge hides the new weight).  With either key absent it returns false. -/
theorem c8_addBidirectionalEdge_amended (g : Graph) (s d : Key) (w : ℚ) (hg : Wf g) :
    ((findVertex g s = none ∨ findVertex g d = none) →
      (g.addBidirectionalEdge s d w).1 = false) ∧
    (∀ a b : Nat, findVertex g s = some a → findVertex g d = some b →
      (g.addBidirectionalEdge s d w).1 = true ∧
      (∃ e1 e2 : Edge,
        e1 ∈ adjOf (g.addBidirectionalEdge s d w).2 a ∧
        e2 ∈ adjOf (g.addBidirectionalEdge s d w).2 b ∧
        e1.orig = a ∧ e1.dest = b ∧ e1.weight = w ∧
        e2.orig = b ∧ e2.dest = a ∧ e2.weight = w ∧
        reverseOf (g.addBidirectionalEdge s d w).2 e1 = some e2 ∧
        reverseOf (g.addBidirectionalEdge s d w).2 e2 = some e1) ∧
      (¬ hasEdgeKey g s d → (g.addBidirectionalEdge s d w).2.getEdgeWeight s d = w) ∧
      (¬ hasEdgeKey g d s → (g.addBidirectionalEdge s d w).2.getEdgeWeight d s = w)) := by
  constructor
  · intro habs
    unfold Graph.addBidirectionalEdge
    rcases habs with h | h
    · rw [h]
    · rw [h]
      cases findVertex g s <;> rfl
  intro a b ha hb
  rcases findVertex_some_wf hg ha with ⟨va, hva, hvaid, hvas⟩
  rcases findVertex_some_wf hg hb with ⟨vb, hvb, hvbid, hvbs⟩
  have hgva : getVert g a = some va := (getVert_eq_some_iff hg.nodupVids).2 ⟨hva, hvaid⟩
  have hgvb : getVert g b = some vb := (getVert_eq_some_iff hg.nodupVids).2 ⟨hvb, hvbid⟩
  set i1 := g.nextEid with hi1
  set g1 := (addEdgeRaw g a b w).1 with hg1
  have hi2 : g1.nextEid = i1 + 1 := addEdgeRaw_nextEid g a b w
  set g2 := (addEdgeRaw g1 b a w).1 with hg2
  set g3 := setReverseE g2 i1 (some (g1.nextEid)) with hg3
  set g4 := setReverseE g3 g1.nextEid (some i1) with hg4
  have hresult : g.addBidirectionalEdge s d w = (true, g4) := by
    unfold Graph.addBidirectionalEdge
    rw [ha, hb]
    rfl
  rw [hresult]
  clear hresult
  have hE1 : (addEdgeRaw g a b w).2 = i1 := rfl
  -- structural bookkeeping
  have hvids1 : g1.vertexSet.map Vertex.vid = g.vertexSet.map Vertex.vid :=
    addEdgeRaw_vids g a b w
  have hvids2 : g2.vertexSet.map Vertex.vid = g.vertexSet.map Vertex.vid := by
    rw [hg2, addEdgeRaw_vids, hvids1]
  have hvids4 : g4.vertexSet.map Vertex.vid = g.vertexSet.map Vertex.vid := by
    rw [hg4, setReverseE_vids, hg3, setReverseE_vids, hvids2]
  have hdinfo4 : ∀ x, destInfoOf g4 x = destInfoOf g x := by
    intro x
    rw [hg4, setReverseE_destInfoOf, hg3, setReverseE_destInfoOf, hg2,
      addEdgeRaw_destInfoOf, hg1, addEdgeRaw_destInfoOf]
  have hlive1b : (getVert g1 b).isSome = true := by
    rw [getVert_isSome_iff_mem_vids, hvids1]
    exact hvbid ▸ List.mem_map_of_mem Vertex.vid hvb
  rcases Option.isSome_iff_exists.1 hlive1b with ⟨vb1, hgvb1⟩
  have hne12 : ¬ i1 = g1.nextEid := by
    rw [hi2]
    exact Nat.ne_of_lt (Nat.lt_succ_self i1)
  have holdeid : ∀ x ∈ allEdges g, x.eid < i1 := hg.eidLt
  have hmap4 : g4.vertexMap = g.vertexMap := rfl
  have hlive4a : (getVert g4 a).isSome = true := by
    rw [getVert_isSome_iff_mem_vids, hvids4]
    exact hvaid ▸ List.mem_map_of_mem Vertex.vid hva
  rcases Option.isSome_iff_exists.1 hlive4a with ⟨va4, hva4⟩
  have hlive4b : (getVert g4 b).isSome = true := by
    rw [getVert_isSome_iff_mem_vids, hvids4]
    exact hvbid ▸ List.mem_map_of_mem Vertex.vid hvb
  rcases Option.isSome_iff_exists.1 hlive4b with ⟨vb4, hvb4⟩
  have hfv4s : findVertex g4 s = some a := by
    unfold findVertex
    rw [hmap4]
    exact ha
  have hfv4d : findVertex g4 d = some b := by
    unfold findVertex
    rw [hmap4]
    exact hb
  -- permutation and eid bookkeeping for findEdge resolution
  have hperm1 : List.Perm (allEdges g1) (⟨i1, a, b, w, none⟩ :: allEdges g) :=
    allEdges_addEdgeRaw_perm b w hg.nodupVids hgva
  have hnd1vids : (g1.vertexSet.map Vertex.vid).Nodup := by
    rw [hvids1]
    exact hg.nodupVids
  have hperm2 : List.Perm (allEdges g2) (⟨g1.nextEid, b, a, w, none⟩ :: allEdges g1) :=
    allEdges_addEdgeRaw_perm a w hnd1vids hgvb1
  have hall4 : allEdges g4 = ((allEdges g2).map (setRevEdge i1 (some g1.nextEid))).map
      (setRevEdge g1.nextEid (some i1)) := by
    rw [hg4, setReverseE_allEdges, hg3, setReverseE_allEdges]
  have heids2 : List.Perm ((allEdges g2).map Edge.eid)
      (g1.nextEid :: i1 :: (allEdges g).map Edge.eid) := by
    refine (hperm2.map Edge.eid).trans ?_
    rw [List.map_cons]
    exact List.Perm.cons _ (hperm1.map Edge.eid)
  have hnd4 : ((allEdges g4).map Edge.eid).Nodup := by
    rw [hall4, map_eid_map_setRevEdge, map_eid_map_setRevEdge]
    refine (heids2.nodup_iff).2 ?_
    rw [List.nodup_cons, List.nodup_cons]
    refine ⟨?_, ?_, hg.nodupEids⟩
    · rw [List.mem_cons]
      rintro (h | h)
      · exact hne12 h.symm
      · rcases List.mem_map.1 h with ⟨x, hx, hxe⟩
        have := holdeid x hx
        rw [hxe, hi2] at this
        exact absurd this (by simp)
    · intro h
      rcases List.mem_map.1 h with ⟨x, hx, hxe⟩
      have := holdeid x hx
      rw [hxe] at this
      exact absurd this (by simp)
  by_cases hab : a = b
  · subst hab
    have hvv : vb = va := Option.some.inj (hgvb.symm.trans hgva)
    subst hvv
    have hsd : s = d := hvas.symm.trans hvbs
    subst hsd
    have hne21 : ¬ g1.nextEid = i1 := fun hq => hne12 hq.symm
    have hadjvb : ∀ x ∈ vb.adj, x.eid < i1 :=
      fun x hx => holdeid x (mem_allEdges_of_mem hvb hx)
    have hu1 : ∀ x ∈ vb.adj, ¬ x.eid = i1 := fun x hx => Nat.ne_of_lt (hadjvb x hx)
    have hu2 : ∀ x ∈ vb.adj, ¬ x.eid = g1.nextEid := fun x hx => by
      rw [hi2]
      exact Nat.ne_of_lt (Nat.lt_succ_of_lt (hadjvb x hx))
    have hadj1 : adjOf g1 a = vb.adj ++ [⟨i1, a, a, w, none⟩] := by
      rw [hg1, addEdgeRaw_adjOf_self' a w hgva, adjOf_eq_of_getVert hgva]
    have hadj2 : adjOf g2 a
        = (vb.adj ++ [⟨i1, a, a, w, none⟩]) ++ [⟨g1.nextEid, a, a, w, none⟩] := by
      rw [hg2, addEdgeRaw_adjOf_self' a w hgvb1, hadj1]
    have hadj4 : adjOf g4 a
        = vb.adj ++ [⟨i1, a, a, w, some g1.nextEid⟩, ⟨g1.nextEid, a, a, w, some i1⟩] := by
      rw [hg4, setReverseE_adjOf, hg3, setReverseE_adjOf, hadj2]
      rw [List.map_append, List.map_append, List.map_append, List.map_append]
      rw [map_setRevEdge_eq_self _ hu1, map_setRevEdge_eq_self _ hu2]
      simp [setRevEdge, hne12, hne21]
    have hva4adj : va4.adj
        = vb.adj ++ [⟨i1, a, a, w, some g1.nextEid⟩, ⟨g1.nextEid, a, a, w, some i1⟩] := by
      rw [← adjOf_eq_of_getVert hva4, hadj4]
    have he1mem : (⟨i1, a, a, w, some g1.nextEid⟩ : Edge) ∈ adjOf g4 a := by
      rw [hadj4]
      simp
    have he2mem : (⟨g1.nextEid, a, a, w, some i1⟩ : Edge) ∈ adjOf g4 a := by
      rw [hadj4]
      simp
    have he1all : (⟨i1, a, a, w, some g1.nextEid⟩ : Edge) ∈ allEdges g4 := by
      refine mem_allEdges_of_mem (getVert_mem hva4).1 ?_
      rw [hva4adj]
      simp
    have he2all : (⟨g1.nextEid, a, a, w, some i1⟩ : Edge) ∈ allEdges g4 := by
      refine mem_allEdges_of_mem (getVert_mem hva4).1 ?_
      rw [hva4adj]
      simp
    have hmatch : destInfoOf g4 a = some s := by
      rw [hdinfo4]
      unfold destInfoOf
      rw [hgvb]
      simp [hvbs]
    have hgw : ¬ hasEdgeKey g s s → g4.getEdgeWeight s s = w := by
      intro hno
      rw [getEdgeWeight_eq_scan s hfv4s hva4, hva4adj]
      have hskip : ∀ x ∈ vb.adj, ¬ destInfoOf g4 x.dest = some s := by
        intro x hx hm
        rw [hdinfo4] at hm
        exact hno ⟨vb, hvb, hvbs, x, hx, hm⟩
      exact edgeWeightScan_first_new _ hskip hmatch
    exact ⟨rfl,
      ⟨⟨i1, a, a, w, some g1.nextEid⟩, ⟨g1.nextEid, a, a, w, some i1⟩,
        he1mem, he2mem, rfl, rfl, rfl, rfl, rfl, rfl,
        findEdge_of_mem hnd4 he2all, findEdge_of_mem hnd4 he1all⟩,
      fun hno => hgw hno, fun hno => hgw hno⟩
  · have hba : ¬ b = a := fun hq => hab hq.symm
    have hne21 : ¬ g1.nextEid = i1 := fun hq => hne12 hq.symm
    have hadjva : ∀ x ∈ va.adj, x.eid < i1 :=
      fun x hx => holdeid x (mem_allEdges_of_mem hva hx)
    have hadjvb : ∀ x ∈ vb.adj, x.eid < i1 :=
      fun x hx => holdeid x (mem_allEdges_of_mem hvb hx)
    have hu1a : ∀ x ∈ va.adj, ¬ x.eid = i1 := fun x hx => Nat.ne_of_lt (hadjva x hx)
    have hu2a : ∀ x ∈ va.adj, ¬ x.eid = g1.nextEid := fun x hx => by
      rw [hi2]
      exact Nat.ne_of_lt (Nat.lt_succ_of_lt (hadjva x hx))
    have hu1b : ∀ x ∈ vb.adj, ¬ x.eid = i1 := fun x hx => Nat.ne_of_lt (hadjvb x hx)
    have hu2b : ∀ x ∈ vb.adj, ¬ x.eid = g1.nextEid := fun x hx => by
      rw [hi2]
      exact Nat.ne_of_lt (Nat.lt_succ_of_lt (hadjvb x hx))
    have hadj1a : adjOf g1 a = va.adj ++ [⟨i1, a, b, w, none⟩] := by
      rw [hg1, addEdgeRaw_adjOf_self' b w hgva, adjOf_eq_of_getVert hgva]
    have hadj1b : adjOf g1 b = vb.adj := by
      rw [hg1, addEdgeRaw_adjOf_other b w hba, adjOf_eq_of_getVert hgvb]
    have hadj2a : adjOf g2 a = va.adj ++ [⟨i1, a, b, w, none⟩] := by
      rw [hg2, addEdgeRaw_adjOf_other a w hab, hadj1a]
    have hadj2b : adjOf g2 b = vb.adj ++ [⟨g1.nextEid, b, a, w, none⟩] := by
      rw [hg2, addEdgeRaw_adjOf_self' a w hgvb1, hadj1b]
    have hadj4a : adjOf g4 a = va.adj ++ [⟨i1, a, b, w, some g1.nextEid⟩] := by
      rw [hg4, setReverseE_adjOf, hg3, setReverseE_adjOf, hadj2a]
      rw [List.map_append, List.map_append]
      rw [map_setRevEdge_eq_self _ hu1a, map_setRevEdge_eq_self _ hu2a]
      simp [setRevEdge, hne12, hne21]
    have hadj4b : adjOf g4 b = vb.adj ++ [⟨g1.nextEid, b, a, w, some i1⟩] := by
      rw [hg4, setReverseE_adjOf, hg3, setReverseE_adjOf, hadj2b]
      rw [List.map_append, List.map_append]
      rw [map_setRevEdge_eq_self _ hu1b, map_setRevEdge_eq_self _ hu2b]
      simp [setRevEdge, hne12, hne21]
    have hva4adj : va4.adj = va.adj ++ [⟨i1, a, b, w, some g1.nextEid⟩] := by
      rw [← adjOf_eq_of_getVert hva4, hadj4a]
    have hvb4adj : vb4.adj = vb.adj ++ [⟨g1.nextEid, b, a, w, some i1⟩] := by
      rw [← adjOf_eq_of_getVert hvb4, hadj4b]
    have he1mem : (⟨i1, a, b, w, some g1.nextEid⟩ : Edge) ∈ adjOf g4 a := by
      rw [hadj4a]
      simp
    have he2mem : (⟨g1.nextEid, b, a, w, some i1⟩ : Edge) ∈ adjOf g4 b := by
      rw [hadj4b]
      simp
    have he1all : (⟨i1, a, b, w, some g1.nextEid⟩ : Edge) ∈ allEdges g4 := by
      refine mem_allEdges_of_mem (getVert_mem hva4).1 ?_
      rw [hva4adj]
      simp
    have he2all : (⟨g1.nextEid, b, a, w, some i1⟩ : Edge) ∈ allEdges g4 := by
      refine mem_allEdges_of_mem (getVert_mem hvb4).1 ?_
      rw [hvb4adj]
      simp
    have hmatchd : destInfoOf g4 b = some d := by
      rw [hdinfo4]
      unfold destInfoOf
      rw [hgvb]
      simp [hvbs]
    have hmatchs : destInfoOf g4 a = some s := by
      rw [hdinfo4]
      unfold destInfoOf
      rw [hgva]
      simp [hvas]
    refine ⟨rfl,
      ⟨⟨i1, a, b, w, some g1.nextEid⟩, ⟨g1.nextEid, b, a, w, some i1⟩,
        he1mem, he2mem, rfl, rfl, rfl, rfl, rfl, rfl,
        findEdge_of_mem hnd4 he2all, findEdge_of_mem hnd4 he1all⟩, ?_, ?_⟩
    · intro hno
      rw [getEdgeWeight_eq_scan d hfv4s hva4, hva4adj]
      have hskip : ∀ x ∈ va.adj, ¬ destInfoOf g4 x.dest = some d := by
        intro x hx hm
        rw [hdinfo4] at hm
        exact hno ⟨va, hva, hvas, x, hx, hm⟩
      exact edgeWeightScan_first_new _ hskip hmatchd
    · intro hno
      rw [getEdgeWeight_eq_scan s hfv4d hvb4, hvb4adj]
      have hskip : ∀ x ∈ vb.adj, ¬ destInfoOf g4 x.dest = some s := by
        intro x hx hm
        rw [hdinfo4] at hm
        exact hno ⟨vb, hvb, hvbs, x, hx, hm⟩
      exact edgeWeightScan_first_new _ hskip hmatchs

/-- Keys 0, 1, and a pre-existing edge 0→1 of weight 1. -/
def gC8c : Graph := (((emptyGraph.addVertex 0).2.addVertex 1).2.addEdge 0 1 1).2

/-- C8 counterexample: on a graph already holding an edge 0→1 of weight 1,
`addBidirectionalEdge(0,1,2)` succeeds but `getEdgeWeight(0,1)` still reports
the weight 1 of the first (old) edge, not the new weight 2 — so the claim's
"getEdgeWeight(s,d) = getEdgeWeight(d,s) = w for every graph with present
keys" is false as stated. -/
theorem c8_counterexample :
    ¬ (∀ g : Graph, Wf g → ∀ s d : Key, ∀ w : ℚ,
        (findVertex g s).isSome = true → (findVertex g d).isSome = true →
        (g.addBidirectionalEdge s d w).2.getEdgeWeight s d = w) := by
  intro h
  have hinst := h gC8c (by decide) 0 1 2 (by decide) (by decide)
  have hval : (gC8c.addBidirectionalEdge 0 1 2).2.getEdgeWeight 0 1 = 1 := by decide
  rw [hval] at hinst
  exact absurd hinst (by norm_num)

/-- A well-formed graph with fresh keys 0 and 1 and no edges. -/
def gC8w : Graph := ((emptyGraph.addVertex 0).2.addVertex 1).2

/-- Witness instantiating `c8_addBidirectionalEdge_amended` on `gC8w`. -/
theorem c8_witness : Wf gC8w ∧
    (((findVertex gC8w 0 = none ∨ findVertex gC8w 1 = none) →
      (gC8w.addBidirectionalEdge 0 1 3).1 = false) ∧
    (∀ a b : Nat, findVertex gC8w 0 = some a → findVertex gC8w 1 = some b →
      (gC8w.addBidirectionalEdge 0 1 3).1 = true ∧
      (∃ e1 e2 : Edge,
        e1 ∈ adjOf (gC8w.addBidirectionalEdge 0 1 3).2 a ∧
        e2 ∈ adjOf (gC8w.addBidirectionalEdge 0 1 3).2 b ∧
        e1.orig = a ∧ e1.dest = b ∧ e1.weight = 3 ∧
        e2.orig = b ∧ e2.dest = a ∧ e2.weight = 3 ∧
        reverseOf (gC8w.addBidirectionalEdge 0 1 3).2 e1 = some e2 ∧
        reverseOf (gC8w.addBidirectionalEdge 0 1 3).2 e2 = some e1) ∧
      (¬ hasEdgeKey gC8w 0 1 → (gC8w.addBidirectionalEdge 0 1 3).2.getEdgeWeight 0 1 = 3) ∧
      (¬ hasEdgeKey gC8w 1 0 → (gC8w.addBidirectionalEdge 0 1 3).2.getEdgeWeight 1 0 = 3))) :=
  ⟨by decide, c8_addBidirectionalEdge_amended gC8w 0 1 3 (by decide)⟩

/-! ### Shrinking steps: the removal operations only filter `adj` lists and
rewrite `incoming` lists, keeping the vertex skeleton (vids, infos, index,
counters) intact. -/

structure Shrinks (g g' : Graph) : Prop where
  vids : g'.vertexSet.map Vertex.vid = g.vertexSet.map Vertex.vid
  infos : g'.vertexSet.map Vertex.info = g.vertexSet.map Vertex.info
  vmap : g'.vertexMap = g.vertexMap
  nvid : g'.nextVid = g.nextVid
  neid : g'.nextEid = g.nextEid
  adjSub : ∀ x, (adjOf g' x).Sublist (adjOf g x)

theorem Shrinks.refl (g : Graph) : Shrinks g g :=
  ⟨rfl, rfl, rfl, rfl, rfl, fun _ => List.Sublist.refl _⟩

theorem Shrinks.trans {g1 g2 g3 : Graph} (h12 : Shrinks g1 g2) (h23 : Shrinks g2 g3) :
    Shrinks g1 g3 :=
  ⟨h23.vids.trans h12.vids, h23.infos.trans h12.infos, h23.vmap.trans h12.vmap,
    h23.nvid.trans h12.nvid, h23.neid.trans h12.neid,
    fun x => (h23.adjSub x).trans (h12.adjSub x)⟩

/-- Matching vid and info columns transfer `destInfoOf` between two graphs. -/
theorem destInfoOf_congr {g g' : Graph}
    (hv : g'.vertexSet.map Vertex.vid = g.vertexSet.map Vertex.vid)
    (hi : g'.vertexSet.map Vertex.info = g.vertexSet.map Vertex.info) (x : Nat) :
    destInfoOf g' x = destInfoOf g x := by
  unfold destInfoOf getVert
  have : ∀ (l l' : List Vertex), l'.map Vertex.vid = l.map Vertex.vid →
      l'.map Vertex.info = l.map Vertex.info →
      (l'.find? (fun v => v.vid == x)).map Vertex.info
        = (l.find? (fun v => v.vid == x)).map Vertex.info := by
    intro l
    induction l with
    | nil =>
      intro l' hv' _
      cases l' with
      | nil => rfl
      | cons a t => simp at hv'
    | cons a t ih =>
      intro l' hv' hi'
      cases l' with
      | nil => simp at hv'
      | cons b t' =>
        simp only [List.map_cons, List.cons.injEq] at hv' hi'
        by_cases hb : a.vid = x
        · have hbx : (b.vid == x) = true := by simp [hv'.1, hb]
          have hax : (a.vid == x) = true := by simp [hb]
          simp only [List.find?, hbx, hax]
          simp [hi'.1]
        · have hbx : (b.vid == x) = false := by simp [hv'.1, hb]
          have hax : (a.vid == x) = false := by simp [hb]
          simp only [List.find?, hbx, hax]
          exact ih t' hv'.2 hi'.2
  exact this g.vertexSet g'.vertexSet hv hi

theorem Shrinks.destInfo {g g' : Graph} (h : Shrinks g g') (x : Nat) :
    destInfoOf g' x = destInfoOf g x :=
  destInfoOf_congr h.vids h.infos x

/-- Matching vid and info columns transfer existence of a vertex with a given
vid and info. -/
theorem exists_vid_info_congr {l l' : List Vertex}
    (hv : l'.map Vertex.vid = l.map Vertex.vid)
    (hi : l'.map Vertex.info = l.map Vertex.info) {a : Nat} {k : Key}
    (h : ∃ v ∈ l, v.vid = a ∧ v.info = k) : ∃ v ∈ l', v.vid = a ∧ v.info = k := by
  induction l generalizing l' with
  | nil => rcases h with ⟨v, hv0, -⟩; simp at hv0
  | cons c t ih =>
    cases l' with
    | nil => simp at hv
    | cons b t' =>
      simp only [List.map_cons, List.cons.injEq] at hv hi
      rcases h with ⟨v, hv0, hva, hvk⟩
      rcases List.mem_cons.1 hv0 with rfl | hmem
      · exact ⟨b, List.mem_cons_self _ _, hv.1.trans hva, hi.1.trans hvk⟩
      · rcases ih hv.2 hi.2 ⟨v, hmem, hva, hvk⟩ with ⟨v', hv', hh⟩
        exact ⟨v', List.mem_cons_of_mem _ hv', hh⟩

/-- Pointwise sublists of the adjacency column give a sublist of `allEdges`. -/
theorem allEdges_sublist_of_shrinks {g g' : Graph} (hnd : (g.vertexSet.map Vertex.vid).Nodup)
    (h : Shrinks g g') : (allEdges g').Sublist (allEdges g) := by
  have hnd' : (g'.vertexSet.map Vertex.vid).Nodup := by rw [h.vids]; exact hnd
  have hpair : ∀ (l l' : List Vertex), l'.map Vertex.vid = l.map Vertex.vid →
      (∀ x, (adjOf g' x).Sublist (adjOf g x)) →
      (∀ v' ∈ l', ∀ v ∈ l, v'.vid = v.vid → (adjOf g' v'.vid).Sublist (adjOf g v.vid)) := by
    intro l l' _ hsub v' _ v _ hvv
    rw [hvv]
    exact hsub v.vid
  -- walk both vertex lists in lockstep
  have main : ∀ (l l' : List Vertex), l'.map Vertex.vid = l.map Vertex.vid →
      (∀ v ∈ l', v ∈ g'.vertexSet) → (∀ v ∈ l, v ∈ g.vertexSet) →
      ((l'.map Vertex.adj).flatten).Sublist ((l.map Vertex.adj).flatten) := by
    intro l
    induction l with
    | nil =>
      intro l' hv _ _
      cases l' with
      | nil => exact List.Sublist.refl _
      | cons a t => simp at hv
    | cons c t ih =>
      intro l' hv hmem' hmem
      cases l' with
      | nil => simp at hv
      | cons b t' =>
        simp only [List.map_cons, List.cons.injEq] at hv
        simp only [List.map_cons, List.flatten_cons]
        have hbc : b.adj.Sublist c.adj := by
          have hb : getVert g' b.vid = some b :=
            (getVert_eq_some_iff hnd').2 ⟨hmem' b (List.mem_cons_self _ _), rfl⟩
          have hc : getVert g c.vid = some c :=
            (getVert_eq_some_iff hnd).2 ⟨hmem c (List.mem_cons_self _ _), rfl⟩
          have := h.adjSub b.vid
          rw [adjOf_eq_of_getVert hb, hv.1, adjOf_eq_of_getVert hc] at this
          exact this
        refine List.Sublist.append hbc ?_
        exact ih t' hv.2 (fun v hv0 => hmem' v (List.mem_cons_of_mem _ hv0))
          (fun v hv0 => hmem v (List.mem_cons_of_mem _ hv0))
  exact main g.vertexSet g'.vertexSet h.vids (fun v hv => hv) (fun v hv => hv)

theorem deleteEdgeAux_adjOf (g : Graph) (i : Key) (e : Edge) (x : Nat) :
    adjOf (deleteEdgeAux g i e) x = adjOf g x := by
  unfold deleteEdgeAux
  exact adjOf_updateVert_notadj _ _ (incomingPurge g i e) (fun v => rfl) (fun v => rfl) x

theorem deleteEdgeAux_shrinks (g : Graph) (i : Key) (e : Edge) :
    Shrinks g (deleteEdgeAux g i e) := by
  refine ⟨?_, ?_, rfl, rfl, rfl, ?_⟩
  · exact vids_updateVert _ _ (incomingPurge g i e) (fun v => rfl)
  · exact infos_updateVert _ _ (incomingPurge g i e) (fun v => rfl)
  · intro x
    rw [deleteEdgeAux_adjOf]

theorem eraseAdjEdge_adjOf_self (g : Graph) (vid eid : Nat) :
    adjOf (eraseAdjEdge g vid eid) vid = (adjOf g vid).filter (fun e => ¬ e.eid = eid) := by
  unfold eraseAdjEdge
  rw [adjOf_updateVert _ _ (adjEraseEid eid) (fun v => rfl), if_pos rfl]
  unfold adjOf
  cases getVert g vid <;> rfl

theorem eraseAdjEdge_adjOf_other (g : Graph) {vid : Nat} (eid : Nat) {x : Nat}
    (hx : ¬ x = vid) : adjOf (eraseAdjEdge g vid eid) x = adjOf g x := by
  unfold eraseAdjEdge
  rw [adjOf_updateVert _ _ (adjEraseEid eid) (fun v => rfl), if_neg hx]

theorem eraseAdjEdge_shrinks (g : Graph) (vid eid : Nat) :
    Shrinks g (eraseAdjEdge g vid eid) := by
  refine ⟨?_, ?_, rfl, rfl, rfl, ?_⟩
  · exact vids_updateVert _ _ (adjEraseEid eid) (fun v => rfl)
  · exact infos_updateVert _ _ (adjEraseEid eid) (fun v => rfl)
  · intro x
    by_cases hx : x = vid
    · subst hx
      rw [eraseAdjEdge_adjOf_self]
      exact List.filter_sublist _
    · rw [eraseAdjEdge_adjOf_other g eid hx]

/-- The edge ids collected for removal by `Vertex::removeEdge(target)`. -/
def matchedEids (g : Graph) (target : Key) (es : List Edge) : List Nat :=
  (es.filter (fun e => destInfoOf g e.dest == some target)).map Edge.eid

theorem matchedEids_congr {g g' : Graph} (h : ∀ x, destInfoOf g' x = destInfoOf g x)
    (target : Key) (es : List Edge) : matchedEids g' target es = matchedEids g target es := by
  unfold matchedEids
  rw [List.filter_congr (fun e _ => by rw [h e.dest])]

theorem removeEdgeLoop_spec (selfVid : Nat) (selfInfo target : Key) :
    ∀ (es : List Edge) (g : Graph),
      Shrinks g (removeEdgeLoop selfVid selfInfo target g es).1 ∧
      (∀ x, ¬ x = selfVid →
        adjOf (removeEdgeLoop selfVid selfInfo target g es).1 x = adjOf g x) ∧
      adjOf (removeEdgeLoop selfVid selfInfo target g es).1 selfVid
        = (adjOf g selfVid).filter (fun a => ¬ a.eid ∈ matchedEids g target es) ∧
      ((removeEdgeLoop selfVid selfInfo target g es).2 = true ↔
        ∃ e ∈ es, destInfoOf g e.dest = some target) := by
  intro es
  induction es with
  | nil =>
    intro g
    refine ⟨Shrinks.refl g, fun x _ => rfl, ?_, by simp [removeEdgeLoop]⟩
    simp [removeEdgeLoop, matchedEids]
  | cons e rest ih =>
    intro g
    by_cases hcond : destInfoOf g e.dest = some target
    · have hstep : removeEdgeLoop selfVid selfInfo target g (e :: rest)
          = ((removeEdgeLoop selfVid selfInfo target
              (deleteEdgeAux (eraseAdjEdge g selfVid e.eid) selfInfo e) rest).1, true) := by
        simp only [removeEdgeLoop, destInfoOf_eq]
        rw [if_pos hcond]
      set g2 := deleteEdgeAux (eraseAdjEdge g selfVid e.eid) selfInfo e with hg2
      have hsk2 : Shrinks g g2 :=
        (eraseAdjEdge_shrinks g selfVid e.eid).trans (deleteEdgeAux_shrinks _ selfInfo e)
      have hdi2 : ∀ x, destInfoOf g2 x = destInfoOf g x := hsk2.destInfo
      rcases ih g2 with ⟨hskr, hother, hself, -⟩
      have hM : matchedEids g2 target rest = matchedEids g target rest :=
        matchedEids_congr hdi2 target rest
      have hMcons : matchedEids g target (e :: rest)
          = e.eid :: matchedEids g target rest := by
        unfold matchedEids
        rw [List.filter_cons_of_pos (by simpa using hcond)]
        rfl
      refine ⟨?_, ?_, ?_, ?_⟩
      · rw [hstep]
        exact hsk2.trans hskr
      · intro x hx
        rw [hstep]
        show adjOf (removeEdgeLoop selfVid selfInfo target g2 rest).1 x = adjOf g x
        rw [hother x hx, hg2, deleteEdgeAux_adjOf, eraseAdjEdge_adjOf_other g e.eid hx]
      · rw [hstep]
        show adjOf (removeEdgeLoop selfVid selfInfo target g2 rest).1 selfVid = _
        rw [hself, hM, hg2, deleteEdgeAux_adjOf, eraseAdjEdge_adjOf_self, hMcons]
        rw [List.filter_filter]
        refine List.filter_congr ?_
        intro a _
        by_cases h1 : a.eid = e.eid <;> by_cases h2 : a.eid ∈ matchedEids g target rest <;>
          simp [h1, h2]
      · rw [hstep]
        constructor
        · intro _
          exact ⟨e, List.mem_cons_self _ _, hcond⟩
        · intro _
          rfl
    · have hstep : removeEdgeLoop selfVid selfInfo target g (e :: rest)
          = removeEdgeLoop selfVid selfInfo target g rest := by
        simp only [removeEdgeLoop, destInfoOf_eq]
        rw [if_neg hcond]
      have hMcons : matchedEids g target (e :: rest) = matchedEids g target rest := by
        unfold matchedEids
        rw [List.filter_cons_of_neg (by simpa using hcond)]
      rcases ih g with ⟨hskr, hother, hself, hflag⟩
      refine ⟨?_, ?_, ?_, ?_⟩
      · rw [hstep]; exact hskr
      · intro x hx
        rw [hstep]
        exact hother x hx
      · rw [hstep, hself, hMcons]
      · rw [hstep, hflag]
        simp only [List.mem_cons]
        constructor
        · rintro ⟨x, hx, hxx⟩
          exact ⟨x, Or.inr hx, hxx⟩
        · rintro ⟨x, hx, hxx⟩
          rcases hx with rfl | hx
          · exact absurd hxx hcond
          · exact ⟨x, hx, hxx⟩

theorem removeEdgeV_shrinks (g : Graph) (vid : Nat) (target : Key) :
    Shrinks g (removeEdgeV g vid target).1 := by
  unfold removeEdgeV
  cases hv : getVert g vid with
  | none => exact Shrinks.refl g
  | some v => exact (removeEdgeLoop_spec vid v.info target v.adj g).1

theorem removeEdgeV_adjOf_other (g : Graph) {vid : Nat} (target : Key) {x : Nat}
    (hx : ¬ x = vid) : adjOf (removeEdgeV g vid target).1 x = adjOf g x := by
  unfold removeEdgeV
  cases hv : getVert g vid with
  | none => rfl
  | some v => exact (removeEdgeLoop_spec vid v.info target v.adj g).2.1 x hx

theorem removeEdgeV_no_match (g : Graph) (vid : Nat) (target : Key) :
    ∀ a ∈ adjOf (removeEdgeV g vid target).1 vid,
      ¬ destInfoOf (removeEdgeV g vid target).1 a.dest = some target := by
  intro a ha hmatch
  have hdi : destInfoOf (removeEdgeV g vid target).1 a.dest = destInfoOf g a.dest :=
    (removeEdgeV_shrinks g vid target).destInfo a.dest
  rw [hdi] at hmatch
  revert ha
  unfold removeEdgeV
  cases hv : getVert g vid with
  | none =>
    intro ha
    unfold adjOf at ha
    rw [hv] at ha
    simp at ha
  | some v =>
    intro ha
    rw [(removeEdgeLoop_spec vid v.info target v.adj g).2.2.1] at ha
    rcases List.mem_filter.1 ha with ⟨hmem, hkeep⟩
    have hin : a.eid ∈ matchedEids g target v.adj := by
      unfold matchedEids
      refine List.mem_map_of_mem Edge.eid ?_
      refine List.mem_filter.2 ⟨?_, by simpa using hmatch⟩
      have : adjOf g vid = v.adj := adjOf_eq_of_getVert hv
      rw [this] at hmem
      exact hmem
    simp [hin] at hkeep

theorem removeEdgeV_flag (g : Graph) (vid : Nat) (target : Key) {v : Vertex}
    (hv : getVert g vid = some v) :
    ((removeEdgeV g vid target).2 = true ↔ ∃ e ∈ v.adj, destInfoOf g e.dest = some target) := by
  unfold removeEdgeV
  rw [hv]
  exact (removeEdgeLoop_spec vid v.info target v.adj g).2.2.2

theorem removeOutLoop_spec (selfVid : Nat) (selfInfo : Key) :
    ∀ (es : List Edge) (g : Graph),
      Shrinks g (removeOutLoop selfVid selfInfo g es) ∧
      (∀ x, ¬ x = selfVid → adjOf (removeOutLoop selfVid selfInfo g es) x = adjOf g x) ∧
      adjOf (removeOutLoop selfVid selfInfo g es) selfVid
        = (adjOf g selfVid).filter (fun a => ¬ a.eid ∈ es.map Edge.eid) := by
  intro es
  induction es with
  | nil =>
    intro g
    refine ⟨Shrinks.refl g, fun x _ => rfl, ?_⟩
    simp [removeOutLoop]
  | cons e rest ih =>
    intro g
    have hstep : removeOutLoop selfVid selfInfo g (e :: rest)
        = removeOutLoop selfVid selfInfo
            (deleteEdgeAux (eraseAdjEdge g selfVid e.eid) selfInfo e) rest := rfl
    set g2 := deleteEdgeAux (eraseAdjEdge g selfVid e.eid) selfInfo e with hg2
    have hsk2 : Shrinks g g2 :=
      (eraseAdjEdge_shrinks g selfVid e.eid).trans (deleteEdgeAux_shrinks _ selfInfo e)
    rcases ih g2 with ⟨hskr, hother, hself⟩
    refine ⟨?_, ?_, ?_⟩
    · rw [hstep]
      exact hsk2.trans hskr
    · intro x hx
      rw [hstep, hother x hx, hg2, deleteEdgeAux_adjOf, eraseAdjEdge_adjOf_other g e.eid hx]
    · rw [hstep, hself, hg2, deleteEdgeAux_adjOf, eraseAdjEdge_adjOf_self]
      rw [List.filter_filter]
      refine List.filter_congr ?_
      intro a _
      by_cases h1 : a.eid = e.eid <;> by_cases h2 : a.eid ∈ rest.map Edge.eid <;>
        simp [h1, h2]

theorem removeOutgoingEdges_shrinks (g : Graph) (vid : Nat) :
    Shrinks g (removeOutgoingEdges g vid) := by
  unfold removeOutgoingEdges
  cases hv : getVert g vid with
  | none => exact Shrinks.refl g
  | some v => exact (removeOutLoop_spec vid v.info v.adj g).1

theorem removeOutgoingEdges_adjOf_other (g : Graph) {vid : Nat} {x : Nat} (hx : ¬ x = vid) :
    adjOf (removeOutgoingEdges g vid) x = adjOf g x := by
  unfold removeOutgoingEdges
  cases hv : getVert g vid with
  | none => rfl
  | some v => exact (removeOutLoop_spec vid v.info v.adj g).2.1 x hx

theorem removeOutgoingEdges_adjOf_self (g : Graph) (vid : Nat) :
    adjOf (removeOutgoingEdges g vid) vid = [] := by
  unfold removeOutgoingEdges
  cases hv : getVert g vid with
  | none =>
    unfold adjOf
    rw [hv]
    rfl
  | some v =>
    rw [(removeOutLoop_spec vid v.info v.adj g).2.2]
    rw [adjOf_eq_of_getVert hv]
    refine List.filter_eq_nil_iff.2 ?_
    intro a ha
    simp [List.mem_map_of_mem Edge.eid ha]

theorem removeVertexLoop_spec (vid : Nat) (vinfo : Key) :
    ∀ (us : List Nat) (g : Graph),
      Shrinks g (removeVertexLoop vid vinfo g us) ∧
      (∀ u ∈ us,
        (u = vid → adjOf (removeVertexLoop vid vinfo g us) u = []) ∧
        (¬ u = vid → ∀ a ∈ adjOf (removeVertexLoop vid vinfo g us) u,
          ¬ destInfoOf (removeVertexLoop vid vinfo g us) a.dest = some vinfo)) := by
  intro us
  induction us with
  | nil =>
    intro g
    exact ⟨Shrinks.refl g, fun u hu => absurd hu (List.not_mem_nil u)⟩
  | cons u rest ih =>
    intro g
    by_cases hu : u = vid
    · subst hu
      have hstep : removeVertexLoop u vinfo g (u :: rest)
          = removeVertexLoop u vinfo (removeOutgoingEdges g u) rest := by
        simp [removeVertexLoop]
      set g1 := removeOutgoingEdges g u with hg1
      rcases ih g1 with ⟨hskr, hrest⟩
      have hsk : Shrinks g (removeVertexLoop u vinfo g (u :: rest)) := by
        rw [hstep]
        exact (removeOutgoingEdges_shrinks g u).trans hskr
      refine ⟨hsk, ?_⟩
      intro x hx
      rcases List.mem_cons.1 hx with rfl | hxr
      · refine ⟨fun _ => ?_, fun hne => absurd rfl hne⟩
        rw [hstep]
        have hsub := hskr.adjSub x
        rw [removeOutgoingEdges_adjOf_self g x] at hsub
        exact List.sublist_nil.1 hsub
      · rcases hrest x hxr with ⟨h1, h2⟩
        rw [hstep]
        exact ⟨h1, h2⟩
    · have hstep : removeVertexLoop vid vinfo g (u :: rest)
          = removeVertexLoop vid vinfo (removeEdgeV g u vinfo).1 rest := by
        simp only [removeVertexLoop]
        rw [if_neg hu]
      set g1 := (removeEdgeV g u vinfo).1 with hg1
      rcases ih g1 with ⟨hskr, hrest⟩
      have hsk : Shrinks g (removeVertexLoop vid vinfo g (u :: rest)) := by
        rw [hstep]
        exact (removeEdgeV_shrinks g u vinfo).trans hskr
      refine ⟨hsk, ?_⟩
      intro x hx
      rcases List.mem_cons.1 hx with rfl | hxr
      · refine ⟨fun hq => absurd hq hu, fun _ => ?_⟩
        intro a ha hmatch
        rw [hstep] at ha hmatch
        have hsub := hskr.adjSub x
        have hmem1 : a ∈ adjOf g1 x := hsub.subset ha
        have hdi : destInfoOf (removeVertexLoop vid vinfo g1 rest) a.dest
            = destInfoOf g1 a.dest := hskr.destInfo a.dest
        rw [hdi] at hmatch
        exact removeEdgeV_no_match g x vinfo a hmem1 hmatch
      · rcases hrest x hxr with ⟨h1, h2⟩
        rw [hstep]
        exact ⟨h1, h2⟩

theorem removeVertex_eq {g : Graph} {k : Key} {vid : Nat}
    (hk : lookupK g.vertexMap k = some vid) :
    g.removeVertex k = (true,
      { removeVertexLoop vid (infoOf g vid) g (g.vertexSet.map Vertex.vid) with
        vertexSet := (removeVertexLoop vid (infoOf g vid) g
          (g.vertexSet.map Vertex.vid)).vertexSet.filter (fun v => ¬ v.vid = vid)
        vertexMap := eraseK (removeVertexLoop vid (infoOf g vid) g
          (g.vertexSet.map Vertex.vid)).vertexMap k }) := by
  unfold Graph.removeVertex
  rw [hk]

/-! ### Claim C6 — `removeVertex` -/

theorem removeVertex_props (g : Graph) (k : Key) (hg : Wf g) :
    ((g.removeVertex k).1 = false ↔ findVertex g k = none) ∧
    findVertex (g.removeVertex k).2 k = none ∧
    (∀ v ∈ (g.removeVertex k).2.vertexSet, ¬ v.info = k) ∧
    (∀ vid, findVertex g k = some vid →
      ∀ v ∈ (g.removeVertex k).2.vertexSet, ∀ e ∈ v.adj,
        ¬ e.orig = vid ∧ ¬ e.dest = vid) := by
  cases hk : lookupK g.vertexMap k with
  | none =>
    have hrm : g.removeVertex k = (false, g) := by
      unfold Graph.removeVertex
      rw [hk]
    have hfind : findVertex g k = none := hk
    rw [hrm]
    refine ⟨by simp [hfind], hfind, ?_, ?_⟩
    · intro v hv hvk
      exact findVertex_none_wf hg hfind v hv hvk
    · intro vid hvid
      rw [hfind] at hvid
      exact Option.noConfusion hvid
  | some vid =>
    rcases hg.mapEntries (k, vid) (lookupK_mem hk) with ⟨va, hva, hvavid, hvak⟩
    have hgva : getVert g vid = some va := (getVert_eq_some_iff hg.nodupVids).2 ⟨hva, hvavid⟩
    have hvinfo : infoOf g vid = k := by
      unfold infoOf
      rw [hgva]
      simpa using hvak
    rw [removeVertex_eq hk, hvinfo]
    set g1 := removeVertexLoop vid k g (g.vertexSet.map Vertex.vid) with hg1
    rcases removeVertexLoop_spec vid k (g.vertexSet.map Vertex.vid) g with ⟨hsk, hproc⟩
    rw [← hg1] at hsk hproc
    have hnd1 : (g1.vertexSet.map Vertex.vid).Nodup := by
      rw [hsk.vids]
      exact hg.nodupVids
    have hfind : findVertex g k = some vid := hk
    have hmem_g_of_g1 : ∀ v ∈ g1.vertexSet, ∃ w ∈ g.vertexSet, w.vid = v.vid ∧ w.info = v.info := by
      intro v hv
      exact exists_vid_info_congr hsk.vids.symm hsk.infos.symm
        ⟨v, hv, rfl, rfl⟩
    refine ⟨?_, ?_, ?_, ?_⟩
    · constructor
      · intro h
        exact absurd h (by simp)
      · intro h
        rw [hfind] at h
        exact Option.noConfusion h
    · show lookupK (eraseK g1.vertexMap k) k = none
      have : g1.vertexMap = g.vertexMap := hsk.vmap
      rw [this]
      exact eraseK_lookup_self g.vertexMap k hg.nodupMapKeys
    · intro v hv hvk
      rcases List.mem_filter.1 hv with ⟨hv1, hkeep⟩
      rcases hmem_g_of_g1 v hv1 with ⟨w, hw, hwvid, hwinfo⟩
      have hwk : w.info = k := by rw [hwinfo, hvk]
      have hwva : w = va := List.inj_on_of_nodup_map hg.nodupInfos hw hva (by rw [hwk, hvak])
      have : v.vid = vid := by rw [← hwvid, hwva, hvavid]
      simp [this] at hkeep
    · intro vid' hvid' v hv e he
      have hvidvid : vid = vid' := by
        rw [hfind] at hvid'
        exact Option.some.inj hvid'
      subst hvidvid
      rcases List.mem_filter.1 hv with ⟨hv1, hkeep⟩
      have hvne : ¬ v.vid = vid := by simpa using hkeep
      have hgv1 : getVert g1 v.vid = some v := (getVert_eq_some_iff hnd1).2 ⟨hv1, rfl⟩
      have headj1 : e ∈ adjOf g1 v.vid := by
        rw [adjOf_eq_of_getVert hgv1]
        exact he
      have hmemvids : v.vid ∈ g.vertexSet.map Vertex.vid := by
        rw [← hsk.vids]
        exact List.mem_map_of_mem Vertex.vid hv1
      constructor
      · -- origin: the edge comes from v's adjacency in g, whose edges originate at v
        have headjg : e ∈ adjOf g v.vid := (hsk.adjSub v.vid).subset headj1
        have hlive : (getVert g v.vid).isSome = true :=
          getVert_isSome_iff_mem_vids.2 hmemvids
        rcases Option.isSome_iff_exists.1 hlive with ⟨w, hw⟩
        rw [adjOf_eq_of_getVert hw] at headjg
        have : e.orig = w.vid := hg.edgeOrig w (getVert_mem hw).1 e headjg
        rw [this, (getVert_mem hw).2]
        exact hvne
      · -- destination: the loop removed every edge into the doomed vertex
        intro hdest
        have hnm := (hproc v.vid hmemvids).2 hvne e headj1
        apply hnm
        rw [hdest]
        rcases exists_vid_info_congr hsk.vids hsk.infos ⟨va, hva, hvavid, hvak⟩
          with ⟨va1, hva1, hva1vid, hva1k⟩
        have hgv : getVert g1 vid = some va1 := (getVert_eq_some_iff hnd1).2 ⟨hva1, hva1vid⟩
        unfold destInfoOf
        rw [hgv]
        simpa using hva1k

/-- C6: `removeVertex(k)` returns false iff `k` is absent; afterwards the key
index no longer resolves `k`, no vertex carries key `k`, and (when `k` was
present, held by the vertex object `vid`) no edge anywhere has that vertex as
origin or destination. -/
theorem c6_removeVertex (g : Graph) (k : Key) (hg : Wf g) :
    ((g.removeVertex k).1 = false ↔ findVertex g k = none) ∧
    findVertex (g.removeVertex k).2 k = none ∧
    (∀ v ∈ (g.removeVertex k).2.vertexSet, ¬ v.info = k) ∧
    (∀ vid, findVertex g k = some vid →
      ∀ v ∈ (g.removeVertex k).2.vertexSet, ∀ e ∈ v.adj,
        ¬ e.orig = vid ∧ ¬ e.dest = vid) :=
  removeVertex_props g k hg

/-- Keys 1, 2, 3 with edges 1→2 and 2→3 (the spec's S1 scenario). -/
def gC6w : Graph :=
  (((((emptyGraph.addVertex 1).2.addVertex 2).2.addVertex 3).2.addEdge 1 2 5).2.addEdge
    2 3 7).2

/-- Witness instantiating `c6_removeVertex` on `gC6w` with key 2. -/
theorem c6_witness : Wf gC6w ∧
    (((gC6w.removeVertex 2).1 = false ↔ findVertex gC6w 2 = none) ∧
    findVertex (gC6w.removeVertex 2).2 2 = none ∧
    (∀ v ∈ (gC6w.removeVertex 2).2.vertexSet, ¬ v.info = 2) ∧
    (∀ vid, findVertex gC6w 2 = some vid →
      ∀ v ∈ (gC6w.removeVertex 2).2.vertexSet, ∀ e ∈ v.adj,
        ¬ e.orig = vid ∧ ¬ e.dest = vid)) :=
  ⟨by decide, c6_removeVertex gC6w 2 (by decide)⟩

/-! ### Well-formedness is preserved by every public mutation -/

theorem mem_vid_info_transfer {g g' : Graph}
    (hv : g'.vertexSet.map Vertex.vid = g.vertexSet.map Vertex.vid)
    (hi : g'.vertexSet.map Vertex.info = g.vertexSet.map Vertex.info) :
    ∀ v' ∈ g'.vertexSet, ∃ v ∈ g.vertexSet, v.vid = v'.vid ∧ v.info = v'.info := by
  intro v' hmem
  exact exists_vid_info_congr hv.symm hi.symm ⟨v', hmem, rfl, rfl⟩

/-- A shrinking step (columns and index intact, adjacencies sublists)
preserves well-formedness. -/
theorem wf_of_shrinks {g g' : Graph} (hg : Wf g) (hsk : Shrinks g g') : Wf g' := by
  have hnd' : (g'.vertexSet.map Vertex.vid).Nodup := by rw [hsk.vids]; exact hg.nodupVids
  have hsubadj : ∀ v' ∈ g'.vertexSet, ∃ v ∈ g.vertexSet, v.vid = v'.vid ∧ v.info = v'.info ∧
      ∀ e ∈ v'.adj, e ∈ v.adj := by
    intro v' hmem
    rcases mem_vid_info_transfer hsk.vids hsk.infos v' hmem with ⟨v, hv, hvv, hvi⟩
    refine ⟨v, hv, hvv, hvi, ?_⟩
    intro e he
    have h1 : adjOf g' v'.vid = v'.adj :=
      adjOf_eq_of_getVert ((getVert_eq_some_iff hnd').2 ⟨hmem, rfl⟩)
    have h2 : adjOf g v'.vid = v.adj := by
      rw [← hvv]
      exact adjOf_eq_of_getVert ((getVert_eq_some_iff hg.nodupVids).2 ⟨hv, rfl⟩)
    have := (hsk.adjSub v'.vid).subset
    rw [h1, h2] at this
    exact this he
  refine ⟨hnd', ?_, ?_, ?_, ?_, ?_, ?_, ?_, ?_, ?_⟩
  · rw [hsk.infos]; exact hg.nodupInfos
  · rw [hsk.vmap]; exact hg.nodupMapKeys
  · intro p hp
    rw [hsk.vmap] at hp
    exact exists_vid_info_congr hsk.vids hsk.infos (hg.mapEntries p hp)
  · intro v' hv'
    rcases mem_vid_info_transfer hsk.vids hsk.infos v' hv' with ⟨v, hv, hvv, hvi⟩
    rw [hsk.vmap, ← hvi, ← hvv]
    exact hg.mapComplete v hv
  · intro v' hv' e he
    rcases hsubadj v' hv' with ⟨v, hv, hvv, -, hadj⟩
    rw [hg.edgeOrig v hv e (hadj e he), hvv]
  · intro v' hv' e he
    rcases hsubadj v' hv' with ⟨v, hv, -, -, hadj⟩
    rcases hg.edgeDestLive v hv e (hadj e he) with ⟨w, hw, hww⟩
    rcases exists_vid_info_congr hsk.vids hsk.infos ⟨w, hw, hww, rfl⟩ with ⟨w', hw', hw'v, -⟩
    exact ⟨w', hw', hw'v⟩
  · exact ((allEdges_sublist_of_shrinks hg.nodupVids hsk).map Edge.eid).nodup hg.nodupEids
  · intro v' hv'
    rcases mem_vid_info_transfer hsk.vids hsk.infos v' hv' with ⟨v, hv, hvv, -⟩
    rw [hsk.nvid, ← hvv]
    exact hg.vidLt v hv
  · intro e he
    rw [hsk.neid]
    exact hg.eidLt e ((allEdges_sublist_of_shrinks hg.nodupVids hsk).subset he)

theorem sublist_flatten_map {α β : Type} {l' l : List α} (h : l'.Sublist l) (f : α → List β) :
    ((l'.map f).flatten).Sublist ((l.map f).flatten) := by
  induction h with
  | slnil => exact List.Sublist.refl _
  | cons a h ih =>
    simp only [List.map_cons, List.flatten_cons]
    exact ih.trans (List.sublist_append_right _ _)
  | cons₂ a h ih =>
    simp only [List.map_cons, List.flatten_cons]
    exact ih.append_left _

theorem eraseK_sublist {α : Type} (m : List (Key × α)) (k : Key) :
    (eraseK m k).Sublist m := by
  induction m with
  | nil => exact List.Sublist.refl _
  | cons p rest ih =>
    by_cases hp : p.1 = k
    · rw [show eraseK (p :: rest) k = rest from by simp [eraseK, hp]]
      exact List.sublist_cons_self p rest
    · rw [show eraseK (p :: rest) k = p :: eraseK rest k from by simp [eraseK, hp]]
      exact ih.cons₂ p

theorem mem_eraseK_ne {α : Type} {m : List (Key × α)} (hnd : (m.map Prod.fst).Nodup)
    {k : Key} {p : Key × α} (hp : p ∈ eraseK m k) : ¬ p.1 = k := by
  intro hpk
  have hlk : lookupK (eraseK m k) k = none := eraseK_lookup_self m k hnd
  rw [lookupK_eq_none] at hlk
  exact hlk p hp hpk

theorem addVertex_wf {g : Graph} (hg : Wf g) (k : Key) : Wf (g.addVertex k).2 := by
  unfold Graph.addVertex
  by_cases hf : (findVertex g k).isSome = true
  · rw [if_pos hf]
    exact hg
  · rw [if_neg hf]
    have hnone : findVertex g k = none := Option.not_isSome_iff_eq_none.1 hf
    have hnok : ∀ v ∈ g.vertexSet, ¬ v.info = k := findVertex_none_wf hg hnone
    have hnomapk : ∀ p ∈ g.vertexMap, ¬ p.1 = k := by
      have := (lookupK_eq_none g.vertexMap k).1 hnone
      exact this
    have hallE : allEdges (Graph.mk
        (g.vertexSet ++ [Vertex.mk g.nextVid k [] [] false false 0])
        (g.vertexMap ++ [(k, g.nextVid)]) (g.nextVid + 1) g.nextEid) = allEdges g := by
      show ((g.vertexSet ++ [Vertex.mk g.nextVid k [] [] false false 0]).map Vertex.adj).flatten
        = allEdges g
      rw [List.map_append]
      rw [List.flatten_append]
      simp [allEdges]
    refine ⟨?_, ?_, ?_, ?_, ?_, ?_, ?_, ?_, ?_, ?_⟩
    · show ((g.vertexSet ++ [_]).map Vertex.vid).Nodup
      rw [List.map_append]
      refine List.Nodup.append hg.nodupVids (by simp) ?_
      intro x hx hx2
      simp only [List.map_cons, List.map_nil, List.mem_singleton] at hx2
      rcases List.mem_map.1 hx with ⟨v, hv, rfl⟩
      have := hg.vidLt v hv
      rw [hx2] at this
      exact absurd this (by simp)
    · show ((g.vertexSet ++ [_]).map Vertex.info).Nodup
      rw [List.map_append]
      refine List.Nodup.append hg.nodupInfos (by simp) ?_
      intro x hx hx2
      simp only [List.map_cons, List.map_nil, List.mem_singleton] at hx2
      rcases List.mem_map.1 hx with ⟨v, hv, rfl⟩
      exact hnok v hv hx2
    · show ((g.vertexMap ++ [(k, g.nextVid)]).map Prod.fst).Nodup
      rw [List.map_append]
      refine List.Nodup.append hg.nodupMapKeys (by simp) ?_
      intro x hx hx2
      simp only [List.map_cons, List.map_nil, List.mem_singleton] at hx2
      rcases List.mem_map.1 hx with ⟨p, hp, rfl⟩
      exact hnomapk p hp hx2
    · intro p hp
      rcases List.mem_append.1 hp with hp | hp
      · rcases hg.mapEntries p hp with ⟨v, hv, hh⟩
        exact ⟨v, List.mem_append_left _ hv, hh⟩
      · simp only [List.mem_singleton] at hp
        subst hp
        exact ⟨⟨g.nextVid, k, [], [], false, false, 0⟩, List.mem_append_right _ (by simp),
          rfl, rfl⟩
    · intro v hv
      rcases List.mem_append.1 hv with hv | hv
      · show lookupK (g.vertexMap ++ [(k, g.nextVid)]) v.info = some v.vid
        exact lookupK_append_left _ (hg.mapComplete v hv)
      · simp only [List.mem_singleton] at hv
        subst hv
        show lookupK (g.vertexMap ++ [(k, g.nextVid)]) k = some g.nextVid
        rw [lookupK_append_right _ hnone]
        simp [lookupK]
    · intro v hv e he
      rcases List.mem_append.1 hv with hv | hv
      · exact hg.edgeOrig v hv e he
      · simp only [List.mem_singleton] at hv
        subst hv
        simp at he
    · intro v hv e he
      rcases List.mem_append.1 hv with hv | hv
      · rcases hg.edgeDestLive v hv e he with ⟨w, hw, hww⟩
        exact ⟨w, List.mem_append_left _ hw, hww⟩
      · simp only [List.mem_singleton] at hv
        subst hv
        simp at he
    · rw [hallE]
      exact hg.nodupEids
    · intro v hv
      rcases List.mem_append.1 hv with hv | hv
      · exact Nat.lt_succ_of_lt (hg.vidLt v hv)
      · simp only [List.mem_singleton] at hv
        subst hv
        exact Nat.lt_succ_self _
    · intro e he
      rw [hallE] at he
      exact hg.eidLt e he

theorem addEdgeRaw_wf {g : Graph} (hg : Wf g) {ov dv : Nat} {vo vd : Vertex}
    (hov : getVert g ov = some vo) (hdv : getVert g dv = some vd) (w : ℚ) :
    Wf (addEdgeRaw g ov dv w).1 := by
  set g' := (addEdgeRaw g ov dv w).1 with hgdef
  have hvids : g'.vertexSet.map Vertex.vid = g.vertexSet.map Vertex.vid := addEdgeRaw_vids g ov dv w
  have hinfos : g'.vertexSet.map Vertex.info = g.vertexSet.map Vertex.info :=
    addEdgeRaw_infos g ov dv w
  have hmap : g'.vertexMap = g.vertexMap := addEdgeRaw_map g ov dv w
  have hnvid : g'.nextVid = g.nextVid := addEdgeRaw_nextVid g ov dv w
  have hneid : g'.nextEid = g.nextEid + 1 := addEdgeRaw_nextEid g ov dv w
  have hnd' : (g'.vertexSet.map Vertex.vid).Nodup := by rw [hvids]; exact hg.nodupVids
  have hperm : List.Perm (allEdges g') (⟨g.nextEid, ov, dv, w, none⟩ :: allEdges g) :=
    allEdges_addEdgeRaw_perm dv w hg.nodupVids hov
  have hadjchar : ∀ v' ∈ g'.vertexSet, ∀ e ∈ v'.adj,
      (v'.vid = ov ∧ (e ∈ vo.adj ∨ e = ⟨g.nextEid, ov, dv, w, none⟩)) ∨
      (¬ v'.vid = ov ∧ e ∈ adjOf g v'.vid) := by
    intro v' hv' e he
    have hadj : adjOf g' v'.vid = v'.adj :=
      adjOf_eq_of_getVert ((getVert_eq_some_iff hnd').2 ⟨hv', rfl⟩)
    by_cases hx : v'.vid = ov
    · left
      refine ⟨hx, ?_⟩
      have hself : adjOf g' ov = vo.adj ++ [⟨g.nextEid, ov, dv, w, none⟩] :=
        addEdgeRaw_adjOf_self dv w hov
      rw [hx] at hadj
      rw [hadj.symm.trans hself] at he
      rcases List.mem_append.1 he with h | h
      · exact Or.inl h
      · simp only [List.mem_singleton] at h
        exact Or.inr h
    · right
      refine ⟨hx, ?_⟩
      have hoth : adjOf g' v'.vid = adjOf g v'.vid := addEdgeRaw_adjOf_other dv w hx
      rw [← hadj, hoth] at he
      exact he
  refine ⟨hnd', ?_, ?_, ?_, ?_, ?_, ?_, ?_, ?_, ?_⟩
  · rw [hinfos]; exact hg.nodupInfos
  · rw [hmap]; exact hg.nodupMapKeys
  · intro p hp
    rw [hmap] at hp
    exact exists_vid_info_congr hvids hinfos (hg.mapEntries p hp)
  · intro v' hv'
    rcases mem_vid_info_transfer hvids hinfos v' hv' with ⟨v, hv, hvv, hvi⟩
    rw [hmap, ← hvi, ← hvv]
    exact hg.mapComplete v hv
  · intro v' hv' e he
    rcases hadjchar v' hv' e he with ⟨hx, h | h⟩ | ⟨hx, h⟩
    · rw [hg.edgeOrig vo (getVert_mem hov).1 e h, (getVert_mem hov).2, hx]
    · rw [h, hx]
    · rcases Option.isSome_iff_exists.1 (getVert_isSome_iff_mem_vids.2 (by
        rw [← hvids]; exact List.mem_map_of_mem Vertex.vid hv')) with ⟨wv, hwv⟩
      rw [adjOf_eq_of_getVert hwv] at h
      rw [hg.edgeOrig wv (getVert_mem hwv).1 e h, (getVert_mem hwv).2]
  · intro v' hv' e he
    have hlive : ∀ x, (∃ u ∈ g.vertexSet, u.vid = x) → ∃ u' ∈ g'.vertexSet, u'.vid = x := by
      rintro x ⟨u, hu, huv⟩
      rcases exists_vid_info_congr hvids hinfos ⟨u, hu, huv, rfl⟩ with ⟨u', hu', hu'v, -⟩
      exact ⟨u', hu', hu'v⟩
    rcases hadjchar v' hv' e he with ⟨hx, h | h⟩ | ⟨hx, h⟩
    · exact hlive e.dest (hg.edgeDestLive vo (getVert_mem hov).1 e h)
    · refine hlive e.dest ?_
      rw [h]
      exact ⟨vd, (getVert_mem hdv).1, (getVert_mem hdv).2⟩
    · rcases Option.isSome_iff_exists.1 (getVert_isSome_iff_mem_vids.2 (by
        rw [← hvids]; exact List.mem_map_of_mem Vertex.vid hv')) with ⟨wv, hwv⟩
      rw [adjOf_eq_of_getVert hwv] at h
      exact hlive e.dest (hg.edgeDestLive wv (getVert_mem hwv).1 e h)
  · refine (hperm.map Edge.eid).nodup_iff.2 ?_
    rw [List.map_cons, List.nodup_cons]
    refine ⟨?_, hg.nodupEids⟩
    intro hmem
    rcases List.mem_map.1 hmem with ⟨x, hx, hxe⟩
    have := hg.eidLt x hx
    rw [hxe] at this
    exact absurd this (by simp)
  · intro v' hv'
    rcases mem_vid_info_transfer hvids hinfos v' hv' with ⟨v, hv, hvv, -⟩
    rw [hnvid, ← hvv]
    exact hg.vidLt v hv
  · intro e he
    rw [hneid]
    rcases List.mem_cons.1 ((hperm.mem_iff).1 he) with h | h
    · rw [h]
      exact Nat.lt_succ_self _
    · exact Nat.lt_succ_of_lt (hg.eidLt e h)

theorem setReverseE_wf {g : Graph} (hg : Wf g) (i : Nat) (r : Option Nat) :
    Wf (setReverseE g i r) := by
  set g' := setReverseE g i r with hgdef
  have hvids : g'.vertexSet.map Vertex.vid = g.vertexSet.map Vertex.vid := setReverseE_vids g i r
  have hinfos : g'.vertexSet.map Vertex.info = g.vertexSet.map Vertex.info :=
    setReverseE_infos g i r
  have hnd' : (g'.vertexSet.map Vertex.vid).Nodup := by rw [hvids]; exact hg.nodupVids
  have hall : allEdges g' = (allEdges g).map (setRevEdge i r) := setReverseE_allEdges g i r
  have hadjchar : ∀ v' ∈ g'.vertexSet, ∀ e ∈ v'.adj,
      ∃ e0 ∈ adjOf g v'.vid, e = setRevEdge i r e0 := by
    intro v' hv' e he
    have hadj : adjOf g' v'.vid = v'.adj :=
      adjOf_eq_of_getVert ((getVert_eq_some_iff hnd').2 ⟨hv', rfl⟩)
    have hchar := setReverseE_adjOf g i r v'.vid
    rw [← hgdef, hadj] at hchar
    rw [hchar] at he
    rcases List.mem_map.1 he with ⟨e0, he0, rfl⟩
    exact ⟨e0, he0, rfl⟩
  refine ⟨hnd', ?_, ?_, ?_, ?_, ?_, ?_, ?_, ?_, ?_⟩
  · rw [hinfos]; exact hg.nodupInfos
  · show (g.vertexMap.map Prod.fst).Nodup
    exact hg.nodupMapKeys
  · intro p hp
    exact exists_vid_info_congr hvids hinfos (hg.mapEntries p hp)
  · intro v' hv'
    rcases mem_vid_info_transfer hvids hinfos v' hv' with ⟨v, hv, hvv, hvi⟩
    show lookupK g.vertexMap v'.info = some v'.vid
    rw [← hvi, ← hvv]
    exact hg.mapComplete v hv
  · intro v' hv' e he
    rcases hadjchar v' hv' e he with ⟨e0, he0, rfl⟩
    rcases Option.isSome_iff_exists.1 (getVert_isSome_iff_mem_vids.2 (by
      rw [← hvids]; exact List.mem_map_of_mem Vertex.vid hv')) with ⟨wv, hwv⟩
    rw [adjOf_eq_of_getVert hwv] at he0
    rw [setRevEdge_orig, hg.edgeOrig wv (getVert_mem hwv).1 e0 he0, (getVert_mem hwv).2]
  · intro v' hv' e he
    rcases hadjchar v' hv' e he with ⟨e0, he0, rfl⟩
    rcases Option.isSome_iff_exists.1 (getVert_isSome_iff_mem_vids.2 (by
      rw [← hvids]; exact List.mem_map_of_mem Vertex.vid hv')) with ⟨wv, hwv⟩
    rw [adjOf_eq_of_getVert hwv] at he0
    rcases hg.edgeDestLive wv (getVert_mem hwv).1 e0 he0 with ⟨u, hu, huv⟩
    rcases exists_vid_info_congr hvids hinfos ⟨u, hu, huv, rfl⟩ with ⟨u', hu', hu'v, -⟩
    refine ⟨u', hu', ?_⟩
    rw [hu'v, setRevEdge_dest]
  · rw [hall, map_eid_map_setRevEdge]
    exact hg.nodupEids
  · intro v' hv'
    rcases mem_vid_info_transfer hvids hinfos v' hv' with ⟨v, hv, hvv, -⟩
    show v'.vid < g.nextVid
    rw [← hvv]
    exact hg.vidLt v hv
  · intro e he
    rw [hall] at he
    rcases List.mem_map.1 he with ⟨e0, he0, rfl⟩
    show (setRevEdge i r e0).eid < g.nextEid
    rw [setRevEdge_eid]
    exact hg.eidLt e0 he0

theorem addEdge_wf {g : Graph} (hg : Wf g) (s d : Key) (w : ℚ) : Wf (g.addEdge s d w).2 := by
  unfold Graph.addEdge
  cases hs : findVertex g s with
  | none => exact hg
  | some a =>
    cases hd : findVertex g d with
    | none => exact hg
    | some b =>
      rcases findVertex_some_wf hg hs with ⟨va, hva, hvav, -⟩
      rcases findVertex_some_wf hg hd with ⟨vb, hvb, hvbv, -⟩
      exact addEdgeRaw_wf hg ((getVert_eq_some_iff hg.nodupVids).2 ⟨hva, hvav⟩)
        ((getVert_eq_some_iff hg.nodupVids).2 ⟨hvb, hvbv⟩) w

theorem addBidirectionalEdge_wf {g : Graph} (hg : Wf g) (s d : Key) (w : ℚ) :
    Wf (g.addBidirectionalEdge s d w).2 := by
  unfold Graph.addBidirectionalEdge
  cases hs : findVertex g s with
  | none => exact hg
  | some a =>
    cases hd : findVertex g d with
    | none => exact hg
    | some b =>
      rcases findVertex_some_wf hg hs with ⟨va, hva, hvav, -⟩
      rcases findVertex_some_wf hg hd with ⟨vb, hvb, hvbv, -⟩
      have hgva : getVert g a = some va := (getVert_eq_some_iff hg.nodupVids).2 ⟨hva, hvav⟩
      have hgvb : getVert g b = some vb := (getVert_eq_some_iff hg.nodupVids).2 ⟨hvb, hvbv⟩
      have h1 : Wf (addEdgeRaw g a b w).1 := addEdgeRaw_wf hg hgva hgvb w
      have hvids1 := addEdgeRaw_vids g a b w
      have hlb : (getVert (addEdgeRaw g a b w).1 b).isSome = true := by
        rw [getVert_isSome_iff_mem_vids, hvids1]
        exact hvbv ▸ List.mem_map_of_mem Vertex.vid hvb
      have hla : (getVert (addEdgeRaw g a b w).1 a).isSome = true := by
        rw [getVert_isSome_iff_mem_vids, hvids1]
        exact hvav ▸ List.mem_map_of_mem Vertex.vid hva
      rcases Option.isSome_iff_exists.1 hlb with ⟨vb1, hvb1⟩
      rcases Option.isSome_iff_exists.1 hla with ⟨va1, hva1⟩
      have h2 : Wf (addEdgeRaw (addEdgeRaw g a b w).1 b a w).1 := addEdgeRaw_wf h1 hvb1 hva1 w
      exact setReverseE_wf (setReverseE_wf h2 _ _) _ _

theorem removeEdge_wf {g : Graph} (hg : Wf g) (s d : Key) : Wf (g.removeEdge s d).2 := by
  unfold Graph.removeEdge
  cases hs : findVertex g s with
  | none => exact hg
  | some vid => exact wf_of_shrinks hg (removeEdgeV_shrinks g vid d)

theorem removeVertex_wf {g : Graph} (hg : Wf g) (k : Key) : Wf (g.removeVertex k).2 := by
  cases hk : lookupK g.vertexMap k with
  | none =>
    have : g.removeVertex k = (false, g) := by
      unfold Graph.removeVertex
      rw [hk]
    rw [this]
    exact hg
  | some vid =>
    have hprops := removeVertex_props g k hg
    rcases hg.mapEntries (k, vid) (lookupK_mem hk) with ⟨va, hva, hvavid, hvak⟩
    rw [removeVertex_eq hk]
    set g1 := removeVertexLoop vid (infoOf g vid) g (g.vertexSet.map Vertex.vid) with hg1
    have hsk : Shrinks g g1 :=
      (removeVertexLoop_spec vid (infoOf g vid) (g.vertexSet.map Vertex.vid) g).1
    have h1 : Wf g1 := wf_of_shrinks hg hsk
    have hfilterSub : (g1.vertexSet.filter (fun v => ¬ v.vid = vid)).Sublist g1.vertexSet :=
      List.filter_sublist _
    have hmemfil : ∀ v ∈ g1.vertexSet.filter (fun v => ¬ v.vid = vid),
        v ∈ g1.vertexSet ∧ ¬ v.vid = vid := by
      intro v hv
      rcases List.mem_filter.1 hv with ⟨h1', h2'⟩
      exact ⟨h1', by simpa using h2'⟩
    have hdest : ∀ v ∈ g1.vertexSet.filter (fun v => ¬ v.vid = vid), ∀ e ∈ v.adj,
        ¬ e.dest = vid := by
      intro v hv e he
      have hfv : findVertex g k = some vid := hk
      have := (hprops.2.2.2 vid hfv) v ?_ e he
      · exact this.2
      · rw [removeVertex_eq hk]
        exact hv
    refine ⟨?_, ?_, ?_, ?_, ?_, ?_, ?_, ?_, ?_, ?_⟩
    · exact (hfilterSub.map Vertex.vid).nodup h1.nodupVids
    · exact (hfilterSub.map Vertex.info).nodup h1.nodupInfos
    · show ((eraseK g1.vertexMap k).map Prod.fst).Nodup
      exact ((eraseK_sublist _ _).map Prod.fst).nodup h1.nodupMapKeys
    · intro p hp
      have hmem : p ∈ g1.vertexMap := eraseK_subset _ _ p hp
      have hpk : ¬ p.1 = k := mem_eraseK_ne h1.nodupMapKeys hp
      rcases h1.mapEntries p hmem with ⟨v, hv, hvv, hvi⟩
      refine ⟨v, List.mem_filter.2 ⟨hv, ?_⟩, hvv, hvi⟩
      simp only [decide_eq_true_eq]
      intro hvvid
      -- v would be the removed vertex, whose info is k
      rcases exists_vid_info_congr hsk.vids hsk.infos ⟨va, hva, hvavid, hvak⟩
        with ⟨va1, hva1, hva1vid, hva1k⟩
      have : v = va1 := List.inj_on_of_nodup_map h1.nodupVids hv hva1 (by rw [hvvid, hva1vid])
      rw [this] at hvi
      exact hpk (by rw [← hvi, hva1k])
    · intro v hv
      rcases hmemfil v hv with ⟨hv1, hvne⟩
      show lookupK (eraseK g1.vertexMap k) v.info = some v.vid
      have hvik : ¬ v.info = k := by
        intro hik
        rcases exists_vid_info_congr hsk.vids hsk.infos ⟨va, hva, hvavid, hvak⟩
          with ⟨va1, hva1, hva1vid, hva1k⟩
        have : v = va1 :=
          List.inj_on_of_nodup_map h1.nodupInfos hv1 hva1 (by rw [hik, hva1k])
        exact hvne (by rw [this, hva1vid])
      rw [eraseK_lookup_ne _ hvik]
      exact h1.mapComplete v hv1
    · intro v hv e he
      exact h1.edgeOrig v (hmemfil v hv).1 e he
    · intro v hv e he
      rcases h1.edgeDestLive v (hmemfil v hv).1 e he with ⟨w, hw, hww⟩
      refine ⟨w, List.mem_filter.2 ⟨hw, ?_⟩, hww⟩
      simp only [decide_eq_true_eq]
      intro hwvid
      exact hdest v hv e he (by rw [← hww, hwvid])
    · show (((g1.vertexSet.filter (fun v => ¬ v.vid = vid)).map Vertex.adj).flatten.map
        Edge.eid).Nodup
      exact ((sublist_flatten_map hfilterSub Vertex.adj).map Edge.eid).nodup h1.nodupEids
    · intro v hv
      exact h1.vidLt v (hmemfil v hv).1
    · intro e he
      refine h1.eidLt e ?_
      exact (sublist_flatten_map hfilterSub Vertex.adj).subset he

/-- Every reachable graph is well-formed. -/
theorem reachable_wf {g : Graph} (hr : Reachable g) : Wf g := by
  induction hr with
  | empty => decide
  | addVertex g k _ ih => exact addVertex_wf ih k
  | removeVertex g k _ ih => exact removeVertex_wf ih k
  | addEdge g s d w _ ih => exact addEdge_wf ih s d w
  | addBidirectionalEdge g s d w _ ih => exact addBidirectionalEdge_wf ih s d w
  | removeEdge g s d _ ih => exact removeEdge_wf ih s d

/-! ### Claim C7 — index/sequence synchronization -/

/-- C7: after every sequence of public mutations (addVertex, removeVertex,
addEdge, addBidirectionalEdge, removeEdge) starting from the empty graph, the
vertex sequence and the key index hold exactly the same vertices, every index
entry's vertex carries the entry's key, and keys are unique. -/
theorem c7_index_sync (g : Graph) (hr : Reachable g) :
    (∀ p ∈ g.vertexMap, ∃ v ∈ g.vertexSet, v.vid = p.2 ∧ v.info = p.1) ∧
    (∀ v ∈ g.vertexSet, (v.info, v.vid) ∈ g.vertexMap) ∧
    (∀ p ∈ g.vertexMap, infoOf g p.2 = p.1) ∧
    (g.vertexSet.map Vertex.info).Nodup ∧
    (g.vertexMap.map Prod.fst).Nodup := by
  have hg := reachable_wf hr
  refine ⟨hg.mapEntries, ?_, ?_, hg.nodupInfos, hg.nodupMapKeys⟩
  · intro v hv
    exact lookupK_mem (hg.mapComplete v hv)
  · intro p hp
    rcases hg.mapEntries p hp with ⟨v, hv, hvv, hvi⟩
    have hgv : getVert g p.2 = some v := (getVert_eq_some_iff hg.nodupVids).2 ⟨hv, hvv⟩
    unfold infoOf
    rw [hgv]
    simpa using hvi

/-- Witness instantiating `c7_index_sync` on the concrete reachable graph
`gC6w` (three addVertex calls and two addEdge calls from the empty graph). -/
theorem c7_witness : Reachable gC6w ∧
    ((∀ p ∈ gC6w.vertexMap, ∃ v ∈ gC6w.vertexSet, v.vid = p.2 ∧ v.info = p.1) ∧
    (∀ v ∈ gC6w.vertexSet, (v.info, v.vid) ∈ gC6w.vertexMap) ∧
    (∀ p ∈ gC6w.vertexMap, infoOf gC6w p.2 = p.1) ∧
    (gC6w.vertexSet.map Vertex.info).Nodup ∧
    (gC6w.vertexMap.map Prod.fst).Nodup) :=
  ⟨Reachable.addEdge _ 2 3 7 (Reachable.addEdge _ 1 2 5 (Reachable.addVertex _ 3
      (Reachable.addVertex _ 2 (Reachable.addVertex _ 1 Reachable.empty)))),
    c7_index_sync gC6w
      (Reachable.addEdge _ 2 3 7 (Reachable.addEdge _ 1 2 5 (Reachable.addVertex _ 3
        (Reachable.addVertex _ 2 (Reachable.addVertex _ 1 Reachable.empty)))))⟩

/-! ### Claim C10 — traversals leave the graph structure unchanged

`gstruct` projects everything except the scratch fields (`visited`,
`processing`, `indegree`): the ordered vertex sequence with each vertex's id,
key, `adj` list (edges with weights and reverse pointers) and `incoming`
list, the key index, and the allocation counters. -/

def vstruct (v : Vertex) : Nat × Key × List Edge × List Nat :=
  (v.vid, v.info, v.adj, v.incoming)

def gstruct (g : Graph) : List (Nat × Key × List Edge × List Nat) × List (Key × Nat) × Nat × Nat :=
  (g.vertexSet.map vstruct, g.vertexMap, g.nextVid, g.nextEid)

theorem gstruct_updateVert (g : Graph) (vid : Nat) (f : Vertex → Vertex)
    (hf : ∀ v, vstruct (f v) = vstruct v) :
    gstruct (updateVert g vid f) = gstruct g := by
  unfold gstruct updateVert
  simp only [List.map_map]
  refine congrArg (fun l => (l, g.vertexMap, g.nextVid, g.nextEid)) ?_
  refine (List.map_congr_left ?_).trans rfl
  intro v _
  show vstruct (if v.vid = vid then f v else v) = vstruct v
  by_cases h : v.vid = vid
  · rw [if_pos h]
    exact hf v
  · rw [if_neg h]

theorem gstruct_mapset (g : Graph) (f : Vertex → Vertex)
    (hf : ∀ v, vstruct (f v) = vstruct v) :
    gstruct { g with vertexSet := g.vertexSet.map f } = gstruct g := by
  unfold gstruct
  simp only [List.map_map]
  refine congrArg (fun l => (l, g.vertexMap, g.nextVid, g.nextEid)) ?_
  exact List.map_congr_left (fun v _ => hf v)

theorem gstruct_markVisited (g : Graph) (vid : Nat) :
    gstruct (updateVert g vid markVisitedV) = gstruct g :=
  gstruct_updateVert g vid markVisitedV (fun v => rfl)

theorem gstruct_markVisitedProcessing (g : Graph) (vid : Nat) :
    gstruct (updateVert g vid markVisitedProcessingV) = gstruct g :=
  gstruct_updateVert g vid markVisitedProcessingV (fun v => rfl)

theorem gstruct_clearProcessing (g : Graph) (vid : Nat) :
    gstruct (updateVert g vid clearProcessingV) = gstruct g :=
  gstruct_updateVert g vid clearProcessingV (fun v => rfl)

theorem gstruct_incIndegree (g : Graph) (vid : Nat) :
    gstruct (updateVert g vid incIndegreeV) = gstruct g :=
  gstruct_updateVert g vid incIndegreeV (fun v => rfl)

theorem gstruct_decIndegree (g : Graph) (vid : Nat) :
    gstruct (updateVert g vid decIndegreeV) = gstruct g :=
  gstruct_updateVert g vid decIndegreeV (fun v => rfl)

theorem gstruct_resetVisited (g : Graph) : gstruct (resetVisited g) = gstruct g :=
  gstruct_mapset g clearVisitedV (fun v => rfl)

theorem gstruct_resetVisitedProcessing (g : Graph) :
    gstruct (resetVisitedProcessing g) = gstruct g :=
  gstruct_mapset g clearVisitedProcessingV (fun v => rfl)

theorem gstruct_zeroIndegrees (g : Graph) :
    gstruct { g with vertexSet := g.vertexSet.map zeroIndegreeV } = gstruct g :=
  gstruct_mapset g zeroIndegreeV (fun v => rfl)

theorem dfsVisit_dfsAdj_gstruct (fuel : Nat) :
    (∀ g vid res, gstruct (dfsVisit fuel g vid res).1 = gstruct g) ∧
    (∀ g es res, gstruct (dfsAdj fuel g es res).1 = gstruct g) := by
  induction fuel with
  | zero =>
    have hP : ∀ (g : Graph) (vid : Nat) (res : List Key),
        gstruct (dfsVisit 0 g vid res).1 = gstruct g := by
      intro g vid res
      simp only [dfsVisit]
    refine ⟨hP, ?_⟩
    intro g es
    induction es generalizing g with
    | nil =>
      intro res
      simp only [dfsAdj]
    | cons e rest ih =>
      intro res
      simp only [dfsAdj]
      cases hgv : getVert g e.dest with
      | none =>
        simp only [hgv]
        exact ih g res
      | some w =>
        simp only [hgv]
        cases hw : w.visited with
        | true =>
          simp only [if_pos rfl]
          exact ih g res
        | false =>
          simp only [Bool.false_eq_true, if_false]
          rw [ih _ _, hP g e.dest res]
  | succ f ihf =>
    have hP : ∀ (g : Graph) (vid : Nat) (res : List Key),
        gstruct (dfsVisit (f + 1) g vid res).1 = gstruct g := by
      intro g vid res
      simp only [dfsVisit]
      cases hgv : getVert g vid with
      | none => simp only [hgv]
      | some v =>
        simp only [hgv]
        rw [ihf.2 _ _ _, gstruct_markVisited]
    refine ⟨hP, ?_⟩
    intro g es
    induction es generalizing g with
    | nil =>
      intro res
      simp only [dfsAdj]
    | cons e rest ih =>
      intro res
      simp only [dfsAdj]
      cases hgv : getVert g e.dest with
      | none =>
        simp only [hgv]
        exact ih g res
      | some w =>
        simp only [hgv]
        cases hw : w.visited with
        | true =>
          simp only [if_pos rfl]
          exact ih g res
        | false =>
          simp only [Bool.false_eq_true, if_false]
          rw [ih _ _, hP g e.dest res]

theorem dfsForestLoop_gstruct :
    ∀ (us : List Nat) (g : Graph) (res : List Key),
      gstruct (dfsForestLoop g res us).1 = gstruct g := by
  intro us
  induction us with
  | nil => intro g res; simp only [dfsForestLoop]
  | cons u rest ih =>
    intro g res
    simp only [dfsForestLoop]
    cases hgv : getVert g u with
    | none =>
      simp only [hgv]
      exact ih g res
    | some v =>
      simp only [hgv]
      cases hv : v.visited with
      | true =>
        simp only [if_pos rfl]
        exact ih g res
      | false =>
        simp only [Bool.false_eq_true, if_false]
        rw [ih _ _, (dfsVisit_dfsAdj_gstruct _).1 g u res]

theorem dfs_gstruct (g : Graph) : gstruct (g.dfs).1 = gstruct g := by
  unfold Graph.dfs
  rw [dfsForestLoop_gstruct, gstruct_resetVisited]

theorem dfsFrom_gstruct (g : Graph) (s : Key) : gstruct (g.dfsFrom s).1 = gstruct g := by
  unfold Graph.dfsFrom
  cases hf : findVertex g s with
  | none => rfl
  | some vid =>
    rw [(dfsVisit_dfsAdj_gstruct _).1, gstruct_resetVisited]

theorem bfsEnqueue_gstruct :
    ∀ (es : List Edge) (g : Graph) (q : List Nat),
      gstruct (bfsEnqueue g q es).1 = gstruct g := by
  intro es
  induction es with
  | nil => intro g q; simp only [bfsEnqueue]
  | cons e rest ih =>
    intro g q
    simp only [bfsEnqueue]
    cases hgv : getVert g e.dest with
    | none =>
      simp only [hgv]
      exact ih g q
    | some w =>
      simp only [hgv]
      cases hw : w.visited with
      | true =>
        simp only [if_pos rfl]
        exact ih g q
      | false =>
        simp only [Bool.false_eq_true, if_false]
        rw [ih _ _, gstruct_markVisited]

theorem bfsLoop_gstruct :
    ∀ (fuel : Nat) (g : Graph) (q : List Nat) (res : List Key),
      gstruct (bfsLoop fuel g q res).1 = gstruct g := by
  intro fuel
  induction fuel with
  | zero => intro g q res; simp only [bfsLoop]
  | succ f ih =>
    intro g q res
    cases q with
    | nil => simp only [bfsLoop]
    | cons vid rest =>
      simp only [bfsLoop]
      cases hgv : getVert g vid with
      | none =>
        simp only [hgv]
        exact ih g rest _
      | some v =>
        simp only [hgv]
        rw [ih _ _ _, bfsEnqueue_gstruct]

theorem bfs_gstruct (g : Graph) (s : Key) : gstruct (g.bfs s).1 = gstruct g := by
  unfold Graph.bfs
  cases hf : findVertex g s with
  | none => rfl
  | some vid =>
    rw [bfsLoop_gstruct, gstruct_markVisited, gstruct_resetVisited]

theorem dfsIsDAG_gstruct (fuel : Nat) :
    (∀ g vid, gstruct (dfsIsDAG fuel g vid).1 = gstruct g) ∧
    (∀ g es, gstruct (dfsIsDAGAdj fuel g es).1 = gstruct g) := by
  induction fuel with
  | zero =>
    have hP : ∀ (g : Graph) (vid : Nat), gstruct (dfsIsDAG 0 g vid).1 = gstruct g := by
      intro g vid
      simp only [dfsIsDAG]
    refine ⟨hP, ?_⟩
    intro g es
    induction es generalizing g with
    | nil => simp only [dfsIsDAGAdj]
    | cons e rest ih =>
      simp only [dfsIsDAGAdj]
      cases hgv : getVert g e.dest with
      | none =>
        simp only [hgv]
        exact ih g
      | some w =>
        simp only [hgv]
        cases hwp : w.processing with
        | true => rw [if_pos rfl]
        | false =>
          simp only [Bool.false_eq_true, if_false]
          cases hwv : w.visited with
          | true =>
            simp only [if_pos rfl]
            exact ih g
          | false =>
            simp only [Bool.false_eq_true, if_false]
            cases hrec : (dfsIsDAG 0 g e.dest).2 with
            | true =>
              rw [if_pos rfl]
              rw [ih _, hP g e.dest]
            | false =>
              simp only [hrec, Bool.false_eq_true, if_false]
              exact hP g e.dest
  | succ f ihf =>
    have hP : ∀ (g : Graph) (vid : Nat), gstruct (dfsIsDAG (f + 1) g vid).1 = gstruct g := by
      intro g vid
      simp only [dfsIsDAG]
      cases hgv : getVert g vid with
      | none => simp only [hgv]
      | some v =>
        simp only [hgv]
        cases hrec : (dfsIsDAGAdj f (updateVert g vid markVisitedProcessingV) v.adj).2 with
        | true =>
          rw [if_pos rfl]
          rw [gstruct_clearProcessing, ihf.2 _ _, gstruct_markVisitedProcessing]
        | false =>
          simp only [hrec, Bool.false_eq_true, if_false]
          rw [ihf.2 _ _, gstruct_markVisitedProcessing]
    refine ⟨hP, ?_⟩
    intro g es
    induction es generalizing g with
    | nil => simp only [dfsIsDAGAdj]
    | cons e rest ih =>
      simp only [dfsIsDAGAdj]
      cases hgv : getVert g e.dest with
      | none =>
        simp only [hgv]
        exact ih g
      | some w =>
        simp only [hgv]
        cases hwp : w.processing with
        | true => rw [if_pos rfl]
        | false =>
          simp only [Bool.false_eq_true, if_false]
          cases hwv : w.visited with
          | true =>
            simp only [if_pos rfl]
            exact ih g
          | false =>
            simp only [Bool.false_eq_true, if_false]
            cases hrec : (dfsIsDAG (f + 1) g e.dest).2 with
            | true =>
              rw [if_pos rfl]
              rw [ih _, hP g e.dest]
            | false =>
              simp only [hrec, Bool.false_eq_true, if_false]
              exact hP g e.dest

theorem isDAGLoop_gstruct :
    ∀ (us : List Nat) (g : Graph), gstruct (isDAGLoop g us).1 = gstruct g := by
  intro us
  induction us with
  | nil => intro g; simp only [isDAGLoop]
  | cons u rest ih =>
    intro g
    simp only [isDAGLoop]
    cases hgv : getVert g u with
    | none =>
      simp only [hgv]
      exact ih g
    | some v =>
      simp only [hgv]
      cases hv : v.visited with
      | true =>
        simp only [if_pos rfl]
        exact ih g
      | false =>
        simp only [Bool.false_eq_true, if_false]
        cases hrec : (dfsIsDAG g.vertexSet.length g u).2 with
        | true =>
          rw [if_pos rfl]
          rw [ih _, (dfsIsDAG_gstruct _).1 g u]
        | false =>
          simp only [hrec, Bool.false_eq_true, if_false]
          exact (dfsIsDAG_gstruct _).1 g u

theorem isDAG_gstruct (g : Graph) : gstruct (g.isDAG).1 = gstruct g := by
  unfold Graph.isDAG
  rw [isDAGLoop_gstruct, gstruct_resetVisitedProcessing]

theorem incrIndegLoop_gstruct :
    ∀ (es : List Edge) (g : Graph), gstruct (incrIndegLoop g es) = gstruct g := by
  intro es
  induction es with
  | nil => intro g; simp only [incrIndegLoop]
  | cons e rest ih =>
    intro g
    simp only [incrIndegLoop]
    rw [ih _, gstruct_incIndegree]

theorem computeIndegLoop_gstruct :
    ∀ (us : List Nat) (g : Graph), gstruct (computeIndegLoop g us) = gstruct g := by
  intro us
  induction us with
  | nil => intro g; simp only [computeIndegLoop]
  | cons u rest ih =>
    intro g
    simp only [computeIndegLoop]
    cases hgv : getVert g u with
    | none =>
      simp only [hgv]
      exact ih g
    | some v =>
      simp only [hgv]
      rw [ih _, incrIndegLoop_gstruct]

theorem topsortDecr_gstruct (g : Graph) (q : List Nat) :
    ∀ (es : List Edge), gstruct (topsortDecr g q es).1 = gstruct g := by
  have main : ∀ (es : List Edge) (g : Graph) (q : List Nat),
      gstruct (topsortDecr g q es).1 = gstruct g := by
    intro es
    induction es with
    | nil => intro g q; simp only [topsortDecr]
    | cons e rest ih =>
      intro g q
      simp only [topsortDecr]
      rw [ih _ _, gstruct_decIndegree]
  exact fun es => main es g q

theorem topsortLoop_gstruct :
    ∀ (fuel : Nat) (g : Graph) (q : List Nat) (res : List Key),
      gstruct (topsortLoop fuel g q res).1 = gstruct g := by
  intro fuel
  induction fuel with
  | zero => intro g q res; simp only [topsortLoop]
  | succ f ih =>
    intro g q res
    cases q with
    | nil => simp only [topsortLoop]
    | cons vid rest =>
      simp only [topsortLoop]
      cases hgv : getVert g vid with
      | none =>
        simp only [hgv]
        exact ih g rest _
      | some v =>
        simp only [hgv]
        rw [ih _ _ _, topsortDecr_gstruct]

theorem topsort_gstruct (g : Graph) : gstruct (g.topsort).1 = gstruct g := by
  simp only [Graph.topsort]
  split
  · rw [topsortLoop_gstruct, computeIndegLoop_gstruct, gstruct_zeroIndegrees]
  · rw [topsortLoop_gstruct, computeIndegLoop_gstruct, gstruct_zeroIndegrees]

/-- **C10** (frame property of the traversals).  For every graph and source
key, the traversal algorithms `dfs()`, `dfs(source)`, `bfs(source)`,
`isDAG()` and `topsort()` leave the graph structure unchanged: the vertex
sequence (each vertex's allocation id, key, full `adj` list — hence every
edge's origin, destination, weight and reverse pointer — and `incoming`
list), the key index, and both allocation counters are identical after the
call.  `gstruct` projects exactly these components, omitting only the
scratch fields `visited`, `processing` and `indegree`, which are the only
fields the traversals mutate. -/
theorem c10_traversals_frame (g : Graph) (s : Key) :
    gstruct (g.dfs).1 = gstruct g ∧
    gstruct (g.dfsFrom s).1 = gstruct g ∧
    gstruct (g.bfs s).1 = gstruct g ∧
    gstruct (g.isDAG).1 = gstruct g ∧
    gstruct (g.topsort).1 = gstruct g :=
  ⟨dfs_gstruct g, dfsFrom_gstruct g s, bfs_gstruct g s, isDAG_gstruct g,
    topsort_gstruct g⟩

/-! ### C9: `dfs()` emits every vertex key exactly once -/

/-- The vids of the currently `visited` vertices, in `vertexSet` order. -/
def visitedVids (g : Graph) : List Nat :=
  (g.vertexSet.filter (fun w => w.visited)).map Vertex.vid

/-- The number of currently unvisited vertices: a bound on the depth of the
remaining `dfsVisit` recursion, since each call immediately marks a fresh
vertex visited. -/
def unvisCount (g : Graph) : Nat :=
  (g.vertexSet.filter (fun w => ! w.visited)).length

theorem length_filter_visited_add (l : List Vertex) :
    (l.filter (fun w => w.visited)).length + (l.filter (fun w => ! w.visited)).length
      = l.length := by
  induction l with
  | nil => rfl
  | cons a l ih =>
    cases ha : a.visited <;> simp [List.filter_cons, ha] <;> omega

theorem unvisCount_le_length (g : Graph) : unvisCount g ≤ g.vertexSet.length :=
  List.length_filter_le _ _

theorem vstruct_vid {v w : Vertex} (h : vstruct v = vstruct w) : v.vid = w.vid :=
  congrArg Prod.fst h

theorem vstruct_info {v w : Vertex} (h : vstruct v = vstruct w) : v.info = w.info :=
  congrArg (fun t => t.2.1) h

theorem find_vstruct_congr :
    ∀ (l l2 : List Vertex), l.map vstruct = l2.map vstruct → ∀ u : Nat,
      Option.map vstruct (l.find? (fun v => v.vid == u))
        = Option.map vstruct (l2.find? (fun v => v.vid == u)) := by
  intro l
  induction l with
  | nil =>
    intro l2 h u
    cases l2 with
    | nil => rfl
    | cons b t => simp at h
  | cons a l ih =>
    intro l2 h u
    cases l2 with
    | nil => simp at h
    | cons b t =>
      simp only [List.map_cons, List.cons.injEq] at h
      obtain ⟨hab, htl⟩ := h
      have hvid : a.vid = b.vid := vstruct_vid hab
      simp only [List.find?]
      rw [← hvid]
      cases hd : (a.vid == u) with
      | true =>
        show some (vstruct a) = some (vstruct b)
        rw [hab]
      | false => exact ih t htl u

theorem gstruct_vertexSet_map {g g2 : Graph} (h : gstruct g2 = gstruct g) :
    g2.vertexSet.map vstruct = g.vertexSet.map vstruct :=
  congrArg (fun t => t.1) h

theorem getVert_vstruct_congr {g g2 : Graph} (h : gstruct g2 = gstruct g) (u : Nat) :
    Option.map vstruct (getVert g2 u) = Option.map vstruct (getVert g u) :=
  find_vstruct_congr _ _ (gstruct_vertexSet_map h) u

theorem infoOf_of_gstruct {g g2 : Graph} (h : gstruct g2 = gstruct g) (u : Nat) :
    infoOf g2 u = infoOf g u := by
  have hc := getVert_vstruct_congr h u
  unfold infoOf
  cases h1 : getVert g2 u with
  | none =>
    cases h2 : getVert g u with
    | none => rfl
    | some v => rw [h1, h2] at hc; simp at hc
  | some w =>
    cases h2 : getVert g u with
    | none => rw [h1, h2] at hc; simp at hc
    | some v =>
      rw [h1, h2] at hc
      simp only [Option.map] at hc
      have := vstruct_info (Option.some.inj hc)
      simp [this]

theorem vids_of_gstruct {g g2 : Graph} (h : gstruct g2 = gstruct g) :
    g2.vertexSet.map Vertex.vid = g.vertexSet.map Vertex.vid := by
  have h1 := gstruct_vertexSet_map h
  have h2 := congrArg (List.map Prod.fst) h1
  rw [List.map_map, List.map_map] at h2
  have hfun : Prod.fst ∘ vstruct = Vertex.vid := rfl
  rwa [hfun] at h2

theorem vertexSet_length_of_gstruct {g g2 : Graph} (h : gstruct g2 = gstruct g) :
    g2.vertexSet.length = g.vertexSet.length := by
  have h1 := congrArg List.length (gstruct_vertexSet_map h)
  simpa using h1

theorem map_congr_mem {α β : Type} (f h : α → β) :
    ∀ l : List α, (∀ a ∈ l, f a = h a) → l.map f = l.map h := by
  intro l
  induction l with
  | nil => intro hp; rfl
  | cons a t ih =>
    intro hp
    simp only [List.map_cons]
    rw [hp a (List.mem_cons_self a t), ih (fun x hx => hp x (List.mem_cons_of_mem a hx))]

theorem map_id_of_eq {α : Type} (f : α → α) :
    ∀ l : List α, (∀ a ∈ l, f a = a) → l.map f = l := by
  intro l
  induction l with
  | nil => intro hp; rfl
  | cons a t ih =>
    intro hp
    simp only [List.map_cons]
    rw [hp a (List.mem_cons_self a t), ih (fun x hx => hp x (List.mem_cons_of_mem a hx))]

/-- Marking the vertex found by `getVert` visited adds exactly its vid to the
visited column (as a permutation), provided vids are unique and it was
unvisited before. -/
theorem filterVisited_mark_aux :
    ∀ (l : List Vertex) (vid : Nat) (v : Vertex),
      (l.map Vertex.vid).Nodup →
      l.find? (fun w => w.vid == vid) = some v → v.visited = false →
      List.Perm
        (((l.map (fun w => if w.vid = vid then markVisitedV w else w)).filter
            (fun w => w.visited)).map Vertex.vid)
        (vid :: ((l.filter (fun w => w.visited)).map Vertex.vid)) := by
  intro l
  induction l with
  | nil => intro vid v _ hf _; simp [List.find?] at hf
  | cons a l ih =>
    intro vid v hnd hf hv
    simp only [List.map_cons, List.nodup_cons] at hnd
    by_cases ha : a.vid = vid
    · have hfa : (a.vid == vid) = true := by simp [ha]
      have hva : v = a := by
        simp only [List.find?, hfa] at hf
        exact (Option.some.inj hf).symm
      subst hva
      have hmap : l.map (fun w => if w.vid = vid then markVisitedV w else w) = l := by
        apply map_id_of_eq
        intro w hw
        have hne : ¬ w.vid = vid := by
          intro hww
          apply hnd.1
          rw [ha, ← hww]
          exact List.mem_map_of_mem Vertex.vid hw
        exact if_neg hne
      simp only [List.map_cons, if_pos ha, hmap]
      rw [List.filter_cons, List.filter_cons]
      have h1 : (markVisitedV v).visited = true := rfl
      rw [if_pos h1, if_neg (by rw [hv]; exact Bool.false_ne_true)]
      simp only [List.map_cons]
      have h2 : (markVisitedV v).vid = vid := ha
      rw [h2]
    · have hfa : (a.vid == vid) = false := by simp [ha]
      simp only [List.find?, hfa] at hf
      have ihl := ih vid v hnd.2 hf hv
      simp only [List.map_cons, if_neg ha]
      rw [List.filter_cons, List.filter_cons]
      cases hav : a.visited with
      | true =>
        rw [if_pos rfl, if_pos rfl]
        simp only [List.map_cons]
        exact (ihl.cons a.vid).trans (List.Perm.swap vid a.vid _)
      | false =>
        rw [if_neg Bool.false_ne_true, if_neg Bool.false_ne_true]
        exact ihl

theorem visitedVids_updateVert_mark {g : Graph} {vid : Nat} {v : Vertex}
    (hnd : (g.vertexSet.map Vertex.vid).Nodup)
    (hgv : getVert g vid = some v) (hv : v.visited = false) :
    List.Perm (visitedVids (updateVert g vid markVisitedV)) (vid :: visitedVids g) :=
  filterVisited_mark_aux g.vertexSet vid v hnd hgv hv

theorem unvisCount_lt_of_mark {g : Graph} {vid : Nat} {v : Vertex}
    (hnd : (g.vertexSet.map Vertex.vid).Nodup)
    (hgv : getVert g vid = some v) (hv : v.visited = false) :
    unvisCount (updateVert g vid markVisitedV) < unvisCount g := by
  have hperm := visitedVids_updateVert_mark hnd hgv hv
  have hlen := hperm.length_eq
  have h1 := length_filter_visited_add (updateVert g vid markVisitedV).vertexSet
  have h2 := length_filter_visited_add g.vertexSet
  have h3 : (updateVert g vid markVisitedV).vertexSet.length = g.vertexSet.length := by
    unfold updateVert
    simp
  have h4 : (visitedVids (updateVert g vid markVisitedV)).length
      = ((updateVert g vid markVisitedV).vertexSet.filter (fun w => w.visited)).length := by
    simp [visitedVids]
  have h5 : (visitedVids g).length = (g.vertexSet.filter (fun w => w.visited)).length := by
    simp [visitedVids]
  unfold unvisCount
  simp only [List.length_cons] at hlen
  omega

theorem unvisCount_le_of_gstruct_perm {g g2 : Graph} {new : List Nat}
    (h1 : gstruct g2 = gstruct g)
    (h2 : List.Perm (visitedVids g2) (visitedVids g ++ new)) :
    unvisCount g2 ≤ unvisCount g := by
  have hlen := h2.length_eq
  have hL := vertexSet_length_of_gstruct h1
  have ha := length_filter_visited_add g2.vertexSet
  have hb := length_filter_visited_add g.vertexSet
  have h4 : (visitedVids g2).length = (g2.vertexSet.filter (fun w => w.visited)).length := by
    simp [visitedVids]
  have h5 : (visitedVids g).length = (g.vertexSet.filter (fun w => w.visited)).length := by
    simp [visitedVids]
  unfold unvisCount
  simp only [List.length_append] at hlen
  omega

theorem dfsAdj_zero : ∀ (es : List Edge) (g : Graph) (res : List Key),
    dfsAdj 0 g es res = (g, res) := by
  intro es
  induction es with
  | nil => intro g res; simp only [dfsAdj]
  | cons e rest ih =>
    intro g res
    simp only [dfsAdj]
    cases hgv : getVert g e.dest with
    | none =>
      simp only [hgv]
      exact ih g res
    | some w =>
      simp only [hgv]
      cases hw : w.visited with
      | true =>
        simp only [if_pos rfl]
        exact ih g res
      | false =>
        simp only [Bool.false_eq_true, if_false]
        simp only [dfsVisit]
        exact ih g res

theorem dfsVisit_dfsAdj_emits (fuel : Nat) :
    (∀ g vid res, (g.vertexSet.map Vertex.vid).Nodup → unvisCount g ≤ fuel →
      (∀ v, getVert g vid = some v → v.visited = false) →
      ∃ new : List Nat,
        (dfsVisit fuel g vid res).2 = res ++ new.map (fun u => infoOf g u) ∧
        List.Perm (visitedVids (dfsVisit fuel g vid res).1) (visitedVids g ++ new) ∧
        (∀ u ∈ new, u ∈ g.vertexSet.map Vertex.vid) ∧
        (∀ v, getVert g vid = some v → vid ∈ new)) ∧
    (∀ g es res, (g.vertexSet.map Vertex.vid).Nodup → unvisCount g ≤ fuel →
      ∃ new : List Nat,
        (dfsAdj fuel g es res).2 = res ++ new.map (fun u => infoOf g u) ∧
        List.Perm (visitedVids (dfsAdj fuel g es res).1) (visitedVids g ++ new) ∧
        (∀ u ∈ new, u ∈ g.vertexSet.map Vertex.vid)) := by
  induction fuel with
  | zero =>
    constructor
    · intro g vid res hnd hfuel hunvis
      refine ⟨[], ?_, ?_, ?_, ?_⟩
      · simp only [dfsVisit, List.map_nil, List.append_nil]
      · simp only [dfsVisit, List.append_nil]
        exact List.Perm.refl _
      · intro u hu; simp at hu
      · intro v hgv
        exfalso
        have hv := hunvis v hgv
        have hmem := (getVert_mem hgv).1
        have hfin : v ∈ g.vertexSet.filter (fun w => ! w.visited) :=
          List.mem_filter.2 ⟨hmem, by simp [hv]⟩
        have hpos : 0 < unvisCount g := by
          unfold unvisCount
          exact List.length_pos.2 (List.ne_nil_of_mem hfin)
        omega
    · intro g es res hnd hfuel
      refine ⟨[], ?_, ?_, ?_⟩
      · rw [dfsAdj_zero]; simp
      · rw [dfsAdj_zero]
        simp only [List.append_nil]
        exact List.Perm.refl _
      · intro u hu; simp at hu
  | succ f ihf =>
    have hP : ∀ g vid res, (g.vertexSet.map Vertex.vid).Nodup → unvisCount g ≤ f + 1 →
        (∀ v, getVert g vid = some v → v.visited = false) →
        ∃ new : List Nat,
          (dfsVisit (f + 1) g vid res).2 = res ++ new.map (fun u => infoOf g u) ∧
          List.Perm (visitedVids (dfsVisit (f + 1) g vid res).1) (visitedVids g ++ new) ∧
          (∀ u ∈ new, u ∈ g.vertexSet.map Vertex.vid) ∧
          (∀ v, getVert g vid = some v → vid ∈ new) := by
      intro g vid res hnd hfuel hunvis
      cases hgv : getVert g vid with
      | none =>
        refine ⟨[], ?_, ?_, ?_, ?_⟩
        · simp only [dfsVisit, hgv, List.map_nil, List.append_nil]
        · simp only [dfsVisit, hgv, List.append_nil]
          exact List.Perm.refl _
        · intro u hu; simp at hu
        · intro w2 hw2; exact Option.noConfusion hw2
      | some v =>
        have hv : v.visited = false := hunvis v hgv
        have hstep : dfsVisit (f + 1) g vid res
            = dfsAdj f (updateVert g vid markVisitedV) v.adj (res ++ [v.info]) := by
          simp only [dfsVisit, hgv]
        have hgs1 : gstruct (updateVert g vid markVisitedV) = gstruct g :=
          gstruct_markVisited g vid
        have hnd1 : ((updateVert g vid markVisitedV).vertexSet.map Vertex.vid).Nodup := by
          rw [vids_of_gstruct hgs1]; exact hnd
        have hcount : unvisCount (updateVert g vid markVisitedV) < unvisCount g :=
          unvisCount_lt_of_mark hnd hgv hv
        have hfuel1 : unvisCount (updateVert g vid markVisitedV) ≤ f := by omega
        obtain ⟨new1, hres1, hperm1, hsub1⟩ :=
          ihf.2 (updateVert g vid markVisitedV) v.adj (res ++ [v.info]) hnd1 hfuel1
        have hmarkperm : List.Perm (visitedVids (updateVert g vid markVisitedV))
            (vid :: visitedVids g) := visitedVids_updateVert_mark hnd hgv hv
        refine ⟨vid :: new1, ?_, ?_, ?_, ?_⟩
        · rw [hstep, hres1]
          have hinfo : (fun u => infoOf (updateVert g vid markVisitedV) u)
              = (fun u => infoOf g u) := funext (fun u => infoOf_of_gstruct hgs1 u)
          rw [hinfo]
          have hiv : infoOf g vid = v.info := by simp [infoOf, hgv]
          simp [hiv, List.append_assoc]
        · rw [hstep]
          refine hperm1.trans ?_
          refine (hmarkperm.append_right new1).trans ?_
          exact List.perm_middle.symm
        · intro u hu
          rcases List.mem_cons.1 hu with h | h
          · subst h
            have hm := getVert_mem hgv
            have := List.mem_map_of_mem Vertex.vid hm.1
            rwa [hm.2] at this
          · have := hsub1 u h
            rwa [vids_of_gstruct hgs1] at this
        · intro w _
          exact List.mem_cons_self vid new1
    refine ⟨hP, ?_⟩
    intro g es
    induction es generalizing g with
    | nil =>
      intro res hnd hfuel
      refine ⟨[], ?_, ?_, ?_⟩
      · simp only [dfsAdj, List.map_nil, List.append_nil]
      · simp only [dfsAdj, List.append_nil]
        exact List.Perm.refl _
      · intro u hu; simp at hu
    | cons e rest ih =>
      intro res hnd hfuel
      cases hgv : getVert g e.dest with
      | none =>
        have hstep : dfsAdj (f + 1) g (e :: rest) res = dfsAdj (f + 1) g rest res := by
          simp only [dfsAdj, hgv]
        rw [hstep]
        exact ih g res hnd hfuel
      | some w =>
        cases hw : w.visited with
        | true =>
          have hstep : dfsAdj (f + 1) g (e :: rest) res = dfsAdj (f + 1) g rest res := by
            simp only [dfsAdj, hgv]
            rw [hw, if_pos rfl]
          rw [hstep]
          exact ih g res hnd hfuel
        | false =>
          have hvv : ∀ w2, getVert g e.dest = some w2 → w2.visited = false := by
            intro w2 hw2
            rw [hw2] at hgv
            rw [Option.some.inj hgv]
            exact hw
          obtain ⟨new1, hres1, hperm1, hsub1, hvid1⟩ := hP g e.dest res hnd hfuel hvv
          have hgs2 : gstruct (dfsVisit (f + 1) g e.dest res).1 = gstruct g :=
            (dfsVisit_dfsAdj_gstruct (f + 1)).1 g e.dest res
          have hnd2 : ((dfsVisit (f + 1) g e.dest res).1.vertexSet.map Vertex.vid).Nodup := by
            rw [vids_of_gstruct hgs2]; exact hnd
          have hfuel2 : unvisCount (dfsVisit (f + 1) g e.dest res).1 ≤ f + 1 :=
            le_trans (unvisCount_le_of_gstruct_perm hgs2 hperm1) hfuel
          obtain ⟨new2, hres2, hperm2, hsub2⟩ :=
            ih (dfsVisit (f + 1) g e.dest res).1 (dfsVisit (f + 1) g e.dest res).2 hnd2 hfuel2
          have hstep : dfsAdj (f + 1) g (e :: rest) res
              = dfsAdj (f + 1) (dfsVisit (f + 1) g e.dest res).1 rest
                  (dfsVisit (f + 1) g e.dest res).2 := by
            simp only [dfsAdj, hgv]
            rw [hw]
            simp only [Bool.false_eq_true, if_false]
          refine ⟨new1 ++ new2, ?_, ?_, ?_⟩
          · rw [hstep, hres2, hres1]
            have hinfo : (fun u => infoOf (dfsVisit (f + 1) g e.dest res).1 u)
                = (fun u => infoOf g u) := funext (fun u => infoOf_of_gstruct hgs2 u)
            rw [hinfo]
            simp [List.append_assoc]
          · rw [hstep]
            refine hperm2.trans ?_
            have hx := hperm1.append_right new2
            rwa [List.append_assoc] at hx
          · intro u hu
            rcases List.mem_append.1 hu with h | h
            · exact hsub1 u h
            · have := hsub2 u h
              rwa [vids_of_gstruct hgs2] at this

theorem dfsForestLoop_emits :
    ∀ (us : List Nat) (g : Graph) (res : List Key),
      (g.vertexSet.map Vertex.vid).Nodup →
      ∃ new : List Nat,
        (dfsForestLoop g res us).2 = res ++ new.map (fun u => infoOf g u) ∧
        List.Perm (visitedVids (dfsForestLoop g res us).1) (visitedVids g ++ new) ∧
        (∀ u ∈ new, u ∈ g.vertexSet.map Vertex.vid) ∧
        (∀ u ∈ us, u ∈ g.vertexSet.map Vertex.vid →
          u ∈ visitedVids (dfsForestLoop g res us).1) := by
  intro us
  induction us with
  | nil =>
    intro g res hnd
    refine ⟨[], ?_, ?_, ?_, ?_⟩
    · simp only [dfsForestLoop, List.map_nil, List.append_nil]
    · simp only [dfsForestLoop, List.append_nil]
      exact List.Perm.refl _
    · intro u hu; simp at hu
    · intro u hu; simp at hu
  | cons u0 rest ih =>
    intro g res hnd
    cases hgv : getVert g u0 with
    | none =>
      have hstep : dfsForestLoop g res (u0 :: rest) = dfsForestLoop g res rest := by
        simp only [dfsForestLoop, hgv]
      obtain ⟨new, h1, h2, h3, h4⟩ := ih g res hnd
      refine ⟨new, by rw [hstep]; exact h1, by rw [hstep]; exact h2, h3, ?_⟩
      intro u hu hmem
      rcases List.mem_cons.1 hu with h | h
      · subst h
        exfalso
        have hs := getVert_isSome_iff_mem_vids.2 hmem
        rw [hgv] at hs
        simp at hs
      · rw [hstep]; exact h4 u h hmem
    | some v =>
      cases hv : v.visited with
      | true =>
        have hstep : dfsForestLoop g res (u0 :: rest) = dfsForestLoop g res rest := by
          simp only [dfsForestLoop, hgv]
          rw [hv, if_pos rfl]
        obtain ⟨new, h1, h2, h3, h4⟩ := ih g res hnd
        refine ⟨new, by rw [hstep]; exact h1, by rw [hstep]; exact h2, h3, ?_⟩
        intro u hu hmem
        rcases List.mem_cons.1 hu with h | h
        · subst h
          have hu0 : u ∈ visitedVids g := by
            have hm := getVert_mem hgv
            have hf : v ∈ g.vertexSet.filter (fun w => w.visited) :=
              List.mem_filter.2 ⟨hm.1, by simp [hv]⟩
            have hmm := List.mem_map_of_mem Vertex.vid hf
            rw [hm.2] at hmm
            exact hmm
          rw [hstep]
          exact (h2.mem_iff).2 (List.mem_append.2 (Or.inl hu0))
        · rw [hstep]; exact h4 u h hmem
      | false =>
        have hvv : ∀ w2, getVert g u0 = some w2 → w2.visited = false := by
          intro w2 hw2
          rw [hw2] at hgv
          rw [Option.some.inj hgv]
          exact hv
        obtain ⟨new1, hres1, hperm1, hsub1, hvid1⟩ :=
          (dfsVisit_dfsAdj_emits g.vertexSet.length).1 g u0 res hnd
            (unvisCount_le_length g) hvv
        have hgs2 : gstruct (dfsVisit g.vertexSet.length g u0 res).1 = gstruct g :=
          (dfsVisit_dfsAdj_gstruct _).1 g u0 res
        have hnd2 :
            ((dfsVisit g.vertexSet.length g u0 res).1.vertexSet.map Vertex.vid).Nodup := by
          rw [vids_of_gstruct hgs2]; exact hnd
        obtain ⟨new2, h1, h2, h3, h4⟩ :=
          ih (dfsVisit g.vertexSet.length g u0 res).1
            (dfsVisit g.vertexSet.length g u0 res).2 hnd2
        have hstep : dfsForestLoop g res (u0 :: rest)
            = dfsForestLoop (dfsVisit g.vertexSet.length g u0 res).1
                (dfsVisit g.vertexSet.length g u0 res).2 rest := by
          simp only [dfsForestLoop, hgv]
          rw [hv]
          simp only [Bool.false_eq_true, if_false]
        refine ⟨new1 ++ new2, ?_, ?_, ?_, ?_⟩
        · rw [hstep, h1, hres1]
          have hinfo : (fun u => infoOf (dfsVisit g.vertexSet.length g u0 res).1 u)
              = (fun u => infoOf g u) := funext (fun u => infoOf_of_gstruct hgs2 u)
          rw [hinfo]
          simp [List.append_assoc]
        · rw [hstep]
          refine h2.trans ?_
          have hx := hperm1.append_right new2
          rwa [List.append_assoc] at hx
        · intro u hu
          rcases List.mem_append.1 hu with h | h
          · exact hsub1 u h
          · have := h3 u h
            rwa [vids_of_gstruct hgs2] at this
        · intro u hu hmem
          rw [hstep]
          rcases List.mem_cons.1 hu with h | h
          · subst h
            have hin : u ∈ visitedVids (dfsVisit g.vertexSet.length g u res).1 :=
              (hperm1.mem_iff).2 (List.mem_append.2 (Or.inr (hvid1 v hgv)))
            exact (h2.mem_iff).2 (List.mem_append.2 (Or.inl hin))
          · apply h4 u h
            rwa [vids_of_gstruct hgs2]

/-- **C9** (`dfs()` is a permutation of the vertex keys).  On every
well-formed graph, the no-argument `dfs()` — the forest traversal that
clears all visited flags and then starts a pre-order depth-first search at
each still-unvisited vertex in insertion order — returns a permutation of
the graph's vertex keys, so each key occurs exactly once in the result. -/
theorem c9_dfs_perm (g : Graph) (h : Wf g) :
    List.Perm (g.dfs).2 (g.vertexSet.map Vertex.info) := by
  have hvids0 : (resetVisited g).vertexSet.map Vertex.vid = g.vertexSet.map Vertex.vid := by
    show (g.vertexSet.map clearVisitedV).map Vertex.vid = g.vertexSet.map Vertex.vid
    have hc : Vertex.vid ∘ clearVisitedV = Vertex.vid := rfl
    rw [List.map_map, hc]
  have hinfos0 : (resetVisited g).vertexSet.map Vertex.info
      = g.vertexSet.map Vertex.info := by
    show (g.vertexSet.map clearVisitedV).map Vertex.info = g.vertexSet.map Vertex.info
    have hc : Vertex.info ∘ clearVisitedV = Vertex.info := rfl
    rw [List.map_map, hc]
  have hndv : ((resetVisited g).vertexSet.map Vertex.vid).Nodup := by
    rw [hvids0]; exact h.nodupVids
  have hvv0 : visitedVids (resetVisited g) = [] := by
    show ((g.vertexSet.map clearVisitedV).filter (fun w => w.visited)).map Vertex.vid = []
    have hnilf : ∀ l : List Vertex, (l.map clearVisitedV).filter (fun w => w.visited) = [] := by
      intro l
      induction l with
      | nil => rfl
      | cons a t iht =>
        simp only [List.map_cons, List.filter_cons]
        rw [if_neg (show ¬ (clearVisitedV a).visited = true from Bool.false_ne_true)]
        exact iht
    rw [hnilf]
    rfl
  obtain ⟨new, h1, h2, h3, h4⟩ :=
    dfsForestLoop_emits ((resetVisited g).vertexSet.map Vertex.vid) (resetVisited g) [] hndv
  have hgsf : gstruct (dfsForestLoop (resetVisited g) []
      ((resetVisited g).vertexSet.map Vertex.vid)).1 = gstruct (resetVisited g) :=
    dfsForestLoop_gstruct _ _ _
  rw [show (g.dfs).2 = (dfsForestLoop (resetVisited g) []
    ((resetVisited g).vertexSet.map Vertex.vid)).2 from rfl, h1, List.nil_append]
  have hperm_new_vids : List.Perm new ((resetVisited g).vertexSet.map Vertex.vid) := by
    rw [hvv0, List.nil_append] at h2
    have hfs : List.Sublist ((dfsForestLoop (resetVisited g) []
        ((resetVisited g).vertexSet.map Vertex.vid)).1.vertexSet.filter (fun w => w.visited))
        (dfsForestLoop (resetVisited g) []
          ((resetVisited g).vertexSet.map Vertex.vid)).1.vertexSet :=
      List.filter_sublist _
    have hsubl : List.Subperm (visitedVids (dfsForestLoop (resetVisited g) []
        ((resetVisited g).vertexSet.map Vertex.vid)).1)
        ((dfsForestLoop (resetVisited g) []
          ((resetVisited g).vertexSet.map Vertex.vid)).1.vertexSet.map Vertex.vid) :=
      (List.Sublist.map Vertex.vid hfs).subperm
    rw [vids_of_gstruct hgsf] at hsubl
    have hsup : List.Subperm ((resetVisited g).vertexSet.map Vertex.vid)
        (visitedVids (dfsForestLoop (resetVisited g) []
          ((resetVisited g).vertexSet.map Vertex.vid)).1) :=
      hndv.subperm (fun u hu => h4 u hu hu)
    exact h2.symm.trans (hsubl.antisymm hsup)
  refine (hperm_new_vids.map (fun u => infoOf (resetVisited g) u)).trans ?_
  have hpt : ∀ v ∈ (resetVisited g).vertexSet, infoOf (resetVisited g) v.vid = v.info := by
    intro v hv
    have hfind := find_vid_of_mem hndv hv
    simp [infoOf, getVert, hfind]
  have heq : ((resetVisited g).vertexSet.map Vertex.vid).map
      (fun u => infoOf (resetVisited g) u) = g.vertexSet.map Vertex.info := by
    rw [List.map_map]
    rw [map_congr_mem ((fun u => infoOf (resetVisited g) u) ∘ Vertex.vid) Vertex.info
      (resetVisited g).vertexSet (fun v hv => hpt v hv)]
    exact hinfos0
  rw [heq]

/-- A concrete graph (keys 1, 2, 3; one edge 1→2) for the C9 witness. -/
def gC9w : Graph :=
  ((((emptyGraph.addVertex 1).2.addVertex 2).2.addVertex 3).2.addEdge 1 2 5).2

/-- Witness instantiating `c9_dfs_perm` on `gC9w`. -/
theorem c9_witness : Wf gC9w ∧ List.Perm (gC9w.dfs).2 (gC9w.vertexSet.map Vertex.info) :=
  ⟨by decide, c9_dfs_perm gC9w (by decide)⟩

/-! ### C3: `bfs(source)` — reachability, uniqueness, level order -/

/-- One directed edge step between allocation ids. -/
def stepRel (g : Graph) (u w : Nat) : Prop :=
  ∃ e ∈ adjOf g u, e.dest = w

/-- `reachesIn g s n u`: `u` is reachable from `s` along directed edges in at
most `n` hops. -/
def reachesIn (g : Graph) (s : Nat) : Nat → Nat → Prop
  | 0, u => u = s
  | n + 1, u => reachesIn g s n u ∨ ∃ w, reachesIn g s n w ∧ stepRel g w u

/-- `u` is at hop distance exactly `d` from `s`. -/
def distIs (g : Graph) (s u d : Nat) : Prop :=
  reachesIn g s d u ∧ ∀ n, reachesIn g s n u → d ≤ n

/-- The hop distance of `a` is at most that of `b` (vacuously true when `b`
is unreachable). -/
def distLE (g : Graph) (s a b : Nat) : Prop :=
  ∀ n, reachesIn g s n b → reachesIn g s n a

theorem reachesIn_mono {g : Graph} {s u : Nat} :
    ∀ {m n : Nat}, m ≤ n → reachesIn g s m u → reachesIn g s n u := by
  intro m n hmn h
  induction n with
  | zero =>
    have hm : m = 0 := Nat.le_zero.1 hmn
    subst hm
    exact h
  | succ k ihn =>
    rcases Nat.eq_or_lt_of_le hmn with heq | hlt
    · subst heq; exact h
    · exact Or.inl (ihn (Nat.lt_succ_iff.1 hlt))

theorem distLE_of_dists {g : Graph} {s a b da db : Nat} (ha : distIs g s a da)
    (hb : distIs g s b db) (hab : da ≤ db) : distLE g s a b := by
  intro n hn
  exact reachesIn_mono (le_trans hab (hb.2 n hn)) ha.1

theorem mem_visitedVids_iff {g : Graph} (hnd : (g.vertexSet.map Vertex.vid).Nodup)
    {u : Nat} :
    u ∈ visitedVids g ↔ ∃ v, getVert g u = some v ∧ v.visited = true := by
  constructor
  · intro h
    rcases List.mem_map.1 h with ⟨v, hv, rfl⟩
    have hvm := List.mem_filter.1 hv
    exact ⟨v, find_vid_of_mem hnd hvm.1, hvm.2⟩
  · rintro ⟨v, hgv, hvis⟩
    have hm := getVert_mem hgv
    have hf : v ∈ g.vertexSet.filter (fun w => w.visited) :=
      List.mem_filter.2 ⟨hm.1, hvis⟩
    have hmm := List.mem_map_of_mem Vertex.vid hf
    rwa [hm.2] at hmm

theorem mem_vids_of_mem_visitedVids {g : Graph} {u : Nat} (h : u ∈ visitedVids g) :
    u ∈ g.vertexSet.map Vertex.vid := by
  rcases List.mem_map.1 h with ⟨v, hv, rfl⟩
  exact List.mem_map_of_mem Vertex.vid (List.mem_filter.1 hv).1

theorem adjOf_of_gstruct {g g2 : Graph} (h : gstruct g2 = gstruct g) (u : Nat) :
    adjOf g2 u = adjOf g u := by
  have hc := getVert_vstruct_congr h u
  unfold adjOf
  cases h1 : getVert g2 u with
  | none =>
    cases h2 : getVert g u with
    | none => rfl
    | some v => rw [h1, h2] at hc; simp at hc
  | some w =>
    cases h2 : getVert g u with
    | none => rw [h1, h2] at hc; simp at hc
    | some v =>
      rw [h1, h2] at hc
      simp only [Option.map] at hc
      have hadj : w.adj = v.adj := congrArg (fun t => t.2.2.1) (Option.some.inj hc)
      simp [hadj]

theorem getVert_of_gstruct_some {g g2 : Graph} (h : gstruct g2 = gstruct g) {u : Nat}
    {v : Vertex} (h2 : getVert g2 u = some v) :
    ∃ v0, getVert g u = some v0 ∧ vstruct v0 = vstruct v := by
  have hc := getVert_vstruct_congr h u
  rw [h2] at hc
  cases hg : getVert g u with
  | none => rw [hg] at hc; simp at hc
  | some v0 =>
    rw [hg] at hc
    simp only [Option.map] at hc
    exact ⟨v0, rfl, (Option.some.inj hc).symm⟩

theorem vids_resetVisited (g : Graph) :
    (resetVisited g).vertexSet.map Vertex.vid = g.vertexSet.map Vertex.vid := by
  show (g.vertexSet.map clearVisitedV).map Vertex.vid = g.vertexSet.map Vertex.vid
  have hc : Vertex.vid ∘ clearVisitedV = Vertex.vid := rfl
  rw [List.map_map, hc]

theorem visitedVids_resetVisited (g : Graph) : visitedVids (resetVisited g) = [] := by
  show ((g.vertexSet.map clearVisitedV).filter (fun w => w.visited)).map Vertex.vid = []
  have hnilf : (g.vertexSet.map clearVisitedV).filter (fun w => w.visited) = [] := by
    induction g.vertexSet with
    | nil => rfl
    | cons a t iht =>
      simp only [List.map_cons, List.filter_cons]
      rw [if_neg (show ¬ (clearVisitedV a).visited = true from Bool.false_ne_true)]
      exact iht
  rw [hnilf]
  rfl

theorem resetVisited_unvisited (g : Graph) :
    ∀ v ∈ (resetVisited g).vertexSet, v.visited = false := by
  intro v hv
  rcases List.mem_map.1 hv with ⟨x, _, rfl⟩
  rfl

theorem map_infoOf_nodup {g : Graph} (h : Wf g) {vs : List Nat}
    (hnd : vs.Nodup) (hsub : ∀ u ∈ vs, u ∈ g.vertexSet.map Vertex.vid) :
    (vs.map (fun u => infoOf g u)).Nodup := by
  refine List.Nodup.map_on ?_ hnd
  intro x hx y hy hxy
  have hxs : (getVert g x).isSome = true := getVert_isSome_iff_mem_vids.2 (hsub x hx)
  have hys : (getVert g y).isSome = true := getVert_isSome_iff_mem_vids.2 (hsub y hy)
  rcases Option.isSome_iff_exists.1 hxs with ⟨vx, hvx⟩
  rcases Option.isSome_iff_exists.1 hys with ⟨vy, hvy⟩
  have hmx := getVert_mem hvx
  have hmy := getVert_mem hvy
  have hinfox : infoOf g x = vx.info := by simp [infoOf, hvx]
  have hinfoy : infoOf g y = vy.info := by simp [infoOf, hvy]
  rw [hinfox, hinfoy] at hxy
  have hveq : vx = vy :=
    List.inj_on_of_nodup_map h.nodupInfos hmx.1 hmy.1 hxy
  rw [← hmx.2, ← hmy.2, hveq]

theorem bfsEnqueue_spec :
    ∀ (es : List Edge) (g1 : Graph) (q : List Nat),
      (g1.vertexSet.map Vertex.vid).Nodup →
      (∀ e ∈ es, e.dest ∈ g1.vertexSet.map Vertex.vid) →
      ∃ pushed : List Nat,
        (bfsEnqueue g1 q es).2 = q ++ pushed ∧
        List.Perm (visitedVids (bfsEnqueue g1 q es).1) (visitedVids g1 ++ pushed) ∧
        (∀ w ∈ pushed, (∃ e ∈ es, e.dest = w) ∧ w ∉ visitedVids g1) ∧
        (∀ e ∈ es, e.dest ∈ visitedVids (bfsEnqueue g1 q es).1) := by
  intro es
  induction es with
  | nil =>
    intro g1 q hnd hdest
    refine ⟨[], ?_, ?_, ?_, ?_⟩
    · simp only [bfsEnqueue, List.append_nil]
    · simp only [bfsEnqueue, List.append_nil]
      exact List.Perm.refl _
    · intro w hw; simp at hw
    · intro e he; simp at he
  | cons e rest ih =>
    intro g1 q hnd hdest
    cases hge : getVert g1 e.dest with
    | none =>
      exfalso
      have hsome := getVert_isSome_iff_mem_vids.2 (hdest e (List.mem_cons_self e rest))
      rw [hge] at hsome
      simp at hsome
    | some w =>
      cases hwv : w.visited with
      | true =>
        have hstep : bfsEnqueue g1 q (e :: rest) = bfsEnqueue g1 q rest := by
          simp only [bfsEnqueue, hge]
          rw [hwv, if_pos rfl]
        obtain ⟨pushed, h1, h2, h3, h4⟩ :=
          ih g1 q hnd (fun e2 he2 => hdest e2 (List.mem_cons_of_mem e he2))
        rw [hstep]
        refine ⟨pushed, h1, h2, ?_, ?_⟩
        · intro x hx
          obtain ⟨⟨e2, he2, hde⟩, hnv⟩ := h3 x hx
          exact ⟨⟨e2, List.mem_cons_of_mem e he2, hde⟩, hnv⟩
        · intro e2 he2
          rcases List.mem_cons.1 he2 with h | h
          · subst h
            have hin : e2.dest ∈ visitedVids g1 :=
              (mem_visitedVids_iff hnd).2 ⟨w, hge, hwv⟩
            exact (h2.mem_iff).2 (List.mem_append.2 (Or.inl hin))
          · exact h4 e2 h
      | false =>
        have hstep : bfsEnqueue g1 q (e :: rest)
            = bfsEnqueue (updateVert g1 e.dest markVisitedV) (q ++ [e.dest]) rest := by
          simp only [bfsEnqueue, hge]
          rw [hwv]
          simp only [Bool.false_eq_true, if_false]
        have hgs : gstruct (updateVert g1 e.dest markVisitedV) = gstruct g1 :=
          gstruct_markVisited _ _
        have hnd2 :
            ((updateVert g1 e.dest markVisitedV).vertexSet.map Vertex.vid).Nodup := by
          rw [vids_of_gstruct hgs]; exact hnd
        have hdest2 : ∀ e2 ∈ rest,
            e2.dest ∈ (updateVert g1 e.dest markVisitedV).vertexSet.map Vertex.vid := by
          intro e2 he2
          rw [vids_of_gstruct hgs]
          exact hdest e2 (List.mem_cons_of_mem e he2)
        obtain ⟨pushed, h1, h2, h3, h4⟩ :=
          ih (updateVert g1 e.dest markVisitedV) (q ++ [e.dest]) hnd2 hdest2
        have hmark : List.Perm (visitedVids (updateVert g1 e.dest markVisitedV))
            (e.dest :: visitedVids g1) := visitedVids_updateVert_mark hnd hge hwv
        rw [hstep]
        refine ⟨e.dest :: pushed, ?_, ?_, ?_, ?_⟩
        · rw [h1, List.append_assoc, List.singleton_append]
        · refine h2.trans ?_
          refine (hmark.append_right pushed).trans ?_
          exact List.perm_middle.symm
        · intro x hx
          rcases List.mem_cons.1 hx with h | h
          · subst h
            refine ⟨⟨e, List.mem_cons_self e rest, rfl⟩, ?_⟩
            intro hmem
            rcases (mem_visitedVids_iff hnd).1 hmem with ⟨v2, hv2, hvis2⟩
            rw [hge] at hv2
            rw [← Option.some.inj hv2] at hvis2
            rw [hwv] at hvis2
            exact Bool.noConfusion hvis2
          · obtain ⟨⟨e2, he2, hde⟩, hnv⟩ := h3 x h
            refine ⟨⟨e2, List.mem_cons_of_mem e he2, hde⟩, ?_⟩
            intro hmem
            exact hnv ((hmark.mem_iff).2 (List.mem_cons.2 (Or.inr hmem)))
        · intro e2 he2
          rcases List.mem_cons.1 he2 with h | h
          · subst h
            have hin : e2.dest ∈ visitedVids (updateVert g1 e2.dest markVisitedV) :=
              (hmark.mem_iff).2 (List.mem_cons_self _ _)
            exact (h2.mem_iff).2 (List.mem_append.2 (Or.inl hin))
          · exact h4 e2 h

/-- The invariant of the `bfs` main loop.  The queue splits into a front
layer `q1` at exact distance `D` and a back layer `q2` at exact distance
`D + 1`; `done` holds the already-emitted vids, in non-decreasing distance;
every vertex within distance `D` is already queued or emitted; the
out-neighbours of emitted vertices are visited; and the visited set is
exactly `done` plus the queue. -/
theorem bfsLoop_spec (g : Graph) (svid : Nat) (hwf : Wf g) :
    ∀ (fuel : Nat) (g1 : Graph) (q1 q2 done : List Nat) (res : List Key) (D : Nat),
      gstruct g1 = gstruct g →
      (q1 ++ q2).length + unvisCount g1 + 1 ≤ fuel →
      (∀ u ∈ q1, distIs g svid u D) →
      (∀ u ∈ q2, distIs g svid u (D + 1)) →
      (∀ u ∈ done, ∃ du, distIs g svid u du ∧ du ≤ D) →
      List.Pairwise (distLE g svid) done →
      (∀ u n, reachesIn g svid n u → n ≤ D → u ∈ done ++ (q1 ++ q2)) →
      (∀ u ∈ done, ∀ w, stepRel g u w → w ∈ done ++ (q1 ++ q2)) →
      List.Perm (visitedVids g1) (done ++ (q1 ++ q2)) →
      ∃ doneF : List Nat,
        (bfsLoop fuel g1 (q1 ++ q2) res).2 = res ++ doneF.map (fun u => infoOf g u) ∧
        List.Perm (visitedVids (bfsLoop fuel g1 (q1 ++ q2) res).1) (done ++ doneF) ∧
        (∀ u n, reachesIn g svid n u → u ∈ done ++ doneF) ∧
        (∀ u ∈ doneF, ∃ du, distIs g svid u du) ∧
        List.Pairwise (distLE g svid) (done ++ doneF) := by
  intro fuel
  induction fuel with
  | zero =>
    intro g1 q1 q2 done res D hgs hfuel h4 h5 h6 h7 h8 h9 h10
    omega
  | succ f ih =>
    intro g1 q1 q2 done res D hgs hfuel h4 h5 h6 h7 h8 h9 h10
    cases hq : q1 ++ q2 with
    | nil =>
      rw [hq] at h8 h9 h10
      have hclosed : ∀ n u, reachesIn g svid n u → u ∈ done := by
        intro n
        induction n with
        | zero =>
          intro u hu
          have hm := h8 u 0 hu (Nat.zero_le D)
          rwa [List.append_nil] at hm
        | succ m ihm =>
          intro u hu
          simp only [reachesIn] at hu
          rcases hu with hu | ⟨w, hw, hstep⟩
          · exact ihm u hu
          · have hwd := ihm w hw
            have := h9 w hwd u hstep
            rwa [List.append_nil] at this
      refine ⟨[], ?_, ?_, ?_, ?_, ?_⟩
      · simp only [bfsLoop, List.map_nil, List.append_nil]
      · simp only [bfsLoop, List.append_nil]
        rwa [List.append_nil] at h10
      · intro u n hn
        rw [List.append_nil]
        exact hclosed n u hn
      · intro u hu; simp at hu
      · rwa [List.append_nil]
    | cons u qrest =>
      rw [hq] at h8 h9 h10
      have hsplit : ∃ Dx q1t q2x,
          qrest = q1t ++ q2x ∧
          distIs g svid u Dx ∧
          (∀ x ∈ q1t, distIs g svid x Dx) ∧
          (∀ x ∈ q2x, distIs g svid x (Dx + 1)) ∧
          (∀ x ∈ done, ∃ dx, distIs g svid x dx ∧ dx ≤ Dx) ∧
          (∀ x n, reachesIn g svid n x → n ≤ Dx → x ∈ done ++ (u :: qrest)) := by
        cases q1 with
        | cons a q1tail =>
          have hq2 : a = u ∧ q1tail ++ q2 = qrest := by
            rw [List.cons_append] at hq
            exact ⟨(List.cons.inj hq).1, (List.cons.inj hq).2⟩
          obtain ⟨rfl, hq3⟩ := hq2
          refine ⟨D, q1tail, q2, hq3.symm, h4 a (List.mem_cons_self a q1tail), ?_, h5, h6, h8⟩
          intro x hx
          exact h4 x (List.mem_cons_of_mem a hx)
        | nil =>
          have hq2 : q2 = u :: qrest := by simpa using hq
          have hdu : distIs g svid u (D + 1) := by
            apply h5
            rw [hq2]
            exact List.mem_cons_self u qrest
          refine ⟨D + 1, qrest, [], (List.append_nil qrest).symm, hdu, ?_, ?_, ?_, ?_⟩
          · intro x hx
            apply h5
            rw [hq2]
            exact List.mem_cons_of_mem u hx
          · intro x hx; simp at hx
          · intro x hx
            obtain ⟨dx, hdx, hdxD⟩ := h6 x hx
            exact ⟨dx, hdx, Nat.le_succ_of_le hdxD⟩
          · intro x n hn hle
            rcases Nat.eq_or_lt_of_le hle with heq | hlt
            · subst heq
              simp only [reachesIn] at hn
              rcases hn with hn | ⟨w, hw, hstep⟩
              · exact h8 x D hn (Nat.le_refl D)
              · have hwm := h8 w D hw (Nat.le_refl D)
                rcases List.mem_append.1 hwm with hwd | hwq
                · exact h9 w hwd x hstep
                · exfalso
                  have hdw : distIs g svid w (D + 1) := by
                    apply h5
                    rw [hq2]
                    exact hwq
                  have := hdw.2 D hw
                  omega
            · exact h8 x n hn (Nat.lt_succ_iff.1 hlt)
      obtain ⟨Dx, q1t, q2x, hqr, hdu, hq1t, hq2x, hdone, h8x⟩ := hsplit
      have humem : u ∈ visitedVids g1 :=
        (h10.mem_iff).2 (List.mem_append.2 (Or.inr (List.mem_cons_self u qrest)))
      have huvids : u ∈ g1.vertexSet.map Vertex.vid := mem_vids_of_mem_visitedVids humem
      cases hgu : getVert g1 u with
      | none =>
        exfalso
        have hsome := getVert_isSome_iff_mem_vids.2 huvids
        rw [hgu] at hsome
        simp at hsome
      | some v =>
        have hstep : bfsLoop (f + 1) g1 (u :: qrest) res
            = bfsLoop f (bfsEnqueue g1 qrest v.adj).1 (bfsEnqueue g1 qrest v.adj).2
                (res ++ [v.info]) := by
          simp only [bfsLoop, hgu]
        obtain ⟨v0, hgv0, hvs0⟩ := getVert_of_gstruct_some hgs hgu
        have hadjv : v0.adj = v.adj := congrArg (fun t => t.2.2.1) hvs0
        have hinfov : v0.info = v.info := congrArg (fun t => t.2.1) hvs0
        have hinfou : infoOf g u = v.info := by
          simp [infoOf, hgv0, hinfov]
        have hdests : ∀ e ∈ v.adj, e.dest ∈ g1.vertexSet.map Vertex.vid := by
          intro e he
          rw [← hadjv] at he
          obtain ⟨w2, hw2, hw2d⟩ := hwf.edgeDestLive v0 (getVert_mem hgv0).1 e he
          rw [vids_of_gstruct hgs, ← hw2d]
          exact List.mem_map_of_mem Vertex.vid hw2
        have hndg1 : (g1.vertexSet.map Vertex.vid).Nodup := by
          rw [vids_of_gstruct hgs]; exact hwf.nodupVids
        obtain ⟨pushed, hp1, hp2, hp3, hp4⟩ := bfsEnqueue_spec v.adj g1 qrest hndg1 hdests
        have hgsE : gstruct (bfsEnqueue g1 qrest v.adj).1 = gstruct g1 :=
          bfsEnqueue_gstruct v.adj g1 qrest
        have hstepu : ∀ x ∈ pushed, stepRel g u x := by
          intro x hx
          obtain ⟨⟨e, he, hde⟩, _⟩ := hp3 x hx
          refine ⟨e, ?_, hde⟩
          show e ∈ adjOf g u
          rw [show adjOf g u = ((getVert g u).map Vertex.adj).getD [] from rfl, hgv0]
          simpa [hadjv] using he
        have hpushedDist : ∀ x ∈ pushed, distIs g svid x (Dx + 1) := by
          intro x hx
          constructor
          · show reachesIn g svid (Dx + 1) x
            simp only [reachesIn]
            exact Or.inr ⟨u, hdu.1, hstepu x hx⟩
          · intro n hn
            by_contra hlt
            have hnD : n ≤ Dx := by omega
            have hxmem := h8x x n hn hnD
            have hxvis : x ∈ visitedVids g1 := (h10.mem_iff).2 hxmem
            exact (hp3 x hx).2 hxvis
        have hgs2 : gstruct (bfsEnqueue g1 qrest v.adj).1 = gstruct g := hgsE.trans hgs
        have hfuel2 : (q1t ++ (q2x ++ pushed)).length
            + unvisCount (bfsEnqueue g1 qrest v.adj).1 + 1 ≤ f := by
          have e1 := length_filter_visited_add g1.vertexSet
          have e2 := length_filter_visited_add (bfsEnqueue g1 qrest v.adj).1.vertexSet
          have e3 := hp2.length_eq
          have e4 := vertexSet_length_of_gstruct hgsE
          have e5 : (visitedVids (bfsEnqueue g1 qrest v.adj).1).length
              = ((bfsEnqueue g1 qrest v.adj).1.vertexSet.filter (fun w => w.visited)).length := by
            simp [visitedVids]
          have e6 : (visitedVids g1).length
              = (g1.vertexSet.filter (fun w => w.visited)).length := by
            simp [visitedVids]
          have e7 : (q1 ++ q2).length = qrest.length + 1 := by
            rw [hq]; simp
          have e8 : qrest.length = q1t.length + q2x.length := by
            rw [hqr]; simp
          simp only [List.length_append] at e3 e7 hfuel ⊢
          unfold unvisCount at hfuel ⊢
          omega
        have h4n := hq1t
        have h5n : ∀ x ∈ q2x ++ pushed, distIs g svid x (Dx + 1) := by
          intro x hx
          rcases List.mem_append.1 hx with h | h
          · exact hq2x x h
          · exact hpushedDist x h
        have h6n : ∀ x ∈ done ++ [u], ∃ dx, distIs g svid x dx ∧ dx ≤ Dx := by
          intro x hx
          rcases List.mem_append.1 hx with h | h
          · exact hdone x h
          · rcases List.mem_singleton.1 h with rfl
            exact ⟨Dx, hdu, Nat.le_refl Dx⟩
        have h7n : List.Pairwise (distLE g svid) (done ++ [u]) := by
          rw [List.pairwise_append]
          refine ⟨h7, List.pairwise_singleton _ _, ?_⟩
          intro a ha b hb
          rcases List.mem_singleton.1 hb with rfl
          obtain ⟨da, hda, hdaD⟩ := hdone a ha
          exact distLE_of_dists hda hdu hdaD
        have h8n : ∀ x n, reachesIn g svid n x → n ≤ Dx →
            x ∈ (done ++ [u]) ++ (q1t ++ (q2x ++ pushed)) := by
          intro x n hn hle
          have hm := h8x x n hn hle
          rw [hqr] at hm
          simp only [List.mem_append, List.mem_cons, List.mem_singleton] at hm ⊢
          tauto
        have h9n : ∀ a ∈ done ++ [u], ∀ w, stepRel g a w →
            w ∈ (done ++ [u]) ++ (q1t ++ (q2x ++ pushed)) := by
          intro a ha w hsw
          rcases List.mem_append.1 ha with h | h
          · have hm := h9 a h w hsw
            rw [hqr] at hm
            simp only [List.mem_append, List.mem_cons, List.mem_singleton] at hm ⊢
            tauto
          · rcases List.mem_singleton.1 h with rfl
            obtain ⟨e, he, hde⟩ := hsw
            have headj : e ∈ v.adj := by
              have : adjOf g a = v.adj := by
                simp [adjOf, hgv0, hadjv]
              rwa [this] at he
            have hwvis := hp4 e headj
            rw [hde] at hwvis
            have hw2 := (hp2.mem_iff).1 hwvis
            rcases List.mem_append.1 hw2 with hw3 | hw3
            · have := (h10.mem_iff).1 hw3
              rw [hqr] at this
              simp only [List.mem_append, List.mem_cons, List.mem_singleton] at this ⊢
              tauto
            · simp only [List.mem_append, List.mem_cons, List.mem_singleton]
              tauto
        have h10n : List.Perm (visitedVids (bfsEnqueue g1 qrest v.adj).1)
            ((done ++ [u]) ++ (q1t ++ (q2x ++ pushed))) := by
          have h10E : List.Perm (visitedVids (bfsEnqueue g1 qrest v.adj).1)
              ((done ++ (u :: qrest)) ++ pushed) := hp2.trans (h10.append_right pushed)
          have heq2 : (done ++ (u :: qrest)) ++ pushed
              = (done ++ [u]) ++ (q1t ++ (q2x ++ pushed)) := by
            rw [hqr]
            simp [List.append_assoc]
          rwa [heq2] at h10E
        obtain ⟨doneF2, c1, c2, c3, c4, c5⟩ :=
          ih (bfsEnqueue g1 qrest v.adj).1 q1t (q2x ++ pushed) (done ++ [u])
            (res ++ [v.info]) Dx hgs2 hfuel2 h4n h5n h6n h7n h8n h9n h10n
        have hqe : qrest ++ pushed = q1t ++ (q2x ++ pushed) := by
          rw [hqr, List.append_assoc]
        rw [hstep, hp1, hqe]
        have hrw : (done ++ [u]) ++ doneF2 = done ++ (u :: doneF2) := by
          simp
        refine ⟨u :: doneF2, ?_, ?_, ?_, ?_, ?_⟩
        · rw [c1]
          simp only [List.map_cons, hinfou]
          rw [List.append_assoc, List.singleton_append]
        · rw [← hrw]
          exact c2
        · intro x n hn
          rw [← hrw]
          exact c3 x n hn
        · intro x hx
          rcases List.mem_cons.1 hx with h | h
          · subst h
            exact ⟨Dx, hdu⟩
          · exact c4 x h
        · rw [← hrw]
          exact c5

/-- **C3** (bfs correctness).  For every well-formed graph and key `s`: if
`s` is absent, `bfs(s)` returns the empty sequence; otherwise the result is
the image under the key map of a duplicate-free vid list `vs` containing
exactly the vertices reachable from `s` along directed edges, listed in
non-decreasing hop distance from `s` (`distLE` compares hop distances), and
the returned key sequence itself has no duplicates, so each reachable
vertex is returned exactly once. -/
theorem c3_bfs (g : Graph) (s : Key) (h : Wf g) :
    (findVertex g s = none → (g.bfs s).2 = []) ∧
    (∀ svid, findVertex g s = some svid →
      ∃ vs : List Nat,
        (g.bfs s).2 = vs.map (fun u => infoOf g u) ∧
        (g.bfs s).2.Nodup ∧
        (∀ u, u ∈ vs ↔ ∃ n, reachesIn g svid n u) ∧
        List.Pairwise (distLE g svid) vs) := by
  constructor
  · intro hnone
    simp only [Graph.bfs, hnone]
  · intro svid hfv
    have hbfs : g.bfs s = bfsLoop ((resetVisited g).vertexSet.length + 1)
        (updateVert (resetVisited g) svid markVisitedV) [svid] [] := by
      simp only [Graph.bfs, hfv]
    have hmem : (s, svid) ∈ g.vertexMap := lookupK_mem hfv
    obtain ⟨v, hvmem, hvid, hvinfo⟩ := h.mapEntries (s, svid) hmem
    have hvid2 : v.vid = svid := hvid
    have hsvidmem : svid ∈ (resetVisited g).vertexSet.map Vertex.vid := by
      rw [vids_resetVisited, ← hvid2]
      exact List.mem_map_of_mem Vertex.vid hvmem
    have hsome := getVert_isSome_iff_mem_vids.2 hsvidmem
    rcases Option.isSome_iff_exists.1 hsome with ⟨w0, hw0⟩
    have hw0un : w0.visited = false :=
      resetVisited_unvisited g w0 (getVert_mem hw0).1
    have hnd0 : ((resetVisited g).vertexSet.map Vertex.vid).Nodup := by
      rw [vids_resetVisited]; exact h.nodupVids
    have hmark : List.Perm (visitedVids (updateVert (resetVisited g) svid markVisitedV))
        (svid :: visitedVids (resetVisited g)) :=
      visitedVids_updateVert_mark hnd0 hw0 hw0un
    have hg1 : gstruct (updateVert (resetVisited g) svid markVisitedV) = gstruct g :=
      (gstruct_markVisited _ _).trans (gstruct_resetVisited g)
    have hlen1 : (visitedVids (updateVert (resetVisited g) svid markVisitedV)).length
        = 1 := by
      simp [hmark.length_eq, visitedVids_resetVisited]
    have hV1 : (updateVert (resetVisited g) svid markVisitedV).vertexSet.length
        = (resetVisited g).vertexSet.length := by
      unfold updateVert
      simp
    have hfuel : (([svid] : List Nat) ++ []).length
        + unvisCount (updateVert (resetVisited g) svid markVisitedV) + 1
        ≤ (resetVisited g).vertexSet.length + 1 := by
      have e1 := length_filter_visited_add
        (updateVert (resetVisited g) svid markVisitedV).vertexSet
      have e5 : (visitedVids (updateVert (resetVisited g) svid markVisitedV)).length
          = ((updateVert (resetVisited g) svid markVisitedV).vertexSet.filter
              (fun w => w.visited)).length := by
        simp [visitedVids]
      unfold unvisCount
      simp only [List.length_append, List.length_cons, List.length_nil]
      omega
    have hdist0 : distIs g svid svid 0 := ⟨rfl, fun n _ => Nat.zero_le n⟩
    obtain ⟨doneF, c1, c2, c3, c4, c5⟩ :=
      bfsLoop_spec g svid h ((resetVisited g).vertexSet.length + 1)
        (updateVert (resetVisited g) svid markVisitedV) [svid] [] [] [] 0
        hg1 hfuel
        (fun u hu => by rcases List.mem_singleton.1 hu with rfl; exact hdist0)
        (fun u hu => absurd hu (List.not_mem_nil u))
        (fun u hu => absurd hu (List.not_mem_nil u))
        List.Pairwise.nil
        (fun u n hn hle => by
          have hn0 : n = 0 := Nat.le_zero.1 hle
          subst hn0
          have hus : u = svid := hn
          subst hus
          simp)
        (fun u hu => absurd hu (List.not_mem_nil u))
        (by
          have hm2 := hmark
          rw [visitedVids_resetVisited] at hm2
          simpa using hm2)
    simp only [List.append_nil, List.nil_append] at c1 c2 c3 c4 c5
    have hgsF : gstruct (bfsLoop ((resetVisited g).vertexSet.length + 1)
        (updateVert (resetVisited g) svid markVisitedV) [svid] []).1 = gstruct g :=
      (bfsLoop_gstruct _ _ _ _).trans hg1
    have hndvidsF : (visitedVids (bfsLoop ((resetVisited g).vertexSet.length + 1)
        (updateVert (resetVisited g) svid markVisitedV) [svid] []).1).Nodup := by
      have hsub := List.Sublist.map Vertex.vid
        (@List.filter_sublist _ (fun w => w.visited)
          ((bfsLoop ((resetVisited g).vertexSet.length + 1)
            (updateVert (resetVisited g) svid markVisitedV) [svid] []).1.vertexSet))
      have hndbig : ((bfsLoop ((resetVisited g).vertexSet.length + 1)
          (updateVert (resetVisited g) svid markVisitedV) [svid] []).1.vertexSet.map
            Vertex.vid).Nodup := by
        rw [vids_of_gstruct hgsF]
        exact h.nodupVids
      exact List.Nodup.sublist hsub hndbig
    have hndF : doneF.Nodup := (c2.nodup_iff).1 hndvidsF
    have hsubF : ∀ u ∈ doneF, u ∈ g.vertexSet.map Vertex.vid := by
      intro u hu
      have hvis : u ∈ visitedVids (bfsLoop ((resetVisited g).vertexSet.length + 1)
          (updateVert (resetVisited g) svid markVisitedV) [svid] []).1 :=
        (c2.mem_iff).2 hu
      have := mem_vids_of_mem_visitedVids hvis
      rwa [vids_of_gstruct hgsF] at this
    refine ⟨doneF, ?_, ?_, ?_, c5⟩
    · rw [hbfs]
      exact c1
    · rw [hbfs, c1]
      exact map_infoOf_nodup h hndF hsubF
    · intro u
      constructor
      · intro hu
        obtain ⟨du, hdu⟩ := c4 u hu
        exact ⟨du, hdu.1⟩
      · rintro ⟨n, hn⟩
        exact c3 u n hn

/-- A concrete graph (keys 1, 2, 3; edges 1→2, 2→3) for the C3 witness. -/
def gC3w : Graph :=
  (((((emptyGraph.addVertex 1).2.addVertex 2).2.addVertex 3).2.addEdge 1 2 4).2.addEdge
    2 3 6).2

/-- Witness instantiating `c3_bfs` on `gC3w` with source key 1. -/
theorem c3_witness : Wf gC3w ∧
    ((findVertex gC3w 1 = none → (gC3w.bfs 1).2 = []) ∧
     (∀ svid, findVertex gC3w 1 = some svid →
       ∃ vs : List Nat,
         (gC3w.bfs 1).2 = vs.map (fun u => infoOf gC3w u) ∧
         (gC3w.bfs 1).2.Nodup ∧
         (∀ u, u ∈ vs ↔ ∃ n, reachesIn gC3w svid n u) ∧
         List.Pairwise (distLE gC3w svid) vs)) :=
  ⟨by decide, c3_bfs gC3w 1 (by decide)⟩

/-! ### C2: `isDAG()` — three-colour DFS cycle detection -/

/-- The vids of the vertices currently in the `processing` state. -/
def procVids (g : Graph) : List Nat :=
  (g.vertexSet.filter (fun w => w.processing)).map Vertex.vid

/-- The vids of the finished (visited and no longer processing) vertices. -/
def doneVids (g : Graph) : List Nat :=
  (g.vertexSet.filter (fun w => w.visited && ! w.processing)).map Vertex.vid

/-- `processing` implies `visited` (the algorithm always sets both). -/
def ProcSubVisited (g : Graph) : Prop :=
  ∀ v ∈ g.vertexSet, v.processing = true → v.visited = true

/-- A finish-order list (most recently finished first): each vertex's
out-neighbours finished strictly earlier. -/
def GoodDone (g : Graph) : List Nat → Prop
  | [] => True
  | u :: D => (∀ w, stepRel g u w → w ∈ D) ∧ GoodDone g D

theorem goodDone_closed (g : Graph) : ∀ D : List Nat, GoodDone g D →
    ∀ u ∈ D, ∀ w, stepRel g u w → w ∈ D := by
  intro D
  induction D with
  | nil => intro _ u hu; simp at hu
  | cons a D ih =>
    intro hG u hu w hsw
    rcases List.mem_cons.1 hu with rfl | hu2
    · exact List.mem_cons_of_mem u (hG.1 w hsw)
    · exact List.mem_cons_of_mem a (ih hG.2 u hu2 w hsw)

theorem goodDone_reach (g : Graph) (D : List Nat) (hG : GoodDone g D) :
    ∀ u ∈ D, ∀ x, Relation.ReflTransGen (stepRel g) u x → x ∈ D := by
  intro u hu x hr
  induction hr with
  | refl => exact hu
  | tail h1 h2 ih => exact goodDone_closed g D hG _ ih _ h2

theorem transGen_head_decomp {α : Type} {r : α → α → Prop} {a c : α}
    (h : Relation.TransGen r a c) : ∃ b, r a b ∧ Relation.ReflTransGen r b c := by
  induction h with
  | single hab => exact ⟨_, hab, Relation.ReflTransGen.refl⟩
  | tail hab hbc ih =>
    obtain ⟨b0, h1, h2⟩ := ih
    exact ⟨b0, h1, h2.tail hbc⟩

theorem transGen_of_refl_step {α : Type} {r : α → α → Prop} {a b c : α}
    (h1 : Relation.ReflTransGen r a b) (h2 : r b c) : Relation.TransGen r a c := by
  induction h1 using Relation.ReflTransGen.head_induction_on with
  | refl => exact Relation.TransGen.single h2
  | head hstep hrest ih => exact Relation.TransGen.head hstep ih

theorem goodDone_acyclic (g : Graph) : ∀ D : List Nat, D.Nodup → GoodDone g D →
    ∀ u ∈ D, ¬ Relation.TransGen (stepRel g) u u := by
  intro D
  induction D with
  | nil => intro _ _ u hu; simp at hu
  | cons a D ih =>
    intro hnd hG u hu hcyc
    rcases List.mem_cons.1 hu with rfl | hu2
    · obtain ⟨w, hstep, hrest⟩ := transGen_head_decomp hcyc
      have hwD : w ∈ D := hG.1 w hstep
      have huD : u ∈ D := goodDone_reach g D hG.2 w hwD u hrest
      exact (List.nodup_cons.1 hnd).1 huD
    · exact ih (List.nodup_cons.1 hnd).2 hG.2 u hu2 hcyc

theorem cycle_mem_vids {g : Graph} {u : Nat}
    (h : Relation.TransGen (stepRel g) u u) : u ∈ g.vertexSet.map Vertex.vid := by
  obtain ⟨w, hstep, _⟩ := transGen_head_decomp h
  obtain ⟨e, he, _⟩ := hstep
  cases hgu : getVert g u with
  | none =>
    exfalso
    rw [show adjOf g u = ((getVert g u).map Vertex.adj).getD [] from rfl, hgu] at he
    simp at he
  | some v =>
    have hm := getVert_mem hgu
    rw [← hm.2]
    exact List.mem_map_of_mem Vertex.vid hm.1

theorem filter_mark_gen (p : Vertex → Bool) (f : Vertex → Vertex)
    (hvid : ∀ w, (f w).vid = w.vid) :
    ∀ (l : List Vertex) (vid : Nat) (v : Vertex),
      (l.map Vertex.vid).Nodup →
      l.find? (fun w => w.vid == vid) = some v → p v = false → p (f v) = true →
      List.Perm
        (((l.map (fun w => if w.vid = vid then f w else w)).filter p).map Vertex.vid)
        (vid :: ((l.filter p).map Vertex.vid)) := by
  intro l
  induction l with
  | nil => intro vid v _ hf _ _; simp [List.find?] at hf
  | cons a l ih =>
    intro vid v hnd hf hv hfv
    simp only [List.map_cons, List.nodup_cons] at hnd
    by_cases ha : a.vid = vid
    · have hfa : (a.vid == vid) = true := by simp [ha]
      have hva : v = a := by
        simp only [List.find?, hfa] at hf
        exact (Option.some.inj hf).symm
      subst hva
      have hmap : l.map (fun w => if w.vid = vid then f w else w) = l := by
        apply map_id_of_eq
        intro w hw
        have hne : ¬ w.vid = vid := by
          intro hww
          apply hnd.1
          rw [ha, ← hww]
          exact List.mem_map_of_mem Vertex.vid hw
        exact if_neg hne
      simp only [List.map_cons, if_pos ha, hmap]
      rw [List.filter_cons, List.filter_cons]
      rw [if_pos hfv, if_neg (by rw [hv]; exact Bool.false_ne_true)]
      simp only [List.map_cons]
      rw [hvid v, ha]
    · have hfa : (a.vid == vid) = false := by simp [ha]
      simp only [List.find?, hfa] at hf
      have ihl := ih vid v hnd.2 hf hv hfv
      simp only [List.map_cons, if_neg ha]
      rw [List.filter_cons, List.filter_cons]
      cases hav : p a with
      | true =>
        rw [if_pos rfl, if_pos rfl]
        simp only [List.map_cons]
        exact (ihl.cons a.vid).trans (List.Perm.swap vid a.vid _)
      | false =>
        rw [if_neg Bool.false_ne_true, if_neg Bool.false_ne_true]
        exact ihl

theorem filter_unmark_gen (p : Vertex → Bool) (f : Vertex → Vertex)
    (hvid : ∀ w, (f w).vid = w.vid) :
    ∀ (l : List Vertex) (vid : Nat) (v : Vertex),
      (l.map Vertex.vid).Nodup →
      l.find? (fun w => w.vid == vid) = some v → p v = true → p (f v) = false →
      List.Perm ((l.filter p).map Vertex.vid)
        (vid :: (((l.map (fun w => if w.vid = vid then f w else w)).filter p).map
          Vertex.vid)) := by
  intro l
  induction l with
  | nil => intro vid v _ hf _ _; simp [List.find?] at hf
  | cons a l ih =>
    intro vid v hnd hf hv hfv
    simp only [List.map_cons, List.nodup_cons] at hnd
    by_cases ha : a.vid = vid
    · have hfa : (a.vid == vid) = true := by simp [ha]
      have hva : v = a := by
        simp only [List.find?, hfa] at hf
        exact (Option.some.inj hf).symm
      subst hva
      have hmap : l.map (fun w => if w.vid = vid then f w else w) = l := by
        apply map_id_of_eq
        intro w hw
        have hne : ¬ w.vid = vid := by
          intro hww
          apply hnd.1
          rw [ha, ← hww]
          exact List.mem_map_of_mem Vertex.vid hw
        exact if_neg hne
      simp only [List.map_cons, if_pos ha, hmap]
      rw [List.filter_cons, List.filter_cons]
      rw [if_pos hv, if_neg (by rw [hfv]; exact Bool.false_ne_true)]
      simp only [List.map_cons]
      rw [ha]
    · have hfa : (a.vid == vid) = false := by simp [ha]
      simp only [List.find?, hfa] at hf
      have ihl := ih vid v hnd.2 hf hv hfv
      simp only [List.map_cons, if_neg ha]
      rw [List.filter_cons, List.filter_cons]
      cases hav : p a with
      | true =>
        rw [if_pos rfl, if_pos rfl]
        simp only [List.map_cons]
        exact (ihl.cons a.vid).trans (List.Perm.swap vid a.vid _)
      | false =>
        rw [if_neg Bool.false_ne_true, if_neg Bool.false_ne_true]
        exact ihl

theorem filter_same_gen (p : Vertex → Bool) (f : Vertex → Vertex)
    (hvid : ∀ w, (f w).vid = w.vid) :
    ∀ (l : List Vertex) (vid : Nat) (v : Vertex),
      (l.map Vertex.vid).Nodup →
      l.find? (fun w => w.vid == vid) = some v → p (f v) = p v →
      ((l.map (fun w => if w.vid = vid then f w else w)).filter p).map Vertex.vid
        = (l.filter p).map Vertex.vid := by
  intro l
  induction l with
  | nil => intro vid v _ hf _; simp [List.find?] at hf
  | cons a l ih =>
    intro vid v hnd hf hp
    simp only [List.map_cons, List.nodup_cons] at hnd
    by_cases ha : a.vid = vid
    · have hfa : (a.vid == vid) = true := by simp [ha]
      have hva : v = a := by
        simp only [List.find?, hfa] at hf
        exact (Option.some.inj hf).symm
      subst hva
      have hmap : l.map (fun w => if w.vid = vid then f w else w) = l := by
        apply map_id_of_eq
        intro w hw
        have hne : ¬ w.vid = vid := by
          intro hww
          apply hnd.1
          rw [ha, ← hww]
          exact List.mem_map_of_mem Vertex.vid hw
        exact if_neg hne
      simp only [List.map_cons, if_pos ha, hmap]
      rw [List.filter_cons, List.filter_cons]
      by_cases hpv : p v = true
      · have hfv2 : p (f v) = true := hp.trans hpv
        rw [if_pos hfv2, if_pos hpv, List.map_cons, List.map_cons, hvid v]
      · have hfv2 : ¬ p (f v) = true := by rw [hp]; exact hpv
        rw [if_neg hfv2, if_neg hpv]
    · have hfa : (a.vid == vid) = false := by simp [ha]
      simp only [List.find?, hfa] at hf
      have ihl := ih vid v hnd.2 hf hp
      simp only [List.map_cons, if_neg ha]
      rw [List.filter_cons, List.filter_cons]
      cases hav : p a with
      | true =>
        rw [if_pos rfl, if_pos rfl]
        simp only [List.map_cons]
        rw [ihl]
      | false =>
        rw [if_neg Bool.false_ne_true, if_neg Bool.false_ne_true]
        exact ihl

theorem mem_filterVids_iff (p : Vertex → Bool) {g : Graph}
    (hnd : (g.vertexSet.map Vertex.vid).Nodup) {u : Nat} :
    u ∈ (g.vertexSet.filter p).map Vertex.vid ↔
      ∃ v, getVert g u = some v ∧ p v = true := by
  constructor
  · intro h
    rcases List.mem_map.1 h with ⟨v, hv, rfl⟩
    have hvm := List.mem_filter.1 hv
    exact ⟨v, find_vid_of_mem hnd hvm.1, hvm.2⟩
  · rintro ⟨v, hgv, hvis⟩
    have hm := getVert_mem hgv
    have hf : v ∈ g.vertexSet.filter p := List.mem_filter.2 ⟨hm.1, hvis⟩
    have hmm := List.mem_map_of_mem Vertex.vid hf
    rwa [hm.2] at hmm

theorem unvisCount_lt_of_perm_cons {g g2 : Graph} {vid : Nat}
    (hlen : g2.vertexSet.length = g.vertexSet.length)
    (hperm : List.Perm (visitedVids g2) (vid :: visitedVids g)) :
    unvisCount g2 < unvisCount g := by
  have hl := hperm.length_eq
  have e1 := length_filter_visited_add g.vertexSet
  have e2 := length_filter_visited_add g2.vertexSet
  have e5 : (visitedVids g2).length
      = (g2.vertexSet.filter (fun w => w.visited)).length := by
    simp [visitedVids]
  have e6 : (visitedVids g).length
      = (g.vertexSet.filter (fun w => w.visited)).length := by
    simp [visitedVids]
  unfold unvisCount
  simp only [List.length_cons] at hl
  omega

theorem mem_vids_of_mem_filterVids {p : Vertex → Bool} {g : Graph} {u : Nat}
    (h : u ∈ (g.vertexSet.filter p).map Vertex.vid) :
    u ∈ g.vertexSet.map Vertex.vid := by
  rcases List.mem_map.1 h with ⟨v, hv, rfl⟩
  exact List.mem_map_of_mem Vertex.vid (List.mem_filter.1 hv).1

theorem visitedVids_markVP {g : Graph} {vid : Nat} {v : Vertex}
    (hnd : (g.vertexSet.map Vertex.vid).Nodup)
    (hgv : getVert g vid = some v) (hv : v.visited = false) :
    List.Perm (visitedVids (updateVert g vid markVisitedProcessingV))
      (vid :: visitedVids g) :=
  filter_mark_gen (fun w => w.visited) markVisitedProcessingV (fun _ => rfl)
    g.vertexSet vid v hnd hgv hv rfl

theorem procVids_markVP {g : Graph} {vid : Nat} {v : Vertex}
    (hnd : (g.vertexSet.map Vertex.vid).Nodup)
    (hgv : getVert g vid = some v) (hp : v.processing = false) :
    List.Perm (procVids (updateVert g vid markVisitedProcessingV))
      (vid :: procVids g) :=
  filter_mark_gen (fun w => w.processing) markVisitedProcessingV (fun _ => rfl)
    g.vertexSet vid v hnd hgv hp rfl

theorem doneVids_markVP {g : Graph} {vid : Nat} {v : Vertex}
    (hnd : (g.vertexSet.map Vertex.vid).Nodup)
    (hgv : getVert g vid = some v) (hv : v.visited = false) :
    doneVids (updateVert g vid markVisitedProcessingV) = doneVids g :=
  filter_same_gen (fun w => w.visited && ! w.processing) markVisitedProcessingV
    (fun _ => rfl) g.vertexSet vid v hnd hgv
    (by simp [markVisitedProcessingV, hv])

theorem visitedVids_clearP {g : Graph} {vid : Nat} {v : Vertex}
    (hnd : (g.vertexSet.map Vertex.vid).Nodup)
    (hgv : getVert g vid = some v) :
    visitedVids (updateVert g vid clearProcessingV) = visitedVids g :=
  filter_same_gen (fun w => w.visited) clearProcessingV (fun _ => rfl)
    g.vertexSet vid v hnd hgv rfl

theorem procVids_clearP {g : Graph} {vid : Nat} {v : Vertex}
    (hnd : (g.vertexSet.map Vertex.vid).Nodup)
    (hgv : getVert g vid = some v) (hp : v.processing = true) :
    List.Perm (procVids g)
      (vid :: procVids (updateVert g vid clearProcessingV)) :=
  filter_unmark_gen (fun w => w.processing) clearProcessingV (fun _ => rfl)
    g.vertexSet vid v hnd hgv hp rfl

theorem doneVids_clearP {g : Graph} {vid : Nat} {v : Vertex}
    (hnd : (g.vertexSet.map Vertex.vid).Nodup)
    (hgv : getVert g vid = some v) (hv : v.visited = true) (hp : v.processing = true) :
    List.Perm (doneVids (updateVert g vid clearProcessingV)) (vid :: doneVids g) :=
  filter_mark_gen (fun w => w.visited && ! w.processing) clearProcessingV
    (fun _ => rfl) g.vertexSet vid v hnd hgv
    (by simp [hv, hp]) (by simp [clearProcessingV, hv])

theorem procSubVisited_updateVert {g : Graph} {vid : Nat} (f : Vertex → Vertex)
    (hf : ∀ v, (f v).processing = true → (f v).visited = true)
    (h : ProcSubVisited g) : ProcSubVisited (updateVert g vid f) := by
  intro v hv hp
  have hv2 : v ∈ g.vertexSet.map (fun w => if w.vid = vid then f w else w) := hv
  rcases List.mem_map.1 hv2 with ⟨w, hw, rfl⟩
  by_cases hww : w.vid = vid
  · rw [if_pos hww] at hp ⊢
    exact hf w hp
  · rw [if_neg hww] at hp ⊢
    exact h w hw hp

theorem doneVids_eq_visited_of_proc_nil {g : Graph} (h : procVids g = []) :
    doneVids g = visitedVids g := by
  have hall : ∀ v ∈ g.vertexSet, v.processing = false := by
    intro v hv
    by_contra hc
    have hp : v.processing = true := by
      cases hpv : v.processing with
      | false => exact absurd hpv hc
      | true => rfl
    have hf : v ∈ g.vertexSet.filter (fun w => w.processing) :=
      List.mem_filter.2 ⟨hv, hp⟩
    have hm : v.vid ∈ procVids g := List.mem_map_of_mem Vertex.vid hf
    rw [h] at hm
    simp at hm
  unfold doneVids visitedVids
  congr 1
  apply List.filter_congr
  intro v hv
  rw [hall v hv]
  simp

/-- The induction statement for `dfsIsDAG`: under the three-colour
invariants, a `false` result exhibits a directed cycle, and a `true` result
extends the finish-ordered done list, restores the processing set, and
marks exactly the freshly discovered vertices visited. -/
def DfsIsDAGP (g : Graph) (fuel : Nat) : Prop :=
  ∀ (g1 : Graph) (vid : Nat) (D : List Nat),
    gstruct g1 = gstruct g →
    unvisCount g1 ≤ fuel →
    ProcSubVisited g1 →
    (∀ v, getVert g1 vid = some v → v.visited = false) →
    (∀ w ∈ procVids g1, Relation.ReflTransGen (stepRel g) w vid) →
    List.Perm (doneVids g1) D →
    GoodDone g D →
    ((dfsIsDAG fuel g1 vid).2 = false → ∃ u, Relation.TransGen (stepRel g) u u) ∧
    ((dfsIsDAG fuel g1 vid).2 = true →
      ∃ newD : List Nat,
        List.Perm (doneVids (dfsIsDAG fuel g1 vid).1) (newD ++ D) ∧
        GoodDone g (newD ++ D) ∧
        List.Perm (visitedVids (dfsIsDAG fuel g1 vid).1) (visitedVids g1 ++ newD) ∧
        List.Perm (procVids (dfsIsDAG fuel g1 vid).1) (procVids g1) ∧
        ProcSubVisited (dfsIsDAG fuel g1 vid).1 ∧
        (∀ u ∈ newD, u ∉ visitedVids g1) ∧
        (∀ v, getVert g1 vid = some v → vid ∈ newD))

/-- The companion induction statement for the adjacency loop
`dfsIsDAGAdj`, run for the current vertex `c`. -/
def DfsIsDAGQ (g : Graph) (fuel : Nat) : Prop :=
  ∀ (g1 : Graph) (c : Nat) (es : List Edge) (D : List Nat),
    gstruct g1 = gstruct g →
    unvisCount g1 ≤ fuel →
    ProcSubVisited g1 →
    (∀ e ∈ es, e ∈ adjOf g c) →
    (∀ w ∈ procVids g1, Relation.ReflTransGen (stepRel g) w c) →
    List.Perm (doneVids g1) D →
    GoodDone g D →
    ((dfsIsDAGAdj fuel g1 es).2 = false → ∃ u, Relation.TransGen (stepRel g) u u) ∧
    ((dfsIsDAGAdj fuel g1 es).2 = true →
      ∃ newD : List Nat,
        List.Perm (doneVids (dfsIsDAGAdj fuel g1 es).1) (newD ++ D) ∧
        GoodDone g (newD ++ D) ∧
        List.Perm (visitedVids (dfsIsDAGAdj fuel g1 es).1) (visitedVids g1 ++ newD) ∧
        List.Perm (procVids (dfsIsDAGAdj fuel g1 es).1) (procVids g1) ∧
        ProcSubVisited (dfsIsDAGAdj fuel g1 es).1 ∧
        (∀ u ∈ newD, u ∉ visitedVids g1) ∧
        (∀ e ∈ es, e.dest ∈ newD ++ D))

theorem dfsIsDAGAdj_spec_of (g : Graph) (hwf : Wf g) (fuel : Nat)
    (hP : DfsIsDAGP g fuel) : DfsIsDAGQ g fuel := by
  intro g1 c es
  induction es generalizing g1 with
  | nil =>
    intro D hgs hfuel hpsv hes hpc hdone hgood
    constructor
    · intro hfalse
      simp only [dfsIsDAGAdj] at hfalse
      exact Bool.noConfusion hfalse
    · intro _
      refine ⟨[], ?_, hgood, ?_, ?_, ?_, ?_, ?_⟩
      · simp only [dfsIsDAGAdj, List.nil_append]
        exact hdone
      · simp only [dfsIsDAGAdj, List.append_nil]
        exact List.Perm.refl _
      · simp only [dfsIsDAGAdj]
        exact List.Perm.refl _
      · simp only [dfsIsDAGAdj]
        exact hpsv
      · intro u hu; simp at hu
      · intro e he; simp at he
  | cons e rest ih =>
    intro D hgs hfuel hpsv hes hpc hdone hgood
    have hnd1 : (g1.vertexSet.map Vertex.vid).Nodup := by
      rw [vids_of_gstruct hgs]; exact hwf.nodupVids
    cases hge : getVert g1 e.dest with
    | none =>
      exfalso
      have headj := hes e (List.mem_cons_self e rest)
      cases hgc : getVert g c with
      | none =>
        rw [show adjOf g c = ((getVert g c).map Vertex.adj).getD [] from rfl, hgc] at headj
        simp at headj
      | some v0 =>
        have headj2 : e ∈ v0.adj := by
          rw [show adjOf g c = ((getVert g c).map Vertex.adj).getD [] from rfl, hgc]
            at headj
          simpa using headj
        obtain ⟨w2, hw2, hw2d⟩ := hwf.edgeDestLive v0 (getVert_mem hgc).1 e headj2
        have hmem2 : e.dest ∈ g1.vertexSet.map Vertex.vid := by
          rw [vids_of_gstruct hgs, ← hw2d]
          exact List.mem_map_of_mem Vertex.vid hw2
        have hsome := getVert_isSome_iff_mem_vids.2 hmem2
        rw [hge] at hsome
        simp at hsome
    | some w =>
      cases hwp : w.processing with
      | true =>
        have hstep : dfsIsDAGAdj fuel g1 (e :: rest) = (g1, false) := by
          simp only [dfsIsDAGAdj, hge]
          rw [hwp, if_pos rfl]
        rw [hstep]
        constructor
        · intro _
          have hmemproc : e.dest ∈ procVids g1 :=
            (mem_filterVids_iff (fun x => x.processing) hnd1).2 ⟨w, hge, hwp⟩
          have hreach := hpc e.dest hmemproc
          have hstep2 : stepRel g c e.dest := ⟨e, hes e (List.mem_cons_self e rest), rfl⟩
          exact ⟨e.dest, transGen_of_refl_step hreach hstep2⟩
        · intro htrue
          exact Bool.noConfusion htrue
      | false =>
        cases hwv : w.visited with
        | true =>
          have hstep : dfsIsDAGAdj fuel g1 (e :: rest) = dfsIsDAGAdj fuel g1 rest := by
            simp only [dfsIsDAGAdj, hge]
            rw [hwp]
            simp only [Bool.false_eq_true, if_false]
            rw [hwv, if_pos rfl]
          rw [hstep]
          have hih := ih g1 D hgs hfuel hpsv
            (fun e2 he2 => hes e2 (List.mem_cons_of_mem e he2)) hpc hdone hgood
          refine ⟨hih.1, ?_⟩
          intro htrue
          obtain ⟨newD, k1, k2, k3, k4, k5, k6, k7⟩ := hih.2 htrue
          refine ⟨newD, k1, k2, k3, k4, k5, k6, ?_⟩
          intro e2 he2
          rcases List.mem_cons.1 he2 with he2e | h2
          · have hge2 : getVert g1 e2.dest = some w := by rw [he2e]; exact hge
            have hmemdone : e2.dest ∈ doneVids g1 :=
              (mem_filterVids_iff (fun x => x.visited && ! x.processing) hnd1).2
                ⟨w, hge2, by rw [hwv, hwp]; rfl⟩
            exact List.mem_append.2 (Or.inr ((hdone.mem_iff).1 hmemdone))
          · exact k7 e2 h2
        | false =>
          have hP1 := hP g1 e.dest D hgs hfuel hpsv
            (fun v2 hv2 => by
              rw [hge] at hv2
              rw [← Option.some.inj hv2]
              exact hwv)
            (fun w2 hw2 => Relation.ReflTransGen.tail (hpc w2 hw2)
              ⟨e, hes e (List.mem_cons_self e rest), rfl⟩)
            hdone hgood
          cases hp12 : (dfsIsDAG fuel g1 e.dest).2 with
          | false =>
            have hstep : dfsIsDAGAdj fuel g1 (e :: rest)
                = ((dfsIsDAG fuel g1 e.dest).1, false) := by
              simp only [dfsIsDAGAdj, hge]
              rw [hwp]
              simp only [Bool.false_eq_true, if_false]
              rw [hwv]
              simp only [Bool.false_eq_true, if_false]
              rw [hp12]
              simp only [Bool.false_eq_true, if_false]
            rw [hstep]
            exact ⟨fun _ => hP1.1 hp12, fun htrue => Bool.noConfusion htrue⟩
          | true =>
            obtain ⟨newD1, k1, k2, k3, k4, k5, k6, k7⟩ := hP1.2 hp12
            have hgsp : gstruct (dfsIsDAG fuel g1 e.dest).1 = gstruct g1 :=
              (dfsIsDAG_gstruct fuel).1 g1 e.dest
            have hfuel2 : unvisCount (dfsIsDAG fuel g1 e.dest).1 ≤ fuel :=
              le_trans (unvisCount_le_of_gstruct_perm hgsp k3) hfuel
            have hih := ih (dfsIsDAG fuel g1 e.dest).1 (newD1 ++ D) (hgsp.trans hgs)
              hfuel2 k5
              (fun e2 he2 => hes e2 (List.mem_cons_of_mem e he2))
              (fun w2 hw2 => hpc w2 ((k4.mem_iff).1 hw2))
              k1 k2
            have hstep : dfsIsDAGAdj fuel g1 (e :: rest)
                = dfsIsDAGAdj fuel (dfsIsDAG fuel g1 e.dest).1 rest := by
              simp only [dfsIsDAGAdj, hge]
              rw [hwp]
              simp only [Bool.false_eq_true, if_false]
              rw [hwv]
              simp only [Bool.false_eq_true, if_false]
              rw [hp12, if_pos rfl]
            rw [hstep]
            refine ⟨hih.1, ?_⟩
            intro htrue
            obtain ⟨newD2, m1, m2, m3, m4, m5, m6, m7⟩ := hih.2 htrue
            refine ⟨newD2 ++ newD1, ?_, ?_, ?_, m4.trans k4, m5, ?_, ?_⟩
            · rw [List.append_assoc]
              exact m1
            · rw [List.append_assoc]
              exact m2
            · refine m3.trans ?_
              refine (k3.append_right newD2).trans ?_
              rw [List.append_assoc]
              exact List.Perm.append_left _ List.perm_append_comm
            · intro u hu
              rcases List.mem_append.1 hu with h2 | h2
              · intro hmem
                apply m6 u h2
                exact (k3.mem_iff).2 (List.mem_append.2 (Or.inl hmem))
              · exact k6 u h2
            · intro e2 he2
              rcases List.mem_cons.1 he2 with he2e | h2
              · have hmem1 : e2.dest ∈ newD1 := by
                  rw [he2e]
                  exact k7 w hge
                simp only [List.mem_append] at hmem1 ⊢
                tauto
              · have := m7 e2 h2
                simp only [List.mem_append] at this ⊢
                tauto

theorem dfsIsDAGP_zero (g : Graph) (hwf : Wf g) : DfsIsDAGP g 0 := by
  intro g1 vid D hgs hfuel hpsv hunvis hpc hdone hgood
  constructor
  · intro hfalse
    simp only [dfsIsDAG] at hfalse
    exact Bool.noConfusion hfalse
  · intro _
    refine ⟨[], ?_, hgood, ?_, ?_, ?_, ?_, ?_⟩
    · simp only [dfsIsDAG, List.nil_append]
      exact hdone
    · simp only [dfsIsDAG, List.append_nil]
      exact List.Perm.refl _
    · simp only [dfsIsDAG]
      exact List.Perm.refl _
    · simp only [dfsIsDAG]
      exact hpsv
    · intro u hu; simp at hu
    · intro v2 hv2
      exfalso
      have hv := hunvis v2 hv2
      have hmem := (getVert_mem hv2).1
      have hfin : v2 ∈ g1.vertexSet.filter (fun w2 => ! w2.visited) :=
        List.mem_filter.2 ⟨hmem, by simp [hv]⟩
      have hpos : 0 < unvisCount g1 := by
        unfold unvisCount
        exact List.length_pos.2 (List.ne_nil_of_mem hfin)
      omega

theorem dfsIsDAGP_succ (g : Graph) (hwf : Wf g) (f : Nat)
    (hQ : DfsIsDAGQ g f) : DfsIsDAGP g (f + 1) := by
  intro g1 vid D hgs hfuel hpsv hunvis hpc hdone hgood
  cases hgv : getVert g1 vid with
  | none =>
    have hstep : dfsIsDAG (f + 1) g1 vid = (g1, true) := by
      simp only [dfsIsDAG, hgv]
    rw [hstep]
    constructor
    · intro hfalse
      exact Bool.noConfusion hfalse
    · intro _
      refine ⟨[], hdone, hgood, ?_, List.Perm.refl _, hpsv, ?_, ?_⟩
      · rw [List.append_nil]
      · intro u hu; simp at hu
      · intro v2 hv2
        exact Option.noConfusion hv2
  | some v =>
    have hv : v.visited = false := hunvis v hgv
    have hvp : v.processing = false := by
      cases hvp2 : v.processing with
      | false => rfl
      | true =>
        have hh := hpsv v (getVert_mem hgv).1 hvp2
        rw [hv] at hh
        exact Bool.noConfusion hh
    have hnd1 : (g1.vertexSet.map Vertex.vid).Nodup := by
      rw [vids_of_gstruct hgs]; exact hwf.nodupVids
    have hvism : List.Perm
        (visitedVids (updateVert g1 vid markVisitedProcessingV))
        (vid :: visitedVids g1) := visitedVids_markVP hnd1 hgv hv
    have hprocm : List.Perm
        (procVids (updateVert g1 vid markVisitedProcessingV))
        (vid :: procVids g1) := procVids_markVP hnd1 hgv hvp
    have hdonem : doneVids (updateVert g1 vid markVisitedProcessingV) = doneVids g1 :=
      doneVids_markVP hnd1 hgv hv
    have hgsm : gstruct (updateVert g1 vid markVisitedProcessingV) = gstruct g1 :=
      gstruct_markVisitedProcessing g1 vid
    have hpsvm : ProcSubVisited (updateVert g1 vid markVisitedProcessingV) :=
      procSubVisited_updateVert markVisitedProcessingV (fun _ _ => rfl) hpsv
    have hcnt : unvisCount (updateVert g1 vid markVisitedProcessingV) < unvisCount g1 :=
      unvisCount_lt_of_perm_cons (vertexSet_length_of_gstruct hgsm) hvism
    obtain ⟨v0, hgv0, hvs0⟩ := getVert_of_gstruct_some hgs hgv
    have hadjv : v0.adj = v.adj := congrArg (fun t => t.2.2.1) hvs0
    have hadj : ∀ e ∈ v.adj, e ∈ adjOf g vid := by
      intro e he
      rw [show adjOf g vid = ((getVert g vid).map Vertex.adj).getD [] from rfl, hgv0]
      simpa [hadjv] using he
    have hQ2 := hQ (updateVert g1 vid markVisitedProcessingV) vid v.adj D
      (hgsm.trans hgs) (by omega) hpsvm hadj
      (fun w2 hw2 => by
        rcases List.mem_cons.1 ((hprocm.mem_iff).1 hw2) with he | h2
        · rw [he]
        · exact hpc w2 h2)
      (by rw [hdonem]; exact hdone) hgood
    cases hq2 : (dfsIsDAGAdj f (updateVert g1 vid markVisitedProcessingV) v.adj).2 with
    | false =>
      have hstep : dfsIsDAG (f + 1) g1 vid
          = ((dfsIsDAGAdj f (updateVert g1 vid markVisitedProcessingV) v.adj).1,
              false) := by
        simp only [dfsIsDAG, hgv]
        rw [hq2]
        simp only [Bool.false_eq_true, if_false]
      rw [hstep]
      exact ⟨fun _ => hQ2.1 hq2, fun htrue => Bool.noConfusion htrue⟩
    | true =>
      obtain ⟨newD1, k1, k2, k3, k4, k5, k6, k7⟩ := hQ2.2 hq2
      have hstep : dfsIsDAG (f + 1) g1 vid
          = (updateVert
              (dfsIsDAGAdj f (updateVert g1 vid markVisitedProcessingV) v.adj).1
              vid clearProcessingV, true) := by
        simp only [dfsIsDAG, hgv]
        rw [hq2, if_pos rfl]
      rw [hstep]
      have hgsp1 : gstruct
          (dfsIsDAGAdj f (updateVert g1 vid markVisitedProcessingV) v.adj).1
          = gstruct g1 := ((dfsIsDAG_gstruct f).2 _ _).trans hgsm
      have hndp : ((dfsIsDAGAdj f (updateVert g1 vid
          markVisitedProcessingV) v.adj).1.vertexSet.map Vertex.vid).Nodup := by
        rw [vids_of_gstruct hgsp1]; exact hnd1
      have hvidproc : vid ∈ procVids
          (dfsIsDAGAdj f (updateVert g1 vid markVisitedProcessingV) v.adj).1 :=
        (k4.mem_iff).2 ((hprocm.mem_iff).2 (List.mem_cons_self vid _))
      obtain ⟨v2, hgv2, hproc2⟩ :=
        (mem_filterVids_iff (fun x => x.processing) hndp).1 hvidproc
      have hvis2 : v2.visited = true := k5 v2 (getVert_mem hgv2).1 hproc2
      have hvisc : visitedVids (updateVert
          (dfsIsDAGAdj f (updateVert g1 vid markVisitedProcessingV) v.adj).1
          vid clearProcessingV)
          = visitedVids
            (dfsIsDAGAdj f (updateVert g1 vid markVisitedProcessingV) v.adj).1 :=
        visitedVids_clearP hndp hgv2
      have hprocc := procVids_clearP hndp hgv2 hproc2
      have hdonec := doneVids_clearP hndp hgv2 hvis2 hproc2
      have hpsvc : ProcSubVisited (updateVert
          (dfsIsDAGAdj f (updateVert g1 vid markVisitedProcessingV) v.adj).1
          vid clearProcessingV) :=
        procSubVisited_updateVert clearProcessingV
          (fun v3 h3 => absurd h3 (by simp [clearProcessingV])) k5
      constructor
      · intro hfalse
        exact Bool.noConfusion hfalse
      · intro _
        refine ⟨vid :: newD1, ?_, ?_, ?_, ?_, hpsvc, ?_, ?_⟩
        · exact hdonec.trans (k1.cons vid)
        · refine ⟨?_, k2⟩
          intro w3 hsw
          obtain ⟨e, he, hde⟩ := hsw
          have headj : e ∈ v.adj := by
            have hae : adjOf g vid = v.adj := by simp [adjOf, hgv0, hadjv]
            rwa [hae] at he
          have hke := k7 e headj
          rwa [hde] at hke
        · rw [hvisc]
          refine k3.trans ?_
          refine (hvism.append_right newD1).trans ?_
          exact List.perm_middle.symm
        · have hc1 : List.Perm
              (vid :: procVids (updateVert
                (dfsIsDAGAdj f (updateVert g1 vid markVisitedProcessingV) v.adj).1
                vid clearProcessingV))
              (vid :: procVids g1) := hprocc.symm.trans (k4.trans hprocm)
          exact hc1.cons_inv
        · intro u hu
          rcases List.mem_cons.1 hu with he | h2
          · intro hmem
            obtain ⟨v3, hgv3, hvis3⟩ := (mem_visitedVids_iff hnd1).1 hmem
            rw [he, hgv] at hgv3
            rw [← Option.some.inj hgv3] at hvis3
            rw [hv] at hvis3
            exact Bool.noConfusion hvis3
          · intro hmem
            apply k6 u h2
            exact (hvism.mem_iff).2 (List.mem_cons.2 (Or.inr hmem))
        · intro v3 _
          exact List.mem_cons_self vid newD1

theorem dfsIsDAG_spec (g : Graph) (hwf : Wf g) :
    ∀ fuel, DfsIsDAGP g fuel ∧ DfsIsDAGQ g fuel := by
  intro fuel
  induction fuel with
  | zero =>
    have hp := dfsIsDAGP_zero g hwf
    exact ⟨hp, dfsIsDAGAdj_spec_of g hwf 0 hp⟩
  | succ f ihf =>
    have hp := dfsIsDAGP_succ g hwf f ihf.2
    exact ⟨hp, dfsIsDAGAdj_spec_of g hwf (f + 1) hp⟩

theorem resetVP_flags (g : Graph) :
    ∀ v ∈ (resetVisitedProcessing g).vertexSet,
      v.visited = false ∧ v.processing = false := by
  intro v hv
  rcases List.mem_map.1 hv with ⟨x, _, rfl⟩
  exact ⟨rfl, rfl⟩

theorem vids_resetVP (g : Graph) :
    (resetVisitedProcessing g).vertexSet.map Vertex.vid
      = g.vertexSet.map Vertex.vid := by
  show (g.vertexSet.map clearVisitedProcessingV).map Vertex.vid
      = g.vertexSet.map Vertex.vid
  have hc : Vertex.vid ∘ clearVisitedProcessingV = Vertex.vid := rfl
  rw [List.map_map, hc]

theorem procVids_resetVP (g : Graph) : procVids (resetVisitedProcessing g) = [] := by
  show ((g.vertexSet.map clearVisitedProcessingV).filter
      (fun w => w.processing)).map Vertex.vid = []
  have hnilf : (g.vertexSet.map clearVisitedProcessingV).filter
      (fun w => w.processing) = [] := by
    induction g.vertexSet with
    | nil => rfl
    | cons a t iht =>
      simp only [List.map_cons, List.filter_cons]
      rw [if_neg (show ¬ (clearVisitedProcessingV a).processing = true from
        Bool.false_ne_true)]
      exact iht
  rw [hnilf]
  rfl

theorem doneVids_resetVP (g : Graph) : doneVids (resetVisitedProcessing g) = [] := by
  show ((g.vertexSet.map clearVisitedProcessingV).filter
      (fun w => w.visited && ! w.processing)).map Vertex.vid = []
  have hnilf : (g.vertexSet.map clearVisitedProcessingV).filter
      (fun w => w.visited && ! w.processing) = [] := by
    induction g.vertexSet with
    | nil => rfl
    | cons a t iht =>
      simp only [List.map_cons, List.filter_cons]
      rw [if_neg (show ¬ ((clearVisitedProcessingV a).visited
          && ! (clearVisitedProcessingV a).processing) = true from Bool.false_ne_true)]
      exact iht
  rw [hnilf]
  rfl

theorem isDAGLoop_spec (g : Graph) (hwf : Wf g) :
    ∀ (us : List Nat) (g1 : Graph) (D : List Nat),
      gstruct g1 = gstruct g →
      ProcSubVisited g1 →
      procVids g1 = [] →
      List.Perm (doneVids g1) D →
      GoodDone g D →
      ((isDAGLoop g1 us).2 = false → ∃ u, Relation.TransGen (stepRel g) u u) ∧
      ((isDAGLoop g1 us).2 = true →
        ∃ Dfin : List Nat,
          List.Perm (doneVids (isDAGLoop g1 us).1) Dfin ∧
          GoodDone g Dfin ∧
          procVids (isDAGLoop g1 us).1 = [] ∧
          (∀ x ∈ visitedVids g1, x ∈ visitedVids (isDAGLoop g1 us).1) ∧
          (∀ u ∈ us, u ∈ g1.vertexSet.map Vertex.vid →
            u ∈ visitedVids (isDAGLoop g1 us).1)) := by
  intro us
  induction us with
  | nil =>
    intro g1 D hgs hpsv hproc hdone hgood
    constructor
    · intro hfalse
      simp only [isDAGLoop] at hfalse
      exact Bool.noConfusion hfalse
    · intro _
      refine ⟨D, ?_, hgood, ?_, ?_, ?_⟩
      · simp only [isDAGLoop]
        exact hdone
      · simp only [isDAGLoop]
        exact hproc
      · intro x hx
        simp only [isDAGLoop]
        exact hx
      · intro u hu; simp at hu
  | cons u0 rest ih =>
    intro g1 D hgs hpsv hproc hdone hgood
    have hnd1 : (g1.vertexSet.map Vertex.vid).Nodup := by
      rw [vids_of_gstruct hgs]; exact hwf.nodupVids
    cases hgv : getVert g1 u0 with
    | none =>
      have hstep : isDAGLoop g1 (u0 :: rest) = isDAGLoop g1 rest := by
        simp only [isDAGLoop, hgv]
      rw [hstep]
      have hih := ih g1 D hgs hpsv hproc hdone hgood
      refine ⟨hih.1, ?_⟩
      intro htrue
      obtain ⟨Dfin, m1, m2, m3, m4, m5⟩ := hih.2 htrue
      refine ⟨Dfin, m1, m2, m3, m4, ?_⟩
      intro u hu hmem
      rcases List.mem_cons.1 hu with he | h2
      · exfalso
        have hsome := getVert_isSome_iff_mem_vids.2 hmem
        rw [he, hgv] at hsome
        simp at hsome
      · exact m5 u h2 hmem
    | some v =>
      cases hv : v.visited with
      | true =>
        have hstep : isDAGLoop g1 (u0 :: rest) = isDAGLoop g1 rest := by
          simp only [isDAGLoop, hgv]
          rw [hv, if_pos rfl]
        rw [hstep]
        have hih := ih g1 D hgs hpsv hproc hdone hgood
        refine ⟨hih.1, ?_⟩
        intro htrue
        obtain ⟨Dfin, m1, m2, m3, m4, m5⟩ := hih.2 htrue
        refine ⟨Dfin, m1, m2, m3, m4, ?_⟩
        intro u hu hmem
        rcases List.mem_cons.1 hu with he | h2
        · apply m4
          rw [he]
          exact (mem_visitedVids_iff hnd1).2 ⟨v, hgv, hv⟩
        · exact m5 u h2 hmem
      | false =>
        have hP1 := (dfsIsDAG_spec g hwf g1.vertexSet.length).1 g1 u0 D hgs
          (unvisCount_le_length g1) hpsv
          (fun v2 hv2 => by
            rw [hgv] at hv2
            rw [← Option.some.inj hv2]
            exact hv)
          (fun w2 hw2 => by rw [hproc] at hw2; simp at hw2)
          hdone hgood
        cases hp12 : (dfsIsDAG g1.vertexSet.length g1 u0).2 with
        | false =>
          have hstep : isDAGLoop g1 (u0 :: rest)
              = ((dfsIsDAG g1.vertexSet.length g1 u0).1, false) := by
            simp only [isDAGLoop, hgv]
            rw [hv]
            simp only [Bool.false_eq_true, if_false]
            rw [hp12]
            simp only [Bool.false_eq_true, if_false]
          rw [hstep]
          exact ⟨fun _ => hP1.1 hp12, fun htrue => Bool.noConfusion htrue⟩
        | true =>
          obtain ⟨newD1, k1, k2, k3, k4, k5, k6, k7⟩ := hP1.2 hp12
          have hstep : isDAGLoop g1 (u0 :: rest)
              = isDAGLoop (dfsIsDAG g1.vertexSet.length g1 u0).1 rest := by
            simp only [isDAGLoop, hgv]
            rw [hv]
            simp only [Bool.false_eq_true, if_false]
            rw [hp12, if_pos rfl]
          rw [hstep]
          have hgsp : gstruct (dfsIsDAG g1.vertexSet.length g1 u0).1 = gstruct g1 :=
            (dfsIsDAG_gstruct g1.vertexSet.length).1 g1 u0
          have hprocp : procVids (dfsIsDAG g1.vertexSet.length g1 u0).1 = [] := by
            rw [hproc] at k4
            exact k4.eq_nil
          have hih := ih (dfsIsDAG g1.vertexSet.length g1 u0).1 (newD1 ++ D)
            (hgsp.trans hgs) k5 hprocp k1 k2
          refine ⟨hih.1, ?_⟩
          intro htrue
          obtain ⟨Dfin, m1, m2, m3, m4, m5⟩ := hih.2 htrue
          refine ⟨Dfin, m1, m2, m3, ?_, ?_⟩
          · intro x hx
            apply m4
            exact (k3.mem_iff).2 (List.mem_append.2 (Or.inl hx))
          · intro u hu hmem
            rcases List.mem_cons.1 hu with he | h2
            · apply m4
              apply (k3.mem_iff).2
              apply List.mem_append.2
              right
              rw [he]
              exact k7 v hgv
            · apply m5 u h2
              rwa [vids_of_gstruct hgsp]

theorem isDAG_false_iff_cycle (g : Graph) (h : Wf g) :
    (g.isDAG).2 = false ↔ ∃ u, Relation.TransGen (stepRel g) u u := by
  have hd : g.isDAG = isDAGLoop (resetVisitedProcessing g)
      ((resetVisitedProcessing g).vertexSet.map Vertex.vid) := rfl
  have hgs0 : gstruct (resetVisitedProcessing g) = gstruct g :=
    gstruct_resetVisitedProcessing g
  have hpsv0 : ProcSubVisited (resetVisitedProcessing g) := by
    intro v hv hp
    rw [(resetVP_flags g v hv).2] at hp
    exact Bool.noConfusion hp
  have hspec := isDAGLoop_spec g h
    ((resetVisitedProcessing g).vertexSet.map Vertex.vid)
    (resetVisitedProcessing g) []
    hgs0 hpsv0 (procVids_resetVP g)
    (by rw [doneVids_resetVP g]) trivial
  constructor
  · intro hfalse
    apply hspec.1
    rw [← hd]
    exact hfalse
  · rintro ⟨u, hcyc⟩
    cases hres : (g.isDAG).2 with
    | false => rfl
    | true =>
      exfalso
      rw [hd] at hres
      obtain ⟨Dfin, m1, m2, m3, m4, m5⟩ := hspec.2 hres
      have humem : u ∈ g.vertexSet.map Vertex.vid := cycle_mem_vids hcyc
      have humem0 : u ∈ (resetVisitedProcessing g).vertexSet.map Vertex.vid := by
        rw [vids_resetVP]; exact humem
      have hvisu : u ∈ visitedVids (isDAGLoop (resetVisitedProcessing g)
          ((resetVisitedProcessing g).vertexSet.map Vertex.vid)).1 :=
        m5 u humem0 humem0
      have hdv : doneVids (isDAGLoop (resetVisitedProcessing g)
            ((resetVisitedProcessing g).vertexSet.map Vertex.vid)).1
          = visitedVids (isDAGLoop (resetVisitedProcessing g)
            ((resetVisitedProcessing g).vertexSet.map Vertex.vid)).1 :=
        doneVids_eq_visited_of_proc_nil m3
      have huD : u ∈ Dfin := (m1.mem_iff).1 (by rw [hdv]; exact hvisu)
      have hgsF : gstruct (isDAGLoop (resetVisitedProcessing g)
          ((resetVisitedProcessing g).vertexSet.map Vertex.vid)).1 = gstruct g :=
        (isDAGLoop_gstruct _ _).trans hgs0
      have hndDone : (doneVids (isDAGLoop (resetVisitedProcessing g)
          ((resetVisitedProcessing g).vertexSet.map Vertex.vid)).1).Nodup := by
        have hsub := List.Sublist.map Vertex.vid
          (@List.filter_sublist _ (fun w => w.visited && ! w.processing)
            ((isDAGLoop (resetVisitedProcessing g)
              ((resetVisitedProcessing g).vertexSet.map Vertex.vid)).1.vertexSet))
        apply List.Nodup.sublist hsub
        rw [vids_of_gstruct hgsF]
        exact h.nodupVids
      have hndD : Dfin.Nodup := (m1.nodup_iff).1 hndDone
      exact goodDone_acyclic g Dfin hndD m2 u huD hcyc

/-- **C2** (`isDAG` detects exactly the directed cycles).  On every
well-formed graph, `isDAG()` returns false if and only if the graph
contains a directed cycle, i.e. some vertex reaches itself by a non-empty
directed path.  Soundness follows from the finish-order invariant of the
three-colour DFS; completeness from the fact that the `processing` set
always forms a path into the current vertex, so the detected back edge
closes a cycle. -/
theorem c2_isDAG_iff_cycle (g : Graph) (h : Wf g) :
    (g.isDAG).2 = false ↔ ∃ u, Relation.TransGen (stepRel g) u u :=
  isDAG_false_iff_cycle g h

/-- A concrete graph (keys 1, 2; edges 1→2 and 2→1, a 2-cycle) for the C2
witness. -/
def gC2w : Graph :=
  ((((emptyGraph.addVertex 1).2.addVertex 2).2.addEdge 1 2 3).2.addEdge 2 1 3).2

/-- Witness instantiating `c2_isDAG_iff_cycle` on `gC2w`. -/
theorem c2_witness : Wf gC2w ∧
    ((gC2w.isDAG).2 = false ↔ ∃ u, Relation.TransGen (stepRel gC2w) u u) :=
  ⟨by decide, c2_isDAG_iff_cycle gC2w (by decide)⟩

/-! ### C1: `topsort()` — Kahn's algorithm -/

/-- The indegree scratch field of the vertex with the given vid. -/
def indegOf (g : Graph) (w : Nat) : Int :=
  ((getVert g w).map Vertex.indegree).getD 0

/-- The number of edges in `es` targeting `w`. -/
def ecnt (es : List Edge) (w : Nat) : Nat :=
  (es.filter (fun e => e.dest == w)).length

/-- The number of edges into `w` whose origin has not been emitted yet. -/
def inCnt (g : Graph) (E : List Nat) (w : Nat) : Nat :=
  ((allEdges g).filter (fun e => e.dest == w && ! (decide (e.orig ∈ E)))).length

/-- The reverse of an emission order: every vertex's in-neighbours appear in
the tail (i.e. were emitted earlier). -/
def GoodRev (g : Graph) : List Nat → Prop
  | [] => True
  | u :: R => (∀ x, stepRel g x u → x ∈ R) ∧ GoodRev g R

theorem goodRev_closed (g : Graph) : ∀ R : List Nat, GoodRev g R →
    ∀ u ∈ R, ∀ x, stepRel g x u → x ∈ R := by
  intro R
  induction R with
  | nil => intro _ u hu; simp at hu
  | cons a R ih =>
    intro hG u hu x hsx
    rcases List.mem_cons.1 hu with rfl | hu2
    · exact List.mem_cons_of_mem u (hG.1 x hsx)
    · exact List.mem_cons_of_mem a (ih hG.2 u hu2 x hsx)

theorem goodRev_reach (g : Graph) (R : List Nat) (hG : GoodRev g R) :
    ∀ u ∈ R, ∀ x, Relation.ReflTransGen (stepRel g) x u → x ∈ R := by
  intro u hu x hr
  induction hr using Relation.ReflTransGen.head_induction_on with
  | refl => exact hu
  | head hstep hrest ih => exact goodRev_closed g R hG _ ih _ hstep

theorem transGen_tail_decomp {α : Type} {r : α → α → Prop} {a c : α}
    (h : Relation.TransGen r a c) : ∃ b, Relation.ReflTransGen r a b ∧ r b c := by
  cases h with
  | single hab => exact ⟨a, Relation.ReflTransGen.refl, hab⟩
  | tail h1 h2 => exact ⟨_, h1.to_reflTransGen, h2⟩

theorem goodRev_acyclic (g : Graph) : ∀ R : List Nat, R.Nodup → GoodRev g R →
    ∀ u ∈ R, ¬ Relation.TransGen (stepRel g) u u := by
  intro R
  induction R with
  | nil => intro _ _ u hu; simp at hu
  | cons a R ih =>
    intro hnd hG u hu hcyc
    rcases List.mem_cons.1 hu with rfl | hu2
    · obtain ⟨b, hreach, hstep⟩ := transGen_tail_decomp hcyc
      have hbR : b ∈ R := hG.1 b hstep
      have huR : u ∈ R := goodRev_reach g R hG.2 b hbR u hreach
      exact (List.nodup_cons.1 hnd).1 huR
    · exact ih (List.nodup_cons.1 hnd).2 hG.2 u hu2 hcyc

theorem pairwise_of_goodRev (g : Graph) : ∀ R : List Nat, GoodRev g R → R.Nodup →
    List.Pairwise (fun a b => ¬ stepRel g b a) R.reverse := by
  intro R
  induction R with
  | nil => intro _ _; simp
  | cons u T ih =>
    intro hG hnd
    rw [List.reverse_cons, List.pairwise_append]
    refine ⟨ih hG.2 (List.nodup_cons.1 hnd).2, List.pairwise_singleton _ _, ?_⟩
    intro a ha b hb
    rcases List.mem_singleton.1 hb with rfl
    intro hstep
    have haT : a ∈ T := List.mem_reverse.1 ha
    have huT := goodRev_closed g T hG.2 a haT _ hstep
    exact (List.nodup_cons.1 hnd).1 huT

theorem exists_cycle_of_no_source (g : Graph) (U : List Nat) (hndU : U.Nodup)
    (hsucc : ∀ y ∈ U, ∃ x ∈ U, stepRel g x y) (hne : U ≠ []) :
    ∃ u, Relation.TransGen (stepRel g) u u := by
  have walk : ∀ n (T : List Nat) (w : Nat), T.Nodup → (∀ t ∈ T, t ∈ U) →
      w ∈ U → w ∉ T → (∀ t ∈ T, Relation.ReflTransGen (stepRel g) w t) →
      U.length ≤ T.length + n →
      ∃ u, Relation.TransGen (stepRel g) u u := by
    intro n
    induction n with
    | zero =>
      intro T w hndT hTU hwU hwT hreach hlen
      exfalso
      have hsp : List.Subperm (w :: T) U := by
        apply List.Nodup.subperm
        · exact List.nodup_cons.2 ⟨hwT, hndT⟩
        · intro x hx
          rcases List.mem_cons.1 hx with rfl | hx2
          · exact hwU
          · exact hTU x hx2
      have hle := hsp.length_le
      simp only [List.length_cons] at hle
      omega
    | succ m ih =>
      intro T w hndT hTU hwU hwT hreach hlen
      obtain ⟨x, hxU, hxw⟩ := hsucc w hwU
      by_cases hxw2 : x = w
      · exact ⟨w, Relation.TransGen.single (hxw2 ▸ hxw)⟩
      · by_cases hxT : x ∈ T
        · exact ⟨w, transGen_of_refl_step (hreach x hxT) hxw⟩
        · refine ih (w :: T) x (List.nodup_cons.2 ⟨hwT, hndT⟩) ?_ hxU ?_ ?_ ?_
          · intro t ht
            rcases List.mem_cons.1 ht with rfl | ht2
            · exact hwU
            · exact hTU t ht2
          · intro hx
            rcases List.mem_cons.1 hx with h2 | h2
            · exact hxw2 h2
            · exact hxT h2
          · intro t ht
            rcases List.mem_cons.1 ht with rfl | ht2
            · exact Relation.ReflTransGen.single hxw
            · exact Relation.ReflTransGen.head hxw (hreach t ht2)
          · simp only [List.length_cons]
            omega
  rcases List.exists_mem_of_ne_nil U hne with ⟨w0, hw0⟩
  exact walk U.length [] w0 List.nodup_nil (by simp) hw0 (by simp) (by simp) (by simp)

theorem filter_length_mono {α : Type} (p q : α → Bool)
    (h : ∀ a, q a = true → p a = true) :
    ∀ l : List α, (l.filter q).length ≤ (l.filter p).length := by
  intro l
  induction l with
  | nil => exact Nat.le_refl 0
  | cons a t ih =>
    rw [List.filter_cons, List.filter_cons]
    by_cases hq : q a = true
    · rw [if_pos hq, if_pos (h a hq)]
      simp only [List.length_cons]
      omega
    · rw [if_neg hq]
      by_cases hp : p a = true
      · rw [if_pos hp]
        simp only [List.length_cons]
        omega
      · rw [if_neg hp]
        exact ih

theorem filter_length_split {α : Type} (p q r : α → Bool)
    (hiff : ∀ a, p a = true ↔ (q a = true ∨ r a = true))
    (hdisj : ∀ a, ¬ (q a = true ∧ r a = true)) :
    ∀ l : List α, (l.filter p).length = (l.filter q).length + (l.filter r).length := by
  intro l
  induction l with
  | nil => rfl
  | cons a t ih =>
    rw [List.filter_cons, List.filter_cons, List.filter_cons]
    by_cases hq : q a = true
    · rw [if_pos ((hiff a).2 (Or.inl hq)), if_pos hq,
        if_neg (fun hr => hdisj a ⟨hq, hr⟩)]
      simp only [List.length_cons]
      omega
    · by_cases hr : r a = true
      · rw [if_pos ((hiff a).2 (Or.inr hr)), if_neg hq, if_pos hr]
        simp only [List.length_cons]
        omega
      · have hnp : ¬ p a = true := by
          intro hp
          rcases (hiff a).1 hp with h2 | h2
          · exact hq h2
          · exact hr h2
        rw [if_neg hnp, if_neg hq, if_neg hr]
        exact ih

theorem adjOf_owner {g : Graph} (hwf : Wf g) {e : Edge} (he : e ∈ allEdges g) :
    e ∈ adjOf g e.orig := by
  rcases mem_allEdges_iff.1 he with ⟨v, hv, hev⟩
  have horig : e.orig = v.vid := hwf.edgeOrig v hv e hev
  have hgv : getVert g e.orig = some v := by
    rw [horig]
    exact find_vid_of_mem hwf.nodupVids hv
  unfold adjOf
  rw [hgv]
  exact hev

theorem stepRel_mem_allEdges {g : Graph} (hwf : Wf g) {x w : Nat}
    (h : stepRel g x w) : ∃ e ∈ allEdges g, e.orig = x ∧ e.dest = w := by
  obtain ⟨e, he, hde⟩ := h
  cases hgx : getVert g x with
  | none =>
    unfold adjOf at he
    rw [hgx] at he
    simp at he
  | some vx =>
    unfold adjOf at he
    rw [hgx] at he
    have hmem := getVert_mem hgx
    refine ⟨e, mem_allEdges_of_mem hmem.1 he, ?_, hde⟩
    rw [hwf.edgeOrig vx hmem.1 e he, hmem.2]

theorem inCnt_eq_zero_iff {g : Graph} (hwf : Wf g) (E : List Nat) (w : Nat) :
    inCnt g E w = 0 ↔ ∀ x, stepRel g x w → x ∈ E := by
  unfold inCnt
  rw [List.length_eq_zero]
  constructor
  · intro hnil x hsx
    obtain ⟨e, heAll, horig, hdest⟩ := stepRel_mem_allEdges hwf hsx
    by_contra hxE
    have hin : e ∈ (allEdges g).filter
        (fun e2 => e2.dest == w && ! (decide (e2.orig ∈ E))) := by
      apply List.mem_filter.2
      refine ⟨heAll, ?_⟩
      simp [hdest, horig, hxE]
    rw [hnil] at hin
    simp at hin
  · intro hall
    apply List.filter_eq_nil_iff.2
    intro e heAll
    intro hpred
    have h1 : e.dest = w ∧ ¬ e.orig ∈ E := by simpa using hpred
    exact h1.2 (hall e.orig ⟨e, adjOf_owner hwf heAll, h1.1⟩)

theorem inCnt_mono {g : Graph} {E E2 : List Nat} (hsub : ∀ x ∈ E, x ∈ E2) (w : Nat) :
    inCnt g E2 w ≤ inCnt g E w := by
  unfold inCnt
  apply filter_length_mono
  intro e he2
  simp only [Bool.and_eq_true, Bool.not_eq_true', decide_eq_false_iff_not] at he2 ⊢
  exact ⟨he2.1, fun hmem => he2.2 (hsub _ hmem)⟩

theorem flatten_filter_orig :
    ∀ (l : List Vertex) (vid : Nat) (v0 : Vertex) (w : Nat),
      (∀ v1 ∈ l, ∀ e ∈ v1.adj, e.orig = v1.vid) →
      (l.map Vertex.vid).Nodup →
      l.find? (fun x => x.vid == vid) = some v0 →
      (((l.map Vertex.adj).flatten).filter
          (fun e => e.dest == w && e.orig == vid)).length
        = (v0.adj.filter (fun e => e.dest == w)).length := by
  intro l
  induction l with
  | nil => intro vid v0 w _ _ hf; simp [List.find?] at hf
  | cons a l ih =>
    intro vid v0 w hor hnd hf
    simp only [List.map_cons, List.nodup_cons] at hnd
    simp only [List.map_cons, List.flatten_cons, List.filter_append, List.length_append]
    by_cases ha : a.vid = vid
    · have hfa : (a.vid == vid) = true := by simp [ha]
      have hva : v0 = a := by
        simp only [List.find?, hfa] at hf
        exact (Option.some.inj hf).symm
      subst hva
      have hhead : v0.adj.filter (fun e => e.dest == w && e.orig == vid)
          = v0.adj.filter (fun e => e.dest == w) := by
        apply List.filter_congr
        intro e he
        have horig : e.orig = vid := by
          rw [hor v0 (List.mem_cons_self v0 l) e he, ha]
        simp [horig]
      have htail : ((l.map Vertex.adj).flatten).filter
          (fun e => e.dest == w && e.orig == vid) = [] := by
        apply List.filter_eq_nil_iff.2
        intro e he2
        rcases List.mem_flatten.1 he2 with ⟨es, hes, hees⟩
        rcases List.mem_map.1 hes with ⟨v1, hv1, rfl⟩
        have horig := hor v1 (List.mem_cons_of_mem v0 hv1) e hees
        have hne : ¬ v1.vid = vid := by
          intro hh
          apply hnd.1
          rw [ha, ← hh]
          exact List.mem_map_of_mem Vertex.vid hv1
        simp [horig, hne]
      rw [hhead, htail]
      simp
    · have hfa : (a.vid == vid) = false := by simp [ha]
      simp only [List.find?, hfa] at hf
      have hhead : a.adj.filter (fun e => e.dest == w && e.orig == vid) = [] := by
        apply List.filter_eq_nil_iff.2
        intro e he
        have horig := hor a (List.mem_cons_self a l) e he
        simp [horig, ha]
      rw [hhead]
      simp only [List.length_nil, Nat.zero_add]
      exact ih vid v0 w (fun v1 h1 => hor v1 (List.mem_cons_of_mem a h1)) hnd.2 hf

theorem allEdges_filter_orig {g : Graph} (hwf : Wf g) {vid : Nat} {v0 : Vertex}
    (hgv : getVert g vid = some v0) (w : Nat) :
    ((allEdges g).filter (fun e => e.dest == w && e.orig == vid)).length
      = (v0.adj.filter (fun e => e.dest == w)).length :=
  flatten_filter_orig g.vertexSet vid v0 w hwf.edgeOrig hwf.nodupVids hgv

theorem inCnt_append_single {g : Graph} (hwf : Wf g) {E : List Nat} {vid : Nat}
    {v0 : Vertex} (hvid : vid ∉ E) (hgv : getVert g vid = some v0) (w : Nat) :
    inCnt g E w = inCnt g (E ++ [vid]) w + ecnt v0.adj w := by
  have hiff : ∀ e : Edge,
      ((e.dest == w && ! (decide (e.orig ∈ E))) = true)
      ↔ (((e.dest == w && ! (decide (e.orig ∈ E ++ [vid]))) = true)
        ∨ ((e.dest == w && e.orig == vid) = true)) := by
    intro e
    simp only [Bool.and_eq_true, Bool.not_eq_true', decide_eq_false_iff_not,
      beq_iff_eq, List.mem_append, List.mem_singleton]
    constructor
    · rintro ⟨hd, hno⟩
      by_cases ho : e.orig = vid
      · exact Or.inr ⟨hd, ho⟩
      · refine Or.inl ⟨hd, ?_⟩
        intro hc
        rcases hc with hc | hc
        · exact hno hc
        · exact ho hc
    · rintro (⟨hd, hno⟩ | ⟨hd, ho⟩)
      · exact ⟨hd, fun hc => hno (Or.inl hc)⟩
      · exact ⟨hd, fun hc => hvid (ho ▸ hc)⟩
  have hdisj : ∀ e : Edge,
      ¬ (((e.dest == w && ! (decide (e.orig ∈ E ++ [vid]))) = true)
        ∧ ((e.dest == w && e.orig == vid) = true)) := by
    intro e hc
    obtain ⟨h1, h2⟩ := hc
    simp only [Bool.and_eq_true, Bool.not_eq_true', decide_eq_false_iff_not,
      beq_iff_eq, List.mem_append, List.mem_singleton] at h1 h2
    exact h1.2 (Or.inr h2.2)
  have hsplit := filter_length_split _ _ _ hiff hdisj (allEdges g)
  unfold inCnt
  rw [hsplit, allEdges_filter_orig hwf hgv w]
  rfl

theorem getVert_mapset (g : Graph) (h : Vertex → Vertex)
    (hvid : ∀ v, (h v).vid = v.vid) (w : Nat) :
    getVert { g with vertexSet := g.vertexSet.map h } w = (getVert g w).map h := by
  show (g.vertexSet.map h).find? (fun v => v.vid == w)
      = (g.vertexSet.find? (fun v => v.vid == w)).map h
  rw [List.find?_map]
  have hp : ((fun v => v.vid == w) ∘ h) = (fun v : Vertex => v.vid == w) := by
    funext v
    simp [Function.comp, hvid]
  rw [hp]

theorem indegOf_updateVert_ne (g : Graph) (vid : Nat) (f : Vertex → Vertex)
    (hvid : ∀ v, (f v).vid = v.vid) (w : Nat) (hne : ¬ w = vid) :
    indegOf (updateVert g vid f) w = indegOf g w := by
  unfold indegOf
  rw [getVert_updateVert g vid f hvid w]
  cases hgw : getVert g w with
  | none => rfl
  | some v =>
    have hvw : v.vid = w := (getVert_mem hgw).2
    simp only [Option.map]
    rw [if_neg (show ¬ v.vid = vid by rw [hvw]; exact hne)]

theorem indegOf_updateVert_self (g : Graph) (vid : Nat) (f : Vertex → Vertex)
    (hvid : ∀ v, (f v).vid = v.vid) {v : Vertex} (hgv : getVert g vid = some v) :
    indegOf (updateVert g vid f) vid = (f v).indegree := by
  unfold indegOf
  rw [getVert_updateVert g vid f hvid vid, hgv]
  have hvw : v.vid = vid := (getVert_mem hgv).2
  simp only [Option.map]
  rw [if_pos hvw]
  rfl

theorem indegOf_updateVert_absent (g : Graph) (vid : Nat) (f : Vertex → Vertex)
    (hvid : ∀ v, (f v).vid = v.vid) (hgv : getVert g vid = none) (w : Nat) :
    indegOf (updateVert g vid f) w = indegOf g w := by
  by_cases hw : w = vid
  · unfold indegOf
    rw [hw, getVert_updateVert g vid f hvid vid, hgv]
    rfl
  · exact indegOf_updateVert_ne g vid f hvid w hw

theorem getVert_isSome_of_gstruct {g g2 : Graph} (h : gstruct g2 = gstruct g) (u : Nat) :
    (getVert g2 u).isSome = (getVert g u).isSome := by
  have hc := getVert_vstruct_congr h u
  have h1 := congrArg Option.isSome hc
  simpa using h1

theorem indegOf_incr (g : Graph) (d w : Nat) (hpres : (getVert g d).isSome = true) :
    indegOf (updateVert g d incIndegreeV) w
      = indegOf g w + (if w = d then 1 else 0) := by
  by_cases hw : w = d
  · rcases Option.isSome_iff_exists.1 hpres with ⟨v, hv⟩
    rw [hw, if_pos rfl]
    rw [indegOf_updateVert_self g d incIndegreeV (fun v2 => rfl) hv]
    have h2 : indegOf g d = v.indegree := by
      unfold indegOf
      rw [hv]
      rfl
    rw [h2]
    rfl
  · rw [if_neg hw, indegOf_updateVert_ne g d incIndegreeV (fun v2 => rfl) w hw]
    simp

theorem ecnt_cons (e : Edge) (es : List Edge) (w : Nat) :
    ecnt (e :: es) w = (if w = e.dest then 1 else 0) + ecnt es w := by
  unfold ecnt
  rw [List.filter_cons]
  by_cases hd : e.dest = w
  · rw [if_pos (by simp [hd]), if_pos hd.symm]
    simp only [List.length_cons]
    omega
  · rw [if_neg (by simp [hd]), if_neg (fun h => hd h.symm)]
    simp

theorem incrIndegLoop_indeg : ∀ (es : List Edge) (g : Graph) (w : Nat),
    (∀ e ∈ es, (getVert g e.dest).isSome = true) →
    indegOf (incrIndegLoop g es) w = indegOf g w + (ecnt es w : Int) := by
  intro es
  induction es with
  | nil => intro g w _; simp [incrIndegLoop, ecnt]
  | cons e es ih =>
    intro g w hpres
    simp only [incrIndegLoop]
    have hpres1 : ∀ e2 ∈ es,
        (getVert (updateVert g e.dest incIndegreeV) e2.dest).isSome = true := by
      intro e2 he2
      rw [getVert_updateVert g e.dest incIndegreeV (fun v => rfl) e2.dest]
      simpa using hpres e2 (List.mem_cons_of_mem e he2)
    rw [ih _ w hpres1, indegOf_incr g e.dest w (hpres e (List.mem_cons_self e es)),
      ecnt_cons]
    push_cast
    ring

theorem computeIndegLoop_indeg : ∀ (us : List Nat) (g : Graph) (w : Nat),
    (∀ u, ∀ e ∈ adjOf g u, (getVert g e.dest).isSome = true) →
    indegOf (computeIndegLoop g us) w
      = indegOf g w + ((us.map (fun u => ecnt (adjOf g u) w)).sum : Int) := by
  intro us
  induction us with
  | nil => intro g w _; simp [computeIndegLoop]
  | cons u rest ih =>
    intro g w hpres
    simp only [computeIndegLoop]
    cases hgv : getVert g u with
    | none =>
      simp only [hgv]
      rw [ih g w hpres]
      have hadj : adjOf g u = [] := by
        unfold adjOf
        rw [hgv]
        rfl
      simp [hadj, ecnt]
    | some v =>
      simp only [hgv]
      have hgs : gstruct (incrIndegLoop g v.adj) = gstruct g :=
        incrIndegLoop_gstruct v.adj g
      have hadj : v.adj = adjOf g u := by
        unfold adjOf
        rw [hgv]
        rfl
      have hpres1 : ∀ u2, ∀ e ∈ adjOf (incrIndegLoop g v.adj) u2,
          (getVert (incrIndegLoop g v.adj) e.dest).isSome = true := by
        intro u2 e he
        rw [adjOf_of_gstruct hgs] at he
        rw [getVert_isSome_of_gstruct hgs]
        exact hpres u2 e he
      rw [ih _ w hpres1]
      have hind1 : indegOf (incrIndegLoop g v.adj) w
          = indegOf g w + (ecnt v.adj w : Int) :=
        incrIndegLoop_indeg v.adj g w (fun e he => hpres u e (hadj ▸ he))
      have hmapeq : rest.map (fun u2 => ecnt (adjOf (incrIndegLoop g v.adj) u2) w)
          = rest.map (fun u2 => ecnt (adjOf g u2) w) := by
        apply map_congr_mem
        intro a _
        rw [adjOf_of_gstruct hgs a]
      rw [hmapeq, hind1]
      simp only [List.map_cons, List.sum_cons, hadj]
      push_cast
      ring

theorem indegOf_zeroed (g : Graph) (w : Nat) :
    indegOf { g with vertexSet := g.vertexSet.map zeroIndegreeV } w = 0 := by
  unfold indegOf
  rw [getVert_mapset g zeroIndegreeV (fun v => rfl) w]
  cases getVert g w with
  | none => rfl
  | some v => rfl

theorem flatten_dest_count : ∀ (l : List Vertex) (w : Nat),
    (((l.map Vertex.adj).flatten).filter (fun e => e.dest == w)).length
      = (l.map (fun v => ecnt v.adj w)).sum := by
  intro l w
  induction l with
  | nil => rfl
  | cons a t ih =>
    simp only [List.map_cons, List.flatten_cons, List.filter_append, List.length_append,
      List.sum_cons]
    rw [ih]
    rfl

theorem inCnt_nil (g : Graph) (w : Nat) :
    inCnt g [] w = ((allEdges g).filter (fun e => e.dest == w)).length := by
  unfold inCnt
  congr 1
  apply List.filter_congr
  intro e he
  simp

theorem indegOf_decr (g : Graph) (d w : Nat) (hpres : (getVert g d).isSome = true) :
    indegOf (updateVert g d decIndegreeV) w
      = indegOf g w - (if w = d then 1 else 0) := by
  by_cases hw : w = d
  · rcases Option.isSome_iff_exists.1 hpres with ⟨v, hv⟩
    rw [hw, if_pos rfl]
    rw [indegOf_updateVert_self g d decIndegreeV (fun v2 => rfl) hv]
    have h2 : indegOf g d = v.indegree := by
      unfold indegOf
      rw [hv]
      rfl
    rw [h2]
    rfl
  · rw [if_neg hw, indegOf_updateVert_ne g d decIndegreeV (fun v2 => rfl) w hw]
    simp

theorem topsortDecr_spec : ∀ (es : List Edge) (gB : Graph) (q : List Nat),
    (∀ e ∈ es, (getVert gB e.dest).isSome = true) →
    (∀ w, (ecnt es w : Int) ≤ indegOf gB w) →
    (∀ w, indegOf (topsortDecr gB q es).1 w = indegOf gB w - (ecnt es w : Int)) ∧
    ∃ zs, (topsortDecr gB q es).2 = q ++ zs ∧ zs.Nodup ∧
      (∀ w, w ∈ zs ↔ 0 < ecnt es w ∧ indegOf gB w = (ecnt es w : Int)) := by
  intro es
  induction es with
  | nil =>
    intro gB q _ _
    constructor
    · intro w
      simp [topsortDecr, ecnt]
    · refine ⟨[], by simp [topsortDecr], List.nodup_nil, ?_⟩
      intro w
      simp [ecnt]
  | cons e es ih =>
    intro gB q hpres hbound
    simp only [topsortDecr]
    have hpresd := hpres e (List.mem_cons_self e es)
    rcases Option.isSome_iff_exists.1 hpresd with ⟨v, hv⟩
    have hg1v : getVert (updateVert gB e.dest decIndegreeV) e.dest
        = some (decIndegreeV v) := by
      rw [getVert_updateVert gB e.dest decIndegreeV (fun v2 => rfl) e.dest, hv]
      simp only [Option.map]
      rw [if_pos (getVert_mem hv).2]
    have hvind : indegOf gB e.dest = v.indegree := by
      unfold indegOf
      rw [hv]
      rfl
    have hq1 : (match getVert (updateVert gB e.dest decIndegreeV) e.dest with
        | some w => if w.indegree = 0 then q ++ [e.dest] else q
        | none => q)
        = (if v.indegree - 1 = 0 then q ++ [e.dest] else q) := by
      rw [hg1v]
      rfl
    rw [hq1]
    have hpres2 : ∀ e2 ∈ es,
        (getVert (updateVert gB e.dest decIndegreeV) e2.dest).isSome = true := by
      intro e2 he2
      rw [getVert_updateVert gB e.dest decIndegreeV (fun v2 => rfl) e2.dest]
      simpa using hpres e2 (List.mem_cons_of_mem e he2)
    have hindg1 : ∀ w, indegOf (updateVert gB e.dest decIndegreeV) w
        = indegOf gB w - (if w = e.dest then 1 else 0) := fun w =>
      indegOf_decr gB e.dest w hpresd
    have hbound2 : ∀ w, (ecnt es w : Int)
        ≤ indegOf (updateVert gB e.dest decIndegreeV) w := by
      intro w
      have hb := hbound w
      rw [ecnt_cons] at hb
      rw [hindg1 w]
      by_cases hw : w = e.dest
      · rw [if_pos hw] at hb ⊢
        push_cast at hb ⊢
        omega
      · rw [if_neg hw] at hb ⊢
        push_cast at hb ⊢
        omega
    by_cases hone : v.indegree - 1 = 0
    · rw [if_pos hone]
      obtain ⟨ihA, zs, hqz, hndz, hmem⟩ :=
        ih (updateVert gB e.dest decIndegreeV) (q ++ [e.dest]) hpres2 hbound2
      have hecnt0 : ecnt es e.dest = 0 := by
        have hb := hbound e.dest
        rw [ecnt_cons, if_pos rfl, hvind] at hb
        push_cast at hb
        omega
      constructor
      · intro w
        rw [ihA w, hindg1 w, ecnt_cons]
        by_cases hw : w = e.dest
        · subst hw
          rw [if_pos rfl, if_pos rfl]
          push_cast
          ring
        · rw [if_neg hw, if_neg hw]
          push_cast
          ring
      · refine ⟨e.dest :: zs, ?_, ?_, ?_⟩
        · rw [hqz, List.append_assoc]
          rfl
        · refine List.nodup_cons.2 ⟨?_, hndz⟩
          intro hdz
          have hm := (hmem e.dest).1 hdz
          rw [hindg1 e.dest, if_pos rfl, hvind] at hm
          have h1 := hm.1
          have h2 := hm.2
          rw [hecnt0] at h1
          exact Nat.lt_irrefl 0 h1
        · intro w
          by_cases hw : w = e.dest
          · subst hw
            constructor
            · intro _
              rw [ecnt_cons, if_pos rfl, hvind, hecnt0]
              constructor
              · omega
              · push_cast
                omega
            · intro _
              exact List.mem_cons_self e.dest zs
          · rw [List.mem_cons]
            constructor
            · intro hcase
              rcases hcase with h2 | h2
              · exact absurd h2 hw
              · have hm := (hmem w).1 h2
                rw [hindg1 w, if_neg hw] at hm
                rw [ecnt_cons, if_neg hw]
                constructor
                · omega
                · have := hm.2
                  push_cast at this ⊢
                  omega
            · intro hcase
              rw [ecnt_cons, if_neg hw] at hcase
              refine Or.inr ((hmem w).2 ⟨?_, ?_⟩)
              · omega
              · rw [hindg1 w, if_neg hw]
                have := hcase.2
                push_cast at this ⊢
                omega
    · rw [if_neg hone]
      obtain ⟨ihA, zs, hqz, hndz, hmem⟩ :=
        ih (updateVert gB e.dest decIndegreeV) q hpres2 hbound2
      constructor
      · intro w
        rw [ihA w, hindg1 w, ecnt_cons]
        by_cases hw : w = e.dest
        · subst hw
          rw [if_pos rfl, if_pos rfl]
          push_cast
          ring
        · rw [if_neg hw, if_neg hw]
          push_cast
          ring
      · refine ⟨zs, hqz, hndz, ?_⟩
        intro w
        rw [hmem w]
        by_cases hw : w = e.dest
        · subst hw
          rw [hindg1 e.dest, if_pos rfl, ecnt_cons, if_pos rfl, hvind]
          constructor
          · intro hc
            have h1 := hc.1
            have h2 := hc.2
            constructor
            · omega
            · push_cast at h2 ⊢
              omega
          · intro hc
            have h2 := hc.2
            have hnz : ¬ ecnt es e.dest = 0 := by
              intro h0
              apply hone
              rw [h0] at h2
              push_cast at h2
              omega
            constructor
            · omega
            · push_cast at h2 ⊢
              omega
        · rw [hindg1 w, if_neg hw, ecnt_cons, if_neg hw]
          constructor
          · intro hc
            have h1 := hc.1
            have h2 := hc.2
            refine ⟨by omega, ?_⟩
            push_cast at h2 ⊢
            omega
          · intro hc
            have h1 := hc.1
            have h2 := hc.2
            refine ⟨by omega, ?_⟩
            push_cast at h2 ⊢
            omega

theorem ecnt_pos {es : List Edge} {w : Nat} (h : 0 < ecnt es w) :
    ∃ e ∈ es, e.dest = w := by
  unfold ecnt at h
  have hne : es.filter (fun e => e.dest == w) ≠ [] := by
    intro h0
    rw [h0] at h
    simp at h
  rcases List.exists_mem_of_ne_nil _ hne with ⟨e, he⟩
  have hm := List.mem_filter.1 he
  exact ⟨e, hm.1, by simpa using hm.2⟩

theorem inCnt_zero_of_goodRev {g : Graph} (hwf : Wf g) {E : List Nat}
    (hG : GoodRev g E.reverse) {z : Nat} (hz : z ∈ E) : inCnt g E z = 0 := by
  apply (inCnt_eq_zero_iff hwf E z).2
  intro x hsx
  have hzr : z ∈ E.reverse := List.mem_reverse.2 hz
  have hx := goodRev_closed g E.reverse hG z hzr x hsx
  exact List.mem_reverse.1 hx

theorem topsortLoop_spec (g : Graph) (hwf : Wf g) :
    ∀ (fuel : Nat) (g1 : Graph) (q E : List Nat) (res : List Key),
    gstruct g1 = gstruct g →
    (E ++ q).Nodup →
    (∀ w, indegOf g1 w = (inCnt g E w : Int)) →
    (∀ w, w ∈ q ↔ (w ∈ g.vertexSet.map Vertex.vid ∧ ¬ w ∈ E ∧ inCnt g E w = 0)) →
    (∀ w ∈ E, w ∈ g.vertexSet.map Vertex.vid) →
    GoodRev g E.reverse →
    g.vertexSet.length + 1 ≤ fuel + E.length →
    res = E.map (fun u => infoOf g u) →
    ∃ Efin : List Nat,
      (topsortLoop fuel g1 q res).2 = Efin.map (fun u => infoOf g u) ∧
      Efin.Nodup ∧
      (∀ w ∈ Efin, w ∈ g.vertexSet.map Vertex.vid) ∧
      GoodRev g Efin.reverse ∧
      (∀ w, w ∈ g.vertexSet.map Vertex.vid → ¬ w ∈ Efin → ¬ inCnt g Efin w = 0) := by
  intro fuel
  induction fuel with
  | zero =>
    intro g1 q E res hgs hnd hind hq hE hG hfuel hres
    exfalso
    have hsub : List.Subperm E (g.vertexSet.map Vertex.vid) :=
      List.Nodup.subperm ((List.nodup_append.1 hnd).1) hE
    have hle := hsub.length_le
    rw [List.length_map] at hle
    omega
  | succ f ih =>
    intro g1 q E res hgs hnd hind hq hE hG hfuel hres
    cases q with
    | nil =>
      simp only [topsortLoop]
      refine ⟨E, hres, (List.nodup_append.1 hnd).1, hE, hG, ?_⟩
      intro w hwp hwE hz
      have hmem := (hq w).2 ⟨hwp, hwE, hz⟩
      simp at hmem
    | cons vid qrest =>
      obtain ⟨hvidP, hvidE, hvidZ⟩ := (hq vid).1 (List.mem_cons_self vid qrest)
      have hg1s : (getVert g1 vid).isSome = true := by
        rw [getVert_isSome_of_gstruct hgs]
        exact getVert_isSome_iff_mem_vids.2 hvidP
      cases hv : getVert g1 vid with
      | none =>
        rw [hv] at hg1s
        simp at hg1s
      | some v =>
        simp only [topsortLoop, hv]
        obtain ⟨v0, hv0, hvs⟩ := getVert_of_gstruct_some hgs hv
        have hadj : v0.adj = v.adj := congrArg (fun t => t.2.2.1) hvs
        have hv0mem := getVert_mem hv0
        have hpresD : ∀ e ∈ v.adj, (getVert g1 e.dest).isSome = true := by
          intro e he
          rw [getVert_isSome_of_gstruct hgs]
          rw [← hadj] at he
          obtain ⟨w2, hw2, hw2v⟩ := hwf.edgeDestLive v0 hv0mem.1 e he
          exact getVert_isSome.2 ⟨w2, hw2, hw2v⟩
        have hsplit : ∀ w, inCnt g E w = inCnt g (E ++ [vid]) w + ecnt v0.adj w :=
          fun w => inCnt_append_single hwf hvidE hv0 w
        have hboundD : ∀ w, (ecnt v.adj w : Int) ≤ indegOf g1 w := by
          intro w
          rw [hind w, ← hadj]
          have := hsplit w
          push_cast
          omega
        obtain ⟨hDind, zs, hDq, hDnd, hDmem⟩ :=
          topsortDecr_spec v.adj g1 qrest hpresD hboundD
        rw [hDq]
        have hgs2 : gstruct (topsortDecr g1 qrest v.adj).1 = gstruct g :=
          (topsortDecr_gstruct g1 qrest v.adj).trans hgs
        have hndEq : (E ++ vid :: qrest).Nodup := hnd
        have hndE : E.Nodup := (List.nodup_append.1 hndEq).1
        have hndQ : (vid :: qrest).Nodup := (List.nodup_append.1 hndEq).2.1
        have hdisjEQ : ∀ a ∈ E, ¬ a ∈ vid :: qrest := by
          intro a ha hb
          exact (List.nodup_append.1 hndEq).2.2 ha hb
        have hvidQrest : ¬ vid ∈ qrest := (List.nodup_cons.1 hndQ).1
        have hzsE : ∀ z ∈ zs, inCnt g E z ≠ 0 := by
          intro z hz
          have hm := (hDmem z).1 hz
          have h2 := hm.2
          rw [hind z] at h2
          have h3 : inCnt g E z = ecnt v.adj z := by
            have := h2
            push_cast at this
            omega
          rw [h3]
          omega
        have hzsNotE : ∀ z ∈ zs, ¬ z ∈ E := by
          intro z hz hzE
          exact hzsE z hz (inCnt_zero_of_goodRev hwf hG hzE)
        have hzsNotVid : ∀ z ∈ zs, ¬ z = vid := by
          intro z hz hzv
          apply hzsE z hz
          rw [hzv]
          exact hvidZ
        have hzsNotQrest : ∀ z ∈ zs, ¬ z ∈ qrest := by
          intro z hz hzq
          have hmq := (hq z).1 (List.mem_cons_of_mem vid hzq)
          exact hzsE z hz hmq.2.2
        have hassoc : (E ++ [vid]) ++ (qrest ++ zs) = (E ++ vid :: qrest) ++ zs := by
          simp [List.append_assoc]
        have hnd2 : ((E ++ [vid]) ++ (qrest ++ zs)).Nodup := by
          rw [hassoc]
          apply List.nodup_append.2
          refine ⟨hndEq, hDnd, ?_⟩
          intro a ha hb
          rcases List.mem_append.1 ha with haE | haQ
          · exact hzsNotE a hb haE
          · rcases List.mem_cons.1 haQ with rfl | haQ2
            · exact hzsNotVid a hb rfl
            · exact hzsNotQrest a hb haQ2
        have hind2 : ∀ w, indegOf (topsortDecr g1 qrest v.adj).1 w
            = (inCnt g (E ++ [vid]) w : Int) := by
          intro w
          rw [hDind w, hind w, ← hadj]
          have := hsplit w
          push_cast
          omega
        have hq2 : ∀ w, w ∈ qrest ++ zs ↔
            (w ∈ g.vertexSet.map Vertex.vid ∧ ¬ w ∈ E ++ [vid]
              ∧ inCnt g (E ++ [vid]) w = 0) := by
          intro w
          constructor
          · intro hw
            rcases List.mem_append.1 hw with hwq | hwz
            · obtain ⟨hp, hne, hz⟩ := (hq w).1 (List.mem_cons_of_mem vid hwq)
              have hwvid : ¬ w = vid := by
                intro hh
                exact hvidQrest (hh ▸ hwq)
              refine ⟨hp, ?_, ?_⟩
              · intro hc
                rcases List.mem_append.1 hc with hc2 | hc2
                · exact hne hc2
                · exact hwvid (List.mem_singleton.1 hc2)
              · have hmono2 : inCnt g (E ++ [vid]) w ≤ inCnt g E w :=
                  inCnt_mono (fun x hx => List.mem_append_left [vid] hx) w
                omega
            · have hm := (hDmem w).1 hwz
              have hpos := hm.1
              rw [← hadj] at hpos
              obtain ⟨e, he, hedest⟩ := ecnt_pos hpos
              obtain ⟨w2, hw2, hw2v⟩ := hwf.edgeDestLive v0 hv0mem.1 e he
              have hp : w ∈ g.vertexSet.map Vertex.vid := by
                rw [← hedest, ← hw2v]
                exact List.mem_map_of_mem Vertex.vid hw2
              refine ⟨hp, ?_, ?_⟩
              · intro hc
                rcases List.mem_append.1 hc with hc2 | hc2
                · exact hzsNotE w hwz hc2
                · exact hzsNotVid w hwz (List.mem_singleton.1 hc2)
              · have h2 := hm.2
                rw [hind w] at h2
                have h3 := hsplit w
                rw [hadj] at h3
                have h4 : inCnt g E w = ecnt v.adj w := by
                  push_cast at h2
                  omega
                omega
          · rintro ⟨hp, hne, hz⟩
            have hwvid : ¬ w = vid := by
              intro hh
              exact hne (List.mem_append_right E (List.mem_singleton.2 hh))
            have hwE : ¬ w ∈ E := fun hc => hne (List.mem_append_left [vid] hc)
            by_cases hc : inCnt g E w = 0
            · apply List.mem_append_left
              have := (hq w).2 ⟨hp, hwE, hc⟩
              rcases List.mem_cons.1 this with hh | hh
              · exact absurd hh hwvid
              · exact hh
            · apply List.mem_append_right
              apply (hDmem w).2
              have h3 := hsplit w
              rw [hadj] at h3
              rw [hz] at h3
              constructor
              · omega
              · rw [hind w]
                push_cast
                omega
        have hE2 : ∀ w ∈ E ++ [vid], w ∈ g.vertexSet.map Vertex.vid := by
          intro w hw
          rcases List.mem_append.1 hw with hw2 | hw2
          · exact hE w hw2
          · rw [List.mem_singleton.1 hw2]
            exact hvidP
        have hG2 : GoodRev g (E ++ [vid]).reverse := by
          rw [List.reverse_append, List.reverse_singleton, List.singleton_append]
          refine ⟨?_, hG⟩
          intro x hsx
          exact List.mem_reverse.2 ((inCnt_eq_zero_iff hwf E vid).1 hvidZ x hsx)
        have hfuel2 : g.vertexSet.length + 1 ≤ f + (E ++ [vid]).length := by
          rw [List.length_append, List.length_singleton]
          omega
        have hres2 : res ++ [v.info] = (E ++ [vid]).map (fun u => infoOf g u) := by
          rw [List.map_append, hres]
          have hinfo : infoOf g vid = v.info := by
            unfold infoOf
            rw [hv0]
            exact vstruct_info hvs
          rw [List.map_singleton, hinfo]
        exact ih (topsortDecr g1 qrest v.adj).1 (qrest ++ zs) (E ++ [vid])
          (res ++ [v.info]) hgs2 hnd2 hind2 hq2 hE2 hG2 hfuel2 hres2

theorem inCnt_ne_zero_elim {g : Graph} {E : List Nat} {w : Nat}
    (h : ¬ inCnt g E w = 0) : ∃ e ∈ allEdges g, e.dest = w ∧ ¬ e.orig ∈ E := by
  unfold inCnt at h
  have hne : (allEdges g).filter
      (fun e => e.dest == w && ! (decide (e.orig ∈ E))) ≠ [] := by
    intro h0
    rw [h0] at h
    simp at h
  rcases List.exists_mem_of_ne_nil _ hne with ⟨e, he⟩
  have hm := List.mem_filter.1 he
  have hp := hm.2
  simp only [Bool.and_eq_true, Bool.not_eq_true', decide_eq_false_iff_not,
    beq_iff_eq] at hp
  exact ⟨e, hm.1, hp.1, hp.2⟩

theorem vids_map_infoOf {g : Graph} (hwf : Wf g) :
    (g.vertexSet.map Vertex.vid).map (fun u => infoOf g u)
      = g.vertexSet.map Vertex.info := by
  rw [List.map_map]
  apply map_congr_mem
  intro v hv
  show infoOf g v.vid = v.info
  unfold infoOf
  have hgv : getVert g v.vid = some v := find_vid_of_mem hwf.nodupVids hv
  rw [hgv]
  rfl

theorem topsort_main {g : Graph} (hwf : Wf g) :
    ∃ Efin : List Nat,
      Efin.Nodup ∧
      (∀ w ∈ Efin, w ∈ g.vertexSet.map Vertex.vid) ∧
      GoodRev g Efin.reverse ∧
      (∀ w, w ∈ g.vertexSet.map Vertex.vid → ¬ w ∈ Efin → ¬ inCnt g Efin w = 0) ∧
      (g.topsort).2 = (if Efin.length = g.vertexSet.length
        then Efin.map (fun u => infoOf g u) else []) := by
  set gz : Graph := { g with vertexSet := g.vertexSet.map zeroIndegreeV } with hgzdef
  set us : List Nat := gz.vertexSet.map Vertex.vid with husdef
  set g1 : Graph := computeIndegLoop gz us with hg1def
  set q0 : List Nat := (g1.vertexSet.filter (fun v => v.indegree = 0)).map Vertex.vid
    with hq0def
  have hgs0 : gstruct gz = gstruct g := gstruct_zeroIndegrees g
  have hgs1 : gstruct g1 = gstruct g := (computeIndegLoop_gstruct us gz).trans hgs0
  have hget0 : ∀ u, getVert gz u = (getVert g u).map zeroIndegreeV :=
    getVert_mapset g zeroIndegreeV (fun v => rfl)
  have hus : us = g.vertexSet.map Vertex.vid := by
    rw [husdef, hgzdef]
    show (g.vertexSet.map zeroIndegreeV).map Vertex.vid = g.vertexSet.map Vertex.vid
    rw [List.map_map]
    rfl
  have hpres0 : ∀ u, ∀ e ∈ adjOf gz u, (getVert gz e.dest).isSome = true := by
    intro u e he
    unfold adjOf at he
    rw [hget0 u] at he
    cases hgu : getVert g u with
    | none =>
      rw [hgu] at he
      simp at he
    | some v2 =>
      rw [hgu] at he
      simp only [Option.map, Option.getD] at he
      obtain ⟨w2, hw2, hw2v⟩ := hwf.edgeDestLive v2 (getVert_mem hgu).1 e he
      rw [hget0 e.dest]
      have hs : (getVert g e.dest).isSome = true := getVert_isSome.2 ⟨w2, hw2, hw2v⟩
      simpa using hs
  have hadj0 : ∀ v ∈ g.vertexSet, adjOf gz v.vid = v.adj := by
    intro v hv
    unfold adjOf
    rw [hget0 v.vid]
    have hgv : getVert g v.vid = some v := find_vid_of_mem hwf.nodupVids hv
    rw [hgv]
    rfl
  have hindz : ∀ w, indegOf gz w = 0 := fun w => indegOf_zeroed g w
  have hind1 : ∀ w, indegOf g1 w = (inCnt g [] w : Int) := by
    intro w
    rw [hg1def, computeIndegLoop_indeg us gz w hpres0, hindz w, hus]
    have hmaps : (g.vertexSet.map Vertex.vid).map (fun u => ecnt (adjOf gz u) w)
        = g.vertexSet.map (fun v => ecnt v.adj w) := by
      rw [List.map_map]
      apply map_congr_mem
      intro v hv
      show ecnt (adjOf gz v.vid) w = ecnt v.adj w
      rw [hadj0 v hv]
    rw [hmaps, inCnt_nil]
    have hfl := flatten_dest_count g.vertexSet w
    unfold allEdges
    rw [hfl]
    simp
  have hndq0 : (([] : List Nat) ++ q0).Nodup := by
    rw [List.nil_append, hq0def]
    apply List.Nodup.sublist
    · exact List.Sublist.map Vertex.vid (List.filter_sublist g1.vertexSet)
    · rw [vids_of_gstruct hgs1]
      exact hwf.nodupVids
  have hq0mem : ∀ w, w ∈ q0 ↔ (w ∈ g.vertexSet.map Vertex.vid ∧ ¬ w ∈ ([] : List Nat)
      ∧ inCnt g [] w = 0) := by
    intro w
    rw [hq0def, mem_filterVids_iff _ (by rw [vids_of_gstruct hgs1]; exact hwf.nodupVids)]
    constructor
    · rintro ⟨v, hgv, hvz⟩
      have hp : w ∈ g.vertexSet.map Vertex.vid := by
        rw [← vids_of_gstruct hgs1]
        have hs : (getVert g1 w).isSome = true := by
          rw [hgv]
          rfl
        exact getVert_isSome_iff_mem_vids.1 hs
      refine ⟨hp, by simp, ?_⟩
      have hiz : indegOf g1 w = v.indegree := by
        unfold indegOf
        rw [hgv]
        rfl
      have h2 := hind1 w
      rw [hiz] at h2
      have hvz2 : v.indegree = 0 := by simpa using hvz
      rw [hvz2] at h2
      have h3 : ((inCnt g [] w : Int)) = 0 := h2.symm
      exact_mod_cast h3
    · rintro ⟨hp, _, hz⟩
      have hps : (getVert g1 w).isSome = true := by
        rw [getVert_isSome_of_gstruct hgs1, getVert_isSome_iff_mem_vids]
        exact hp
      rcases Option.isSome_iff_exists.1 hps with ⟨v, hgv⟩
      refine ⟨v, hgv, ?_⟩
      have hiz : indegOf g1 w = v.indegree := by
        unfold indegOf
        rw [hgv]
        rfl
      have h2 := hind1 w
      rw [hiz, hz] at h2
      simp only [decide_eq_true_eq]
      exact_mod_cast h2
  obtain ⟨Efin, hres, hnd, hEp, hG, hclose⟩ :=
    topsortLoop_spec g hwf (g1.vertexSet.length + 1) g1 q0 [] [] hgs1 hndq0 hind1
      hq0mem (by intro w hw; simp at hw) trivial
      (by rw [vertexSet_length_of_gstruct hgs1]; omega) rfl
  refine ⟨Efin, hnd, hEp, hG, hclose, ?_⟩
  show (if ((topsortLoop (g1.vertexSet.length + 1) g1 q0 []).2.length
        = (topsortLoop (g1.vertexSet.length + 1) g1 q0 []).1.vertexSet.length)
      then (topsortLoop (g1.vertexSet.length + 1) g1 q0 [])
      else ((topsortLoop (g1.vertexSet.length + 1) g1 q0 []).1, [])).2
    = (if Efin.length = g.vertexSet.length then Efin.map (fun u => infoOf g u) else [])
  have hlen1 : (topsortLoop (g1.vertexSet.length + 1) g1 q0 []).2.length
      = Efin.length := by
    rw [hres, List.length_map]
  have hlen2 : (topsortLoop (g1.vertexSet.length + 1) g1 q0 []).1.vertexSet.length
      = g.vertexSet.length := by
    apply vertexSet_length_of_gstruct
    exact (topsortLoop_gstruct _ _ _ _).trans hgs1
  by_cases hc : Efin.length = g.vertexSet.length
  · rw [if_pos (by rw [hlen1, hlen2]; exact hc), if_pos hc]
    exact hres
  · rw [if_neg (by rw [hlen1, hlen2]; exact hc), if_neg hc]

theorem topsort_coverage {g : Graph} (hwf : Wf g) {Efin : List Nat}
    (hEp : ∀ w ∈ Efin, w ∈ g.vertexSet.map Vertex.vid)
    (hclose : ∀ w, w ∈ g.vertexSet.map Vertex.vid → ¬ w ∈ Efin → ¬ inCnt g Efin w = 0)
    (hnocyc : ¬ ∃ u, Relation.TransGen (stepRel g) u u) :
    ∀ w ∈ g.vertexSet.map Vertex.vid, w ∈ Efin := by
  by_contra hcon
  push_neg at hcon
  obtain ⟨w0, hw0p, hw0n⟩ := hcon
  set U : List Nat := (g.vertexSet.map Vertex.vid).filter (fun x => ! (decide (x ∈ Efin)))
    with hU
  have hndU : U.Nodup := List.Nodup.filter _ hwf.nodupVids
  have hmemU : ∀ x, x ∈ U ↔ (x ∈ g.vertexSet.map Vertex.vid ∧ ¬ x ∈ Efin) := by
    intro x
    rw [hU, List.mem_filter]
    simp
  have hne : U ≠ [] := by
    intro h0
    have hw0U := (hmemU w0).2 ⟨hw0p, hw0n⟩
    rw [h0] at hw0U
    simp at hw0U
  have hsucc : ∀ y ∈ U, ∃ x ∈ U, stepRel g x y := by
    intro y hy
    obtain ⟨hyp, hyn⟩ := (hmemU y).1 hy
    obtain ⟨e, heAll, hdest, horig⟩ := inCnt_ne_zero_elim (hclose y hyp hyn)
    refine ⟨e.orig, ?_, ?_⟩
    · apply (hmemU e.orig).2
      constructor
      · rcases mem_allEdges_iff.1 heAll with ⟨v, hv, hev⟩
        rw [hwf.edgeOrig v hv e hev]
        exact List.mem_map_of_mem Vertex.vid hv
      · exact horig
    · exact ⟨e, adjOf_owner hwf heAll, hdest⟩
  exact hnocyc (exists_cycle_of_no_source g U hndU hsucc hne)

/-- C1: for every well-formed graph, `topsort()` returns a permutation of all
vertex keys iff `isDAG()` returns true, and returns the empty sequence when
`isDAG()` is false; moreover the result is always the key image of a
duplicate-free list of present vertex ids in which no edge points from a
later vertex to an earlier one (every edge (u,v) has u before v). -/
theorem c1_topsort (g : Graph) (h : Wf g) :
    (List.Perm (g.topsort).2 (g.vertexSet.map Vertex.info) ↔ (g.isDAG).2 = true) ∧
    ((g.isDAG).2 = false → (g.topsort).2 = []) ∧
    (∃ vs : List Nat, (g.topsort).2 = vs.map (fun u => infoOf g u) ∧
      List.Pairwise (fun a b => ¬ stepRel g b a) vs ∧
      (∀ u ∈ vs, u ∈ g.vertexSet.map Vertex.vid)) := by
  obtain ⟨Efin, hnd, hEp, hG, hclose, hout⟩ := topsort_main h
  by_cases hcyc : ∃ u, Relation.TransGen (stepRel g) u u
  · have hdag : (g.isDAG).2 = false := (isDAG_false_iff_cycle g h).2 hcyc
    obtain ⟨u, hu⟩ := hcyc
    have hup : u ∈ g.vertexSet.map Vertex.vid := cycle_mem_vids hu
    have hnlen : ¬ Efin.length = g.vertexSet.length := by
      intro hlen
      have hsp : List.Subperm Efin (g.vertexSet.map Vertex.vid) :=
        List.Nodup.subperm hnd hEp
      have hperm : List.Perm Efin (g.vertexSet.map Vertex.vid) :=
        hsp.perm_of_length_le (by rw [List.length_map]; omega)
      have huE : u ∈ Efin := hperm.mem_iff.2 hup
      exact goodRev_acyclic g Efin.reverse (List.nodup_reverse.2 hnd) hG u
        (List.mem_reverse.2 huE) hu
    rw [hout, if_neg hnlen]
    refine ⟨?_, fun _ => rfl, ⟨[], rfl, List.Pairwise.nil, by simp⟩⟩
    constructor
    · intro hperm
      exfalso
      have hinil : g.vertexSet.map Vertex.info = [] := hperm.symm.eq_nil
      have hvnil : g.vertexSet = [] := List.map_eq_nil.1 hinil
      rw [hvnil] at hup
      simp at hup
    · intro htrue
      rw [htrue] at hdag
      exact Bool.noConfusion hdag
  · have hdag : (g.isDAG).2 = true := by
      cases hb : (g.isDAG).2 with
      | false => exact absurd ((isDAG_false_iff_cycle g h).1 hb) hcyc
      | true => rfl
    have hcov := topsort_coverage h hEp hclose hcyc
    have hperm : List.Perm Efin (g.vertexSet.map Vertex.vid) :=
      List.Subperm.antisymm (List.Nodup.subperm hnd hEp)
        (List.Nodup.subperm h.nodupVids hcov)
    have hlen : Efin.length = g.vertexSet.length := by
      have hl := hperm.length_eq
      rw [List.length_map] at hl
      exact hl
    rw [hout, if_pos hlen]
    have hpermres : List.Perm (Efin.map (fun u => infoOf g u))
        (g.vertexSet.map Vertex.info) := by
      have h1 : List.Perm (Efin.map (fun u => infoOf g u))
          ((g.vertexSet.map Vertex.vid).map (fun u => infoOf g u)) := hperm.map _
      rw [vids_map_infoOf h] at h1
      exact h1
    refine ⟨⟨fun _ => hdag, fun _ => hpermres⟩, ?_, ?_⟩
    · intro hfalse
      rw [hdag] at hfalse
      exact Bool.noConfusion hfalse
    · refine ⟨Efin, rfl, ?_, hEp⟩
      have hp := pairwise_of_goodRev g Efin.reverse hG (List.nodup_reverse.2 hnd)
      rwa [List.reverse_reverse] at hp

/-- Concrete witness graph for C1: keys 1, 2, 3 with edges 1→2 and 2→3. -/
def gC1w : Graph :=
  (((((emptyGraph.addVertex 1).2.addVertex 2).2.addVertex 3).2.addEdge 1 2 5).2.addEdge
    2 3 7).2

theorem c1_witness :
    Wf gC1w ∧
    ((List.Perm (gC1w.topsort).2 (gC1w.vertexSet.map Vertex.info)
        ↔ (gC1w.isDAG).2 = true) ∧
      ((gC1w.isDAG).2 = false → (gC1w.topsort).2 = []) ∧
      (∃ vs : List Nat, (gC1w.topsort).2 = vs.map (fun u => infoOf gC1w u) ∧
        List.Pairwise (fun a b => ¬ stepRel gC1w b a) vs ∧
        (∀ u ∈ vs, u ∈ gC1w.vertexSet.map Vertex.vid))) :=
  ⟨by decide, c1_topsort gC1w (by decide)⟩

/-! ### C4: `kruskalMST` — union-find chains -/

theorem lookupK_setK_self {α : Type} : ∀ (m : List (Key × α)) (k : Key) (a : α),
    lookupK (setK m k a) k = some a := by
  intro m
  induction m with
  | nil => intro k a; simp [setK, lookupK]
  | cons p rest ih =>
    intro k a
    by_cases h : p.1 = k
    · simp [setK, h, lookupK]
    · simp only [setK, if_neg h]
      show (if p.1 = k then some p.2 else lookupK (setK rest k a) k) = some a
      rw [if_neg h]
      exact ih k a

theorem lookupK_setK_ne {α : Type} : ∀ (m : List (Key × α)) (k k2 : Key) (a : α),
    ¬ k2 = k → lookupK (setK m k a) k2 = lookupK m k2 := by
  intro m
  induction m with
  | nil =>
    intro k k2 a hne
    simp only [setK, lookupK]
    rw [if_neg (fun h => hne h.symm)]
  | cons p rest ih =>
    intro k k2 a hne
    by_cases h : p.1 = k
    · simp only [setK, if_pos h]
      show (if k = k2 then some a else lookupK rest k2)
        = (if p.1 = k2 then some p.2 else lookupK rest k2)
      rw [if_neg (fun h2 => hne h2.symm),
        if_neg (fun h2 => hne ((h.symm.trans h2).symm))]
    · simp only [setK, if_neg h]
      show (if p.1 = k2 then some p.2 else lookupK (setK rest k a) k2)
        = (if p.1 = k2 then some p.2 else lookupK rest k2)
      by_cases h2 : p.1 = k2
      · rw [if_pos h2, if_pos h2]
      · rw [if_neg h2, if_neg h2]
        exact ih k k2 a hne

theorem setK_map_fst_present {α : Type} : ∀ (m : List (Key × α)) (k : Key) (a : α),
    (lookupK m k).isSome = true → (setK m k a).map Prod.fst = m.map Prod.fst := by
  intro m
  induction m with
  | nil => intro k a h; simp [lookupK] at h
  | cons p rest ih =>
    intro k a h
    by_cases hp : p.1 = k
    · simp [setK, hp]
    · simp only [lookupK, if_neg hp] at h
      simp only [setK, if_neg hp, List.map_cons]
      rw [ih k a h]

theorem setK_absent {α : Type} : ∀ (m : List (Key × α)) (k : Key) (a : α),
    lookupK m k = none → setK m k a = m ++ [(k, a)] := by
  intro m
  induction m with
  | nil => intro k a _; rfl
  | cons p rest ih =>
    intro k a h
    by_cases hp : p.1 = k
    · simp [lookupK, hp] at h
    · simp only [lookupK, if_neg hp] at h
      simp only [setK, if_neg hp, List.cons_append]
      rw [ih k a h]

/-- The parent chain from a key up to (and including) its root, bounded by
fuel; `none` when the fuel runs out or a key is missing. -/
def chainList : Nat → DS → Key → Option (List Key)
  | 0, _, _ => none
  | Nat.succ f, ds, k =>
    match lookupK ds.parent k with
    | none => none
    | some p => if p = k then some [k] else (chainList f ds p).map (fun l => k :: l)

theorem chainList_ne_nil : ∀ (f : Nat) (ds : DS) (k : Key) (l : List Key),
    chainList f ds k = some l → ¬ l = [] := by
  intro f
  cases f with
  | zero => intro ds k l h; exact Option.noConfusion h
  | succ f2 =>
    intro ds k l h
    simp only [chainList] at h
    cases hp : lookupK ds.parent k with
    | none => simp only [hp] at h; exact Option.noConfusion h
    | some p =>
      simp only [hp] at h
      by_cases hpk : p = k
      · rw [if_pos hpk] at h
        rw [← Option.some.inj h]
        simp
      · rw [if_neg hpk] at h
        cases hc : chainList f2 ds p with
        | none => rw [hc] at h; exact Option.noConfusion h
        | some l2 =>
          rw [hc] at h
          simp only [Option.map] at h
          rw [← Option.some.inj h]
          simp

theorem chainList_head : ∀ (f : Nat) (ds : DS) (k : Key) (l : List Key),
    chainList f ds k = some l → l.head? = some k := by
  intro f
  cases f with
  | zero => intro ds k l h; exact Option.noConfusion h
  | succ f2 =>
    intro ds k l h
    simp only [chainList] at h
    cases hp : lookupK ds.parent k with
    | none => simp only [hp] at h; exact Option.noConfusion h
    | some p =>
      simp only [hp] at h
      by_cases hpk : p = k
      · rw [if_pos hpk] at h
        rw [← Option.some.inj h]
        rfl
      · rw [if_neg hpk] at h
        cases hc : chainList f2 ds p with
        | none => rw [hc] at h; exact Option.noConfusion h
        | some l2 =>
          rw [hc] at h
          simp only [Option.map] at h
          rw [← Option.some.inj h]
          rfl

theorem chainList_mono : ∀ (f f2 : Nat) (ds : DS) (k : Key) (l : List Key),
    f ≤ f2 → chainList f ds k = some l → chainList f2 ds k = some l := by
  intro f
  induction f with
  | zero => intro f2 ds k l hle h; exact Option.noConfusion h
  | succ f3 ih =>
    intro f2 ds k l hle h
    cases f2 with
    | zero => omega
    | succ f4 =>
      simp only [chainList] at h ⊢
      cases hp : lookupK ds.parent k with
      | none => simp only [hp] at h; exact Option.noConfusion h
      | some p =>
        simp only [hp] at h ⊢
        by_cases hpk : p = k
        · rw [if_pos hpk] at h ⊢
          exact h
        · rw [if_neg hpk] at h ⊢
          cases hc : chainList f3 ds p with
          | none => rw [hc] at h; exact Option.noConfusion h
          | some l2 =>
            rw [hc] at h
            rw [ih f4 ds p l2 (by omega) hc]
            exact h

theorem chainList_unique {f f2 : Nat} {ds : DS} {k : Key} {l l2 : List Key}
    (h : chainList f ds k = some l) (h2 : chainList f2 ds k = some l2) : l = l2 := by
  have hm := chainList_mono f (f + f2) ds k l (by omega) h
  have hm2 := chainList_mono f2 (f + f2) ds k l2 (by omega) h2
  rw [hm] at hm2
  exact Option.some.inj hm2

theorem chainList_keys : ∀ (f : Nat) (ds : DS) (k : Key) (l : List Key),
    chainList f ds k = some l → ∀ x ∈ l, (lookupK ds.parent x).isSome = true := by
  intro f
  induction f with
  | zero => intro ds k l h; exact Option.noConfusion h
  | succ f2 ih =>
    intro ds k l h x hx
    simp only [chainList] at h
    cases hp : lookupK ds.parent k with
    | none => simp only [hp] at h; exact Option.noConfusion h
    | some p =>
      simp only [hp] at h
      by_cases hpk : p = k
      · rw [if_pos hpk] at h
        rw [← Option.some.inj h] at hx
        rcases List.mem_singleton.1 hx with rfl
        rw [hp]
        rfl
      · rw [if_neg hpk] at h
        cases hc : chainList f2 ds p with
        | none => rw [hc] at h; exact Option.noConfusion h
        | some l3 =>
          rw [hc] at h
          simp only [Option.map] at h
          rw [← Option.some.inj h] at hx
          rcases List.mem_cons.1 hx with rfl | hx2
          · rw [hp]
            rfl
          · exact ih ds p l3 hc x hx2

theorem chainList_suffix : ∀ (f : Nat) (ds : DS) (k : Key) (l : List Key),
    chainList f ds k = some l →
    ∀ x ∈ l, ∃ f2 l2, f2 ≤ f ∧ chainList f2 ds x = some l2 ∧ l2 <:+ l := by
  intro f
  induction f with
  | zero => intro ds k l h; exact Option.noConfusion h
  | succ f2 ih =>
    intro ds k l h x hx
    simp only [chainList] at h
    cases hp : lookupK ds.parent k with
    | none => simp only [hp] at h; exact Option.noConfusion h
    | some p =>
      simp only [hp] at h
      by_cases hpk : p = k
      · rw [if_pos hpk] at h
        rw [← Option.some.inj h] at hx ⊢
        rcases List.mem_singleton.1 hx with rfl
        refine ⟨f2 + 1, [x], Nat.le_refl _, ?_, List.suffix_refl _⟩
        simp only [chainList, hp]
        rw [if_pos hpk]
      · rw [if_neg hpk] at h
        cases hc : chainList f2 ds p with
        | none => rw [hc] at h; exact Option.noConfusion h
        | some l3 =>
          rw [hc] at h
          simp only [Option.map] at h
          rw [← Option.some.inj h] at hx ⊢
          rcases List.mem_cons.1 hx with rfl | hx2
          · refine ⟨f2 + 1, x :: l3, Nat.le_refl _, ?_, List.suffix_refl _⟩
            simp only [chainList, hp]
            rw [if_neg hpk, hc]
            rfl
          · obtain ⟨f3, l4, hf3, hc4, hsuf⟩ := ih ds p l3 hc x hx2
            exact ⟨f3, l4, by omega, hc4, hsuf.trans (List.suffix_cons k l3)⟩

theorem chainList_nodup : ∀ (f : Nat) (ds : DS) (k : Key) (l : List Key),
    chainList f ds k = some l → l.Nodup := by
  intro f
  induction f with
  | zero => intro ds k l h; exact Option.noConfusion h
  | succ f2 ih =>
    intro ds k l h
    simp only [chainList] at h
    cases hp : lookupK ds.parent k with
    | none => simp only [hp] at h; exact Option.noConfusion h
    | some p =>
      simp only [hp] at h
      by_cases hpk : p = k
      · rw [if_pos hpk] at h
        rw [← Option.some.inj h]
        simp
      · rw [if_neg hpk] at h
        cases hc : chainList f2 ds p with
        | none => rw [hc] at h; exact Option.noConfusion h
        | some l3 =>
          rw [hc] at h
          simp only [Option.map] at h
          rw [← Option.some.inj h]
          refine List.nodup_cons.2 ⟨?_, ih ds p l3 hc⟩
          intro hkl3
          obtain ⟨f3, l4, hf3, hc4, hsuf⟩ := chainList_suffix f2 ds p l3 hc k hkl3
          have hcbig : chainList (f2 + 1) ds k
              = some (k :: l3) := by
            simp only [chainList, hp]
            rw [if_neg hpk, hc]
            rfl
          have heq : l4 = k :: l3 := chainList_unique hc4 hcbig
          have hlen := hsuf.length_le
          rw [heq] at hlen
          simp only [List.length_cons] at hlen
          omega

theorem chainList_getLast_root : ∀ (f : Nat) (ds : DS) (k : Key) (l : List Key) (r : Key),
    chainList f ds k = some l → l.getLast? = some r → lookupK ds.parent r = some r := by
  intro f
  induction f with
  | zero => intro ds k l r h; exact Option.noConfusion h
  | succ f2 ih =>
    intro ds k l r h hlast
    simp only [chainList] at h
    cases hp : lookupK ds.parent k with
    | none => simp only [hp] at h; exact Option.noConfusion h
    | some p =>
      simp only [hp] at h
      by_cases hpk : p = k
      · rw [if_pos hpk] at h
        rw [← Option.some.inj h] at hlast
        have hrk : r = k := by
          simp only [List.getLast?] at hlast
          exact (Option.some.inj hlast).symm
        rw [hrk, hp, hpk]
      · rw [if_neg hpk] at h
        cases hc : chainList f2 ds p with
        | none => rw [hc] at h; exact Option.noConfusion h
        | some l3 =>
          rw [hc] at h
          simp only [Option.map] at h
          rw [← Option.some.inj h] at hlast
          have hne3 : ¬ l3 = [] := chainList_ne_nil f2 ds p l3 hc
          rw [List.getLast?_cons] at hlast
          have hl3last : l3.getLast? = some r := by
            cases hl3 : l3.getLast? with
            | none =>
              rw [List.getLast?_eq_none_iff] at hl3
              exact absurd hl3 hne3
            | some r2 =>
              rw [hl3] at hlast
              simp only [Option.getD] at hlast
              exact hlast
          exact ih ds p l3 r hc hl3last

theorem chainList_root : ∀ (f : Nat) (ds : DS) (r : Key),
    lookupK ds.parent r = some r → chainList (f + 1) ds r = some [r] := by
  intro f ds r h
  simp only [chainList, h]
  simp

theorem chainList_length_le_fuel : ∀ (f : Nat) (ds : DS) (k : Key) (l : List Key),
    chainList f ds k = some l → l.length ≤ f := by
  intro f
  induction f with
  | zero => intro ds k l h; exact Option.noConfusion h
  | succ f2 ih =>
    intro ds k l h
    simp only [chainList] at h
    cases hp : lookupK ds.parent k with
    | none => simp only [hp] at h; exact Option.noConfusion h
    | some p =>
      simp only [hp] at h
      by_cases hpk : p = k
      · rw [if_pos hpk] at h
        rw [← Option.some.inj h]
        simp
      · rw [if_neg hpk] at h
        cases hc : chainList f2 ds p with
        | none => rw [hc] at h; exact Option.noConfusion h
        | some l3 =>
          rw [hc] at h
          simp only [Option.map] at h
          rw [← Option.some.inj h]
          have := ih ds p l3 hc
          simp only [List.length_cons]
          omega

theorem chainList_min_fuel : ∀ (f : Nat) (ds : DS) (k : Key) (l : List Key),
    chainList f ds k = some l → chainList l.length ds k = some l := by
  intro f
  induction f with
  | zero => intro ds k l h; exact Option.noConfusion h
  | succ f2 ih =>
    intro ds k l h
    simp only [chainList] at h
    cases hp : lookupK ds.parent k with
    | none => simp only [hp] at h; exact Option.noConfusion h
    | some p =>
      simp only [hp] at h
      by_cases hpk : p = k
      · rw [if_pos hpk] at h
        rw [← Option.some.inj h]
        simp only [List.length_cons, List.length_nil, chainList, hp]
        rw [if_pos hpk]
      · rw [if_neg hpk] at h
        cases hc : chainList f2 ds p with
        | none => rw [hc] at h; exact Option.noConfusion h
        | some l3 =>
          rw [hc] at h
          simp only [Option.map] at h
          rw [← Option.some.inj h]
          simp only [List.length_cons, chainList, hp]
          rw [if_neg hpk, ih ds p l3 hc]
          rfl

theorem chainList_length_le_keys (f : Nat) (ds : DS) (k : Key) (l : List Key)
    (h : chainList f ds k = some l) : l.length ≤ ds.parent.length := by
  have hnd := chainList_nodup f ds k l h
  have hsub : ∀ x ∈ l, x ∈ ds.parent.map Prod.fst := by
    intro x hx
    have hs := chainList_keys f ds k l h x hx
    rw [lookupK_isSome] at hs
    obtain ⟨p, hp, hpx⟩ := hs
    rw [← hpx]
    exact List.mem_map_of_mem Prod.fst hp
  have hsp := List.Nodup.subperm hnd hsub
  have hle := hsp.length_le
  rw [List.length_map] at hle
  exact hle

theorem chainList_step : ∀ (f : Nat) (ds : DS) (j p : Key) (l3 : List Key),
    lookupK ds.parent j = some p → ¬ p = j →
    chainList f ds p = some l3 →
    chainList (f + 1) ds j = some (j :: l3) := by
  intro f ds j p l3 hp hpj hc
  have hdef : chainList (f + 1) ds j
      = (match lookupK ds.parent j with
        | none => none
        | some p2 => if p2 = j then some [j]
            else (chainList f ds p2).map (fun l => j :: l)) := rfl
  rw [hdef]
  simp only [hp]
  rw [if_neg hpj, hc]
  rfl

theorem getLast_cons_of_ne_nil {α : Type} (a : α) (l : List α) (h : ¬ l = []) :
    (a :: l).getLast? = l.getLast? := by
  cases l with
  | nil => exact absurd rfl h
  | cons b t => exact List.getLast?_cons_cons

theorem chainList_congr : ∀ (f : Nat) (ds ds2 : DS), ds.parent = ds2.parent →
    ∀ k, chainList f ds k = chainList f ds2 k := by
  intro f
  induction f with
  | zero => intro ds ds2 hp k; rfl
  | succ f2 ih =>
    intro ds ds2 hp k
    simp only [chainList]
    rw [hp]
    cases lookupK ds2.parent k with
    | none => rfl
    | some p =>
      show (if p = k then some [k] else (chainList f2 ds p).map (fun l => k :: l))
        = (if p = k then some [k] else (chainList f2 ds2 p).map (fun l => k :: l))
      by_cases hpk : p = k
      · rw [if_pos hpk, if_pos hpk]
      · rw [if_neg hpk, if_neg hpk, ih ds ds2 hp p]

theorem lookupK_setK_isSome {α : Type} (m : List (Key × α)) (k : Key) (a : α)
    (hk : (lookupK m k).isSome = true) (k2 : Key) :
    (lookupK (setK m k a) k2).isSome = (lookupK m k2).isSome := by
  by_cases h : k2 = k
  · rw [h, lookupK_setK_self]
    cases hx : lookupK m k with
    | none => rw [hx] at hk; simp at hk
    | some x => rfl
  · rw [lookupK_setK_ne m k k2 a h]

theorem setK_length_present {α : Type} : ∀ (m : List (Key × α)) (k : Key) (a : α),
    (lookupK m k).isSome = true → (setK m k a).length = m.length := by
  intro m k a h
  have := setK_map_fst_present m k a h
  have h2 := congrArg List.length this
  rw [List.length_map, List.length_map] at h2
  exact h2

/-- The union-find invariant: keys of `parent` are exactly `D` (and are
duplicate-free), `rank` is populated on `D`, and every key's parent chain
terminates within the standard fuel at the canonical root `ρ k`. -/
def DSInv (D : List Key) (ds : DS) (ρ : Key → Key) : Prop :=
  (ds.parent.map Prod.fst).Nodup ∧
  (∀ k, (lookupK ds.parent k).isSome = true ↔ k ∈ D) ∧
  (∀ k ∈ D, (lookupK ds.rnk k).isSome = true) ∧
  (∀ k ∈ D, ∃ l, chainList (ds.parent.length + 1) ds k = some l ∧
    l.getLast? = some (ρ k))

theorem DSInv.rho_mem {D : List Key} {ds : DS} {ρ : Key → Key} (h : DSInv D ds ρ)
    {k : Key} (hk : k ∈ D) : ρ k ∈ D := by
  obtain ⟨l, hc, hlast⟩ := h.2.2.2 k hk
  have hmem : ρ k ∈ l := List.mem_of_mem_getLast? hlast
  have hs := chainList_keys _ ds k l hc (ρ k) hmem
  exact (h.2.1 (ρ k)).1 hs

theorem DSInv.rho_root {D : List Key} {ds : DS} {ρ : Key → Key} (h : DSInv D ds ρ)
    {k : Key} (hk : k ∈ D) : lookupK ds.parent (ρ k) = some (ρ k) := by
  obtain ⟨l, hc, hlast⟩ := h.2.2.2 k hk
  exact chainList_getLast_root _ ds k l (ρ k) hc hlast

theorem DSInv.rho_idem {D : List Key} {ds : DS} {ρ : Key → Key} (h : DSInv D ds ρ)
    {k : Key} (hk : k ∈ D) : ρ (ρ k) = ρ k := by
  obtain ⟨l2, hc2, hlast2⟩ := h.2.2.2 (ρ k) (h.rho_mem hk)
  have hroot := h.rho_root hk
  have hcr := chainList_root ds.parent.length ds (ρ k) hroot
  have heq : l2 = [ρ k] := chainList_unique hc2 hcr
  rw [heq, List.getLast?_singleton] at hlast2
  exact (Option.some.inj hlast2).symm

theorem DSInv.root_fix {D : List Key} {ds : DS} {ρ : Key → Key} (h : DSInv D ds ρ)
    {k : Key} (hk : k ∈ D) (hr : lookupK ds.parent k = some k) : ρ k = k := by
  obtain ⟨l, hc, hlast⟩ := h.2.2.2 k hk
  have hcr := chainList_root ds.parent.length ds k hr
  have heq : l = [k] := chainList_unique hc hcr
  rw [heq, List.getLast?_singleton] at hlast
  exact (Option.some.inj hlast).symm

theorem DSInv.mem_keys {D : List Key} {ds : DS} {ρ : Key → Key} (h : DSInv D ds ρ)
    {k : Key} (hk : k ∈ D) : (lookupK ds.parent k).isSome = true :=
  (h.2.1 k).2 hk

theorem chainList_compress : ∀ (f : Nat) (ds : DS) (k r : Key) (fk : Nat)
    (lk : List Key),
    lookupK ds.parent r = some r → ¬ k = r →
    chainList fk ds k = some lk → lk.getLast? = some r →
    ∀ (j : Key) (l : List Key), chainList f ds j = some l →
    ∃ l2, chainList f (dsSetParent ds k r) j = some l2 ∧
      l2.getLast? = l.getLast? := by
  intro f
  induction f with
  | zero => intro ds k r fk lk _ _ _ _ j l h; exact Option.noConfusion h
  | succ f2 ih =>
    intro ds k r fk lk hroot hkr hck hlk j l h
    simp only [chainList] at h ⊢
    by_cases hjk : j = k
    · have hset : lookupK (dsSetParent ds k r).parent j = some r := by
        show lookupK (setK ds.parent k r) j = some r
        rw [hjk]
        exact lookupK_setK_self ds.parent k r
      simp only [hset]
      rw [if_neg (fun hrj => hkr (hjk.symm.trans hrj.symm))]
      have hrds2 : lookupK (dsSetParent ds k r).parent r = some r := by
        show lookupK (setK ds.parent k r) r = some r
        rw [lookupK_setK_ne ds.parent k r r (fun hh => hkr hh.symm)]
        exact hroot
      cases hp : lookupK ds.parent j with
      | none => simp only [hp] at h; exact Option.noConfusion h
      | some p =>
        simp only [hp] at h
        by_cases hpj : p = j
        · rw [if_pos hpj] at h
          have hlj : l = [j] := (Option.some.inj h).symm
          have hroot2 : lookupK ds.parent j = some j := by rw [hp, hpj]
          have hchainj : chainList (f2 + 1) ds j = some [j] :=
            chainList_root f2 ds j hroot2
          rw [hjk] at hchainj
          have heq : lk = [k] := chainList_unique hck hchainj
          rw [heq, List.getLast?_singleton] at hlk
          exact absurd (Option.some.inj hlk) hkr
        · rw [if_neg hpj] at h
          cases hc : chainList f2 ds p with
          | none => rw [hc] at h; exact Option.noConfusion h
          | some l3 =>
            rw [hc] at h
            simp only [Option.map] at h
            have hl : l = j :: l3 := (Option.some.inj h).symm
            have hf2pos : 1 ≤ f2 := by
              have h1 := chainList_length_le_fuel f2 ds p l3 hc
              have h2 := chainList_ne_nil f2 ds p l3 hc
              cases l3 with
              | nil => exact absurd rfl h2
              | cons x t => simp only [List.length_cons] at h1; omega
            cases f2 with
            | zero => omega
            | succ f3 =>
              have hcr2 : chainList (f3 + 1) (dsSetParent ds k r) r = some [r] :=
                chainList_root f3 (dsSetParent ds k r) r hrds2
              rw [hcr2]
              refine ⟨[j, r], rfl, ?_⟩
              have hcj : chainList (f3 + 1 + 1) ds j = some (j :: l3) :=
                chainList_step (f3 + 1) ds j p l3 hp hpj hc
              rw [hjk] at hcj
              have heq : lk = k :: l3 := chainList_unique hck hcj
              rw [heq] at hlk
              rw [hl, hjk]
              rw [getLast_cons_of_ne_nil k l3 (chainList_ne_nil _ ds p l3 hc)] at hlk
              rw [getLast_cons_of_ne_nil k l3 (chainList_ne_nil _ ds p l3 hc)]
              rw [hlk]
              rfl
    · have hset : lookupK (dsSetParent ds k r).parent j = lookupK ds.parent j := by
        show lookupK (setK ds.parent k r) j = lookupK ds.parent j
        exact lookupK_setK_ne ds.parent k j r hjk
      simp only [hset]
      cases hp : lookupK ds.parent j with
      | none => simp only [hp] at h; exact Option.noConfusion h
      | some p =>
        simp only [hp] at h
        show ∃ l2, (if p = j then some [j]
            else (chainList f2 (dsSetParent ds k r) p).map (fun l0 => j :: l0))
              = some l2 ∧ l2.getLast? = l.getLast?
        by_cases hpj : p = j
        · rw [if_pos hpj] at h
          rw [if_pos hpj]
          exact ⟨l, h, rfl⟩
        · rw [if_neg hpj] at h
          rw [if_neg hpj]
          cases hc : chainList f2 ds p with
          | none => rw [hc] at h; exact Option.noConfusion h
          | some l3 =>
            rw [hc] at h
            simp only [Option.map] at h
            have hl : l = j :: l3 := (Option.some.inj h).symm
            obtain ⟨l4, hc4, hlast4⟩ := ih ds k r fk lk hroot hkr hck hlk p l3 hc
            rw [hc4]
            refine ⟨j :: l4, rfl, ?_⟩
            rw [hl]
            rw [getLast_cons_of_ne_nil j l4
              (chainList_ne_nil f2 (dsSetParent ds k r) p l4 hc4)]
            rw [getLast_cons_of_ne_nil j l3 (chainList_ne_nil f2 ds p l3 hc)]
            exact hlast4

theorem chainList_link : ∀ (f2 f : Nat) (ds : DS) (r1 r2 : Key),
    lookupK ds.parent r1 = some r1 → lookupK ds.parent r2 = some r2 → ¬ r2 = r1 →
    f < f2 →
    ∀ (j : Key) (l : List Key), chainList f ds j = some l →
    ∃ l2, chainList f2 (dsSetParent ds r2 r1) j = some l2 ∧
      l2.getLast? = (if l.getLast? = some r2 then some r1 else l.getLast?) := by
  intro f2
  induction f2 with
  | zero => intro f ds r1 r2 _ _ _ hlt j l h; omega
  | succ f3 ih =>
    intro f ds r1 r2 hr1 hr2 hne hlt j l h
    cases f with
    | zero => exact Option.noConfusion h
    | succ f4 =>
      simp only [chainList] at h
      by_cases hj2 : j = r2
      · have hset : lookupK (dsSetParent ds r2 r1).parent j = some r1 := by
          show lookupK (setK ds.parent r2 r1) j = some r1
          rw [hj2]
          exact lookupK_setK_self ds.parent r2 r1
        have hr1ds2 : lookupK (dsSetParent ds r2 r1).parent r1 = some r1 := by
          show lookupK (setK ds.parent r2 r1) r1 = some r1
          rw [lookupK_setK_ne ds.parent r2 r1 r1 (fun hq => hne hq.symm)]
          exact hr1
        simp only [hj2] at h
        simp only [hr2] at h
        rw [if_pos trivial] at h
        have hl : l = [r2] := (Option.some.inj h).symm
        simp only [chainList, hset]
        rw [if_neg (fun hq => hne (hq.trans hj2).symm)]
        cases f3 with
        | zero => omega
        | succ f5 =>
          rw [chainList_root f5 (dsSetParent ds r2 r1) r1 hr1ds2]
          refine ⟨[j, r1], rfl, ?_⟩
          simp [hl, hj2]
      · have hset : lookupK (dsSetParent ds r2 r1).parent j = lookupK ds.parent j := by
          show lookupK (setK ds.parent r2 r1) j = lookupK ds.parent j
          exact lookupK_setK_ne ds.parent r2 j r1 hj2
        simp only [chainList, hset]
        cases hp : lookupK ds.parent j with
        | none => simp only [hp] at h; exact Option.noConfusion h
        | some p =>
          simp only [hp] at h ⊢
          by_cases hpj : p = j
          · rw [if_pos hpj] at h ⊢
            have hl : l = [j] := (Option.some.inj h).symm
            refine ⟨[j], rfl, ?_⟩
            rw [hl]
            simp only [List.getLast?_singleton]
            rw [if_neg (fun hq => hj2 (Option.some.inj hq))]
          · rw [if_neg hpj] at h ⊢
            cases hc : chainList f4 ds p with
            | none => rw [hc] at h; exact Option.noConfusion h
            | some l3 =>
              rw [hc] at h
              simp only [Option.map] at h
              have hl : l = j :: l3 := (Option.some.inj h).symm
              obtain ⟨l4, hc4, hlast4⟩ :=
                ih f4 ds r1 r2 hr1 hr2 hne (by omega) p l3 hc
              rw [hc4]
              refine ⟨j :: l4, rfl, ?_⟩
              rw [hl]
              rw [getLast_cons_of_ne_nil j l4
                (chainList_ne_nil f3 (dsSetParent ds r2 r1) p l4 hc4)]
              rw [getLast_cons_of_ne_nil j l3 (chainList_ne_nil f4 ds p l3 hc)]
              exact hlast4

theorem dsSetParent_parent_length {ds : DS} {k p : Key}
    (h : (lookupK ds.parent k).isSome = true) :
    (dsSetParent ds k p).parent.length = ds.parent.length :=
  setK_length_present ds.parent k p h

theorem DSInv_compress {D : List Key} {ds : DS} {ρ : Key → Key} (hInv : DSInv D ds ρ)
    {k : Key} (hk : k ∈ D) (hne : ¬ k = ρ k) :
    DSInv D (dsSetParent ds k (ρ k)) ρ ∧
      (dsSetParent ds k (ρ k)).parent.length = ds.parent.length := by
  have hks : (lookupK ds.parent k).isSome = true := hInv.mem_keys hk
  have hlen : (dsSetParent ds k (ρ k)).parent.length = ds.parent.length :=
    dsSetParent_parent_length hks
  obtain ⟨lk, hck, hlkast⟩ := hInv.2.2.2 k hk
  refine ⟨⟨?_, ?_, ?_, ?_⟩, hlen⟩
  · show ((setK ds.parent k (ρ k)).map Prod.fst).Nodup
    rw [setK_map_fst_present ds.parent k (ρ k) hks]
    exact hInv.1
  · intro k2
    show (lookupK (setK ds.parent k (ρ k)) k2).isSome = true ↔ k2 ∈ D
    rw [lookupK_setK_isSome ds.parent k (ρ k) hks k2]
    exact hInv.2.1 k2
  · exact hInv.2.2.1
  · intro k2 hk2
    obtain ⟨l, hc, hlast⟩ := hInv.2.2.2 k2 hk2
    obtain ⟨l2, hc2, hlast2⟩ := chainList_compress (ds.parent.length + 1) ds k (ρ k)
      (ds.parent.length + 1) lk (hInv.rho_root hk) hne hck hlkast k2 l hc
    rw [hlen]
    exact ⟨l2, hc2, by rw [hlast2, hlast]⟩

theorem DSInv_link {D : List Key} {ds : DS} {ρ : Key → Key} (hInv : DSInv D ds ρ)
    {rW rL : Key} (hW : rW ∈ D) (hL : rL ∈ D)
    (hWroot : lookupK ds.parent rW = some rW)
    (hLroot : lookupK ds.parent rL = some rL)
    (hWfix : ρ rW = rW) (hLfix : ρ rL = rL) (hne : ¬ rL = rW) :
    DSInv D (dsSetParent ds rL rW) (fun k => if ρ k = rL then rW else ρ k) ∧
      (dsSetParent ds rL rW).parent.length = ds.parent.length := by
  have hks : (lookupK ds.parent rL).isSome = true := hInv.mem_keys hL
  have hlen : (dsSetParent ds rL rW).parent.length = ds.parent.length :=
    dsSetParent_parent_length hks
  refine ⟨⟨?_, ?_, ?_, ?_⟩, hlen⟩
  · show ((setK ds.parent rL rW).map Prod.fst).Nodup
    rw [setK_map_fst_present ds.parent rL rW hks]
    exact hInv.1
  · intro k2
    show (lookupK (setK ds.parent rL rW) k2).isSome = true ↔ k2 ∈ D
    rw [lookupK_setK_isSome ds.parent rL rW hks k2]
    exact hInv.2.1 k2
  · exact hInv.2.2.1
  · intro k2 hk2
    obtain ⟨l, hc, hlast⟩ := hInv.2.2.2 k2 hk2
    obtain ⟨l2, hc2, hlast2⟩ := chainList_link (ds.parent.length + 2)
      (ds.parent.length + 1) ds rW rL hWroot hLroot hne (by omega) k2 l hc
    have hnd2 := chainList_nodup _ _ _ _ hc2
    have hlenle : l2.length ≤ (dsSetParent ds rL rW).parent.length :=
      chainList_length_le_keys _ _ _ _ hc2
    have hmin := chainList_min_fuel _ _ _ _ hc2
    have hc3 : chainList ((dsSetParent ds rL rW).parent.length + 1)
        (dsSetParent ds rL rW) k2 = some l2 :=
      chainList_mono l2.length _ _ _ _ (by omega) hmin
    refine ⟨l2, hc3, ?_⟩
    show l2.getLast? = some (if ρ k2 = rL then rW else ρ k2)
    rw [hlast2, hlast]
    by_cases hq : ρ k2 = rL
    · rw [if_pos hq, if_pos (show some (ρ k2) = some rL by rw [hq])]
    · rw [if_neg hq, if_neg (fun hq2 => hq (Option.some.inj hq2))]

theorem findSet_spec : ∀ (f : Nat) (ds : DS) (k : Key) (l : List Key)
    (D : List Key) (ρ : Key → Key),
    DSInv D ds ρ → chainList f ds k = some l →
    (findSet f ds k).1 = ρ k ∧
    DSInv D (findSet f ds k).2 ρ ∧
    (findSet f ds k).2.parent.length = ds.parent.length ∧
    (findSet f ds k).2.rnk = ds.rnk := by
  intro f
  induction f with
  | zero => intro ds k l D ρ _ h; exact Option.noConfusion h
  | succ f2 ih =>
    intro ds k l D ρ hInv h
    simp only [chainList] at h
    cases hp : lookupK ds.parent k with
    | none => simp only [hp] at h; exact Option.noConfusion h
    | some p =>
      simp only [hp] at h
      have hkD : k ∈ D := (hInv.2.1 k).1 (by rw [hp]; rfl)
      simp only [findSet, dsGetParent, hp]
      by_cases hpk : p = k
      · rw [if_pos hpk] at h ⊢
        have hroot : lookupK ds.parent k = some k := by rw [hp, hpk]
        exact ⟨(hInv.root_fix hkD hroot).symm, hInv, rfl, rfl⟩
      · rw [if_neg hpk] at h ⊢
        cases hc : chainList f2 ds p with
        | none => rw [hc] at h; exact Option.noConfusion h
        | some l3 =>
          rw [hc] at h
          simp only [Option.map] at h
          have hl : l = k :: l3 := (Option.some.inj h).symm
          obtain ⟨hfs1, hfsInv, hfslen, hfsrnk⟩ := ih ds p l3 D ρ hInv hc
          have hrpk : ρ p = ρ k := by
            have hck : chainList (f2 + 1) ds k = some (k :: l3) :=
              chainList_step f2 ds k p l3 hp hpk hc
            obtain ⟨lI, hcI, hlastI⟩ := hInv.2.2.2 k hkD
            have heqI : lI = k :: l3 := chainList_unique hcI hck
            rw [heqI] at hlastI
            have hpD : p ∈ D := (hInv.2.1 p).1 (chainList_keys f2 ds p l3 hc p
              (by
                have := chainList_head f2 ds p l3 hc
                cases l3 with
                | nil => exact absurd rfl (chainList_ne_nil f2 ds p [] hc)
                | cons x t =>
                  have hx : x = p := by
                    simp only [List.head?] at this
                    exact Option.some.inj this
                  rw [← hx]
                  exact List.mem_cons_self x t))
            obtain ⟨lP, hcP, hlastP⟩ := hInv.2.2.2 p hpD
            have heqP : lP = l3 := chainList_unique hcP hc
            rw [heqP] at hlastP
            rw [getLast_cons_of_ne_nil k l3 (chainList_ne_nil f2 ds p l3 hc)]
              at hlastI
            rw [hlastP] at hlastI
            exact Option.some.inj hlastI
          have hkne : ¬ k = ρ k := by
            intro hkk
            obtain ⟨lI, hcI, hlastI⟩ := hInv.2.2.2 k hkD
            have hck : chainList (f2 + 1) ds k = some (k :: l3) :=
              chainList_step f2 ds k p l3 hp hpk hc
            have heqI : lI = k :: l3 := chainList_unique hcI hck
            rw [heqI] at hlastI
            rw [getLast_cons_of_ne_nil k l3 (chainList_ne_nil f2 ds p l3 hc)]
              at hlastI
            have hmem : ρ k ∈ l3 := List.mem_of_mem_getLast? hlastI
            rw [← hkk] at hmem
            have hnd := chainList_nodup (f2 + 1) ds k (k :: l3) hck
            exact (List.nodup_cons.1 hnd).1 hmem
          have hcomp := DSInv_compress hfsInv hkD hkne
          rw [hfs1, hrpk]
          refine ⟨rfl, hcomp.1, ?_, ?_⟩
          · show (dsSetParent (findSet f2 ds p).2 k (ρ k)).parent.length
              = ds.parent.length
            rw [hcomp.2, hfslen]
          · show (dsSetParent (findSet f2 ds p).2 k (ρ k)).rnk
              = ds.rnk
            rw [← hfsrnk]
            rfl

theorem DSInv_setRank {D : List Key} {ds : DS} {ρ : Key → Key} (hInv : DSInv D ds ρ)
    {k : Key} (hk : k ∈ D) (r : Int) : DSInv D (dsSetRank ds k r) ρ := by
  have hks : (lookupK ds.rnk k).isSome = true := hInv.2.2.1 k hk
  refine ⟨hInv.1, hInv.2.1, ?_, ?_⟩
  · intro k2 hk2
    show (lookupK (setK ds.rnk k r) k2).isSome = true
    rw [lookupK_setK_isSome ds.rnk k r hks k2]
    exact hInv.2.2.1 k2 hk2
  · intro k2 hk2
    obtain ⟨l, hc, hlast⟩ := hInv.2.2.2 k2 hk2
    refine ⟨l, ?_, hlast⟩
    show chainList (ds.parent.length + 1) (dsSetRank ds k r) k2 = some l
    rw [chainList_congr (ds.parent.length + 1) (dsSetRank ds k r) ds rfl k2]
    exact hc

theorem unionSets_spec {D : List Key} {ds : DS} {ρ : Key → Key} (hInv : DSInv D ds ρ)
    {a b : Key} (ha : a ∈ D) (hb : b ∈ D) :
    ∃ ρ2, DSInv D (unionSets ds a b) ρ2 ∧
      (unionSets ds a b).parent.length = ds.parent.length ∧
      ((ρ a = ρ b ∧ ρ2 = ρ) ∨
        (¬ ρ a = ρ b ∧ ∃ rW rL, ((rW = ρ a ∧ rL = ρ b) ∨ (rW = ρ b ∧ rL = ρ a)) ∧
          ρ2 = fun k => if ρ k = rL then rW else ρ k)) := by
  obtain ⟨la, hca, hlasta⟩ := hInv.2.2.2 a ha
  obtain ⟨hf1a, hf1Inv, hf1len, hf1rnk⟩ :=
    findSet_spec (ds.parent.length + 1) ds a la D ρ hInv hca
  obtain ⟨lb, hcb, hlastb⟩ := hf1Inv.2.2.2 b hb
  obtain ⟨hf2a, hf2Inv, hf2len, hf2rnk⟩ :=
    findSet_spec ((findSet (ds.parent.length + 1) ds a).2.parent.length + 1)
      (findSet (ds.parent.length + 1) ds a).2 b lb D ρ hf1Inv hcb
  simp only [unionSets]
  rw [hf1a, hf2a]
  by_cases hab : ρ a = ρ b
  · rw [if_pos hab]
    refine ⟨ρ, hf2Inv, ?_, Or.inl ⟨hab, rfl⟩⟩
    rw [hf2len, hf1len]
  · rw [if_neg hab]
    have hmemA : ρ a ∈ D := hInv.rho_mem ha
    have hmemB : ρ b ∈ D := hInv.rho_mem hb
    have hr1s := hf2Inv.2.2.1 (ρ a) hmemA
    have hr2s := hf2Inv.2.2.1 (ρ b) hmemB
    rcases Option.isSome_iff_exists.1 hr1s with ⟨v1, hv1⟩
    rcases Option.isSome_iff_exists.1 hr2s with ⟨v2, hv2⟩
    simp only [dsGetRank, hv1, hv2]
    have hrootA := hf2Inv.rho_root hmemA
    have hrootB := hf2Inv.rho_root hmemB
    rw [hInv.rho_idem ha] at hrootA
    rw [hInv.rho_idem hb] at hrootB
    have hfixA : ρ (ρ a) = ρ a := hInv.rho_idem ha
    have hfixB : ρ (ρ b) = ρ b := hInv.rho_idem hb
    by_cases h12 : v1 > v2
    · rw [if_pos h12]
      obtain ⟨hlInv, hllen⟩ := DSInv_link hf2Inv hmemA hmemB hrootA hrootB
        hfixA hfixB (fun h => hab h.symm)
      refine ⟨_, hlInv, ?_, Or.inr ⟨hab, ρ a, ρ b, Or.inl ⟨rfl, rfl⟩, rfl⟩⟩
      rw [hllen, hf2len, hf1len]
    · rw [if_neg h12]
      by_cases h21 : v1 < v2
      · rw [if_pos h21]
        obtain ⟨hlInv, hllen⟩ := DSInv_link hf2Inv hmemB hmemA hrootB hrootA
          hfixB hfixA hab
        refine ⟨_, hlInv, ?_, Or.inr ⟨hab, ρ b, ρ a, Or.inr ⟨rfl, rfl⟩, rfl⟩⟩
        rw [hllen, hf2len, hf1len]
      · rw [if_neg h21]
        obtain ⟨hlInv, hllen⟩ := DSInv_link hf2Inv hmemA hmemB hrootA hrootB
          hfixA hfixB (fun h => hab h.symm)
        have hsr := DSInv_setRank hlInv
          (hlInv.rho_mem hmemA |> fun _ => hInv.rho_mem ha) (v1 + 1)
        refine ⟨_, ?_, ?_, Or.inr ⟨hab, ρ a, ρ b, Or.inl ⟨rfl, rfl⟩, rfl⟩⟩
        · exact DSInv_setRank hlInv (hInv.rho_mem ha) (v1 + 1)
        · show (dsSetParent _ (ρ b) (ρ a)).parent.length = ds.parent.length
          rw [hllen, hf2len, hf1len]

theorem lookupK_append_single_ne {α : Type} (m : List (Key × α)) (a k : Key) (v : α)
    (hne : ¬ k = a) : lookupK (m ++ [(a, v)]) k = lookupK m k := by
  cases hm : lookupK m k with
  | some x => exact lookupK_append_left _ hm
  | none =>
    rw [lookupK_append_right _ hm]
    show (if a = k then some v else none) = none
    rw [if_neg (fun h => hne h.symm)]

theorem lookupK_append_single_self {α : Type} (m : List (Key × α)) (a : Key) (v : α)
    (hm : lookupK m a = none) : lookupK (m ++ [(a, v)]) a = some v := by
  rw [lookupK_append_right _ hm]
  show (if a = a then some v else none) = some v
  rw [if_pos rfl]

theorem dsMakeSet_fold_spec : ∀ (D : List Key) (ds : DS), D.Nodup →
    (∀ k ∈ D, lookupK ds.parent k = none ∧ lookupK ds.rnk k = none) →
    (∀ k, lookupK (D.foldl dsMakeSet ds).parent k
        = if k ∈ D then some k else lookupK ds.parent k) ∧
    (∀ k, lookupK (D.foldl dsMakeSet ds).rnk k
        = if k ∈ D then some 0 else lookupK ds.rnk k) ∧
    ((D.foldl dsMakeSet ds).parent.map Prod.fst = ds.parent.map Prod.fst ++ D) := by
  intro D
  induction D with
  | nil =>
    intro ds _ _
    refine ⟨?_, ?_, by simp⟩
    · intro k
      rw [if_neg (by simp)]
      rfl
    · intro k
      rw [if_neg (by simp)]
      rfl
  | cons a D2 ih =>
    intro ds hnd hfresh
    have hpa : lookupK ds.parent a = none := (hfresh a (List.mem_cons_self a D2)).1
    have hra : lookupK ds.rnk a = none := (hfresh a (List.mem_cons_self a D2)).2
    have haD2 : ¬ a ∈ D2 := (List.nodup_cons.1 hnd).1
    have hstep : dsMakeSet ds a
        = ⟨ds.parent ++ [(a, a)], ds.rnk ++ [(a, (0 : Int))]⟩ := by
      show (⟨setK ds.parent a a, setK ds.rnk a 0⟩ : DS) = _
      rw [setK_absent ds.parent a a hpa, setK_absent ds.rnk a 0 hra]
    have hfold : (a :: D2).foldl dsMakeSet ds = D2.foldl dsMakeSet (dsMakeSet ds a) :=
      rfl
    have hfresh2 : ∀ k ∈ D2, lookupK (dsMakeSet ds a).parent k = none
        ∧ lookupK (dsMakeSet ds a).rnk k = none := by
      intro k hk
      have hka : ¬ k = a := fun hh => haD2 (hh ▸ hk)
      rw [hstep]
      constructor
      · show lookupK (ds.parent ++ [(a, a)]) k = none
        rw [lookupK_append_single_ne ds.parent a k a hka]
        exact (hfresh k (List.mem_cons_of_mem a hk)).1
      · show lookupK (ds.rnk ++ [(a, (0 : Int))]) k = none
        rw [lookupK_append_single_ne ds.rnk a k 0 hka]
        exact (hfresh k (List.mem_cons_of_mem a hk)).2
    obtain ⟨ihp, ihr, ihm⟩ := ih (dsMakeSet ds a) (List.nodup_cons.1 hnd).2 hfresh2
    rw [hfold]
    refine ⟨?_, ?_, ?_⟩
    · intro k
      rw [ihp k]
      by_cases hk2 : k ∈ D2
      · rw [if_pos hk2, if_pos (List.mem_cons_of_mem a hk2)]
      · rw [if_neg hk2]
        by_cases hka : k = a
        · rw [if_pos (by rw [hka]; exact List.mem_cons_self a D2)]
          rw [hstep]
          show lookupK (ds.parent ++ [(a, a)]) k = some k
          rw [hka]
          exact lookupK_append_single_self ds.parent a a hpa
        · rw [if_neg (by
            intro hc
            rcases List.mem_cons.1 hc with hc2 | hc2
            · exact hka hc2
            · exact hk2 hc2)]
          rw [hstep]
          show lookupK (ds.parent ++ [(a, a)]) k = lookupK ds.parent k
          exact lookupK_append_single_ne ds.parent a k a hka
    · intro k
      rw [ihr k]
      by_cases hk2 : k ∈ D2
      · rw [if_pos hk2, if_pos (List.mem_cons_of_mem a hk2)]
      · rw [if_neg hk2]
        by_cases hka : k = a
        · rw [if_pos (by rw [hka]; exact List.mem_cons_self a D2)]
          rw [hstep]
          show lookupK (ds.rnk ++ [(a, (0 : Int))]) k = some 0
          rw [hka]
          exact lookupK_append_single_self ds.rnk a 0 hra
        · rw [if_neg (by
            intro hc
            rcases List.mem_cons.1 hc with hc2 | hc2
            · exact hka hc2
            · exact hk2 hc2)]
          rw [hstep]
          show lookupK (ds.rnk ++ [(a, (0 : Int))]) k = lookupK ds.rnk k
          exact lookupK_append_single_ne ds.rnk a k 0 hka
    · rw [ihm, hstep]
      show (ds.parent ++ [(a, a)]).map Prod.fst ++ D2
        = ds.parent.map Prod.fst ++ a :: D2
      rw [List.map_append]
      simp

theorem DSInv_init (D : List Key) (hnd : D.Nodup) :
    DSInv D (D.foldl dsMakeSet ⟨[], []⟩) (fun k => k) := by
  obtain ⟨hp, hr, hm⟩ := dsMakeSet_fold_spec D ⟨[], []⟩ hnd
    (by intro k _; exact ⟨rfl, rfl⟩)
  refine ⟨?_, ?_, ?_, ?_⟩
  · rw [hm]
    simpa using hnd
  · intro k
    rw [hp k]
    by_cases hk : k ∈ D
    · rw [if_pos hk]
      simp [hk]
    · rw [if_neg hk]
      simp [hk, lookupK]
  · intro k hk
    rw [hr k, if_pos hk]
    rfl
  · intro k hk
    have hroot : lookupK (D.foldl dsMakeSet ⟨[], []⟩).parent k = some k := by
      rw [hp k, if_pos hk]
    refine ⟨[k], ?_, ?_⟩
    · exact chainList_root _ _ k hroot
    · rw [List.getLast?_singleton]

/-- Undirected adjacency by a set of edge copies: `x` and `y` are the
endpoint keys of some edge in `A`, in either orientation. -/
def uadj (g : Graph) (A : List Edge) (x y : Key) : Prop :=
  ∃ e ∈ A, (infoOf g e.orig = x ∧ infoOf g e.dest = y) ∨
    (infoOf g e.orig = y ∧ infoOf g e.dest = x)

/-- Undirected connectivity through a set of edge copies. -/
def UConn (g : Graph) (A : List Edge) : Key → Key → Prop :=
  Relation.ReflTransGen (uadj g A)

theorem uconn_mono {g : Graph} {A B : List Edge} (hsub : ∀ e ∈ A, e ∈ B) {x y : Key}
    (h : UConn g A x y) : UConn g B x y := by
  induction h with
  | refl => exact Relation.ReflTransGen.refl
  | tail h1 h2 ih =>
    refine Relation.ReflTransGen.tail ih ?_
    obtain ⟨e, he, hor⟩ := h2
    exact ⟨e, hsub e he, hor⟩

theorem merge_congr (ρ : Key → Key) (rW rL : Key) {x y : Key} (h : ρ x = ρ y) :
    (if ρ x = rL then rW else ρ x) = (if ρ y = rL then rW else ρ y) := by
  rw [h]

theorem merge_eq_iff (ρ : Key → Key) (rW rL : Key) (hne : ¬ rL = rW)
    (hWfix : ρ rW = rW) (x y : Key) :
    (if ρ x = rL then rW else ρ x) = (if ρ y = rL then rW else ρ y)
      ↔ (ρ x = ρ y ∨ (ρ x = rL ∧ ρ y = rW) ∨ (ρ x = rW ∧ ρ y = rL)) := by
  by_cases hx : ρ x = rL
  · by_cases hy : ρ y = rL
    · rw [if_pos hx, if_pos hy]
      constructor
      · intro _
        exact Or.inl (hx.trans hy.symm)
      · intro _
        rfl
    · rw [if_pos hx, if_neg hy]
      constructor
      · intro hr
        exact Or.inr (Or.inl ⟨hx, hr.symm⟩)
      · intro hr
        rcases hr with h1 | h2 | h3
        · exact absurd (hx ▸ h1).symm hy
        · exact h2.2.symm
        · exact absurd (hx.symm.trans h3.1) hne
      -- fallthrough handled above
  · by_cases hy : ρ y = rL
    · rw [if_neg hx, if_pos hy]
      constructor
      · intro hr
        exact Or.inr (Or.inr ⟨hr, hy⟩)
      · intro hr
        rcases hr with h1 | h2 | h3
        · exact absurd (h1.trans hy) hx
        · exact absurd h2.1 hx
        · exact h3.1
    · rw [if_neg hx, if_neg hy]
      constructor
      · intro hr
        exact Or.inl hr
      · intro hr
        rcases hr with h1 | h2 | h3
        · exact h1
        · exact absurd h2.1 hx
        · exact absurd h3.2 hy

theorem filter_flip_length {α : Type} : ∀ (l : List α) (p q : α → Bool) (x : α),
    l.Nodup → x ∈ l → p x = true → q x = false →
    (∀ y ∈ l, ¬ y = x → p y = q y) →
    (l.filter p).length = (l.filter q).length + 1 := by
  intro l
  induction l with
  | nil => intro p q x _ hx; simp at hx
  | cons a t ih =>
    intro p q x hnd hx hp hq hagree
    rcases List.mem_cons.1 hx with rfl | hx2
    · rw [List.filter_cons, List.filter_cons, if_pos hp, if_neg (by rw [hq]; simp)]
      have hcong : t.filter p = t.filter q := by
        apply List.filter_congr
        intro y hy
        have hyx : ¬ y = x := by
          intro hyx
          exact (List.nodup_cons.1 hnd).1 (hyx ▸ hy)
        rw [hagree y (List.mem_cons_of_mem x hy) hyx]
      rw [hcong]
      simp
    · have hax : ¬ a = x := by
        intro hax
        exact (List.nodup_cons.1 hnd).1 (hax ▸ hx2)
      have hpa : p a = q a := hagree a (List.mem_cons_self a t) hax
      rw [List.filter_cons, List.filter_cons]
      have hrec := ih p q x (List.nodup_cons.1 hnd).2 hx2 hp hq
        (fun y hy hyx => hagree y (List.mem_cons_of_mem a hy) hyx)
      by_cases hcase : p a = true
      · rw [if_pos hcase, if_pos (hpa ▸ hcase)]
        simp only [List.length_cons]
        omega
      · rw [if_neg hcase, if_neg (fun hqc => hcase (hpa ▸ hqc))]
        exact hrec

theorem filter_eq_singleton_length {α : Type} [DecidableEq α] :
    ∀ (l : List α) (x : α), l.Nodup → x ∈ l →
    (l.filter (fun k => decide (k = x))).length = 1 := by
  intro l
  induction l with
  | nil => intro x _ hx; simp at hx
  | cons a t ih =>
    intro x hnd hx
    rcases List.mem_cons.1 hx with rfl | hx2
    · rw [List.filter_cons, if_pos (by simp)]
      have hnil : t.filter (fun k => decide (k = x)) = [] := by
        apply List.filter_eq_nil_iff.2
        intro y hy
        simp only [decide_eq_true_eq]
        intro hyx
        exact (List.nodup_cons.1 hnd).1 (hyx ▸ hy)
      rw [hnil]
      rfl
    · have hax : ¬ a = x := by
        intro hax
        exact (List.nodup_cons.1 hnd).1 (hax ▸ hx2)
      rw [List.filter_cons, if_neg (by simp [hax])]
      exact ih x (List.nodup_cons.1 hnd).2 hx2

theorem uadj_symm {g : Graph} {A : List Edge} {x y : Key} (h : uadj g A x y) :
    uadj g A y x := by
  obtain ⟨e, he, hor⟩ := h
  rcases hor with h1 | h2
  · exact ⟨e, he, Or.inr h1⟩
  · exact ⟨e, he, Or.inl h2⟩

theorem uconn_symm {g : Graph} {A : List Edge} {x y : Key} (h : UConn g A x y) :
    UConn g A y x := by
  induction h with
  | refl => exact Relation.ReflTransGen.refl
  | tail h1 h2 ih => exact Relation.ReflTransGen.head (uadj_symm h2) ih

theorem kruskalSweep_spec (g : Graph) (D : List Key) (hndD : D.Nodup) :
    ∀ (es : List Edge) (ds : DS) (acc : List Edge) (ρ : Key → Key),
    DSInv D ds ρ →
    (∀ e ∈ es, infoOf g e.orig ∈ D ∧ infoOf g e.dest ∈ D) →
    (∀ e ∈ acc, infoOf g e.orig ∈ D ∧ infoOf g e.dest ∈ D) →
    (∀ x y, x ∈ D → y ∈ D → (ρ x = ρ y ↔ UConn g acc x y)) →
    ∃ ds2 ρ2 A,
      kruskalSweep g ds acc es = (ds2, acc ++ A) ∧
      DSInv D ds2 ρ2 ∧
      ds2.parent.length = ds.parent.length ∧
      (∀ e ∈ A, e ∈ es) ∧
      (D.filter (fun k => decide (ρ2 k = k))).length + A.length
        = (D.filter (fun k => decide (ρ k = k))).length ∧
      (∀ x y, x ∈ D → y ∈ D → (ρ2 x = ρ2 y ↔ UConn g (acc ++ A) x y)) ∧
      (∀ e ∈ es, ρ2 (infoOf g e.orig) = ρ2 (infoOf g e.dest)) ∧
      (∀ x y, ρ x = ρ y → ρ2 x = ρ2 y) := by
  intro es
  induction es with
  | nil =>
    intro ds acc ρ hInv hesD haccD hiff
    refine ⟨ds, ρ, [], by simp [kruskalSweep], hInv, rfl, by simp, by simp, ?_,
      by simp, fun x y h => h⟩
    intro x y hx hy
    rw [List.append_nil]
    exact hiff x y hx hy
  | cons e es ih =>
    intro ds acc ρ hInv hesD haccD hiff
    have huD : infoOf g e.orig ∈ D := (hesD e (List.mem_cons_self e es)).1
    have hvD : infoOf g e.dest ∈ D := (hesD e (List.mem_cons_self e es)).2
    obtain ⟨lu, hcu, _⟩ := hInv.2.2.2 (infoOf g e.orig) huD
    obtain ⟨hf1a, hf1Inv, hf1len, _⟩ :=
      findSet_spec (ds.parent.length + 1) ds (infoOf g e.orig) lu D ρ hInv hcu
    obtain ⟨lv, hcv, _⟩ := hf1Inv.2.2.2 (infoOf g e.dest) hvD
    obtain ⟨hf2a, hf2Inv, hf2len, _⟩ :=
      findSet_spec ((findSet (ds.parent.length + 1) ds (infoOf g e.orig)).2.parent.length
        + 1) (findSet (ds.parent.length + 1) ds (infoOf g e.orig)).2
        (infoOf g e.dest) lv D ρ hf1Inv hcv
    simp only [kruskalSweep]
    rw [hf1a, hf2a]
    have hesD2 : ∀ e2 ∈ es, infoOf g e2.orig ∈ D ∧ infoOf g e2.dest ∈ D :=
      fun e2 he2 => hesD e2 (List.mem_cons_of_mem e he2)
    by_cases huv : ρ (infoOf g e.orig) = ρ (infoOf g e.dest)
    · rw [if_neg (fun hc => hc huv)]
      obtain ⟨ds2, ρ2, A, hrun, hInv2, hlen2, hsub2, hcount2, hiff2, hjoin2, hcoar2⟩ :=
        ih (findSet _ (findSet (ds.parent.length + 1) ds (infoOf g e.orig)).2
          (infoOf g e.dest)).2 acc ρ hf2Inv hesD2 haccD hiff
      refine ⟨ds2, ρ2, A, hrun, hInv2, ?_, ?_, hcount2, hiff2, ?_, hcoar2⟩
      · rw [hlen2, hf2len, hf1len]
      · intro e2 he2
        exact List.mem_cons_of_mem e (hsub2 e2 he2)
      · intro e2 he2
        rcases List.mem_cons.1 he2 with rfl | he3
        · exact hcoar2 _ _ huv
        · exact hjoin2 e2 he3
    · rw [if_pos huv]
      obtain ⟨ρ3, hInv3, hlen3, hcase⟩ := unionSets_spec hf2Inv huD hvD
      rcases hcase with ⟨habs, _⟩ | ⟨_, rW, rL, hWL, hρ3⟩
      · exact absurd habs huv
      have hneWL : ¬ rL = rW := by
        rcases hWL with ⟨hw, hl⟩ | ⟨hw, hl⟩
        · rw [hw, hl]
          intro hq
          exact huv hq.symm
        · rw [hw, hl]
          exact huv
      have hWfix : ρ rW = rW := by
        rcases hWL with ⟨hw, _⟩ | ⟨hw, _⟩
        · rw [hw]
          exact hInv.rho_idem huD
        · rw [hw]
          exact hInv.rho_idem hvD
      have hLfix : ρ rL = rL := by
        rcases hWL with ⟨_, hl⟩ | ⟨_, hl⟩
        · rw [hl]
          exact hInv.rho_idem hvD
        · rw [hl]
          exact hInv.rho_idem huD
      have hLD : rL ∈ D := by
        rcases hWL with ⟨_, hl⟩ | ⟨_, hl⟩
        · rw [hl]
          exact hInv.rho_mem hvD
        · rw [hl]
          exact hInv.rho_mem huD
      have haccD2 : ∀ e2 ∈ acc ++ [e],
          infoOf g e2.orig ∈ D ∧ infoOf g e2.dest ∈ D := by
        intro e2 he2
        rcases List.mem_append.1 he2 with he3 | he3
        · exact haccD e2 he3
        · rcases List.mem_singleton.1 he3 with rfl
          exact ⟨huD, hvD⟩
      have hsubacc : ∀ e2 ∈ acc, e2 ∈ acc ++ [e] :=
        fun e2 he2 => List.mem_append_left [e] he2
      have huvstep : uadj g (acc ++ [e]) (infoOf g e.orig) (infoOf g e.dest) :=
        ⟨e, List.mem_append_right acc (List.mem_singleton.2 rfl), Or.inl ⟨rfl, rfl⟩⟩
      have hmergeuv : (if ρ (infoOf g e.orig) = rL then rW else ρ (infoOf g e.orig))
          = (if ρ (infoOf g e.dest) = rL then rW else ρ (infoOf g e.dest)) := by
        rw [merge_eq_iff ρ rW rL hneWL hWfix]
        rcases hWL with ⟨hw, hl⟩ | ⟨hw, hl⟩
        · exact Or.inr (Or.inr ⟨hw.symm, hl.symm⟩)
        · exact Or.inr (Or.inl ⟨hl.symm, hw.symm⟩)
      have hbridge : ∀ x y, x ∈ D → y ∈ D → ρ x = rL → ρ y = rW →
          UConn g (acc ++ [e]) x y := by
        intro x y hx hy hxl hyw
        rcases hWL with ⟨hw, hl⟩ | ⟨hw, hl⟩
        · have h1 : UConn g acc x (infoOf g e.dest) :=
            (hiff x _ hx hvD).1 (hxl.trans hl)
          have h2 : UConn g acc y (infoOf g e.orig) :=
            (hiff y _ hy huD).1 (hyw.trans hw)
          refine Relation.ReflTransGen.trans (uconn_mono hsubacc h1) ?_
          refine Relation.ReflTransGen.head (uadj_symm huvstep) ?_
          exact uconn_mono hsubacc (uconn_symm h2)
        · have h1 : UConn g acc x (infoOf g e.orig) :=
            (hiff x _ hx huD).1 (hxl.trans hl)
          have h2 : UConn g acc y (infoOf g e.dest) :=
            (hiff y _ hy hvD).1 (hyw.trans hw)
          refine Relation.ReflTransGen.trans (uconn_mono hsubacc h1) ?_
          refine Relation.ReflTransGen.head huvstep ?_
          exact uconn_mono hsubacc (uconn_symm h2)
      have hback : ∀ x y, UConn g (acc ++ [e]) x y →
          (if ρ x = rL then rW else ρ x) = (if ρ y = rL then rW else ρ y) := by
        intro x y h
        induction h with
        | refl => rfl
        | tail h1 h2 ihh =>
          refine ihh.trans ?_
          obtain ⟨e2, he2, hor⟩ := h2
          rcases List.mem_append.1 he2 with he3 | he3
          · have hod : ρ (infoOf g e2.orig) = ρ (infoOf g e2.dest) := by
              apply (hiff _ _ (haccD e2 he3).1 (haccD e2 he3).2).2
              exact Relation.ReflTransGen.single ⟨e2, he3, Or.inl ⟨rfl, rfl⟩⟩
            rcases hor with ⟨hb, hc⟩ | ⟨hb, hc⟩
            · rw [← hb, ← hc]
              exact merge_congr ρ rW rL hod
            · rw [← hb, ← hc]
              exact (merge_congr ρ rW rL hod).symm
          · rcases List.mem_singleton.1 he3 with rfl
            rcases hor with ⟨hb, hc⟩ | ⟨hb, hc⟩
            · rw [← hb, ← hc]
              exact hmergeuv
            · rw [← hb, ← hc]
              exact hmergeuv.symm
      have hiff3 : ∀ x y, x ∈ D → y ∈ D →
          (ρ3 x = ρ3 y ↔ UConn g (acc ++ [e]) x y) := by
        intro x y hx hy
        simp only [hρ3]
        rw [merge_eq_iff ρ rW rL hneWL hWfix x y]
        constructor
        · intro hr
          rcases hr with h1 | h2 | h3
          · exact uconn_mono hsubacc ((hiff x y hx hy).1 h1)
          · exact hbridge x y hx hy h2.1 h2.2
          · exact uconn_symm (hbridge y x hy hx h3.2 h3.1)
        · intro h
          exact (merge_eq_iff ρ rW rL hneWL hWfix x y).1 (hback x y h)
      have hcountstep : (D.filter (fun k => decide (ρ k = k))).length
          = (D.filter (fun k => decide (ρ3 k = k))).length + 1 := by
        simp only [hρ3]
        apply filter_flip_length D _ _ rL hndD hLD
        · simp [hLfix]
        · rw [decide_eq_false_iff_not]
          rw [if_pos hLfix]
          intro hc
          exact hneWL hc.symm
        · intro y hy hyx
          by_cases hq : ρ y = rL
          · rw [if_pos hq]
            have h1 : ¬ ρ y = y := fun hc => hyx (hc.symm.trans hq)
            have h2 : ¬ rW = y := by
              intro hc
              rw [← hc] at hq
              rw [hWfix] at hq
              exact hneWL hq.symm
            simp [h1, h2]
          · rw [if_neg hq]
      obtain ⟨ds2, ρ2, A2, hrun, hInv2, hlen2, hsub2, hcount2, hiff2, hjoin2, hcoar2⟩ :=
        ih (unionSets (findSet _ (findSet (ds.parent.length + 1) ds
            (infoOf g e.orig)).2 (infoOf g e.dest)).2
            (infoOf g e.orig) (infoOf g e.dest)) (acc ++ [e]) ρ3 hInv3 hesD2
          haccD2 hiff3
      have hassoc : (acc ++ [e]) ++ A2 = acc ++ e :: A2 := by
        rw [List.append_assoc]
        rfl
      refine ⟨ds2, ρ2, e :: A2, ?_, hInv2, ?_, ?_, ?_, ?_, ?_, ?_⟩
      · rw [hrun, hassoc]
      · rw [hlen2, hlen3, hf2len, hf1len]
      · intro e2 he2
        rcases List.mem_cons.1 he2 with rfl | he3
        · exact List.mem_cons_self e2 es
        · exact List.mem_cons_of_mem e (hsub2 e2 he3)
      · rw [List.length_cons]
        omega
      · intro x y hx hy
        rw [← hassoc]
        exact hiff2 x y hx hy
      · intro e2 he2
        rcases List.mem_cons.1 he2 with rfl | he3
        · apply hcoar2
          simp only [hρ3]
          exact hmergeuv
        · exact hjoin2 e2 he3
      · intro x y hxy
        apply hcoar2
        simp only [hρ3]
        exact merge_congr ρ rW rL hxy

theorem kruskalFilter_keep_all (g : Graph) (D : List Key) (c : Key) :
    ∀ (es : List Edge) (ds : DS) (acc : List Edge) (ρ : Key → Key),
    DSInv D ds ρ →
    (∀ e ∈ es, infoOf g e.orig ∈ D ∧ ρ (infoOf g e.orig) = c) →
    (kruskalFilter g c ds acc es).2 = acc ++ es := by
  intro es
  induction es with
  | nil => intro ds acc ρ _ _; simp [kruskalFilter]
  | cons e es ihe =>
    intro ds acc ρ hInv hes
    obtain ⟨hD, hc⟩ := hes e (List.mem_cons_self e es)
    obtain ⟨lu, hcu, _⟩ := hInv.2.2.2 _ hD
    obtain ⟨hfa, hfInv, hflen, _⟩ :=
      findSet_spec (ds.parent.length + 1) ds _ lu D ρ hInv hcu
    simp only [kruskalFilter]
    rw [hfa, if_pos hc]
    rw [ihe _ (acc ++ [e]) ρ hfInv (fun e2 he2 => hes e2 (List.mem_cons_of_mem e he2))]
    rw [List.append_assoc]
    rfl

theorem allEdges_info_mem {g : Graph} (hwf : Wf g) {e : Edge} (he : e ∈ allEdges g) :
    infoOf g e.orig ∈ g.vertexSet.map Vertex.info ∧
    infoOf g e.dest ∈ g.vertexSet.map Vertex.info := by
  rcases mem_allEdges_iff.1 he with ⟨v, hv, hev⟩
  constructor
  · have horig : e.orig = v.vid := hwf.edgeOrig v hv e hev
    have hi : infoOf g e.orig = v.info := by
      unfold infoOf
      rw [horig]
      have hgv : getVert g v.vid = some v := find_vid_of_mem hwf.nodupVids hv
      rw [hgv]
      rfl
    rw [hi]
    exact List.mem_map_of_mem Vertex.info hv
  · obtain ⟨w2, hw2, hw2v⟩ := hwf.edgeDestLive v hv e hev
    have hi : infoOf g e.dest = w2.info := by
      unfold infoOf
      rw [← hw2v]
      have hgv : getVert g w2.vid = some w2 := find_vid_of_mem hwf.nodupVids hw2
      rw [hgv]
      rfl
    rw [hi]
    exact List.mem_map_of_mem Vertex.info hw2

theorem uconn_nil {g : Graph} {x y : Key} : UConn g [] x y ↔ x = y := by
  constructor
  · intro h
    induction h with
    | refl => rfl
    | tail h1 h2 ih =>
      obtain ⟨e, he, _⟩ := h2
      simp at he
  · rintro rfl
    exact Relation.ReflTransGen.refl

theorem grpOf_cmp (g : Graph) (source : Key) (a b : Edge) :
    kruskalCmp g source a b = true ↔
      ((if infoOf g a.orig = source then (0 : Nat) else 1)
          < (if infoOf g b.orig = source then (0 : Nat) else 1)
        ∨ ((if infoOf g a.orig = source then (0 : Nat) else 1)
            = (if infoOf g b.orig = source then (0 : Nat) else 1)
          ∧ a.weight < b.weight)) := by
  unfold kruskalCmp
  by_cases ha : infoOf g a.orig = source
  · by_cases hb : infoOf g b.orig = source
    · rw [if_neg (fun hc => hc.2 hb), if_neg (fun hc => hc.1 ha),
        if_pos ha, if_pos hb]
      simp
    · rw [if_pos ⟨ha, hb⟩, if_pos ha, if_neg hb]
      simp
  · by_cases hb : infoOf g b.orig = source
    · rw [if_neg (fun hc => ha hc.1), if_pos ⟨ha, hb⟩, if_neg ha, if_pos hb]
      simp
    · rw [if_neg (fun hc => ha hc.1), if_neg (fun hc => hb hc.2),
        if_neg ha, if_neg hb]
      simp

theorem kruskalLe_total (g : Graph) (source : Key) (a b : Edge) :
    (decide (¬ (kruskalCmp g source b a = true))
      || decide (¬ (kruskalCmp g source a b = true))) = true := by
  rw [Bool.or_eq_true, decide_eq_true_eq, decide_eq_true_eq]
  by_cases hab : kruskalCmp g source a b = true
  · left
    intro hba
    rw [grpOf_cmp] at hab hba
    rcases hab with h1 | h2 <;> rcases hba with h3 | h4
    · omega
    · omega
    · omega
    · exact absurd (h2.2.trans h4.2) (lt_irrefl a.weight)
  · right
    exact hab

theorem kruskalLe_trans (g : Graph) (source : Key) (a b c : Edge)
    (h1 : decide (¬ (kruskalCmp g source b a = true)) = true)
    (h2 : decide (¬ (kruskalCmp g source c b = true)) = true) :
    decide (¬ (kruskalCmp g source c a = true)) = true := by
  rw [decide_eq_true_eq] at h1 h2 ⊢
  intro hca
  rw [grpOf_cmp] at hca
  by_cases hcb : kruskalCmp g source c b = true
  · exact h2 hcb
  · by_cases hba : kruskalCmp g source b a = true
    · exact h1 hba
    · rw [grpOf_cmp] at hcb hba
      push_neg at hcb hba
      rcases hca with h3 | h4
      · have hc1 := hcb.1
        have hb1 := hba.1
        by_cases hcbeq : (if infoOf g c.orig = source then (0 : Nat) else 1)
            = (if infoOf g b.orig = source then (0 : Nat) else 1)
        · by_cases hbaeq : (if infoOf g b.orig = source then (0 : Nat) else 1)
              = (if infoOf g a.orig = source then (0 : Nat) else 1)
          · omega
          · omega
        · omega
      · have hgeq := h4.1
        have hwlt := h4.2
        have hc1 := hcb.1
        have hb1 := hba.1
        have hcbeq : (if infoOf g c.orig = source then (0 : Nat) else 1)
            = (if infoOf g b.orig = source then (0 : Nat) else 1) := by omega
        have hbaeq : (if infoOf g b.orig = source then (0 : Nat) else 1)
            = (if infoOf g a.orig = source then (0 : Nat) else 1) := by omega
        have hw1 := hcb.2 hcbeq
        have hw2 := hba.2 hbaeq
        have : c.weight < c.weight := lt_of_lt_of_le hwlt (le_trans hw2 hw1)
        exact absurd this (lt_irrefl c.weight)

end RoutingGraph